import Mathlib

/-!
The lexer generator supercomplex (regex → NFA → DFA → minimised DFA → table)

Shallow embedding of `include/supercomplex.hpp`.

Modelling conventions
* `CharType` values are mathematical integers.  For `char` the arithmetic of
  `make_disjoint` (`last.second + 1`, `current.second - 1`) is carried out in
  `int` after integral promotion, so no wrap-around occurs.
* Heap objects (`nfa_node`, `dfa_node`) live in an arena (a list); a pointer is
  the index of the object in the arena.
* `std::unordered_set<pointer>` is a duplicate-free list; iteration visits the
  elements in insertion order, `insert` appends when the key is absent.
* Loops that are not structurally bounded carry a fuel argument and return
  `none` when the fuel is exhausted; the top-level functions supply the fuel.
-/

namespace supercomplex

/-! ## Model of the part of boost::icl that the program uses -/

/-- A `boost::icl::discrete_interval<CharType>` with dynamic bounds: the two
stored end points and whether each side is open. -/
structure discrete_interval where
  lower : Int
  upper : Int
  left_open : Bool
  right_open : Bool
deriving DecidableEq, Repr

namespace discrete_interval

/-- The interval `construct<discrete_interval>(lo, hi, interval_bounds::closed())`. -/
def closed (lo hi : Int) : discrete_interval := ⟨lo, hi, false, false⟩

/-- Smallest element of the interval (`icl::first`). -/
def first (i : discrete_interval) : Int := i.lower + (if i.left_open then 1 else 0)

/-- Largest element of the interval (`icl::last`). -/
def last (i : discrete_interval) : Int := i.upper - (if i.right_open then 1 else 0)

/-- Emptiness test `icl::is_empty`. -/
def is_empty (i : discrete_interval) : Bool := decide (i.last < i.first)

/-- Both bounds are closed. -/
def is_closed (i : discrete_interval) : Bool := !i.left_open && !i.right_open

/-- Membership of a symbol in an interval. -/
def mem (x : Int) (i : discrete_interval) : Prop := i.first ≤ x ∧ x ≤ i.last

instance (x : Int) (i : discrete_interval) : Decidable (mem x i) := by
  unfold mem; infer_instance

/-- The `icl::hull` of two intervals: the bound of the side that reaches further. -/
def hull (a b : discrete_interval) : discrete_interval :=
  { lower := if a.first ≤ b.first then a.lower else b.lower
    upper := if b.last ≤ a.last then a.upper else b.upper
    left_open := if a.first ≤ b.first then a.left_open else b.left_open
    right_open := if b.last ≤ a.last then a.right_open else b.right_open }

/-- The order `operator<` of icl intervals, used by `std::set<discrete_interval>`:
empty intervals first, then lexicographic on (first, last). -/
def lt (a b : discrete_interval) : Bool :=
  if a.is_empty then !b.is_empty
  else decide (a.first < b.first) || (decide (a.first = b.first) && decide (a.last < b.last))

end discrete_interval

/-- A `boost::icl::interval_set<CharType>`: disjoint, non-touching intervals in
ascending order. -/
abbrev interval_set := List discrete_interval

namespace interval_set

/-- Membership of a symbol in an interval set. -/
def mem (x : Int) (s : interval_set) : Prop := ∃ i ∈ s, discrete_interval.mem x i

instance (x : Int) (s : interval_set) : Decidable (mem x s) := by
  unfold mem; infer_instance

/-- Insert a non-empty interval, joining it with every stored interval that it
overlaps or touches. -/
def join : interval_set → discrete_interval → interval_set
  | [], i => [i]
  | j :: rest, i =>
    if i.last + 1 < j.first then i :: j :: rest
    else if j.last + 1 < i.first then j :: join rest i
    else join rest (discrete_interval.hull j i)

/-- The operation `interval_set::add(interval)`. -/
def add (s : interval_set) (i : discrete_interval) : interval_set :=
  if i.is_empty then s else join s i

/-- The operation `interval_set::add(element)`. -/
def add_element (s : interval_set) (a : Int) : interval_set :=
  add s (discrete_interval.closed a a)

/-- Remove a non-empty interval; a stored interval that is cut keeps its outer
bound and receives the complementary bound at the cut. -/
def cut : interval_set → discrete_interval → interval_set
  | [], _ => []
  | j :: rest, i =>
    if j.last < i.first then j :: cut rest i
    else if i.last < j.first then j :: rest
    else
      (if j.first < i.first then [⟨j.lower, i.lower, j.left_open, !i.left_open⟩] else []) ++
      (if i.last < j.last then [⟨i.upper, j.upper, !i.right_open, j.right_open⟩] else []) ++
      cut rest i

/-- The operation `interval_set::subtract(interval)`. -/
def subtract (s : interval_set) (i : discrete_interval) : interval_set :=
  if i.is_empty then s else cut s i

/-- The operation `interval_set::subtract(element)`. -/
def subtract_element (s : interval_set) (a : Int) : interval_set :=
  subtract s (discrete_interval.closed a a)

/-- The test `boost::icl::contains(set, interval)`: the interval is a subset of
the set.  Stored intervals never touch, so a non-empty interval is a subset iff
one stored interval encloses it. -/
def contains (s : interval_set) (i : discrete_interval) : Bool :=
  i.is_empty || s.any (fun j => decide (j.first ≤ i.first) && decide (i.last ≤ j.last))

end interval_set

/-- Insertion into a `std::set<discrete_interval>` (kept sorted by `operator<`,
an equivalent key is not inserted twice). -/
def std_set_insert : List discrete_interval → discrete_interval → List discrete_interval
  | [], x => [x]
  | y :: ys, x =>
    if discrete_interval.lt x y then x :: y :: ys
    else if discrete_interval.lt y x then y :: std_set_insert ys x
    else y :: ys

/-- Ordered insertion, the step of `std_sort`. -/
def sort_insert {α : Type} (lt : α → α → Bool) (x : α) : List α → List α
  | [] => [x]
  | y :: ys => if lt x y then x :: y :: ys else y :: sort_insert lt x ys

/-- The call `std::sort(begin, end, lt)`, as an insertion sort. -/
def std_sort {α : Type} (lt : α → α → Bool) (l : List α) : List α :=
  l.foldr (sort_insert lt) []

/-! ## make_disjoint -/

/-- The comparison lambda of `make_disjoint`: by position, an opening event
before a closing event at the same position. -/
def event_lt (a b : Bool × Int) : Bool :=
  decide (a.2 < b.2) || (decide (a.2 = b.2) && (a.1 && !b.1))

/-- First loop of `make_disjoint`: for every node, every transition and every
interval of its label, the events `{true, lower}` and `{false, upper}`.  A node
is given by the list of the labels of its transitions. -/
def make_events (nodes : List (List interval_set)) : List (Bool × Int) :=
  nodes.flatMap fun transitions =>
    transitions.flatMap fun characters =>
      characters.flatMap fun inter => [(true, inter.lower), (false, inter.upper)]

/-- Second loop of `make_disjoint`: the sweep over the sorted events with the
`depth` counter and the previous event `last`. -/
def sweep : Int → Bool × Int → List (Bool × Int) → List discrete_interval →
    List discrete_interval
  | _, _, [], dest => dest
  | depth, last, current :: rest, dest =>
    let lower := last.2 + (if last.1 then 0 else 1)
    let upper := current.2 - (if current.1 then 1 else 0)
    let dest1 :=
      if depth ≠ 0 ∧ lower ≤ upper then
        std_set_insert dest (discrete_interval.closed lower upper)
      else dest
    sweep (if current.1 then depth + 1 else depth - 1) current rest dest1

/-- The function `make_disjoint(dest, nodes)`. -/
def make_disjoint (dest : List discrete_interval) (nodes : List (List interval_set)) :
    List discrete_interval :=
  sweep 0 (false, 0) (std_sort event_lt (make_events nodes)) dest

/-! ## Token information -/

/-- What the templates require of `TokenInfo`: `operator<`, `operator==` and a
value-initialised object `TokenInfo()`. -/
class TokenInfo (T : Type) where
  lt : T → T → Bool
  eq : T → T → Bool
  dflt : T

/-- The laws of `operator==` that the minimiser relies on. -/
class TokenInfoLaws (T : Type) [TokenInfo T] : Prop where
  eq_refl : ∀ a : T, TokenInfo.eq a a = true
  eq_symm : ∀ a b : T, TokenInfo.eq a b = true → TokenInfo.eq b a = true
  eq_trans : ∀ a b c : T, TokenInfo.eq a b = true → TokenInfo.eq b c = true →
    TokenInfo.eq a c = true

/-- The struct `basic_token_info<AdditionalInfo>`. -/
structure basic_token_info (α : Type) where
  precedence : Int
  additional_info : α
deriving Repr

instance (α : Type) [Inhabited α] : TokenInfo (basic_token_info α) where
  lt lhs rhs := decide (lhs.precedence < rhs.precedence)
  eq lhs rhs := decide (lhs.precedence = rhs.precedence)
  dflt := ⟨0, default⟩

instance (α : Type) [Inhabited α] : TokenInfoLaws (basic_token_info α) where
  eq_refl a := by simp [TokenInfo.eq]
  eq_symm a b h := by simp [TokenInfo.eq] at h ⊢; exact h.symm
  eq_trans a b c h1 h2 := by simp [TokenInfo.eq] at h1 h2 ⊢; exact h1.trans h2

/-! ## NFA -/

/-- The struct `nfa_transition`; `next` is the arena index of the target. -/
structure nfa_transition where
  epsilon : Bool
  characters : interval_set
  next : Nat
deriving Repr

/-- The constructor `nfa_transition(next)`: an epsilon transition. -/
def nfa_transition.eps (next : Nat) : nfa_transition := ⟨true, [], next⟩

/-- The constructor `nfa_transition(characters, next)`. -/
def nfa_transition.labelled (characters : interval_set) (next : Nat) : nfa_transition :=
  ⟨false, characters, next⟩

/-- The struct `nfa_node`. -/
structure nfa_node (T : Type) where
  terminal : Bool
  token : T
  transitions : List nfa_transition
deriving Repr

/-- The constructor `nfa_node()`. -/
def nfa_node.fresh {T : Type} [TokenInfo T] : nfa_node T := ⟨false, TokenInfo.dflt, []⟩

/-- Dereference of an `nfa_node*`. -/
def nfa_at {T : Type} [TokenInfo T] (heap : List (nfa_node T)) (p : Nat) : nfa_node T :=
  (heap[p]?).getD nfa_node.fresh

/-- Apply `f` to the object at index `p`. -/
def modify_at {α : Type} (f : α → α) : List α → Nat → List α
  | [], _ => []
  | x :: xs, 0 => f x :: xs
  | x :: xs, p + 1 => x :: modify_at f xs p

/-- The statement `p->transitions.push_back(t)`. -/
def nfa_push {T : Type} (heap : List (nfa_node T)) (p : Nat) (t : nfa_transition) :
    List (nfa_node T) :=
  modify_at (fun n => { n with transitions := n.transitions ++ [t] }) heap p

/-- The struct `nfa_segment`. -/
structure nfa_segment where
  «begin» : Nat
  «end» : Nat
deriving Repr

/-- The enum `operator_type`. -/
inductive operator_type
  | plus
  | star
  | optional
deriving DecidableEq, Repr

/-- The regex AST: the subclasses of `regex_node`. -/
inductive regex_node
  | character_set (char_set : interval_set)
  | operand (child : regex_node) (oper : operator_type)
  | concatenate (terms : List regex_node)
  | alternative (alternatives : List regex_node)
deriving Repr

/-- Allocate two fresh nodes: `nfa_segment result(new nfa_node(), new nfa_node())`. -/
def new_segment {T : Type} [TokenInfo T] (heap : List (nfa_node T)) :
    nfa_segment × List (nfa_node T) :=
  (⟨heap.length, heap.length + 1⟩, heap ++ [nfa_node.fresh, nfa_node.fresh])

mutual
/-- The virtual method `regex_node::nfa()` (Thompson construction); the arena is
threaded through. -/
def regex_node.nfa {T : Type} [TokenInfo T] :
    regex_node → List (nfa_node T) → nfa_segment × List (nfa_node T)
  | .character_set char_set, heap =>
    let (result, heap) := new_segment heap
    (result, nfa_push heap result.begin (nfa_transition.labelled char_set result.end))
  | .operand child oper, heap =>
    let (child_nfa, heap) := regex_node.nfa child heap
    let (result, heap) := new_segment heap
    let heap :=
      match oper with
      | .plus => nfa_push heap child_nfa.end (nfa_transition.eps child_nfa.begin)
      | .star =>
        nfa_push (nfa_push heap result.begin (nfa_transition.eps result.end))
          child_nfa.end (nfa_transition.eps child_nfa.begin)
      | .optional => nfa_push heap result.begin (nfa_transition.eps result.end)
    let heap := nfa_push heap result.begin (nfa_transition.eps child_nfa.begin)
    let heap := nfa_push heap child_nfa.end (nfa_transition.eps result.end)
    (result, heap)
  | .concatenate terms, heap =>
    let first := heap.length
    let (last, heap) := concatenate_loop terms first (heap ++ [nfa_node.fresh])
    (⟨first, last⟩, heap)
  | .alternative alternatives, heap =>
    let (result, heap) := new_segment heap
    (result, alternative_loop alternatives result heap)

/-- The loop of `concatenate::nfa()`. -/
def concatenate_loop {T : Type} [TokenInfo T] :
    List regex_node → Nat → List (nfa_node T) → Nat × List (nfa_node T)
  | [], last, heap => (last, heap)
  | node :: rest, last, heap =>
    let (child_nfa, heap) := regex_node.nfa node heap
    let heap := (nfa_at heap child_nfa.begin).transitions.foldl
      (fun h transition => nfa_push h last transition) heap
    concatenate_loop rest child_nfa.end heap

/-- The loop of `alternative::nfa()`. -/
def alternative_loop {T : Type} [TokenInfo T] :
    List regex_node → nfa_segment → List (nfa_node T) → List (nfa_node T)
  | [], _, heap => heap
  | node :: rest, result, heap =>
    let (child_nfa, heap) := regex_node.nfa node heap
    let heap := nfa_push heap result.begin (nfa_transition.eps child_nfa.begin)
    let heap := nfa_push heap child_nfa.end (nfa_transition.eps result.end)
    alternative_loop rest result heap
end

/-! ## Regex parser -/

/-- How a parse can fail. -/
inductive parse_error
  /-- A `std::runtime_error` thrown by the parser. -/
  | runtime_error (what : String)
  /-- An iterator past the terminating character is dereferenced. -/
  | out_of_range
  /-- The local `last` of `parse_char_range` is read before it is assigned. -/
  | uninitialized
  /-- The fuel of the model is exhausted. -/
  | out_of_fuel
deriving DecidableEq, Repr

/-- The limits `std::numeric_limits<CharType>::min()` and `max()`. -/
structure char_limits where
  min : Int
  max : Int
deriving Repr

/-- The code of a character literal. -/
def ch (c : Char) : Int := (c.toNat : Int)

/-- A string literal as a `std::basic_string<CharType>`. -/
def str (s : String) : List Int := s.toList.map ch

/-- The expression `*begin`.  At `begin == end` the terminating zero of the
string is read. -/
def deref (regex : List Int) («begin» : Nat) : Except parse_error Int :=
  match regex[«begin»]? with
  | some c => pure c
  | none => if «begin» = regex.length then pure 0 else throw .out_of_range

/-- The function `make_closed`. -/
def make_closed (intervals : interval_set) : interval_set :=
  intervals.foldl
    (fun new_set interval =>
      new_set.add (discrete_interval.closed
        (interval.lower + (if interval.left_open then 1 else 0))
        (interval.upper - (if interval.right_open then 1 else 0))))
    []

/-- The enum `states` of `parse_char_range`. -/
inductive states
  | normal
  | range
  | escape
  | escape_range
deriving DecidableEq, Repr

/-- The body of `case states::escape` of `parse_char_range`. -/
def char_range_single (complement : Bool) (char_set : interval_set) (c : Int) : interval_set :=
  if complement then char_set.subtract_element c else char_set.add_element c

/-- The body of `case states::escape_range` of `parse_char_range`. -/
def char_range_interval (complement : Bool) (char_set : interval_set) (last c : Int) :
    interval_set :=
  if complement then char_set.subtract (discrete_interval.closed last c)
  else char_set.add (discrete_interval.closed last c)

/-- The `while` loop of `parse_char_range`. -/
def parse_char_range_loop (regex : List Int) (complement : Bool) :
    Nat → states → Option Int → interval_set → Nat →
      Except parse_error (regex_node × Nat)
  | 0, _, _, _, _ => throw .out_of_fuel
  | fuel + 1, state, last, char_set, «begin» =>
    if «begin» = regex.length then
      throw (.runtime_error "Invalid regular expression - unterminated char range.")
    else do
      let c ← deref regex «begin»
      let single : Except parse_error (regex_node × Nat) :=
        parse_char_range_loop regex complement fuel states.normal (some c)
          (char_range_single complement char_set c) («begin» + 1)
      let interval : Except parse_error (regex_node × Nat) :=
        match last with
        | none => throw .uninitialized
        | some l =>
          parse_char_range_loop regex complement fuel states.normal last
            (char_range_interval complement char_set l c) («begin» + 1)
      match state with
      | .normal =>
        if c = ch ']' then pure (regex_node.character_set (make_closed char_set), «begin» + 1)
        else if c = ch '\\' then
          parse_char_range_loop regex complement fuel states.escape last char_set («begin» + 1)
        else if c = ch '-' then
          parse_char_range_loop regex complement fuel states.range last char_set («begin» + 1)
        else single
      | .escape => single
      | .range =>
        if c = ch '\\' then
          parse_char_range_loop regex complement fuel states.escape_range last char_set
            («begin» + 1)
        else interval
      | .escape_range => interval

/-- The function `parse_char_range`. -/
def parse_char_range (lim : char_limits) (regex : List Int) («begin» : Nat)
    (complement : Bool) : Except parse_error (regex_node × Nat) :=
  parse_char_range_loop regex complement (regex.length + 1) states.normal none
    (if complement then interval_set.add [] (discrete_interval.closed lim.min lim.max) else [])
    «begin»

/-- The constructor `operand(child, oper)`, which rejects a null child. -/
def make_operand (child : Option regex_node) (oper : operator_type) :
    Except parse_error regex_node :=
  match child with
  | none => throw (.runtime_error "Cannot quantify an empty string.")
  | some c => pure (regex_node.operand c oper)

mutual
/-- The function `parse_atom`; `none` is the null pointer. -/
def parse_atom (lim : char_limits) (regex : List Int) :
    Nat → Nat → Except parse_error (Option regex_node × Nat)
  | 0, _ => throw .out_of_fuel
  | fuel + 1, «begin» => do
    let c ← deref regex «begin»
    if c = ch ']' then throw (.runtime_error "Invalid regular expression - unmatched ]")
    else if c = ch '?' ∨ c = ch '*' ∨ c = ch ')' ∨ c = ch '+' ∨ c = ch '|' then
      pure (none, «begin»)
    else if c = ch '(' then do
      let (node, b1) ← parse_regex lim regex fuel («begin» + 1)
      let c1 ← deref regex b1
      if c1 ≠ ch ')' then
        throw (.runtime_error "Invalid regular expression - unterminated subexpression.")
      else pure (some node, b1 + 1)
    else if c = ch '[' then do
      let c1 ← deref regex («begin» + 1)
      let (node, b3) ←
        if c1 = ch '^' then parse_char_range lim regex («begin» + 2) true
        else parse_char_range lim regex («begin» + 1) false
      pure (some node, b3)
    else do
      let b1 := if c = ch '\\' then «begin» + 1 else «begin»
      let c1 ← deref regex b1
      pure (some (regex_node.character_set (interval_set.add_element [] c1)), b1 + 1)
termination_by structural fuel => fuel

/-- The function `parse_term`. -/
def parse_term (lim : char_limits) (regex : List Int) :
    Nat → Nat → Except parse_error (Option regex_node × Nat)
  | 0, _ => throw .out_of_fuel
  | fuel + 1, «begin» => do
    let (char_range, b1) ← parse_atom lim regex fuel «begin»
    if b1 = regex.length then pure (char_range, b1)
    else do
      let c ← deref regex b1
      if c = ch '+' then do
        let node ← make_operand char_range operator_type.plus
        pure (some node, b1 + 1)
      else if c = ch '*' then do
        let node ← make_operand char_range operator_type.star
        pure (some node, b1 + 1)
      else if c = ch '?' then do
        let node ← make_operand char_range operator_type.optional
        pure (some node, b1 + 1)
      else pure (char_range, b1)
termination_by structural fuel => fuel

/-- The `while` loop of `parse_factor`; `terms` is `expr->terms`. -/
def parse_factor_loop (lim : char_limits) (regex : List Int) :
    Nat → List regex_node → Nat → Except parse_error (regex_node × Nat)
  | 0, _, _ => throw .out_of_fuel
  | fuel + 1, terms, «begin» =>
    if «begin» = regex.length then pure (regex_node.concatenate terms, «begin»)
    else do
      let (new_term, b1) ← parse_term lim regex fuel «begin»
      match new_term with
      | none => pure (regex_node.concatenate terms, b1)
      | some t => parse_factor_loop lim regex fuel (terms ++ [t]) b1
termination_by structural fuel => fuel

/-- The `while` loop of `parse_regex`; `alternatives` is `expr->alternatives`. -/
def parse_regex_loop (lim : char_limits) (regex : List Int) :
    Nat → List regex_node → Nat → Except parse_error (regex_node × Nat)
  | 0, _, _ => throw .out_of_fuel
  | fuel + 1, alternatives, «begin» =>
    if «begin» = regex.length then pure (regex_node.alternative alternatives, «begin»)
    else do
      let c ← deref regex «begin»
      if c = ch '|' then do
        let (factor, b1) ← parse_factor_loop lim regex fuel [] («begin» + 1)
        parse_regex_loop lim regex fuel (alternatives ++ [factor]) b1
      else pure (regex_node.alternative alternatives, «begin»)
termination_by structural fuel => fuel

/-- The function `parse_regex`. -/
def parse_regex (lim : char_limits) (regex : List Int) :
    Nat → Nat → Except parse_error (regex_node × Nat)
  | 0, _ => throw .out_of_fuel
  | fuel + 1, «begin» => do
    let (factor, b1) ← parse_factor_loop lim regex fuel [] «begin»
    parse_regex_loop lim regex fuel [factor] b1
termination_by structural fuel => fuel
end

/-- Fuel that suffices for every call chain of the parser on `regex`. -/
def parse_fuel (regex : List Int) : Nat := 4 * regex.length + 8

/-- The struct `terminal_node`. -/
structure terminal_node (T : Type) where
  token : T
  regex : List Int
deriving Repr

/-- The loop of the constructor `nfa(Iterator begin, Iterator end)`. -/
def nfa_productions_loop {T : Type} [TokenInfo T] (lim : char_limits) (start : Nat) :
    List (terminal_node T) → List (nfa_node T) → Except parse_error (List (nfa_node T))
  | [], heap => pure heap
  | production :: rest, heap => do
    let (node, _) ← parse_regex lim production.regex (parse_fuel production.regex) 0
    let (thunk, heap) := regex_node.nfa node heap
    let heap := modify_at
      (fun n => { n with terminal := true, token := production.token }) heap thunk.end
    let heap := nfa_push heap start (nfa_transition.eps thunk.begin)
    nfa_productions_loop lim start rest heap

/-- The class `nfa`: the arena of its nodes and `_start`. -/
structure nfa (T : Type) where
  heap : List (nfa_node T)
  _start : Nat

/-- The constructor `nfa(Iterator begin, Iterator end)`. -/
def nfa.ctor {T : Type} [TokenInfo T] (lim : char_limits)
    (productions : List (terminal_node T)) : Except parse_error (nfa T) := do
  let heap ← nfa_productions_loop lim 0 productions [nfa_node.fresh]
  pure ⟨heap, 0⟩

/-! ## DFA: subset construction -/

/-- The call `std::unordered_set::insert`. -/
def uset_insert (s : List Nat) (x : Nat) : List Nat :=
  if x ∈ s then s else s ++ [x]

/-- The comparison `operator==` of two `std::unordered_set`s. -/
def set_eq (a b : List Nat) : Bool :=
  a.all (fun x => decide (x ∈ b)) && b.all (fun x => decide (x ∈ a))

/-- The struct `dfa_transition`; `next` is the arena index of the target. -/
structure dfa_transition where
  characters : interval_set
  next : Nat
deriving Repr

/-- The struct `dfa_node`: the NFA nodes it stands for and its transitions. -/
structure dfa_node where
  nodes : List Nat
  transitions : List dfa_transition
deriving Repr

/-- Dereference of a `dfa_node*`. -/
def dfa_at (heap : List dfa_node) (p : Nat) : dfa_node :=
  (heap[p]?).getD ⟨[], []⟩

/-- The method `dfa_node::terminal()`. -/
def dfa_node.terminal {T : Type} [TokenInfo T] (nfa : List (nfa_node T)) (n : dfa_node) : Bool :=
  n.nodes.any (fun node => (nfa_at nfa node).terminal)

/-- The call `*std::min_element(first, last)` on a non-empty range. -/
def min_element {T : Type} [TokenInfo T] (x : T) (xs : List T) : T :=
  xs.foldl (fun smallest y => if TokenInfo.lt y smallest then y else smallest) x

/-- The method `dfa_node::get_terminal()`. -/
def dfa_node.get_terminal {T : Type} [TokenInfo T] (nfa : List (nfa_node T)) (n : dfa_node) : T :=
  match (n.nodes.filter (fun node => (nfa_at nfa node).terminal)).map
      (fun node => (nfa_at nfa node).token) with
  | [] => TokenInfo.dflt
  | x :: xs => min_element x xs

/-- The labels of the transitions of an NFA node, as `make_disjoint` reads them. -/
def nfa_labels {T : Type} [TokenInfo T] (nfa : List (nfa_node T)) (p : Nat) : List interval_set :=
  (nfa_at nfa p).transitions.map (fun t => t.characters)

/-- The labels of the transitions of a DFA node, as `make_disjoint` reads them. -/
def dfa_labels (heap : List dfa_node) (p : Nat) : List interval_set :=
  (dfa_at heap p).transitions.map (fun t => t.characters)

/-- The function `move_s(dest, nodes, chars)`. -/
def move_s {T : Type} [TokenInfo T] (nfa : List (nfa_node T)) (dest : List Nat)
    (nodes : List Nat) (chars : discrete_interval) : List Nat :=
  nodes.foldl
    (fun d node =>
      (nfa_at nfa node).transitions.foldl
        (fun d tran => if tran.characters.contains chars then uset_insert d tran.next else d)
        d)
    dest

/-- The `for` loop over the transitions of the front node in `eclosure`:
`dest` and the queue `to_visit`. -/
def eclosure_visit : List nfa_transition → List Nat × List Nat → List Nat × List Nat
  | [], st => st
  | tran :: rest, (dest, to_visit) =>
    if tran.epsilon ∧ tran.next ∉ dest then
      eclosure_visit rest (dest ++ [tran.next], to_visit ++ [tran.next])
    else eclosure_visit rest (dest, to_visit)

/-- The `while (!to_visit.empty())` loop of `eclosure`. -/
def eclosure_loop {T : Type} [TokenInfo T] (nfa : List (nfa_node T)) :
    Nat → List Nat → List Nat → Option (List Nat)
  | 0, _, _ => none
  | _ + 1, dest, [] => some dest
  | fuel + 1, dest, front :: to_visit =>
    let st := eclosure_visit (nfa_at nfa front).transitions (dest, to_visit)
    eclosure_loop nfa fuel st.1 st.2

/-- The function `eclosure(dest, nodes)`. -/
def eclosure {T : Type} [TokenInfo T] (nfa : List (nfa_node T)) (dest : List Nat)
    (nodes : List Nat) : Option (List Nat) :=
  eclosure_loop nfa (nodes.length + nfa.length + 1)
    (nodes.foldl uset_insert dest) nodes

/-- The statement `p->transitions.emplace_back(characters, next)`. -/
def dfa_push (heap : List dfa_node) (p : Nat) (t : dfa_transition) : List dfa_node :=
  modify_at (fun n => { n with transitions := n.transitions ++ [t] }) heap p

/-- The locals of the constructor of `dfa`: the arena, `unmarked` and `result`. -/
structure build_state where
  heap : List dfa_node
  unmarked : List Nat
  result : List Nat
deriving Repr

/-- The lookup done by `result.emplace(new_node)` with `dfa_node_eq`: the node of
`result` that stands for the same set of NFA nodes. -/
def dfa_find (heap : List dfa_node) (result : List Nat) (nodes : List Nat) : Option Nat :=
  result.find? (fun r => set_eq (dfa_at heap r).nodes nodes)

/-- The body of the `for (auto&& inter : letters)` loop of the constructor of
`dfa`.  A `new_node` that is not inserted is deleted at once, so only inserted
nodes enter the arena. -/
def dfa_letter_step {T : Type} [TokenInfo T] (nfa : List (nfa_node T)) (D : Nat)
    (inter : discrete_interval) (st : build_state) : Option build_state :=
  let moved := move_s nfa [] (dfa_at st.heap D).nodes inter
  match eclosure nfa [] moved with
  | none => none
  | some new_nodes =>
    if new_nodes ≠ [] then
      match dfa_find st.heap st.result new_nodes with
      | some existing =>
        some { st with heap := dfa_push st.heap D ⟨interval_set.add [] inter, existing⟩ }
      | none =>
        let new_node := st.heap.length
        some
          { heap := dfa_push (st.heap ++ [⟨new_nodes, []⟩]) D
              ⟨interval_set.add [] inter, new_node⟩
            unmarked := st.unmarked ++ [new_node]
            result := st.result ++ [new_node] }
    else some st

/-- The `for (auto&& inter : letters)` loop of the constructor of `dfa`. -/
def dfa_letters_loop {T : Type} [TokenInfo T] (nfa : List (nfa_node T)) (D : Nat) :
    List discrete_interval → build_state → Option build_state
  | [], st => some st
  | inter :: rest, st =>
    match dfa_letter_step nfa D inter st with
    | none => none
    | some st1 => dfa_letters_loop nfa D rest st1

/-- The `while (!unmarked.empty())` loop of the constructor of `dfa`. -/
def dfa_build_loop {T : Type} [TokenInfo T] (nfa : List (nfa_node T)) :
    Nat → build_state → Option build_state
  | 0, _ => none
  | fuel + 1, st =>
    match st.unmarked with
    | [] => some st
    | D :: unmarked =>
      let letters := make_disjoint [] ((dfa_at st.heap D).nodes.map (nfa_labels nfa))
      match dfa_letters_loop nfa D letters { st with unmarked := unmarked } with
      | none => none
      | some st1 => dfa_build_loop nfa fuel st1

/-- The `for` loop of `aggregate` on one sorted transition vector; `prev` is
`transitions[i - 1]`. -/
def aggregate_loop (prev : dfa_transition) : List dfa_transition → List dfa_transition
  | [] => [prev]
  | t :: rest =>
    if t.next = prev.next then
      aggregate_loop { prev with characters := t.characters.foldl interval_set.add prev.characters }
        rest
    else prev :: aggregate_loop t rest

/-- The body of `aggregate` for one node: sort by target, merge equal targets. -/
def aggregate_node (transitions : List dfa_transition) : List dfa_transition :=
  match std_sort (fun a b => decide (a.next < b.next)) transitions with
  | [] => []
  | t :: rest => aggregate_loop t rest

/-- The method `dfa::aggregate()` on the arena. -/
def aggregate (heap : List dfa_node) (_nodes : List Nat) : List dfa_node :=
  _nodes.foldl
    (fun h node => modify_at (fun n => { n with transitions := aggregate_node n.transitions }) h node)
    heap

/-- The class `dfa`: the NFA arena its nodes point into, the arena of its own
nodes, `_nodes` and `_initial`. -/
structure dfa (T : Type) where
  nfa : List (nfa_node T)
  heap : List dfa_node
  _nodes : List Nat
  _initial : Nat

/-- The constructor `dfa(const nfa_node_type& start)`. -/
def dfa.ctor {T : Type} [TokenInfo T] (nfa : List (nfa_node T)) (start : Nat) : Option (dfa T) :=
  match eclosure nfa [] [start] with
  | none => none
  | some initial_nodes =>
    match dfa_build_loop nfa (2 ^ nfa.length + 1) ⟨[⟨initial_nodes, []⟩], [0], [0]⟩ with
    | none => none
    | some st =>
      some { nfa := nfa, heap := aggregate st.heap st.result, _nodes := st.result, _initial := 0 }

/-! ## DFA: minimisation -/

/-- The lookup `Map.at(key)`; `none` when `at` throws.  A mapped value is the
position of a block in the partition (a pointer to an element of `Gamma`). -/
def map_at (Map : List (Nat × Nat)) (key : Nat) : Option Nat :=
  (Map.find? (fun e => e.1 == key)).map (fun e => e.2)

/-- The call `Map.emplace(key, value)`: no effect when the key is present. -/
def map_emplace (Map : List (Nat × Nat)) (key value : Nat) : List (Nat × Nat) :=
  match map_at Map key with
  | some _ => Map
  | none => Map ++ [(key, value)]

/-- The call `newGamma.insert(newG)`: the new partition and the position of the
block equal to `newG` in it. -/
def gamma_insert (Gamma : List (List Nat)) (newG : List Nat) : List (List Nat) × Nat :=
  match Gamma.findIdx? (fun G => set_eq G newG) with
  | some i => (Gamma, i)
  | none => (Gamma ++ [newG], Gamma.length)

/-- The target of the last transition of the vector whose label contains
`interval` (the loops over `state->transitions` in `check_equivalence`); `none`
is `nullptr`. -/
def find_next (transitions : List dfa_transition) (interval : discrete_interval) : Option Nat :=
  transitions.foldl
    (fun next tran => if tran.characters.contains interval then some tran.next else next)
    none

/-- The `for (auto&& interval : letters)` loop of `check_equivalence`. -/
def check_letters (transitions1 transitions2 : List dfa_transition) (Map : List (Nat × Nat)) :
    List discrete_interval → Option Bool
  | [] => some true
  | interval :: rest =>
    match find_next transitions1 interval, find_next transitions2 interval with
    | none, none => check_letters transitions1 transitions2 Map rest
    | some next1, some next2 =>
      match map_at Map next1, map_at Map next2 with
      | some b1, some b2 =>
        if b1 ≠ b2 then some false else check_letters transitions1 transitions2 Map rest
      | _, _ => none
    | _, _ => some false

/-- The method `dfa::check_equivalence(state1, state2, Map)`. -/
def check_equivalence (heap : List dfa_node) (state1 state2 : Nat) (Map : List (Nat × Nat)) :
    Option Bool :=
  if state1 = state2 then some true
  else
    check_letters (dfa_at heap state1).transitions (dfa_at heap state2).transitions Map
      (make_disjoint [] [dfa_labels heap state1, dfa_labels heap state2])

/-- The test of the initial partition in `optimize`. -/
def terminal_equiv {T : Type} [TokenInfo T] (nfa : List (nfa_node T)) (heap : List dfa_node)
    (pivot it : Nat) : Bool :=
  ((dfa_at heap pivot).terminal nfa == (dfa_at heap it).terminal nfa) &&
    TokenInfo.eq ((dfa_at heap pivot).get_terminal nfa) ((dfa_at heap it).get_terminal nfa)

/-- The `for (auto it = G.begin(); it != G.end();)` walk of `optimize`: the
states equivalent to the pivot (`newG`) and the states left in `G`. -/
def walk_block (equiv : Nat → Nat → Option Bool) (pivot : Nat) :
    List Nat → Option (List Nat × List Nat)
  | [] => some ([], [])
  | it :: rest =>
    match equiv pivot it with
    | none => none
    | some e =>
      match walk_block equiv pivot rest with
      | none => none
      | some (newG, G) => if e then some (it :: newG, G) else some (newG, it :: G)

/-- The `while (!G.empty())` loop of `optimize` on one block `G`. -/
def split_block (equiv : Nat → Nat → Option Bool) :
    Nat → List Nat → List (List Nat) × List (Nat × Nat) →
      Option (List (List Nat) × List (Nat × Nat))
  | _, [], st => some st
  | 0, _ :: _, _ => none
  | fuel + 1, pivot :: rest, (newGamma, newMap) =>
    match walk_block equiv pivot (pivot :: rest) with
    | none => none
    | some (newG, G) =>
      let ins := gamma_insert newGamma newG
      split_block equiv fuel G (ins.1, newG.foldl (fun m it => map_emplace m it ins.2) newMap)

/-- The `for (auto G : Gamma)` loop of `optimize`: one refinement pass. -/
def refine_round (equiv : Nat → Nat → Option Bool) :
    List (List Nat) → List (List Nat) × List (Nat × Nat) →
      Option (List (List Nat) × List (Nat × Nat))
  | [], st => some st
  | G :: rest, st =>
    match split_block equiv G.length G st with
    | none => none
    | some st1 => refine_round equiv rest st1

/-- The `while (true)` loop of `optimize`; it returns `newGamma` and `newMap`
at the `break`. -/
def optimize_loop {T : Type} [TokenInfo T] (nfa : List (nfa_node T)) (heap : List dfa_node) :
    Nat → Bool → List (List Nat) → List (Nat × Nat) →
      Option (List (List Nat) × List (Nat × Nat))
  | 0, _, _, _ => none
  | fuel + 1, initialPartition, Gamma, Map =>
    let equiv : Nat → Nat → Option Bool :=
      if initialPartition then fun pivot it => some (terminal_equiv nfa heap pivot it)
      else fun pivot it => check_equivalence heap pivot it Map
    match refine_round equiv Gamma ([], []) with
    | none => none
    | some (newGamma, newMap) =>
      if newGamma.length = Gamma.length then some (newGamma, newMap)
      else optimize_loop nfa heap fuel false newGamma newMap

/-- The expression `*newMap.at(state)`: the block of `state`. -/
def class_of (newGamma : List (List Nat)) (newMap : List (Nat × Nat)) (state : Nat) :
    Option (List Nat) :=
  match map_at newMap state with
  | none => none
  | some b => newGamma[b]?

/-- The loop over `node->transitions` in the rewrite phase of `optimize`: every
target becomes the first state of its block, the other states of the block are
added to `dead_states`. -/
def rewrite_transitions (newGamma : List (List Nat)) (newMap : List (Nat × Nat)) :
    List dfa_transition → List Nat → Option (List dfa_transition × List Nat)
  | [], dead_states => some ([], dead_states)
  | t :: rest, dead_states =>
    match class_of newGamma newMap t.next with
    | none => none
    | some [] => none
    | some (rep :: others) =>
      match rewrite_transitions newGamma newMap rest (others.foldl uset_insert dead_states) with
      | none => none
      | some (rest1, dead1) => some ({ t with next := rep } :: rest1, dead1)

/-- The loop `for (auto& node : _nodes)` of the rewrite phase of `optimize`. -/
def rewrite_nodes (newGamma : List (List Nat)) (newMap : List (Nat × Nat)) :
    List Nat → List dfa_node → List Nat → Option (List dfa_node × List Nat)
  | [], heap, dead_states => some (heap, dead_states)
  | node :: rest, heap, dead_states =>
    match rewrite_transitions newGamma newMap (dfa_at heap node).transitions dead_states with
    | none => none
    | some (ts, dead1) =>
      rewrite_nodes newGamma newMap rest
        (modify_at (fun n => { n with transitions := ts }) heap node) dead1

/-- The method `dfa::optimize()`. -/
def dfa.optimize {T : Type} [TokenInfo T] (d : dfa T) : Option (dfa T) :=
  match optimize_loop d.nfa d.heap (d._nodes.length + 2) true [d._nodes] [] with
  | none => none
  | some (newGamma, newMap) =>
    match class_of newGamma newMap d._initial with
    | none => none
    | some [] => none
    | some (initial :: _) =>
      match rewrite_nodes newGamma newMap d._nodes d.heap [] with
      | none => none
      | some (heap, dead_states) =>
        let nodes := d._nodes.filter (fun node => decide (node ∉ dead_states))
        some { nfa := d.nfa, heap := aggregate heap nodes, _nodes := nodes, _initial := initial }

/-! ## The lexer table -/

/-- The struct `lexer_transition`. -/
structure lexer_transition where
  characters : interval_set
  next : Nat
deriving Repr

/-- The struct `lexer_node`. -/
structure lexer_node (α : Type) where
  transitions : List lexer_transition
  terminal : Bool
  terminal_info : α
deriving Repr

/-- The constructor `lexer_node(const dfa_node&)`. -/
def lexer_node.ctor {α : Type} [Inhabited α] (nfa : List (nfa_node (basic_token_info α)))
    (node : dfa_node) : lexer_node α :=
  { transitions := []
    terminal := node.terminal nfa
    terminal_info := (node.get_terminal nfa).additional_info }

/-- The class `lexer`. -/
structure lexer (α : Type) where
  _states : List (lexer_node α)
  _start : Int
deriving Repr

/-- The accessor `lexer::states()`. -/
def lexer.states {α : Type} (l : lexer α) : List (lexer_node α) := l._states

/-- The accessor `lexer::start()`. -/
def lexer.start {α : Type} (l : lexer α) : Int := l._start

/-- The struct `lexer_production`. -/
structure lexer_production (α : Type) where
  regex : List Int
  node : α
deriving Repr

/-- The class `lexer_generator`. -/
structure lexer_generator (α : Type) where
  productions : List (terminal_node (basic_token_info α))
  seq_number : Int

/-- The constructor `lexer_generator()`. -/
def lexer_generator.ctor {α : Type} : lexer_generator α := ⟨[], 0⟩

/-- The operator `lexer_generator& operator<<(lhs, terminal)`. -/
def lexer_generator.shl {α : Type} (lhs : lexer_generator α) (terminal : lexer_production α) :
    lexer_generator α :=
  { productions := lhs.productions ++ [⟨⟨lhs.seq_number, terminal.node⟩, terminal.regex⟩]
    seq_number := lhs.seq_number + 1 }

/-- The lookup `index[key]` of the `std::unordered_map<const dfa_node*, int>` of
`generate`; a missing key reads as the value-initialised `0`. -/
def index_at (index : List (Nat × Nat)) (key : Nat) : Nat :=
  (map_at index key).getD 0

/-- The first loop of `generate`: `index[state] = nodes.size(); nodes.emplace_back(*state)`. -/
def generate_index {α : Type} [Inhabited α] (nfa : List (nfa_node (basic_token_info α)))
    (heap : List dfa_node) :
    List Nat → List (lexer_node α) × List (Nat × Nat) → List (lexer_node α) × List (Nat × Nat)
  | [], st => st
  | state :: rest, (nodes, index) =>
    generate_index nfa heap rest
      (nodes ++ [lexer_node.ctor nfa (dfa_at heap state)],
        (index.filter (fun e => e.1 != state)) ++ [(state, nodes.length)])

/-- The second loop of `generate`: the transitions of every state are appended
to its table entry, the targets translated by `index`. -/
def generate_transitions {α : Type} (heap : List dfa_node) (index : List (Nat × Nat)) :
    List Nat → List (lexer_node α) → List (lexer_node α)
  | [], nodes => nodes
  | state :: rest, nodes =>
    generate_transitions heap index rest
      ((dfa_at heap state).transitions.foldl
        (fun ns transition =>
          modify_at
            (fun n => { n with
              transitions := n.transitions ++ [⟨transition.characters, index_at index transition.next⟩] })
            ns (index_at index state))
        nodes)

/-- Why `generate` did not return a table. -/
inductive generate_error
  /-- The regex of a production was rejected. -/
  | parse (e : parse_error)
  /-- The minimiser or the subset construction raised (`Map.at`) or the model ran
  out of fuel. -/
  | internal
deriving DecidableEq, Repr

/-- The method `lexer_generator::generate()`. -/
def lexer_generator.generate {α : Type} [Inhabited α] (lim : char_limits)
    (g : lexer_generator α) : Except generate_error (lexer α) :=
  match nfa.ctor lim g.productions with
  | .error e => .error (.parse e)
  | .ok nfa_machine =>
    match dfa.ctor nfa_machine.heap nfa_machine._start with
    | none => .error .internal
    | some dfa_machine0 =>
      match dfa_machine0.optimize with
      | none => .error .internal
      | some dfa_machine =>
        let st := generate_index dfa_machine.nfa dfa_machine.heap dfa_machine._nodes ([], [])
        let nodes := generate_transitions dfa_machine.heap st.2 dfa_machine._nodes st.1
        .ok ⟨nodes, (index_at st.2 dfa_machine._initial : Nat)⟩

/-! ## Reference semantics used to state the properties -/

/-- A path of the NFA from `p` to `q` spelling `w`: epsilon transitions consume
nothing, a labelled transition consumes one symbol of its label. -/
inductive nfa_path {T : Type} [TokenInfo T] (nfa : List (nfa_node T)) :
    Nat → List Int → Nat → Prop
  | nil (p : Nat) : nfa_path nfa p [] p
  | eps (p q r : Nat) (w : List Int) (t : nfa_transition) :
      t ∈ (nfa_at nfa p).transitions → t.epsilon = true → t.next = q →
      nfa_path nfa q w r → nfa_path nfa p w r
  | step (p q r : Nat) (s : Int) (w : List Int) (t : nfa_transition) :
      t ∈ (nfa_at nfa p).transitions → t.epsilon = false → interval_set.mem s t.characters →
      t.next = q → nfa_path nfa q w r → nfa_path nfa p (s :: w) r

/-- The NFA accepts `w`: a path spelling `w` leads from `start` to a terminal node. -/
def nfa_accepts {T : Type} [TokenInfo T] (nfa : List (nfa_node T)) (start : Nat)
    (w : List Int) : Prop :=
  ∃ q, nfa_path nfa start w q ∧ (nfa_at nfa q).terminal = true

/-- Well-formed NFA arena: every target is allocated, an epsilon transition
carries no label, and every label is a set of non-empty closed intervals. -/
def nfa_wf {T : Type} [TokenInfo T] (nfa : List (nfa_node T)) : Prop :=
  ∀ n ∈ nfa, ∀ t ∈ n.transitions,
    t.next < nfa.length ∧ (t.epsilon = true → t.characters = []) ∧
    ∀ i ∈ t.characters, i.is_closed = true ∧ i.lower ≤ i.upper

instance nfa_wf_decidable {T : Type} [TokenInfo T] (nfa : List (nfa_node T)) :
    Decidable (nfa_wf nfa) := by
  unfold nfa_wf
  infer_instance

/-- One step of the DFA from state `p` on symbol `s`: the target of the
transition whose label contains `s`. -/
def dfa_step (heap : List dfa_node) (p : Nat) (s : Int) : Option Nat :=
  ((dfa_at heap p).transitions.find? (fun t => decide (interval_set.mem s t.characters))).map
    (fun t => t.next)

/-- The run of the DFA from state `p` over `w`; `none` when a symbol has no transition. -/
def dfa_run (heap : List dfa_node) : Nat → List Int → Option Nat
  | p, [] => some p
  | p, s :: w =>
    match dfa_step heap p s with
    | none => none
    | some q => dfa_run heap q w

/-- At most one outgoing transition of `p` has a label containing any given symbol. -/
def dfa_deterministic_at (heap : List dfa_node) (p : Nat) : Prop :=
  (dfa_at heap p).transitions.Pairwise
    (fun a b => ∀ s, ¬ (interval_set.mem s a.characters ∧ interval_set.mem s b.characters))

/-- Two DFA states have the same terminal status and, when terminal, equal tokens. -/
def same_token {T : Type} [TokenInfo T] (nfa : List (nfa_node T)) (heap : List dfa_node)
    (p q : Nat) : Prop :=
  (dfa_at heap p).terminal nfa = (dfa_at heap q).terminal nfa ∧
    ((dfa_at heap p).terminal nfa = true →
      TokenInfo.eq ((dfa_at heap p).get_terminal nfa) ((dfa_at heap q).get_terminal nfa) = true)

/-- The runs over `w` from `p` and from `q` both fail, or both end in states
with the same terminal status and token. -/
def runs_agree {T : Type} [TokenInfo T] (nfa : List (nfa_node T)) (heap : List dfa_node)
    (p q : Nat) (w : List Int) : Prop :=
  match dfa_run heap p w, dfa_run heap q w with
  | none, none => True
  | some p1, some q1 => same_token nfa heap p1 q1
  | _, _ => False

/-- Two DFA states are equivalent: no string tells them apart. -/
def dfa_equivalent {T : Type} [TokenInfo T] (nfa : List (nfa_node T)) (heap : List dfa_node)
    (p q : Nat) : Prop :=
  ∀ w, runs_agree nfa heap p q w

/-- One step of the table from state `i` on symbol `s`. -/
def lexer_step {α : Type} (l : lexer α) (i : Nat) (s : Int) : Option Nat :=
  match l._states[i]? with
  | none => none
  | some node =>
    (node.transitions.find? (fun t => decide (interval_set.mem s t.characters))).map
      (fun t => t.next)

/-- The run of the table from state `i` over `w`. -/
def lexer_run {α : Type} (l : lexer α) : Nat → List Int → Option Nat
  | i, [] => some i
  | i, s :: w =>
    match lexer_step l i s with
    | none => none
    | some j => lexer_run l j w

/-- The table, run from `start()` over `w`, ends in a terminal state. -/
def lexer_accepts {α : Type} (l : lexer α) (w : List Int) : Bool :=
  match lexer_run l l.start.toNat w with
  | none => false
  | some i =>
    match l._states[i]? with
    | none => false
    | some node => node.terminal

/-- The payload of the state the table reaches on `w`, when that state is terminal. -/
def lexer_token {α : Type} (l : lexer α) (w : List Int) : Option α :=
  match lexer_run l l.start.toNat w with
  | none => none
  | some i =>
    match l._states[i]? with
    | none => none
    | some node => if node.terminal then some node.terminal_info else none

/-- At most one transition of every table state has a label containing any given symbol. -/
def lexer_deterministic {α : Type} (l : lexer α) : Prop :=
  ∀ node ∈ l._states, node.transitions.Pairwise
    (fun a b => ∀ s, ¬ (interval_set.mem s a.characters ∧ interval_set.mem s b.characters))

/-- The generator after `lexer_generator() << p1 << p2 << ...`. -/
def lexer_generator.of_productions {α : Type} (ps : List (lexer_production α)) :
    lexer_generator α :=
  ps.foldl lexer_generator.shl lexer_generator.ctor

/-- The limits of an 8-bit signed `char`. -/
def char8 : char_limits := ⟨-128, 127⟩

/-- A checked trace of the NFA from `p`: each entry is the consumed symbol
(`none` for an epsilon move) and the node reached. -/
def nfa_trace_ok {T : Type} [TokenInfo T] (nfa : List (nfa_node T)) :
    Nat → List (Option Int × Nat) → Bool
  | _, [] => true
  | p, (none, q) :: rest =>
    (nfa_at nfa p).transitions.any (fun t => t.epsilon && t.next == q) && nfa_trace_ok nfa q rest
  | p, (some s, q) :: rest =>
    (nfa_at nfa p).transitions.any
        (fun t => !t.epsilon && decide (interval_set.mem s t.characters) && t.next == q) &&
      nfa_trace_ok nfa q rest

/-- The word spelled by a trace. -/
def trace_word : List (Option Int × Nat) → List Int
  | [] => []
  | (none, _) :: rest => trace_word rest
  | (some s, _) :: rest => s :: trace_word rest

/-- The node where a trace from `p` ends. -/
def trace_end : Nat → List (Option Int × Nat) → Nat
  | p, [] => p
  | _, (_, q) :: rest => trace_end q rest

/-! ## Auxiliary definitions used by the proofs -/

/-- An interval with both bounds closed and `lower ≤ upper`. -/
def closed_interval (i : discrete_interval) : Prop :=
  i.is_closed = true ∧ i.lower ≤ i.upper

/-- All intervals of all labels of a collection of nodes, in the order in which
`make_disjoint` reads them. -/
def label_intervals (nodes : List (List interval_set)) : List discrete_interval :=
  nodes.flatMap fun transitions => transitions.flatMap fun characters => characters

/-- The two end-point events of an interval. -/
def interval_events (inter : discrete_interval) : List (Bool × Int) :=
  [(true, inter.lower), (false, inter.upper)]

/-- The intervals that `sweep` inserts, in the order of insertion. -/
def sweep_emitted : Int → Bool × Int → List (Bool × Int) → List discrete_interval
  | _, _, [] => []
  | depth, last, current :: rest =>
    let lower := last.2 + (if last.1 then 0 else 1)
    let upper := current.2 - (if current.1 then 1 else 0)
    (if depth ≠ 0 ∧ lower ≤ upper then [discrete_interval.closed lower upper] else []) ++
      sweep_emitted (if current.1 then depth + 1 else depth - 1) current rest

/-- The contribution of one event to the number of intervals open at `x`. -/
def event_weight (x : Int) (e : Bool × Int) : Int :=
  if e.1 then (if e.2 ≤ x then 1 else 0) else (if e.2 < x then -1 else 0)

/-- The number of intervals that contain `x`, counted from the events. -/
def coverage (x : Int) (events : List (Bool × Int)) : Int :=
  (events.map (event_weight x)).sum

/-- The event lies after the symbol `x`: an opening above `x` or a closing at or
above `x`. -/
def event_beyond (x : Int) (e : Bool × Int) : Prop :=
  if e.1 then x < e.2 else x ≤ e.2

/-- The first symbol that an interval emitted after the event `e` can contain. -/
def event_resume (e : Bool × Int) : Int := e.2 + (if e.1 then 0 else 1)

/-- The number of arena indices below `n` that are not in `dest`. -/
def free_count (n : Nat) (dest : List Nat) : Nat :=
  ((List.range n).filter (fun x => decide (x ∉ dest))).length

/-- The letters of a set of NFA nodes: the disjoint cover of their labels. -/
def nfa_letters {T : Type} [TokenInfo T] (nfa : List (nfa_node T)) (nodes : List Nat) :
    List discrete_interval :=
  make_disjoint [] (nodes.map (nfa_labels nfa))

/-- The DFA node `q` of the arena stands for the epsilon closure of the move of
`src` on the letter `I`. -/
def target_ok {T : Type} [TokenInfo T] (nfa : List (nfa_node T)) (heap : List dfa_node)
    (src : List Nat) (I : discrete_interval) (q : Nat) : Prop :=
  q < heap.length ∧
    ∃ r, eclosure nfa [] (move_s nfa [] src I) = some r ∧ ∀ x, x ∈ (dfa_at heap q).nodes ↔ x ∈ r

/-- The transitions of `p` are those of the letters `processed`, in order, each
to the node that stands for the closure of the move on its letter. -/
def node_progress {T : Type} [TokenInfo T] (nfa : List (nfa_node T)) (heap : List dfa_node)
    (p : Nat) (processed : List discrete_interval) : Prop :=
  (dfa_at heap p).transitions.map (fun t => t.characters) = processed.map (fun I => [I]) ∧
    ∀ t ∈ (dfa_at heap p).transitions, ∀ I, t.characters = [I] →
      target_ok nfa heap (dfa_at heap p).nodes I t.next

/-- The invariant of the subset construction; `cur` is the node whose letters
are being processed and `processed` the letters already done for it. -/
structure build_inv {T : Type} [TokenInfo T] (nfa : List (nfa_node T)) (st : build_state)
    (cur : Option Nat) (processed : List discrete_interval) : Prop where
  heap_pos : 0 < st.heap.length
  result_eq : st.result = List.range st.heap.length
  unmarked_nodup : st.unmarked.Nodup
  unmarked_lt : ∀ p ∈ st.unmarked, p < st.heap.length
  nodes_ne : ∀ p < st.heap.length, (dfa_at st.heap p).nodes ≠ []
  nodes_nodup : ∀ p < st.heap.length, (dfa_at st.heap p).nodes.Nodup
  nodes_lt : ∀ p < st.heap.length, ∀ x ∈ (dfa_at st.heap p).nodes, x < nfa.length
  nodes_closed : ∀ p < st.heap.length, ∀ x ∈ (dfa_at st.heap p).nodes, ∀ y,
    nfa_path nfa x [] y → y ∈ (dfa_at st.heap p).nodes
  inj : ∀ p q, p < st.heap.length → q < st.heap.length →
    set_eq (dfa_at st.heap p).nodes (dfa_at st.heap q).nodes = true → p = q
  unmarked_empty : ∀ p ∈ st.unmarked, (dfa_at st.heap p).transitions = []
  done : ∀ p < st.heap.length, p ∉ st.unmarked → cur ≠ some p →
    node_progress nfa st.heap p (nfa_letters nfa (dfa_at st.heap p).nodes)
  inprog : ∀ D, cur = some D →
    D < st.heap.length ∧ D ∉ st.unmarked ∧ node_progress nfa st.heap D processed
  cover : ∀ p < st.heap.length, p ≠ 0 →
    ∃ q < st.heap.length, ∃ t ∈ (dfa_at st.heap q).transitions, t.next = p

/-- The NFA nodes reached from the set `S` by one labelled transition on the
symbol `s` followed by epsilon transitions. -/
def sym_succ {T : Type} [TokenInfo T] (nfa : List (nfa_node T)) (S : List Nat) (s : Int)
    (y : Nat) : Prop :=
  ∃ x ∈ S, ∃ t ∈ (nfa_at nfa x).transitions,
    t.epsilon = false ∧ interval_set.mem s t.characters ∧ nfa_path nfa t.next [] y

/-- Well-formed DFA: `_nodes` has no duplicates and lies in the arena, the
initial node and every target are in `_nodes`, labels are made of non-empty
closed intervals, and every node is deterministic. -/
structure dfa_wf {T : Type} (d : dfa T) : Prop where
  nodes_nodup : d._nodes.Nodup
  nodes_lt : ∀ p ∈ d._nodes, p < d.heap.length
  initial_mem : d._initial ∈ d._nodes
  targets : ∀ p ∈ d._nodes, ∀ t ∈ (dfa_at d.heap p).transitions, t.next ∈ d._nodes
  closed : ∀ p ∈ d._nodes, ∀ t ∈ (dfa_at d.heap p).transitions, ∀ i ∈ t.characters,
    closed_interval i
  det : ∀ p ∈ d._nodes, dfa_deterministic_at d.heap p

/-- Every node other than the initial one is the target of a transition. -/
def dfa_cover {T : Type} (d : dfa T) : Prop :=
  ∀ p ∈ d._nodes, p ≠ d._initial →
    ∃ q ∈ d._nodes, ∃ t ∈ (dfa_at d.heap q).transitions, t.next = p

/-- The partition `Gamma` with its map: no block is empty, no state occurs
twice, and the map sends a state to the position of its block. -/
structure part_ok (Gamma : List (List Nat)) (Map : List (Nat × Nat)) : Prop where
  blocks_ne : ∀ B ∈ Gamma, B ≠ []
  flat_nodup : Gamma.flatten.Nodup
  map_iff : ∀ x i, map_at Map x = some i ↔ ∃ B, Gamma[i]? = some B ∧ x ∈ B

/-- Two states lie in one block. -/
def same_block (Gamma : List (List Nat)) (x y : Nat) : Prop :=
  ∃ B ∈ Gamma, x ∈ B ∧ y ∈ B

/-- The test `equiv` always answers on the states `N` and is an equivalence
relation there. -/
structure equiv_on (equiv : Nat → Nat → Option Bool) (N : List Nat) : Prop where
  total : ∀ x ∈ N, ∀ y ∈ N, ∃ b, equiv x y = some b
  refl : ∀ x ∈ N, equiv x x = some true
  symm : ∀ x ∈ N, ∀ y ∈ N, equiv x y = some true → equiv y x = some true
  trans : ∀ x ∈ N, ∀ y ∈ N, ∀ z ∈ N, equiv x y = some true → equiv y z = some true →
    equiv x z = some true

/-- The block (as numbered by `Map`) that the state `p` moves to on the symbol
`s`; `none` when `p` has no transition on `s`. -/
def step_block (heap : List dfa_node) (Map : List (Nat × Nat)) (p : Nat) (s : Int) :
    Option Nat :=
  (dfa_step heap p s).bind (map_at Map)

/-- The partition is stable: two states of one block move, on every symbol,
into the same block or both nowhere. -/
def part_stable (heap : List dfa_node) (Gamma : List (List Nat)) (Map : List (Nat × Nat)) :
    Prop :=
  ∀ x y, same_block Gamma x y → ∀ s, step_block heap Map x s = step_block heap Map y s

/-- Two states of `N` in different blocks are told apart by some string. -/
def part_separated {T : Type} [TokenInfo T] (nfa : List (nfa_node T)) (heap : List dfa_node)
    (N : List Nat) (Gamma : List (List Nat)) : Prop :=
  ∀ x ∈ N, ∀ y ∈ N, ¬ same_block Gamma x y → ∃ w, ¬ runs_agree nfa heap x y w

/-- The representative of the block of `x`: the first state of the block. -/
def rep_of (Gamma : List (List Nat)) (Map : List (Nat × Nat)) (x : Nat) : Nat :=
  match class_of Gamma Map x with
  | some (r :: _) => r
  | _ => x

/-- The states of the block of `x` other than its representative. -/
def tail_of (Gamma : List (List Nat)) (Map : List (Nat × Nat)) (x : Nat) : List Nat :=
  match class_of Gamma Map x with
  | some (_ :: others) => others
  | _ => []

/-- A transition with its target replaced by the representative of its block. -/
def retarget (Gamma : List (List Nat)) (Map : List (Nat × Nat)) (t : dfa_transition) :
    dfa_transition :=
  { t with next := rep_of Gamma Map t.next }

/-- What `optimize` leaves behind, in terms of the final partition: the dead
states are the non-representatives of the targeted blocks, the surviving nodes
keep their NFA-state sets, their transitions are retargeted and aggregated. -/
structure optimize_result {T : Type} (d : dfa T) (Gamma : List (List Nat))
    (Map : List (Nat × Nat)) (d1 : dfa T) : Prop where
  nfa_eq : d1.nfa = d.nfa
  length_eq : d1.heap.length = d.heap.length
  initial_eq : d1._initial = rep_of Gamma Map d._initial
  nodes_eq : ∃ dead : List Nat, d1._nodes = d._nodes.filter (fun n => decide (n ∉ dead)) ∧
    ∀ y, y ∈ dead ↔
      ∃ p ∈ d._nodes, ∃ t ∈ (dfa_at d.heap p).transitions, y ∈ tail_of Gamma Map t.next
  nodes_field : ∀ p, (dfa_at d1.heap p).nodes = (dfa_at d.heap p).nodes
  transitions_eq : ∀ p ∈ d1._nodes, (dfa_at d1.heap p).transitions =
    aggregate_node ((dfa_at d.heap p).transitions.map (retarget Gamma Map))

/-- The table transition that `generate` makes of a DFA transition. -/
def table_transition (index : List (Nat × Nat)) (t : dfa_transition) : lexer_transition :=
  ⟨t.characters, index_at index t.next⟩

/-- The table entry that `generate` makes of the DFA state `s`. -/
def table_node {α : Type} [Inhabited α] (nfa : List (nfa_node (basic_token_info α)))
    (heap : List dfa_node) (index : List (Nat × Nat)) (s : Nat) : lexer_node α :=
  { lexer_node.ctor nfa (dfa_at heap s) with
    transitions := (dfa_at heap s).transitions.map (table_transition index) }

mutual
/-- Every character set of the AST is made of non-empty closed intervals. -/
def regex_wf : regex_node → Prop
  | .character_set char_set => ∀ i ∈ char_set, closed_interval i
  | .operand child _ => regex_wf child
  | .concatenate terms => regex_wf_list terms
  | .alternative alternatives => regex_wf_list alternatives

/-- Every AST of the list satisfies `regex_wf`. -/
def regex_wf_list : List regex_node → Prop
  | [] => True
  | t :: ts => regex_wf t ∧ regex_wf_list ts
end

/-- A transition that may be stored in an arena of `n` nodes. -/
def transition_ok (n : Nat) (t : nfa_transition) : Prop :=
  t.next < n ∧ (t.epsilon = true → t.characters = []) ∧
    ∀ i ∈ t.characters, i.is_closed = true ∧ i.lower ≤ i.upper

/-- What `regex_node::nfa()` keeps: the arena stays well formed and only grows,
and the segment lies in it. -/
def segment_ok {T : Type} [TokenInfo T] (heap : List (nfa_node T))
    (r : nfa_segment × List (nfa_node T)) : Prop :=
  nfa_wf r.2 ∧ heap.length ≤ r.2.length ∧ r.1.begin < r.2.length ∧ r.1.end < r.2.length


/-- The laws of `operator<` that `std::min_element` relies on. -/
class TokenInfoOrder (T : Type) [TokenInfo T] : Prop where
  lt_irrefl : ∀ a : T, TokenInfo.lt a a = false
  lt_trans : ∀ a b c : T, TokenInfo.lt a b = true → TokenInfo.lt b c = true →
    TokenInfo.lt a c = true

instance (α : Type) [Inhabited α] : TokenInfoOrder (basic_token_info α) where
  lt_irrefl a := by simp [TokenInfo.lt]
  lt_trans a b c h1 h2 := by simp [TokenInfo.lt] at h1 h2 ⊢; omega

/-! ## Surface syntax of character classes -/

/-- A character of a class as it is written: plain, or after a backslash. -/
inductive class_char
  | plain (c : Int)
  | escaped (c : Int)
deriving DecidableEq, Repr

/-- The character that is meant. -/
def class_char.val : class_char → Int
  | .plain c => c
  | .escaped c => c

/-- The characters that are written. -/
def class_char.render : class_char → List Int
  | .plain c => [c]
  | .escaped c => [ch '\\', c]

/-- A plain character is a literal when it is none of `]`, `\` and `-`; an
escaped character is always a literal. -/
def class_char.literal : class_char → Prop
  | .plain c => c ≠ ch ']' ∧ c ≠ ch '\\' ∧ c ≠ ch '-'
  | .escaped _ => True

instance (c : class_char) : Decidable c.literal := by
  cases c <;> unfold class_char.literal <;> infer_instance

/-- A class atom: a single literal or escaped character, or a range `lo-hi`. -/
inductive class_atom
  | single (c : class_char)
  | range (lo hi : class_char)
deriving DecidableEq, Repr

/-- The characters that are written for an atom. -/
def class_atom.render : class_atom → List Int
  | .single c => c.render
  | .range lo hi => lo.render ++ ch '-' :: hi.render

/-- The symbols that an atom denotes. -/
def class_atom.mem (s : Int) : class_atom → Prop
  | .single c => s = c.val
  | .range lo hi => lo.val ≤ s ∧ s ≤ hi.val

instance (s : Int) (a : class_atom) : Decidable (a.mem s) := by
  cases a <;> unfold class_atom.mem <;> infer_instance

/-- An atom is well written: its characters are literals, and a range has
`lo ≤ hi`. -/
def class_atom.valid : class_atom → Prop
  | .single c => c.literal
  | .range lo hi => lo.literal ∧ hi.literal ∧ lo.val ≤ hi.val

instance (a : class_atom) : Decidable a.valid := by
  cases a <;> unfold class_atom.valid <;> infer_instance

/-- The body of the class that lists the given atoms. -/
def class_body : List class_atom → List Int
  | [] => []
  | a :: rest => a.render ++ class_body rest

/-- The change that reading one atom makes to the character set of
`parse_char_range`: the first character is handled as a single character, and
for a range the interval is handled after it. -/
def class_atom.apply (complement : Bool) (char_set : interval_set) : class_atom → interval_set
  | .single c => char_range_single complement char_set c.val
  | .range lo hi =>
    char_range_interval complement (char_range_single complement char_set lo.val) lo.val hi.val

/-- The position `p` of `regex2` shows the parser what the position `q` of
`regex1` shows: the same character, and the same answer to `begin == end`. -/
def looks (regex2 : List Int) (p : Nat) (regex1 : List Int) (q : Nat) : Prop :=
  regex2[p]? = regex1[q]? ∧ (p = regex2.length ↔ q = regex1.length)

/-- A position where `parse_factor` stops: the end of the input, `)` or `|`. -/
def factor_stop (regex : List Int) (p : Nat) : Prop :=
  p = regex.length ∨ regex[p]? = some (ch ')') ∨ regex[p]? = some (ch '|')

/-- A position where `parse_term` adds no quantifier: the end of the input or a
character other than `+`, `*` and `?`. -/
def no_quantifier (regex : List Int) (p : Nat) : Prop :=
  p = regex.length ∨ ∃ c, regex[p]? = some c ∧ c ≠ ch '+' ∧ c ≠ ch '*' ∧ c ≠ ch '?'

/-- The characters at which `parse_atom` returns the null pointer. -/
def atom_stop (c : Int) : Prop :=
  c = ch '?' ∨ c = ch '*' ∨ c = ch ')' ∨ c = ch '+' ∨ c = ch '|'

instance (c : Int) : Decidable (atom_stop c) := by
  unfold atom_stop; infer_instance

/-- The quantifier characters and their operators. -/
def is_quantifier (c : Int) (oper : operator_type) : Prop :=
  (c = ch '+' ∧ oper = .plus) ∨ (c = ch '*' ∧ oper = .star) ∨ (c = ch '?' ∧ oper = .optional)

/-- The regexes `f1`, `f2`, ... each preceded by a bar: `|f1|f2...`. -/
def bar_tail : List (List Int) → List Int
  | [] => []
  | f :: rest => ch '|' :: (f ++ bar_tail rest)

/-- The regexes `f1`, `f2`, ... joined with bars: `f1|f2|...`. -/
def bar_join : List (List Int) → List Int
  | [] => []
  | f :: rest => f ++ bar_tail rest

/-- The intervals of the set are non-empty and stand in ascending order without
overlap. -/
def interval_set.ordered (s : interval_set) : Prop :=
  s.Pairwise (fun a b => a.last < b.first) ∧ ∀ j ∈ s, j.first ≤ j.last

/-! ## The language of a regex and the shape of a parsed AST -/

/-- Zero or more repetitions: the concatenations of finitely many words of `L`. -/
inductive star_lang (L : List Int → Prop) : List Int → Prop
  | nil : star_lang L []
  | app (u v : List Int) : L u → star_lang L v → star_lang L (u ++ v)

mutual
/-- The language that an AST denotes: a character set is one symbol of the
set, a concatenation is the concatenation of its terms, an alternative is the
union of its alternatives, and `+`, `*`, `?` are one or more, zero or more and
zero or one repetitions of the child. -/
def regex_lang : regex_node → List Int → Prop
  | .character_set char_set => fun w => ∃ s, w = [s] ∧ interval_set.mem s char_set
  | .operand child .plus => fun w =>
    ∃ u v, w = u ++ v ∧ regex_lang child u ∧ star_lang (regex_lang child) v
  | .operand child .star => star_lang (regex_lang child)
  | .operand child .optional => fun w => w = [] ∨ regex_lang child w
  | .concatenate terms => regex_lang_concat terms
  | .alternative alternatives => regex_lang_alt alternatives

/-- The concatenation of the languages of a list of terms. -/
def regex_lang_concat : List regex_node → List Int → Prop
  | [] => fun w => w = []
  | t :: ts => fun w => ∃ u v, w = u ++ v ∧ regex_lang t u ∧ regex_lang_concat ts v

/-- The union of the languages of a list of alternatives. -/
def regex_lang_alt : List regex_node → List Int → Prop
  | [] => fun _ => False
  | t :: ts => fun w => regex_lang t w ∨ regex_lang_alt ts w
end

/-- The node is not a concatenation. -/
def not_concat : regex_node → Prop
  | .concatenate _ => False
  | _ => True

mutual
/-- The shape of the ASTs that the parser builds: no term of a concatenation is
itself a concatenation. -/
def regex_shape : regex_node → Prop
  | .character_set _ => True
  | .operand child _ => regex_shape child
  | .concatenate terms => regex_shape_terms terms
  | .alternative alternatives => regex_shape_list alternatives

/-- The terms of a concatenation have the shape, and none is a concatenation. -/
def regex_shape_terms : List regex_node → Prop
  | [] => True
  | t :: ts => regex_shape t ∧ not_concat t ∧ regex_shape_terms ts

/-- The alternatives of an alternative have the shape. -/
def regex_shape_list : List regex_node → Prop
  | [] => True
  | t :: ts => regex_shape t ∧ regex_shape_list ts
end

/-- A path of the NFA with its number of transitions. -/
inductive nfa_path_n {T : Type} [TokenInfo T] (nfa : List (nfa_node T)) :
    Nat → List Int → Nat → Nat → Prop
  | nil (p : Nat) : nfa_path_n nfa p [] p 0
  | eps (p q r : Nat) (w : List Int) (t : nfa_transition) (n : Nat) :
      t ∈ (nfa_at nfa p).transitions → t.epsilon = true → t.next = q →
      nfa_path_n nfa q w r n → nfa_path_n nfa p w r (n + 1)
  | step (p q r : Nat) (s : Int) (w : List Int) (t : nfa_transition) (n : Nat) :
      t ∈ (nfa_at nfa p).transitions → t.epsilon = false → interval_set.mem s t.characters →
      t.next = q → nfa_path_n nfa q w r n → nfa_path_n nfa p (s :: w) r (n + 1)

/-- What `regex_node::nfa()` builds on the arena `heap`: the old nodes keep
their transitions, the transitions of the new nodes lead to new nodes, the
segment lies among the new nodes, its end has no transition, and the paths
from its begin to its end spell the language `L`. -/
structure segment_sound {T : Type} [TokenInfo T] (heap : List (nfa_node T))
    (r : nfa_segment × List (nfa_node T)) (L : List Int → Prop) : Prop where
  grow : heap.length ≤ r.2.length
  frame : ∀ p, p < heap.length → ∀ tr,
    tr ∈ (nfa_at r.2 p).transitions ↔ tr ∈ (nfa_at heap p).transitions
  closed : ∀ p, heap.length ≤ p → ∀ tr ∈ (nfa_at r.2 p).transitions,
    heap.length ≤ tr.next ∧ tr.next < r.2.length
  begin_in : heap.length ≤ r.1.begin ∧ r.1.begin < r.2.length
  end_in : heap.length ≤ r.1.end ∧ r.1.end < r.2.length
  end_free : ∀ tr, tr ∉ (nfa_at r.2 r.1.end).transitions
  lang : ∀ w, nfa_path r.2 r.1.begin w r.1.end ↔ L w

/-- What the loop of `alternative::nfa()` builds on the arena `Hk`: the old
nodes other than the begin of the result keep their transitions, the begin of
the result gains epsilon transitions to new nodes, the transitions of the new
nodes lead to new nodes or to the end of the result, and the words spelled from
the targets of the new transitions of the begin to the end are those of `L`. -/
structure alt_loop_sound {T : Type} [TokenInfo T] (Hk H2 : List (nfa_node T))
    (result : nfa_segment) (L : List Int → Prop) : Prop where
  grow : Hk.length ≤ H2.length
  mono : ∀ p tr, tr ∈ (nfa_at Hk p).transitions → tr ∈ (nfa_at H2 p).transitions
  frame : ∀ p, p < Hk.length → p ≠ result.begin →
    ∀ tr, tr ∈ (nfa_at H2 p).transitions → tr ∈ (nfa_at Hk p).transitions
  entry : ∀ tr, tr ∈ (nfa_at H2 result.begin).transitions →
    tr ∈ (nfa_at Hk result.begin).transitions ∨
      (tr.epsilon = true ∧ Hk.length ≤ tr.next ∧ tr.next < H2.length)
  closed : ∀ p, Hk.length ≤ p → ∀ tr ∈ (nfa_at H2 p).transitions,
    (Hk.length ≤ tr.next ∧ tr.next < H2.length) ∨ tr.next = result.end
  lang : ∀ w, (∃ tr, tr ∈ (nfa_at H2 result.begin).transitions ∧ Hk.length ≤ tr.next ∧
    nfa_path H2 tr.next w result.end) ↔ L w

/-- What the loop of `concatenate::nfa()` builds on the arena `Hk` from the node
`last`: the old nodes other than `last` keep their transitions, the transitions
of `last` and of the new nodes lead to new nodes, the end that is returned has
no transition, and the paths from `last` to this end spell the concatenation of
the languages of the terms. -/
structure concat_loop_sound {T : Type} [TokenInfo T] (Hk : List (nfa_node T)) (last : Nat)
    (r : Nat × List (nfa_node T)) (ts : List regex_node) : Prop where
  grow : Hk.length ≤ r.2.length
  end_lt : r.1 < r.2.length
  end_nil : ts = [] → r.1 = last
  end_cons : ts ≠ [] → Hk.length ≤ r.1
  mono : ∀ p tr, tr ∈ (nfa_at Hk p).transitions → tr ∈ (nfa_at r.2 p).transitions
  frame : ∀ p, p < Hk.length → p ≠ last →
    ∀ tr, tr ∈ (nfa_at r.2 p).transitions → tr ∈ (nfa_at Hk p).transitions
  end_free : ∀ tr, tr ∉ (nfa_at r.2 r.1).transitions
  closed : ∀ p, (p = last ∨ Hk.length ≤ p) → ∀ tr ∈ (nfa_at r.2 p).transitions,
    Hk.length ≤ tr.next ∧ tr.next < r.2.length
  lang : ∀ w, nfa_path r.2 last w r.1 ↔ regex_lang_concat ts w

/-! ## Concatenation by splicing and by epsilon edges -/

/-- The node is a concatenation without terms. -/
def empty_concat : regex_node → Prop
  | .concatenate [] => True
  | _ => False

mutual
/-- No term of a concatenation of the AST, at any depth, is a concatenation
without terms. -/
def regex_spliceable : regex_node → Prop
  | .character_set _ => True
  | .operand child _ => regex_spliceable child
  | .concatenate terms => regex_spliceable_terms terms
  | .alternative alternatives => regex_spliceable_list alternatives

/-- The terms of a concatenation are spliceable, and none is a concatenation
without terms. -/
def regex_spliceable_terms : List regex_node → Prop
  | [] => True
  | t :: ts => regex_spliceable t ∧ ¬ empty_concat t ∧ regex_spliceable_terms ts

/-- The alternatives of an alternative are spliceable. -/
def regex_spliceable_list : List regex_node → Prop
  | [] => True
  | t :: ts => regex_spliceable t ∧ regex_spliceable_list ts
end

/-- The loop of a concatenation as the specification describes its other
choice: the segment of every term is built by `regex_node::nfa()`, and an
epsilon edge leads from the previous end to the begin of the segment. -/
def concatenate_eps_loop {T : Type} [TokenInfo T] :
    List regex_node → Nat → List (nfa_node T) → Nat × List (nfa_node T)
  | [], last, heap => (last, heap)
  | node :: rest, last, heap =>
    let (child_nfa, heap) := regex_node.nfa node heap
    let heap := nfa_push heap last (nfa_transition.eps child_nfa.begin)
    concatenate_eps_loop rest child_nfa.end heap

/-- The segment of a concatenation chained with epsilon edges: a fresh head,
then the terms. -/
def concatenate_eps_nfa {T : Type} [TokenInfo T] (terms : List regex_node)
    (heap : List (nfa_node T)) : nfa_segment × List (nfa_node T) :=
  let first := heap.length
  let (last, heap) := concatenate_eps_loop terms first (heap ++ [nfa_node.fresh])
  (⟨first, last⟩, heap)

/-- What a loop that chains `n` segments builds on the arena `Hk` from the node
`last`: the old nodes other than `last` keep their transitions, the transitions
of `last` and of the new nodes lead to new nodes, the end that is returned has
no transition, and the paths from `last` to this end spell the language `L`. -/
structure chain_sound {T : Type} [TokenInfo T] (Hk : List (nfa_node T)) (last : Nat)
    (r : Nat × List (nfa_node T)) (n : Nat) (L : List Int → Prop) : Prop where
  grow : Hk.length ≤ r.2.length
  end_lt : r.1 < r.2.length
  end_nil : n = 0 → r.1 = last
  end_cons : n ≠ 0 → Hk.length ≤ r.1
  mono : ∀ p tr, tr ∈ (nfa_at Hk p).transitions → tr ∈ (nfa_at r.2 p).transitions
  frame : ∀ p, p < Hk.length → p ≠ last →
    ∀ tr, tr ∈ (nfa_at r.2 p).transitions → tr ∈ (nfa_at Hk p).transitions
  end_free : ∀ tr, tr ∉ (nfa_at r.2 r.1).transitions
  closed : ∀ p, (p = last ∨ Hk.length ≤ p) → ∀ tr ∈ (nfa_at r.2 p).transitions,
    Hk.length ≤ tr.next ∧ tr.next < r.2.length
  lang : ∀ w, nfa_path r.2 last w r.1 ↔ L w

/-! ## Epsilon reachability and the rounds of the minimiser -/

/-- The node `q` is reached from `p` by zero or more epsilon transitions. -/
inductive eps_reach {T : Type} [TokenInfo T] (nfa : List (nfa_node T)) : Nat → Nat → Prop
  | refl (p : Nat) : eps_reach nfa p p
  | tail (p q : Nat) (t : nfa_transition) :
      eps_reach nfa p q → t ∈ (nfa_at nfa q).transitions → t.epsilon = true →
      eps_reach nfa p t.next

/-- The test that a round of `optimize` applies: the terminal test in the
first round, `check_equivalence` with the map of the previous round after it. -/
def round_equiv {T : Type} [TokenInfo T] (d : dfa T) (initialPartition : Bool)
    (Map : List (Nat × Nat)) : Nat → Nat → Option Bool :=
  if initialPartition then fun pivot it => some (terminal_equiv d.nfa d.heap pivot it)
  else fun pivot it => check_equivalence d.heap pivot it Map

/-- The values of `initialPartition`, `Gamma` and `Map` at the start of a round
of the `while (true)` loop of `optimize`: the first round starts from the one
block `_nodes` and an empty map; a round that changes the number of blocks is
followed by one that starts from `newGamma` and `newMap`. -/
inductive optimize_round {T : Type} [TokenInfo T] (d : dfa T) :
    Bool → List (List Nat) → List (Nat × Nat) → Prop
  | first : optimize_round d true [d._nodes] []
  | next (initialPartition : Bool) (Gamma : List (List Nat)) (Map : List (Nat × Nat))
      (newGamma : List (List Nat)) (newMap : List (Nat × Nat)) :
      optimize_round d initialPartition Gamma Map →
      refine_round (round_equiv d initialPartition Map) Gamma ([], []) =
        some (newGamma, newMap) →
      newGamma.length ≠ Gamma.length →
      optimize_round d false newGamma newMap
/-! ## Example inputs -/

/-- The productions of scenario S6: `WS` (payload 0) and `ID` (payload 1). -/
def ws_id_productions : List (lexer_production Nat) :=
  [⟨str "[ \t\n\r]+", 0⟩, ⟨str "[a-zA-Z_][a-zA-Z0-9_]*", 1⟩]


/-- The AST of the regex `(a|b)*c`. -/
def ab_star_c : regex_node :=
  regex_node.alternative [regex_node.concatenate
    [regex_node.operand (regex_node.alternative
      [regex_node.concatenate
        [regex_node.character_set [discrete_interval.closed (ch 'a') (ch 'a')]],
       regex_node.concatenate
        [regex_node.character_set [discrete_interval.closed (ch 'b') (ch 'b')]]])
      operator_type.star,
     regex_node.character_set [discrete_interval.closed (ch 'c') (ch 'c')]]]

/-- The production of scenario S5: a JSON number. -/
def json_number : List Int :=
  str "-?(0|[1-9][0-9]*)(\\.[0-9]+)?([Ee][+\\-]?(0|[1-9][0-9]*))?"

/-- The `NUMBER` production as the example `codegen_cpp_json.cpp` writes it, with
the dot not escaped. -/
def json_number_example : List Int :=
  str "-?(0|[1-9][0-9]*)(.[0-9]+)?([Ee][+\\-]?(0|[1-9][0-9]*))?"

/-- The table that `generate()` returns for `json_number` with payload 7. -/
def json_number_table : lexer Nat :=
  ⟨[⟨[⟨[discrete_interval.closed 45 45], 1⟩, ⟨[discrete_interval.closed 48 48], 2⟩,
        ⟨[discrete_interval.closed 49 57], 3⟩], false, 0⟩,
    ⟨[⟨[discrete_interval.closed 48 48], 2⟩, ⟨[discrete_interval.closed 49 57], 3⟩], false, 0⟩,
    ⟨[⟨[discrete_interval.closed 46 46], 4⟩,
        ⟨[discrete_interval.closed 69 69, discrete_interval.closed 101 101], 5⟩], true, 7⟩,
    ⟨[⟨[discrete_interval.closed 48 57], 3⟩, ⟨[discrete_interval.closed 46 46], 4⟩,
        ⟨[discrete_interval.closed 69 69, discrete_interval.closed 101 101], 5⟩], true, 7⟩,
    ⟨[⟨[discrete_interval.closed 48 57], 6⟩], false, 0⟩,
    ⟨[⟨[discrete_interval.closed 43 43, discrete_interval.closed 45 45], 7⟩,
        ⟨[discrete_interval.closed 48 48], 8⟩, ⟨[discrete_interval.closed 49 57], 9⟩], false, 0⟩,
    ⟨[⟨[discrete_interval.closed 69 69, discrete_interval.closed 101 101], 5⟩,
        ⟨[discrete_interval.closed 48 57], 6⟩], true, 7⟩,
    ⟨[⟨[discrete_interval.closed 48 48], 8⟩, ⟨[discrete_interval.closed 49 57], 9⟩], false, 0⟩,
    ⟨[], true, 7⟩,
    ⟨[⟨[discrete_interval.closed 48 57], 9⟩], true, 7⟩], 0⟩

/-- The character set `{a}` as an AST. -/
def letter_a : regex_node :=
  regex_node.character_set [discrete_interval.closed (ch 'a') (ch 'a')]

/-- The character set `{b}` as an AST. -/
def letter_b : regex_node :=
  regex_node.character_set [discrete_interval.closed (ch 'b') (ch 'b')]

/-- The terms of a concatenation whose first term is a concatenation without
terms: `Concat[Concat[], a]`. -/
def empty_then_a : List regex_node := [regex_node.concatenate [], letter_a]

/-- The terms `a` and `Concat[b]`: a concatenation nested in a concatenation. -/
def a_then_b : List regex_node := [letter_a, regex_node.concatenate [letter_b]]

/-- Two DFA states that step to each other on `a`. -/
def mirror_states : List dfa_node :=
  [⟨[0], [⟨[discrete_interval.closed 97 97], 1⟩]⟩, ⟨[1], [⟨[discrete_interval.closed 97 97], 0⟩]⟩]

/-- An NFA arena with a cycle of epsilon transitions between the nodes 0 and 1
and a labelled transition from 1 to 2. -/
def eps_cycle : List (nfa_node (basic_token_info Nat)) :=
  [⟨false, ⟨0, 0⟩, [nfa_transition.eps 1]⟩,
    ⟨false, ⟨0, 0⟩,
      [nfa_transition.eps 0, nfa_transition.labelled [discrete_interval.closed 97 97] 2]⟩,
    ⟨true, ⟨0, 0⟩, []⟩]

/-- The NFA of the single production `(ab?)?`. -/
def optional_ab_nfa : nfa (basic_token_info Nat) :=
  match nfa.ctor char8 [⟨⟨0, 7⟩, str "(ab?)?"⟩] with
  | .ok n => n
  | .error _ => ⟨[], 0⟩

/-- The DFA that the constructor builds from `optional_ab_nfa`. -/
def optional_ab_dfa : dfa (basic_token_info Nat) :=
  match dfa.ctor optional_ab_nfa.heap optional_ab_nfa._start with
  | some d => d
  | none => ⟨[], [], [], 0⟩
/-! # Theorems -/

/-! ## Sorting -/

theorem sort_insert_perm {α : Type} (lt : α → α → Bool) (x : α) (l : List α) :
    (sort_insert lt x l).Perm (x :: l) := by
  induction l with
  | nil => simp [sort_insert]
  | cons y ys ih =>
    simp only [sort_insert]
    split
    · exact List.Perm.refl _
    · exact (List.Perm.cons y ih).trans (List.Perm.swap x y ys)

theorem std_sort_perm {α : Type} (lt : α → α → Bool) (l : List α) :
    (std_sort lt l).Perm l := by
  induction l with
  | nil => simp [std_sort]
  | cons x xs ih =>
    have h : std_sort lt (x :: xs) = sort_insert lt x (std_sort lt xs) := rfl
    rw [h]
    exact (sort_insert_perm lt x _).trans (List.Perm.cons x ih)

theorem mem_std_sort {α : Type} (lt : α → α → Bool) (l : List α) (a : α) :
    a ∈ std_sort lt l ↔ a ∈ l :=
  (std_sort_perm lt l).mem_iff

theorem sort_insert_sorted {α : Type} (lt : α → α → Bool)
    (hasymm : ∀ a b, lt a b = true → lt b a = false)
    (htrans : ∀ a b c, lt b a = false → lt c b = false → lt c a = false)
    (x : α) (l : List α) (hl : l.Pairwise (fun a b => lt b a = false)) :
    (sort_insert lt x l).Pairwise (fun a b => lt b a = false) := by
  induction l with
  | nil => simp [sort_insert]
  | cons y ys ih =>
    rw [List.pairwise_cons] at hl
    simp only [sort_insert]
    split
    · rename_i hxy
      refine List.pairwise_cons.2 ⟨?_, List.pairwise_cons.2 hl⟩
      intro z hz
      rcases List.mem_cons.1 hz with rfl | hz
      · exact hasymm _ _ hxy
      · exact htrans _ _ _ (hasymm _ _ hxy) (hl.1 z hz)
    · rename_i hxy
      refine List.pairwise_cons.2 ⟨?_, ih hl.2⟩
      intro z hz
      rcases List.mem_cons.1 ((sort_insert_perm lt x ys).mem_iff.1 hz) with rfl | hz
      · simpa using hxy
      · exact hl.1 z hz

theorem std_sort_sorted {α : Type} (lt : α → α → Bool)
    (hasymm : ∀ a b, lt a b = true → lt b a = false)
    (htrans : ∀ a b c, lt b a = false → lt c b = false → lt c a = false)
    (l : List α) : (std_sort lt l).Pairwise (fun a b => lt b a = false) := by
  induction l with
  | nil => simp [std_sort]
  | cons x xs ih =>
    have h : std_sort lt (x :: xs) = sort_insert lt x (std_sort lt xs) := rfl
    rw [h]
    exact sort_insert_sorted lt hasymm htrans x _ ih

theorem event_lt_asymm (a b : Bool × Int) (h : event_lt a b = true) : event_lt b a = false := by
  obtain ⟨a1, a2⟩ := a
  obtain ⟨b1, b2⟩ := b
  simp only [event_lt, Bool.or_eq_true, Bool.and_eq_true, decide_eq_true_eq,
    Bool.not_eq_true', Bool.or_eq_false_iff, Bool.and_eq_false_imp, decide_eq_false_iff_not] at *
  rcases h with h | ⟨h1, h2, h3⟩
  · constructor
    · omega
    · intro h4; omega
  · subst h1
    constructor
    · omega
    · intro _ h5; simp [h2] 

theorem event_lt_trans (a b c : Bool × Int) (h1 : event_lt b a = false)
    (h2 : event_lt c b = false) : event_lt c a = false := by
  obtain ⟨a1, a2⟩ := a
  obtain ⟨b1, b2⟩ := b
  obtain ⟨c1, c2⟩ := c
  simp only [event_lt, Bool.or_eq_false_iff, Bool.and_eq_false_imp, decide_eq_false_iff_not,
    decide_eq_true_eq, Bool.and_eq_true, Bool.not_eq_true'] at *
  obtain ⟨h1a, h1b⟩ := h1
  obtain ⟨h2a, h2b⟩ := h2
  constructor
  · omega
  · intro h3
    subst h3
    have hb : b2 = c2 := by omega
    subst hb
    have h1c := h1b rfl
    have h2c := h2b rfl
    cases a1 <;> cases b1 <;> cases c1 <;> simp_all

theorem sorted_events (l : List (Bool × Int)) :
    (std_sort event_lt l).Pairwise (fun a b => event_lt b a = false) :=
  std_sort_sorted event_lt event_lt_asymm event_lt_trans l

/-! ## The sweep of make_disjoint -/

theorem event_resume_mono (a b : Bool × Int) (h : event_lt b a = false) :
    event_resume a ≤ event_resume b := by
  obtain ⟨a1, a2⟩ := a
  obtain ⟨b1, b2⟩ := b
  simp only [event_lt, Bool.or_eq_false_iff, Bool.and_eq_false_imp, decide_eq_false_iff_not,
    decide_eq_true_eq, Bool.and_eq_true, Bool.not_eq_true'] at h
  obtain ⟨h1, h2⟩ := h
  simp only [event_resume]
  by_cases he : b2 = a2
  · have := h2 he
    cases a1 <;> cases b1 <;> simp_all
  · cases a1 <;> cases b1 <;> simp <;> omega

theorem event_beyond_mono (x : Int) (a b : Bool × Int) (h : event_lt b a = false)
    (ha : event_beyond x a) : event_beyond x b := by
  obtain ⟨a1, a2⟩ := a
  obtain ⟨b1, b2⟩ := b
  simp only [event_lt, Bool.or_eq_false_iff, Bool.and_eq_false_imp, decide_eq_false_iff_not,
    decide_eq_true_eq, Bool.and_eq_true, Bool.not_eq_true'] at h
  obtain ⟨h1, h2⟩ := h
  simp only [event_beyond] at *
  by_cases he : b2 = a2
  · have := h2 he
    cases a1 <;> cases b1 <;> simp_all <;> omega
  · cases a1 <;> cases b1 <;> simp_all <;> omega

theorem event_weight_beyond (x : Int) (e : Bool × Int) (h : event_beyond x e) :
    event_weight x e = 0 := by
  obtain ⟨e1, e2⟩ := e
  cases e1 <;> simp_all [event_beyond, event_weight]

theorem event_weight_not_beyond (x : Int) (e : Bool × Int) (h : ¬ event_beyond x e) :
    event_weight x e = if e.1 then 1 else -1 := by
  obtain ⟨e1, e2⟩ := e
  cases e1 <;> simp_all [event_beyond, event_weight]

theorem not_beyond_iff_resume (x : Int) (e : Bool × Int) :
    ¬ event_beyond x e ↔ event_resume e ≤ x := by
  obtain ⟨e1, e2⟩ := e
  cases e1 <;> simp [event_beyond, event_resume] <;> omega

theorem coverage_cons (x : Int) (e : Bool × Int) (l : List (Bool × Int)) :
    coverage x (e :: l) = event_weight x e + coverage x l := by
  simp [coverage]

theorem coverage_beyond (x : Int) (l : List (Bool × Int))
    (h : ∀ e ∈ l, event_beyond x e) : coverage x l = 0 := by
  induction l with
  | nil => simp [coverage]
  | cons e l ih =>
    rw [coverage_cons, event_weight_beyond x e (h e (List.mem_cons_self _ _)),
      ih (fun e1 h1 => h e1 (List.mem_cons_of_mem _ h1))]
    simp

theorem coverage_perm (x : Int) (l1 l2 : List (Bool × Int)) (h : l1.Perm l2) :
    coverage x l1 = coverage x l2 := by
  unfold coverage
  exact (h.map _).sum_eq

theorem sweep_emitted_cons (depth : Int) (last current : Bool × Int) (rest : List (Bool × Int)) :
    sweep_emitted depth last (current :: rest) =
      (if depth ≠ 0 ∧ event_resume last ≤ current.2 - (if current.1 then 1 else 0) then
          [discrete_interval.closed (event_resume last) (current.2 - (if current.1 then 1 else 0))]
        else []) ++
      sweep_emitted (if current.1 then depth + 1 else depth - 1) current rest := rfl

/-- Every emitted interval is closed and non-empty, starts at or after the
resume point of the previous event, and no later event falls strictly inside. -/
theorem sweep_emitted_bounds (rest : List (Bool × Int)) :
    ∀ (depth : Int) (last : Bool × Int),
      (last :: rest).Pairwise (fun a b => event_lt b a = false) →
      ∀ I ∈ sweep_emitted depth last rest,
        I.is_closed = true ∧ I.lower ≤ I.upper ∧ event_resume last ≤ I.lower ∧
        (∀ e ∈ rest, e.1 = true → ¬ (I.lower < e.2 ∧ e.2 ≤ I.upper)) ∧
        (∀ e ∈ rest, e.1 = false → ¬ (I.lower ≤ e.2 ∧ e.2 < I.upper)) := by
  induction rest with
  | nil => intro depth last _ I hI; simp [sweep_emitted] at hI
  | cons cur rest ih =>
    intro depth last hs I hI
    rw [sweep_emitted_cons, List.mem_append] at hI
    have hs2 : (cur :: rest).Pairwise (fun a b => event_lt b a = false) :=
      (List.pairwise_cons.1 hs).2
    have hlc : event_lt cur last = false := (List.pairwise_cons.1 hs).1 cur (List.mem_cons_self _ _)
    rcases hI with hI | hI
    · by_cases hcond : depth ≠ 0 ∧ event_resume last ≤ cur.2 - (if cur.1 then 1 else 0)
      · rw [if_pos hcond] at hI
        simp only [List.mem_singleton] at hI
        subst hI
        refine ⟨rfl, hcond.2, le_refl _, ?_, ?_⟩
        · intro e he he1 hin
          simp only [discrete_interval.closed] at hin
          have hce : event_lt e cur = false := by
            rcases List.mem_cons.1 he with rfl | he
            · obtain ⟨e1, e2⟩ := e
              simp [event_lt]
            · exact (List.pairwise_cons.1 hs2).1 e he
          obtain ⟨c1, c2⟩ := cur
          obtain ⟨e1, e2⟩ := e
          simp only [event_lt, Bool.or_eq_false_iff, Bool.and_eq_false_imp,
            decide_eq_false_iff_not, decide_eq_true_eq, Bool.and_eq_true,
            Bool.not_eq_true'] at hce
          simp only at he1
          subst he1
          cases c1
          · simp at hin hce
            have := hce.2
            omega
          · simp at hin hce
            omega
        · intro e he he1 hin
          simp only [discrete_interval.closed] at hin
          have hce : event_lt e cur = false := by
            rcases List.mem_cons.1 he with rfl | he
            · obtain ⟨e1, e2⟩ := e
              simp [event_lt]
            · exact (List.pairwise_cons.1 hs2).1 e he
          obtain ⟨c1, c2⟩ := cur
          obtain ⟨e1, e2⟩ := e
          simp only [event_lt, Bool.or_eq_false_iff, Bool.and_eq_false_imp,
            decide_eq_false_iff_not, decide_eq_true_eq, Bool.and_eq_true,
            Bool.not_eq_true'] at hce
          simp only at he1
          subst he1
          cases c1 <;> simp at hin hce <;> omega
      · rw [if_neg hcond] at hI
        simp at hI
    · obtain ⟨h1, h2, h3, h4, h5⟩ := ih _ cur hs2 I hI
      have hmono := event_resume_mono last cur hlc
      refine ⟨h1, h2, le_trans hmono h3, ?_, ?_⟩
      · intro e he he1 hin
        rcases List.mem_cons.1 he with rfl | he
        · obtain ⟨e1, e2⟩ := e
          simp only at he1
          subst he1
          simp [event_resume] at h3
          omega
        · exact h4 e he he1 hin
      · intro e he he1 hin
        rcases List.mem_cons.1 he with rfl | he
        · obtain ⟨e1, e2⟩ := e
          simp only at he1
          subst he1
          simp [event_resume] at h3
          omega
        · exact h5 e he he1 hin

/-- Emitted intervals come in strictly ascending order. -/
theorem sweep_emitted_ascending (rest : List (Bool × Int)) :
    ∀ (depth : Int) (last : Bool × Int),
      (last :: rest).Pairwise (fun a b => event_lt b a = false) →
      (sweep_emitted depth last rest).Pairwise (fun I J => I.upper < J.lower) := by
  induction rest with
  | nil => intro depth last _; simp [sweep_emitted]
  | cons cur rest ih =>
    intro depth last hs
    have hs2 : (cur :: rest).Pairwise (fun a b => event_lt b a = false) :=
      (List.pairwise_cons.1 hs).2
    rw [sweep_emitted_cons]
    by_cases hcond : depth ≠ 0 ∧ event_resume last ≤ cur.2 - (if cur.1 then 1 else 0)
    · rw [if_pos hcond, List.singleton_append, List.pairwise_cons]
      refine ⟨?_, ih _ cur hs2⟩
      intro J hJ
      have h3 := (sweep_emitted_bounds rest _ cur hs2 J hJ).2.2.1
      obtain ⟨c1, c2⟩ := cur
      cases c1 <;> simp [event_resume, discrete_interval.closed] at h3 ⊢ <;> omega
    · rw [if_neg hcond, List.nil_append]
      exact ih _ cur hs2

/-- A symbol of an emitted interval is covered by an open input interval. -/
theorem sweep_emitted_covered (x : Int) (rest : List (Bool × Int)) :
    ∀ (depth : Int) (last : Bool × Int),
      (last :: rest).Pairwise (fun a b => event_lt b a = false) →
      ∀ I ∈ sweep_emitted depth last rest, I.lower ≤ x → x ≤ I.upper →
        depth + coverage x rest ≠ 0 := by
  induction rest with
  | nil => intro depth last _ I hI; simp [sweep_emitted] at hI
  | cons cur rest ih =>
    intro depth last hs I hI hlo hhi
    have hs2 : (cur :: rest).Pairwise (fun a b => event_lt b a = false) :=
      (List.pairwise_cons.1 hs).2
    rw [sweep_emitted_cons, List.mem_append] at hI
    rcases hI with hI | hI
    · by_cases hcond : depth ≠ 0 ∧ event_resume last ≤ cur.2 - (if cur.1 then 1 else 0)
      · rw [if_pos hcond] at hI
        simp only [List.mem_singleton] at hI
        subst hI
        simp only [discrete_interval.closed] at hlo hhi
        have hb : event_beyond x cur := by
          obtain ⟨c1, c2⟩ := cur
          cases c1 <;> simp [event_beyond] at hhi ⊢ <;> omega
        have hall : ∀ e ∈ cur :: rest, event_beyond x e := by
          intro e he
          rcases List.mem_cons.1 he with rfl | he
          · exact hb
          · exact event_beyond_mono x cur e ((List.pairwise_cons.1 hs2).1 e he) hb
        rw [coverage_beyond x _ hall]
        simpa using hcond.1
      · rw [if_neg hcond] at hI
        simp at hI
    · have h3 := (sweep_emitted_bounds rest _ cur hs2 I hI).2.2.1
      have hnb : ¬ event_beyond x cur := (not_beyond_iff_resume x cur).2 (by omega)
      have := ih _ cur hs2 I hI hlo hhi
      rw [coverage_cons, event_weight_not_beyond x cur hnb]
      split <;> rename_i hc <;> simp [hc] at this <;> omega

/-- A symbol covered by an open input interval lies in an emitted interval. -/
theorem sweep_emitted_covers (x : Int) (rest : List (Bool × Int)) :
    ∀ (depth : Int) (last : Bool × Int),
      (last :: rest).Pairwise (fun a b => event_lt b a = false) →
      event_resume last ≤ x → depth + coverage x rest ≠ 0 →
      (∃ e ∈ rest, event_beyond x e) →
      ∃ I ∈ sweep_emitted depth last rest, I.lower ≤ x ∧ x ≤ I.upper := by
  induction rest with
  | nil => intro depth last _ _ _ h; obtain ⟨e, he, _⟩ := h; simp at he
  | cons cur rest ih =>
    intro depth last hs hres hcov hex
    have hs2 : (cur :: rest).Pairwise (fun a b => event_lt b a = false) :=
      (List.pairwise_cons.1 hs).2
    rw [sweep_emitted_cons]
    by_cases hb : event_beyond x cur
    · have hall : ∀ e ∈ cur :: rest, event_beyond x e := by
        intro e he
        rcases List.mem_cons.1 he with rfl | he
        · exact hb
        · exact event_beyond_mono x cur e ((List.pairwise_cons.1 hs2).1 e he) hb
      rw [coverage_beyond x _ hall] at hcov
      have hup : x ≤ cur.2 - (if cur.1 then 1 else 0) := by
        obtain ⟨c1, c2⟩ := cur
        cases c1 <;> simp [event_beyond] at hb ⊢ <;> omega
      have hcond : depth ≠ 0 ∧ event_resume last ≤ cur.2 - (if cur.1 then 1 else 0) :=
        ⟨by simpa using hcov, by omega⟩
      refine ⟨discrete_interval.closed (event_resume last) (cur.2 - (if cur.1 then 1 else 0)),
        ?_, ?_, ?_⟩
      · rw [if_pos hcond]; simp
      · simpa [discrete_interval.closed] using hres
      · simpa [discrete_interval.closed] using hup
    · have hex2 : ∃ e ∈ rest, event_beyond x e := by
        obtain ⟨e, he, heb⟩ := hex
        rcases List.mem_cons.1 he with rfl | he
        · exact absurd heb hb
        · exact ⟨e, he, heb⟩
      have hcov2 : (if cur.1 then depth + 1 else depth - 1) + coverage x rest ≠ 0 := by
        rw [coverage_cons, event_weight_not_beyond x cur hb] at hcov
        split <;> rename_i hc <;> simp [hc] at hcov <;> omega
      obtain ⟨I, hI, h1, h2⟩ :=
        ih _ cur hs2 ((not_beyond_iff_resume x cur).1 hb) hcov2 hex2
      exact ⟨I, List.mem_append_right _ hI, h1, h2⟩

/-! ## make_disjoint: the set of intervals it returns -/

theorem make_events_eq (nodes : List (List interval_set)) :
    make_events nodes = (label_intervals nodes).flatMap interval_events := by
  unfold make_events label_intervals interval_events
  induction nodes with
  | nil => rfl
  | cons n ns ih =>
    simp only [List.flatMap_cons, List.flatMap_append, ih]
    congr 1
    induction n with
    | nil => rfl
    | cons t ts iht => simp only [List.flatMap_cons, List.flatMap_append, iht]

theorem mem_label_intervals (nodes : List (List interval_set)) (L : discrete_interval) :
    L ∈ label_intervals nodes ↔
      ∃ transitions ∈ nodes, ∃ characters ∈ transitions, L ∈ characters := by
  simp [label_intervals, List.mem_flatMap]

theorem event_weight_open (x p : Int) :
    event_weight x (true, p) = if p ≤ x then 1 else 0 := by
  simp [event_weight]

theorem event_weight_close (x p : Int) :
    event_weight x (false, p) = if p < x then -1 else 0 := by
  simp [event_weight]

theorem coverage_interval_events (x : Int) (l : List discrete_interval)
    (hl : ∀ L ∈ l, L.lower ≤ L.upper) :
    0 ≤ coverage x (l.flatMap interval_events) ∧
      (coverage x (l.flatMap interval_events) ≠ 0 ↔ ∃ L ∈ l, L.lower ≤ x ∧ x ≤ L.upper) := by
  induction l with
  | nil => simp [coverage]
  | cons L l ih =>
    have hL := hl L (List.mem_cons_self _ _)
    obtain ⟨ih1, ih2⟩ := ih (fun M hM => hl M (List.mem_cons_of_mem _ hM))
    have hc : coverage x ((L :: l).flatMap interval_events) =
        event_weight x (true, L.lower) + event_weight x (false, L.upper) +
          coverage x (l.flatMap interval_events) := by
      simp [List.flatMap_cons, interval_events, coverage, add_assoc]
    rw [hc]
    by_cases hin : L.lower ≤ x ∧ x ≤ L.upper
    · have hw : event_weight x (true, L.lower) + event_weight x (false, L.upper) = 1 := by
        rw [event_weight_open, event_weight_close, if_pos hin.1, if_neg (by omega)]
        simp
      rw [hw]
      refine ⟨by omega, ?_⟩
      constructor
      · intro _; exact ⟨L, List.mem_cons_self _ _, hin⟩
      · intro _; omega
    · have hw : event_weight x (true, L.lower) + event_weight x (false, L.upper) = 0 := by
        rw [event_weight_open, event_weight_close]
        by_cases h1 : L.lower ≤ x
        · have h2 : L.upper < x := by
            by_contra h; exact hin ⟨h1, by omega⟩
          simp [h1, h2]
        · have h2 : ¬ L.upper < x := by omega
          simp [h1, h2]
      rw [hw]
      refine ⟨by omega, ?_⟩
      rw [zero_add, ih2]
      constructor
      · rintro ⟨M, hM, h⟩; exact ⟨M, List.mem_cons_of_mem _ hM, h⟩
      · rintro ⟨M, hM, h⟩
        rcases List.mem_cons.1 hM with rfl | hM
        · exact absurd h hin
        · exact ⟨M, hM, h⟩

theorem interval_lt_of_below (y x : discrete_interval) (hy : closed_interval y)
    (hx : closed_interval x) (h : y.upper < x.lower) :
    discrete_interval.lt y x = true ∧ discrete_interval.lt x y = false := by
  obtain ⟨yl, yu, ylo, yro⟩ := y
  obtain ⟨xl, xu, xlo, xro⟩ := x
  simp only [closed_interval, discrete_interval.is_closed, Bool.and_eq_true,
    Bool.not_eq_true'] at hy hx
  obtain ⟨⟨h1, h2⟩, h3⟩ := hy
  obtain ⟨⟨h4, h5⟩, h6⟩ := hx
  simp only at h h1 h2 h3 h4 h5 h6
  subst h1 h2 h4 h5
  have e1 : discrete_interval.is_empty ⟨yl, yu, false, false⟩ = false := by
    simp [discrete_interval.is_empty, discrete_interval.first, discrete_interval.last]; omega
  have e2 : discrete_interval.is_empty ⟨xl, xu, false, false⟩ = false := by
    simp [discrete_interval.is_empty, discrete_interval.first, discrete_interval.last]; omega
  constructor
  · simp only [discrete_interval.lt, e1]
    simp [discrete_interval.first, discrete_interval.last]
    left; omega
  · simp only [discrete_interval.lt, e2]
    simp [discrete_interval.first, discrete_interval.last]
    constructor
    · omega
    · intro h7; omega

theorem std_set_insert_append (s : List discrete_interval) (x : discrete_interval)
    (h : ∀ y ∈ s, discrete_interval.lt y x = true ∧ discrete_interval.lt x y = false) :
    std_set_insert s x = s ++ [x] := by
  induction s with
  | nil => rfl
  | cons y ys ih =>
    obtain ⟨h1, h2⟩ := h y (List.mem_cons_self _ _)
    simp only [std_set_insert, h1, h2, if_true, Bool.false_eq_true, if_false, List.cons_append]
    rw [ih (fun z hz => h z (List.mem_cons_of_mem _ hz))]

theorem sweep_eq_append (rest : List (Bool × Int)) :
    ∀ (depth : Int) (last : Bool × Int) (dest : List discrete_interval),
      (last :: rest).Pairwise (fun a b => event_lt b a = false) →
      (∀ y ∈ dest, closed_interval y ∧ y.upper < event_resume last) →
      sweep depth last rest dest = dest ++ sweep_emitted depth last rest := by
  induction rest with
  | nil => intro depth last dest _ _; simp [sweep, sweep_emitted]
  | cons cur rest ih =>
    intro depth last dest hs hd
    have hs2 : (cur :: rest).Pairwise (fun a b => event_lt b a = false) :=
      (List.pairwise_cons.1 hs).2
    have hlc : event_lt cur last = false := (List.pairwise_cons.1 hs).1 cur (List.mem_cons_self _ _)
    have hmono := event_resume_mono last cur hlc
    have hstep : sweep depth last (cur :: rest) dest =
        sweep (if cur.1 then depth + 1 else depth - 1) cur rest
          (if depth ≠ 0 ∧ event_resume last ≤ cur.2 - (if cur.1 then 1 else 0) then
            std_set_insert dest
              (discrete_interval.closed (event_resume last) (cur.2 - (if cur.1 then 1 else 0)))
          else dest) := rfl
    rw [hstep, sweep_emitted_cons]
    by_cases hcond : depth ≠ 0 ∧ event_resume last ≤ cur.2 - (if cur.1 then 1 else 0)
    · rw [if_pos hcond, if_pos hcond]
      have hnew : closed_interval
          (discrete_interval.closed (event_resume last) (cur.2 - (if cur.1 then 1 else 0))) :=
        ⟨rfl, hcond.2⟩
      rw [std_set_insert_append dest _
        (fun y hy => interval_lt_of_below y _ (hd y hy).1 hnew (hd y hy).2)]
      rw [ih _ cur _ hs2]
      · simp
      · intro y hy
        rcases List.mem_append.1 hy with hy | hy
        · exact ⟨(hd y hy).1, lt_of_lt_of_le (hd y hy).2 hmono⟩
        · simp only [List.mem_singleton] at hy
          subst hy
          refine ⟨hnew, ?_⟩
          obtain ⟨c1, c2⟩ := cur
          cases c1 <;> simp [event_resume, discrete_interval.closed]
    · rw [if_neg hcond, if_neg hcond, List.nil_append]
      exact ih _ cur dest hs2 (fun y hy => ⟨(hd y hy).1, lt_of_lt_of_le (hd y hy).2 hmono⟩)

/-- The result of `make_disjoint` on an empty `dest`: nothing when there are no
events, else the intervals emitted by the sweep that starts at the first event. -/
theorem make_disjoint_cases (nodes : List (List interval_set)) :
    (std_sort event_lt (make_events nodes) = [] ∧ make_disjoint [] nodes = []) ∨
    ∃ e rest, std_sort event_lt (make_events nodes) = e :: rest ∧
      make_disjoint [] nodes = sweep_emitted (if e.1 then 0 + 1 else 0 - 1) e rest := by
  unfold make_disjoint
  cases hsort : std_sort event_lt (make_events nodes) with
  | nil => left; exact ⟨rfl, rfl⟩
  | cons e rest =>
    right
    refine ⟨e, rest, rfl, ?_⟩
    have hs : (e :: rest).Pairwise (fun a b => event_lt b a = false) := by
      rw [← hsort]; exact sorted_events _
    have hstep : sweep 0 (false, 0) (e :: rest) [] =
        sweep (if e.1 then 0 + 1 else 0 - 1) e rest [] := by
      simp [sweep]
    rw [hstep, sweep_eq_append rest _ e [] hs (by simp)]
    simp

theorem make_disjoint_closed (nodes : List (List interval_set)) :
    ∀ I ∈ make_disjoint [] nodes, closed_interval I := by
  intro I hI
  rcases make_disjoint_cases nodes with ⟨_, h⟩ | ⟨e, rest, hsort, h⟩
  · rw [h] at hI; simp at hI
  · rw [h] at hI
    have hs : (e :: rest).Pairwise (fun a b => event_lt b a = false) := by
      rw [← hsort]; exact sorted_events _
    obtain ⟨h1, h2, _⟩ := sweep_emitted_bounds rest _ e hs I hI
    exact ⟨h1, h2⟩

theorem make_disjoint_ascending (nodes : List (List interval_set)) :
    (make_disjoint [] nodes).Pairwise (fun I J => I.upper < J.lower) := by
  rcases make_disjoint_cases nodes with ⟨_, h⟩ | ⟨e, rest, hsort, h⟩
  · rw [h]; exact List.Pairwise.nil
  · rw [h]
    have hs : (e :: rest).Pairwise (fun a b => event_lt b a = false) := by
      rw [← hsort]; exact sorted_events _
    exact sweep_emitted_ascending rest _ e hs

/-- No end point of an input interval falls strictly inside an output interval. -/
theorem make_disjoint_no_boundary (nodes : List (List interval_set)) :
    ∀ I ∈ make_disjoint [] nodes, ∀ L ∈ label_intervals nodes,
      ¬ (I.lower < L.lower ∧ L.lower ≤ I.upper) ∧ ¬ (I.lower ≤ L.upper ∧ L.upper < I.upper) := by
  intro I hI L hL
  have hev1 : (true, L.lower) ∈ make_events nodes := by
    rw [make_events_eq, List.mem_flatMap]
    exact ⟨L, hL, by simp [interval_events]⟩
  have hev2 : (false, L.upper) ∈ make_events nodes := by
    rw [make_events_eq, List.mem_flatMap]
    exact ⟨L, hL, by simp [interval_events]⟩
  rcases make_disjoint_cases nodes with ⟨_, h⟩ | ⟨e, rest, hsort, h⟩
  · rw [h] at hI; simp at hI
  · rw [h] at hI
    have hs : (e :: rest).Pairwise (fun a b => event_lt b a = false) := by
      rw [← hsort]; exact sorted_events _
    obtain ⟨_, _, h3, h4, h5⟩ := sweep_emitted_bounds rest _ e hs I hI
    have hm1 : (true, L.lower) ∈ e :: rest := by
      rw [← hsort]; exact (mem_std_sort _ _ _).2 hev1
    have hm2 : (false, L.upper) ∈ e :: rest := by
      rw [← hsort]; exact (mem_std_sort _ _ _).2 hev2
    constructor
    · rcases List.mem_cons.1 hm1 with heq | hm
      · rw [← heq] at h3
        simp only [event_resume] at h3
        intro hc; simp at h3; omega
      · exact h4 _ hm rfl
    · rcases List.mem_cons.1 hm2 with heq | hm
      · rw [← heq] at h3
        simp only [event_resume] at h3
        intro hc; simp at h3; omega
      · exact h5 _ hm rfl

/-- A symbol lies in an output interval iff it lies in an input interval. -/
theorem make_disjoint_union (nodes : List (List interval_set))
    (hn : ∀ L ∈ label_intervals nodes, L.lower ≤ L.upper) (x : Int) :
    (∃ I ∈ make_disjoint [] nodes, I.lower ≤ x ∧ x ≤ I.upper) ↔
      (∃ L ∈ label_intervals nodes, L.lower ≤ x ∧ x ≤ L.upper) := by
  obtain ⟨hc0, hc⟩ := coverage_interval_events x (label_intervals nodes) hn
  rw [← make_events_eq] at hc0 hc
  have hperm := coverage_perm x _ _ (std_sort_perm event_lt (make_events nodes))
  rcases make_disjoint_cases nodes with ⟨hsort, h⟩ | ⟨e, rest, hsort, h⟩
  · rw [h]
    constructor
    · rintro ⟨I, hI, _⟩; simp at hI
    · intro hL
      have := hc.2 hL
      rw [← hperm, hsort] at this
      simp [coverage] at this
  · rw [h]
    have hs : (e :: rest).Pairwise (fun a b => event_lt b a = false) := by
      rw [← hsort]; exact sorted_events _
    rw [hsort, coverage_cons] at hperm
    constructor
    · rintro ⟨I, hI, hlo, hhi⟩
      apply hc.1
      have hcov := sweep_emitted_covered x rest _ e hs I hI hlo hhi
      have h3 := (sweep_emitted_bounds rest _ e hs I hI).2.2.1
      have hnb : ¬ event_beyond x e := (not_beyond_iff_resume x e).2 (by omega)
      rw [← hperm, event_weight_not_beyond x e hnb]
      split <;> rename_i hc1 <;> simp [hc1] at hcov <;> omega
    · intro hL
      have hne := hc.2 hL
      obtain ⟨L, hLm, hlo, hhi⟩ := hL
      have hev2 : (false, L.upper) ∈ e :: rest := by
        rw [← hsort, mem_std_sort, make_events_eq, List.mem_flatMap]
        exact ⟨L, hLm, by simp [interval_events]⟩
      have hbey : event_beyond x (false, L.upper) := by simpa [event_beyond] using hhi
      have hnb : ¬ event_beyond x e := by
        intro hb
        have hall : ∀ e1 ∈ e :: rest, event_beyond x e1 := by
          intro e1 he1
          rcases List.mem_cons.1 he1 with rfl | he1
          · exact hb
          · exact event_beyond_mono x e e1 ((List.pairwise_cons.1 hs).1 e1 he1) hb
        have h0 := coverage_beyond x _ hall
        rw [coverage_cons] at h0
        omega
      have hex : ∃ e1 ∈ rest, event_beyond x e1 := by
        rcases List.mem_cons.1 hev2 with heq | hm
        · rw [← heq] at hnb; exact absurd hbey hnb
        · exact ⟨_, hm, hbey⟩
      have hcov : (if e.1 then (0 : Int) + 1 else 0 - 1) + coverage x rest ≠ 0 := by
        rw [event_weight_not_beyond x e hnb] at hperm
        split <;> rename_i hc1 <;> simp [hc1] at hperm <;> omega
      exact sweep_emitted_covers x rest _ e hs ((not_beyond_iff_resume x e).1 hnb) hcov hex

theorem closed_interval_mem (x : Int) (L : discrete_interval) (h : L.is_closed = true) :
    discrete_interval.mem x L ↔ L.lower ≤ x ∧ x ≤ L.upper := by
  obtain ⟨l, u, lo, ro⟩ := L
  simp only [discrete_interval.is_closed, Bool.and_eq_true, Bool.not_eq_true'] at h
  obtain ⟨h1, h2⟩ := h
  subst h1 h2
  simp [discrete_interval.mem, discrete_interval.first, discrete_interval.last]

/-! ## Arena and set primitives -/

theorem modify_at_length {α : Type} (f : α → α) (l : List α) (p : Nat) :
    (modify_at f l p).length = l.length := by
  induction l generalizing p with
  | nil => rfl
  | cons x xs ih =>
    cases p with
    | zero => rfl
    | succ p => simp [modify_at, ih]

theorem modify_at_get {α : Type} (f : α → α) (l : List α) (p q : Nat) :
    (modify_at f l p)[q]? = if q = p then (l[p]?).map f else l[q]? := by
  induction l generalizing p q with
  | nil => simp [modify_at]
  | cons x xs ih =>
    cases p with
    | zero =>
      cases q with
      | zero => simp [modify_at]
      | succ q => simp [modify_at]
    | succ p =>
      cases q with
      | zero => simp [modify_at]
      | succ q => simp [modify_at, ih]

theorem dfa_at_modify (f : dfa_node → dfa_node) (heap : List dfa_node) (p q : Nat) :
    dfa_at (modify_at f heap p) q =
      if q = p ∧ p < heap.length then f (dfa_at heap p) else dfa_at heap q := by
  unfold dfa_at
  rw [modify_at_get]
  by_cases hq : q = p
  · subst hq
    by_cases hl : q < heap.length
    · simp [hl]
    · have hn : heap[q]? = none := List.getElem?_eq_none (by omega)
      simp [hl, hn]
  · simp [hq]

theorem dfa_at_append_left (heap more : List dfa_node) (p : Nat) (h : p < heap.length) :
    dfa_at (heap ++ more) p = dfa_at heap p := by
  unfold dfa_at
  rw [List.getElem?_append_left h]

theorem dfa_at_append_new (heap : List dfa_node) (n : dfa_node) :
    dfa_at (heap ++ [n]) heap.length = n := by
  unfold dfa_at
  simp

theorem dfa_at_mem (heap : List dfa_node) (p : Nat) (h : p < heap.length) :
    dfa_at heap p ∈ heap := by
  unfold dfa_at
  rw [List.getElem?_eq_getElem h]
  exact List.getElem_mem h

theorem nfa_at_mem {T : Type} [TokenInfo T] (nfa : List (nfa_node T)) (p : Nat)
    (h : p < nfa.length) : nfa_at nfa p ∈ nfa := by
  unfold nfa_at
  rw [List.getElem?_eq_getElem h]
  exact List.getElem_mem h

theorem nfa_at_transitions_valid {T : Type} [TokenInfo T] (nfa : List (nfa_node T))
    (hwf : nfa_wf nfa) (p : Nat) (t : nfa_transition) (ht : t ∈ (nfa_at nfa p).transitions) :
    t.next < nfa.length ∧ (t.epsilon = true → t.characters = []) ∧
      ∀ i ∈ t.characters, i.is_closed = true ∧ i.lower ≤ i.upper := by
  by_cases h : p < nfa.length
  · exact hwf _ (nfa_at_mem nfa p h) t ht
  · have : nfa_at nfa p = nfa_node.fresh := by
      unfold nfa_at
      rw [List.getElem?_eq_none (by omega)]
      rfl
    rw [this] at ht
    simp [nfa_node.fresh] at ht

theorem set_eq_iff (a b : List Nat) : set_eq a b = true ↔ ∀ x, x ∈ a ↔ x ∈ b := by
  simp only [set_eq, Bool.and_eq_true, List.all_eq_true, decide_eq_true_eq]
  constructor
  · rintro ⟨h1, h2⟩ x; exact ⟨h1 x, h2 x⟩
  · intro h; exact ⟨fun x hx => (h x).1 hx, fun x hx => (h x).2 hx⟩

theorem mem_uset_insert (s : List Nat) (x y : Nat) :
    y ∈ uset_insert s x ↔ y ∈ s ∨ y = x := by
  unfold uset_insert
  split
  · rename_i h
    constructor
    · exact Or.inl
    · rintro (h1 | rfl)
      · exact h1
      · exact h
  · simp

theorem uset_insert_nodup (s : List Nat) (x : Nat) (h : s.Nodup) : (uset_insert s x).Nodup := by
  unfold uset_insert
  split
  · exact h
  · rename_i hx
    rw [List.nodup_append]
    exact ⟨h, List.nodup_singleton x, by simpa using hx⟩

theorem mem_foldl_uset_insert (xs : List Nat) (s : List Nat) (y : Nat) :
    y ∈ xs.foldl uset_insert s ↔ y ∈ s ∨ y ∈ xs := by
  induction xs generalizing s with
  | nil => simp
  | cons x xs ih =>
    simp only [List.foldl_cons, ih, mem_uset_insert, List.mem_cons]
    constructor
    · rintro ((h | h) | h)
      · exact Or.inl h
      · exact Or.inr (Or.inl h)
      · exact Or.inr (Or.inr h)
    · rintro (h | h | h)
      · exact Or.inl (Or.inl h)
      · exact Or.inl (Or.inr h)
      · exact Or.inr h

theorem foldl_uset_insert_nodup (xs : List Nat) (s : List Nat) (h : s.Nodup) :
    (xs.foldl uset_insert s).Nodup := by
  induction xs generalizing s with
  | nil => exact h
  | cons x xs ih => exact ih _ (uset_insert_nodup s x h)

/-! ## Interval sets -/

theorem hull_first (j i : discrete_interval) :
    (discrete_interval.hull j i).first = if j.first ≤ i.first then j.first else i.first := by
  by_cases h : j.first ≤ i.first
  · have he : discrete_interval.hull j i =
        ⟨j.lower, (discrete_interval.hull j i).upper, j.left_open,
          (discrete_interval.hull j i).right_open⟩ := by
      simp [discrete_interval.hull, h]
    rw [he, if_pos h]; rfl
  · have he : discrete_interval.hull j i =
        ⟨i.lower, (discrete_interval.hull j i).upper, i.left_open,
          (discrete_interval.hull j i).right_open⟩ := by
      simp [discrete_interval.hull, h]
    rw [he, if_neg h]; rfl

theorem hull_last (j i : discrete_interval) :
    (discrete_interval.hull j i).last = if i.last ≤ j.last then j.last else i.last := by
  by_cases h : i.last ≤ j.last
  · have he : discrete_interval.hull j i =
        ⟨(discrete_interval.hull j i).lower, j.upper, (discrete_interval.hull j i).left_open,
          j.right_open⟩ := by
      simp [discrete_interval.hull, h]
    rw [he, if_pos h]; rfl
  · have he : discrete_interval.hull j i =
        ⟨(discrete_interval.hull j i).lower, i.upper, (discrete_interval.hull j i).left_open,
          i.right_open⟩ := by
      simp [discrete_interval.hull, h]
    rw [he, if_neg h]; rfl

theorem hull_mem (j i : discrete_interval) (hi : i.is_empty = false)
    (h1 : ¬ i.last + 1 < j.first) (h2 : ¬ j.last + 1 < i.first) (x : Int) :
    discrete_interval.mem x (discrete_interval.hull j i) ↔
      discrete_interval.mem x j ∨ discrete_interval.mem x i := by
  simp only [discrete_interval.is_empty, decide_eq_false_iff_not] at hi
  have hf := hull_first j i
  have hl := hull_last j i
  simp only [discrete_interval.mem, hf, hl]
  split <;> split <;> omega

theorem hull_not_empty (j i : discrete_interval) (hi : i.is_empty = false) :
    (discrete_interval.hull j i).is_empty = false := by
  simp only [discrete_interval.is_empty, decide_eq_false_iff_not] at hi ⊢
  have hf := hull_first j i
  have hl := hull_last j i
  rw [hf, hl]
  split <;> split <;> omega

theorem hull_closed (j i : discrete_interval) (hj : j.is_closed = true) (hi : i.is_closed = true) :
    (discrete_interval.hull j i).is_closed = true := by
  simp only [discrete_interval.is_closed, Bool.and_eq_true, Bool.not_eq_true'] at hj hi ⊢
  simp only [discrete_interval.hull]
  constructor
  · split
    · exact hj.1
    · exact hi.1
  · split
    · exact hj.2
    · exact hi.2

theorem interval_set_mem_cons (x : Int) (j : discrete_interval) (s : interval_set) :
    interval_set.mem x (j :: s) ↔ discrete_interval.mem x j ∨ interval_set.mem x s := by
  simp [interval_set.mem]

theorem interval_set_mem_nil (x : Int) : ¬ interval_set.mem x [] := by
  simp [interval_set.mem]

theorem mem_join (s : interval_set) :
    ∀ (i : discrete_interval), i.is_empty = false → ∀ x,
      interval_set.mem x (interval_set.join s i) ↔ interval_set.mem x s ∨ discrete_interval.mem x i := by
  induction s with
  | nil => intro i _ x; simp [interval_set.join, interval_set.mem]
  | cons j rest ih =>
    intro i hi x
    simp only [interval_set.join]
    split
    · simp only [interval_set_mem_cons]
      tauto
    · split
      · simp only [interval_set_mem_cons, ih i hi x]
        tauto
      · rename_i h1 h2
        rw [ih (discrete_interval.hull j i) (hull_not_empty j i hi) x, hull_mem j i hi h1 h2,
          interval_set_mem_cons]
        tauto

theorem mem_add (s : interval_set) (i : discrete_interval) (x : Int) :
    interval_set.mem x (interval_set.add s i) ↔ interval_set.mem x s ∨ discrete_interval.mem x i := by
  unfold interval_set.add
  cases hi : i.is_empty with
  | true =>
    simp only [if_true]
    simp only [discrete_interval.is_empty, decide_eq_true_eq] at hi
    constructor
    · exact Or.inl
    · rintro (h | h)
      · exact h
      · simp only [discrete_interval.mem] at h; omega
  | false =>
    simp only [Bool.false_eq_true, if_false]
    exact mem_join s i hi x

theorem closed_interval_not_empty (i : discrete_interval) (h : closed_interval i) :
    i.is_empty = false := by
  obtain ⟨l, u, lo, ro⟩ := i
  simp only [closed_interval, discrete_interval.is_closed, Bool.and_eq_true,
    Bool.not_eq_true'] at h
  obtain ⟨⟨h1, h2⟩, h3⟩ := h
  subst h1 h2
  simp only [discrete_interval.is_empty, discrete_interval.first, discrete_interval.last,
    decide_eq_false_iff_not]
  simp; omega

theorem closed_interval_hull (j i : discrete_interval) (hj : closed_interval j)
    (hi : closed_interval i) : closed_interval (discrete_interval.hull j i) := by
  refine ⟨hull_closed j i hj.1 hi.1, ?_⟩
  have hne := hull_not_empty j i (closed_interval_not_empty i hi)
  have hc := hull_closed j i hj.1 hi.1
  generalize discrete_interval.hull j i = k at hne hc
  obtain ⟨l, u, lo, ro⟩ := k
  simp only [discrete_interval.is_closed, Bool.and_eq_true, Bool.not_eq_true'] at hc
  obtain ⟨h1, h2⟩ := hc
  subst h1 h2
  simp only [discrete_interval.is_empty, discrete_interval.first, discrete_interval.last,
    decide_eq_false_iff_not] at hne
  simp at hne
  exact hne

theorem join_closed (s : interval_set) :
    ∀ (i : discrete_interval), closed_interval i → (∀ j ∈ s, closed_interval j) →
      ∀ k ∈ interval_set.join s i, closed_interval k := by
  induction s with
  | nil => intro i hi _ k hk; simp [interval_set.join] at hk; subst hk; exact hi
  | cons j rest ih =>
    intro i hi hs k hk
    simp only [interval_set.join] at hk
    split at hk
    · rcases List.mem_cons.1 hk with rfl | hk
      · exact hi
      · exact hs k hk
    · split at hk
      · rcases List.mem_cons.1 hk with rfl | hk
        · exact hs k (List.mem_cons_self _ _)
        · exact ih i hi (fun j1 hj1 => hs j1 (List.mem_cons_of_mem _ hj1)) k hk
      · exact ih _ (closed_interval_hull j i (hs j (List.mem_cons_self _ _)) hi)
          (fun j1 hj1 => hs j1 (List.mem_cons_of_mem _ hj1)) k hk

theorem add_closed (s : interval_set) (i : discrete_interval) (hi : closed_interval i)
    (hs : ∀ j ∈ s, closed_interval j) : ∀ k ∈ interval_set.add s i, closed_interval k := by
  unfold interval_set.add
  rw [closed_interval_not_empty i hi]
  simp only [Bool.false_eq_true, if_false]
  exact join_closed s i hi hs

theorem add_nil_closed (i : discrete_interval) (hi : closed_interval i) :
    interval_set.add [] i = [i] := by
  unfold interval_set.add
  rw [closed_interval_not_empty i hi]
  rfl

/-- For a label made of closed intervals and an interval that no label interval
cuts, `contains` decides membership of any symbol of the interval. -/
theorem contains_iff_mem (s : interval_set) (I : discrete_interval) (x : Int)
    (hI : closed_interval I) (hx : discrete_interval.mem x I)
    (hs : ∀ L ∈ s, L.is_closed = true)
    (hcut : ∀ L ∈ s, ¬ (I.lower < L.lower ∧ L.lower ≤ I.upper) ∧
      ¬ (I.lower ≤ L.upper ∧ L.upper < I.upper)) :
    interval_set.contains s I = true ↔ interval_set.mem x s := by
  rw [closed_interval_mem x I hI.1] at hx
  have hIf : I.first = I.lower := by
    obtain ⟨l, u, lo, ro⟩ := I
    simp only [closed_interval, discrete_interval.is_closed, Bool.and_eq_true,
      Bool.not_eq_true'] at hI
    simp [discrete_interval.first, hI.1.1]
  have hIl : I.last = I.upper := by
    obtain ⟨l, u, lo, ro⟩ := I
    simp only [closed_interval, discrete_interval.is_closed, Bool.and_eq_true,
      Bool.not_eq_true'] at hI
    simp [discrete_interval.last, hI.1.2]
  simp only [interval_set.contains, closed_interval_not_empty I hI, Bool.false_or,
    List.any_eq_true, Bool.and_eq_true, decide_eq_true_eq, interval_set.mem]
  constructor
  · rintro ⟨L, hL, h1, h2⟩
    refine ⟨L, hL, ?_⟩
    simp only [discrete_interval.mem]
    omega
  · rintro ⟨L, hL, hm⟩
    refine ⟨L, hL, ?_⟩
    rw [closed_interval_mem x L (hs L hL)] at hm
    have hLf : L.first = L.lower := by
      have := hs L hL
      obtain ⟨l, u, lo, ro⟩ := L
      simp only [discrete_interval.is_closed, Bool.and_eq_true, Bool.not_eq_true'] at this
      simp [discrete_interval.first, this.1]
    have hLl : L.last = L.upper := by
      have := hs L hL
      obtain ⟨l, u, lo, ro⟩ := L
      simp only [discrete_interval.is_closed, Bool.and_eq_true, Bool.not_eq_true'] at this
      simp [discrete_interval.last, this.2]
    obtain ⟨hc1, hc2⟩ := hcut L hL
    rw [hIf, hIl, hLf, hLl]
    constructor
    · by_contra h; exact hc1 ⟨by omega, by omega⟩
    · by_contra h; exact hc2 ⟨by omega, by omega⟩

/-! ## Paths of the NFA and eclosure -/

theorem nfa_path_trans {T : Type} [TokenInfo T] (nfa : List (nfa_node T))
    (a b c : Nat) (w1 w2 : List Int) (h1 : nfa_path nfa a w1 b) (h2 : nfa_path nfa b w2 c) :
    nfa_path nfa a (w1 ++ w2) c := by
  induction h1 with
  | nil p => simpa using h2
  | eps p q r w t ht he hn _ ih => exact nfa_path.eps p q c _ t ht he hn (ih h2)
  | step p q r s w t ht he hm hn _ ih =>
    exact nfa_path.step p q c s _ t ht he hm hn (ih h2)

theorem nfa_path_eps_step {T : Type} [TokenInfo T] (nfa : List (nfa_node T))
    (p : Nat) (t : nfa_transition) (ht : t ∈ (nfa_at nfa p).transitions)
    (he : t.epsilon = true) : nfa_path nfa p [] t.next :=
  nfa_path.eps p t.next t.next [] t ht he rfl (nfa_path.nil _)

theorem nfa_path_valid {T : Type} [TokenInfo T] (nfa : List (nfa_node T)) (hwf : nfa_wf nfa)
    (p q : Nat) (w : List Int) (h : nfa_path nfa p w q) (hp : p < nfa.length) :
    q < nfa.length := by
  induction h with
  | nil p => exact hp
  | eps p q r w t ht he hn _ ih =>
    exact ih (by rw [← hn]; exact (nfa_at_transitions_valid nfa hwf p t ht).1)
  | step p q r s w t ht he hm hn _ ih =>
    exact ih (by rw [← hn]; exact (nfa_at_transitions_valid nfa hwf p t ht).1)

theorem free_count_le (n : Nat) (dest : List Nat) : free_count n dest ≤ n := by
  unfold free_count
  calc ((List.range n).filter _).length ≤ (List.range n).length := List.length_filter_le _ _
    _ = n := List.length_range n

theorem free_count_snoc (n : Nat) (dest : List Nat) (x : Nat) (hx : x < n) (hnd : x ∉ dest) :
    free_count n (dest ++ [x]) + 1 = free_count n dest := by
  unfold free_count
  have h1 : (List.range n).filter (fun y => decide (y ∉ dest ++ [x])) =
      ((List.range n).filter (fun y => decide (y ∉ dest))).filter (fun y => decide (y ≠ x)) := by
    rw [List.filter_filter]
    congr 1
    funext y
    simp [not_or, and_comm]
  rw [h1]
  have hnodup : ((List.range n).filter (fun y => decide (y ∉ dest))).Nodup :=
    (List.nodup_range n).filter _
  have hmem : x ∈ (List.range n).filter (fun y => decide (y ∉ dest)) := by
    simp [List.mem_filter, hx, hnd]
  generalize (List.range n).filter (fun y => decide (y ∉ dest)) = l at hnodup hmem
  induction l with
  | nil => simp at hmem
  | cons a l ih =>
    rw [List.nodup_cons] at hnodup
    rcases List.mem_cons.1 hmem with rfl | hm
    · have hl : l.filter (fun y => decide (y ≠ x)) = l := by
        rw [List.filter_eq_self]
        intro y hy
        have : y ≠ x := fun h => hnodup.1 (h ▸ hy)
        simpa using this
      rw [List.filter_cons_of_neg (by simp), hl]
      rfl
    · have hax : a ≠ x := fun h => hnodup.1 (h ▸ hm)
      rw [List.filter_cons_of_pos (by simpa using hax), List.length_cons, List.length_cons,
        ih hnodup.2 hm]

/-- The effect of the inner `for` loop of `eclosure`: the unseen epsilon targets
are appended to both `dest` and the queue. -/
theorem eclosure_visit_spec (n : Nat) (ts : List nfa_transition) :
    ∀ (dest queue : List Nat), dest.Nodup → (∀ t ∈ ts, t.next < n) →
      ∃ new, eclosure_visit ts (dest, queue) = (dest ++ new, queue ++ new) ∧
        (dest ++ new).Nodup ∧
        (∀ y ∈ new, ∃ t ∈ ts, t.epsilon = true ∧ t.next = y) ∧
        (∀ t ∈ ts, t.epsilon = true → t.next ∈ dest ++ new) ∧
        free_count n (dest ++ new) + new.length = free_count n dest := by
  induction ts with
  | nil =>
    intro dest queue hd _
    exact ⟨[], by simp [eclosure_visit], by simpa using hd, by simp, by simp, by simp⟩
  | cons t ts ih =>
    intro dest queue hd hv
    have hv2 : ∀ t1 ∈ ts, t1.next < n := fun t1 h1 => hv t1 (List.mem_cons_of_mem _ h1)
    by_cases hc : t.epsilon = true ∧ t.next ∉ dest
    · have hd2 : (dest ++ [t.next]).Nodup := by
        rw [List.nodup_append]
        exact ⟨hd, List.nodup_singleton _, by simpa using hc.2⟩
      obtain ⟨new, he, hn, hsrc, hall, hfree⟩ := ih (dest ++ [t.next]) (queue ++ [t.next]) hd2 hv2
      refine ⟨t.next :: new, ?_, ?_, ?_, ?_, ?_⟩
      · simp only [eclosure_visit, hc, not_false_eq_true, and_self, if_true, he]
        simp
      · simpa using hn
      · intro y hy
        rcases List.mem_cons.1 hy with rfl | hy
        · exact ⟨t, List.mem_cons_self _ _, hc.1, rfl⟩
        · obtain ⟨t1, h1, h2, h3⟩ := hsrc y hy
          exact ⟨t1, List.mem_cons_of_mem _ h1, h2, h3⟩
      · intro t1 h1 h2
        rcases List.mem_cons.1 h1 with rfl | h1
        · simp
        · have := hall t1 h1 h2
          simpa using this
      · have hs := free_count_snoc n dest t.next (hv t (List.mem_cons_self _ _)) hc.2
        have e : dest ++ t.next :: new = dest ++ [t.next] ++ new := by simp
        rw [e, List.length_cons]
        omega
    · obtain ⟨new, he, hn, hsrc, hall, hfree⟩ := ih dest queue hd hv2
      refine ⟨new, ?_, hn, ?_, ?_, hfree⟩
      · simp only [eclosure_visit, hc, if_false, he]
      · intro y hy
        obtain ⟨t1, h1, h2, h3⟩ := hsrc y hy
        exact ⟨t1, List.mem_cons_of_mem _ h1, h2, h3⟩
      · intro t1 h1 h2
        rcases List.mem_cons.1 h1 with rfl | h1
        · have : t1.next ∈ dest := by
            by_contra hnd; exact hc ⟨h2, hnd⟩
          exact List.mem_append_left _ this
        · exact hall t1 h1 h2

/-- The `while` loop of `eclosure` terminates within the fuel and returns the
nodes of `dest` together with everything reachable from the queue by epsilon
transitions. -/
theorem eclosure_loop_spec {T : Type} [TokenInfo T] (nfa : List (nfa_node T))
    (hwf : nfa_wf nfa) :
    ∀ (fuel : Nat) (dest queue : List Nat), dest.Nodup → (∀ y ∈ queue, y ∈ dest) →
      (∀ x ∈ dest, x ∉ queue → ∀ t ∈ (nfa_at nfa x).transitions, t.epsilon = true →
        t.next ∈ dest) →
      queue.length + free_count nfa.length dest < fuel →
      ∃ r, eclosure_loop nfa fuel dest queue = some r ∧ r.Nodup ∧ (∀ y ∈ dest, y ∈ r) ∧
        (∀ y ∈ r, y ∈ dest ∨ ∃ x ∈ queue, nfa_path nfa x [] y) ∧
        (∀ x ∈ r, ∀ t ∈ (nfa_at nfa x).transitions, t.epsilon = true → t.next ∈ r) := by
  intro fuel
  induction fuel with
  | zero => intro dest queue _ _ _ h; omega
  | succ fuel ih =>
    intro dest queue hd hq hcl hfuel
    cases queue with
    | nil =>
      refine ⟨dest, rfl, hd, fun y hy => hy, fun y hy => Or.inl hy, ?_⟩
      intro x hx t ht he
      exact hcl x hx (by simp) t ht he
    | cons front q =>
      have hvalid : ∀ t ∈ (nfa_at nfa front).transitions, t.next < nfa.length :=
        fun t ht => (nfa_at_transitions_valid nfa hwf front t ht).1
      obtain ⟨new, he, hn, hsrc, hall, hfree⟩ :=
        eclosure_visit_spec nfa.length (nfa_at nfa front).transitions dest q hd hvalid
      have hstep : eclosure_loop nfa (fuel + 1) dest (front :: q) =
          eclosure_loop nfa fuel (dest ++ new) (q ++ new) := by
        simp only [eclosure_loop, he]
      have hq2 : ∀ y ∈ q ++ new, y ∈ dest ++ new := by
        intro y hy
        rcases List.mem_append.1 hy with h | h
        · exact List.mem_append_left _ (hq y (List.mem_cons_of_mem _ h))
        · exact List.mem_append_right _ h
      have hcl2 : ∀ x ∈ dest ++ new, x ∉ q ++ new →
          ∀ t ∈ (nfa_at nfa x).transitions, t.epsilon = true → t.next ∈ dest ++ new := by
        intro x hx hxq t ht hte
        rcases List.mem_append.1 hx with h | h
        · by_cases hxf : x = front
          · subst hxf; exact hall t ht hte
          · have : x ∉ front :: q := by
              intro hm
              rcases List.mem_cons.1 hm with h1 | h1
              · exact hxf h1
              · exact hxq (List.mem_append_left _ h1)
            exact List.mem_append_left _ (hcl x h this t ht hte)
        · exact absurd (List.mem_append_right _ h) hxq
      have hfuel2 : (q ++ new).length + free_count nfa.length (dest ++ new) < fuel := by
        simp only [List.length_append, List.length_cons] at hfuel ⊢
        omega
      obtain ⟨r, hr, hrn, hsub, hreach, hclosed⟩ := ih (dest ++ new) (q ++ new) hn hq2 hcl2 hfuel2
      refine ⟨r, by rw [hstep]; exact hr, hrn,
        fun y hy => hsub y (List.mem_append_left _ hy), ?_, hclosed⟩
      intro y hy
      rcases hreach y hy with h | ⟨x, hx, hp⟩
      · rcases List.mem_append.1 h with h | h
        · exact Or.inl h
        · obtain ⟨t, ht, hte, htn⟩ := hsrc y h
          exact Or.inr ⟨front, List.mem_cons_self _ _, htn ▸ nfa_path_eps_step nfa front t ht hte⟩
      · rcases List.mem_append.1 hx with h | h
        · exact Or.inr ⟨x, List.mem_cons_of_mem _ h, hp⟩
        · obtain ⟨t, ht, hte, htn⟩ := hsrc x h
          refine Or.inr ⟨front, List.mem_cons_self _ _, ?_⟩
          have := nfa_path_trans nfa front x y [] [] (htn ▸ nfa_path_eps_step nfa front t ht hte) hp
          simpa using this

theorem eps_closed_reach {T : Type} [TokenInfo T] (nfa : List (nfa_node T)) (r : List Nat)
    (hclosed : ∀ x ∈ r, ∀ t ∈ (nfa_at nfa x).transitions, t.epsilon = true → t.next ∈ r)
    (p q : Nat) (w : List Int) (h : nfa_path nfa p w q) (hw : w = []) (hp : p ∈ r) : q ∈ r := by
  induction h with
  | nil p => exact hp
  | eps p q r1 w t ht he hn _ ih => exact ih hw (hn ▸ hclosed p hp t ht he)
  | step p q r1 s w t ht he hm hn _ ih => simp at hw

/-- The function `eclosure`, called with an empty `dest`, returns exactly the
nodes reachable from `nodes` by epsilon transitions. -/
theorem eclosure_spec {T : Type} [TokenInfo T] (nfa : List (nfa_node T)) (hwf : nfa_wf nfa)
    (nodes : List Nat) :
    ∃ r, eclosure nfa [] nodes = some r ∧ r.Nodup ∧
      ∀ y, y ∈ r ↔ ∃ x ∈ nodes, nfa_path nfa x [] y := by
  have hd : (nodes.foldl uset_insert []).Nodup := foldl_uset_insert_nodup nodes [] List.nodup_nil
  have hq : ∀ y ∈ nodes, y ∈ nodes.foldl uset_insert [] :=
    fun y hy => (mem_foldl_uset_insert nodes [] y).2 (Or.inr hy)
  have hcl : ∀ x ∈ nodes.foldl uset_insert [], x ∉ nodes →
      ∀ t ∈ (nfa_at nfa x).transitions, t.epsilon = true → t.next ∈ nodes.foldl uset_insert [] := by
    intro x hx hxn
    rcases (mem_foldl_uset_insert nodes [] x).1 hx with h | h
    · simp at h
    · exact absurd h hxn
  have hfuel : nodes.length + free_count nfa.length (nodes.foldl uset_insert []) <
      nodes.length + nfa.length + 1 := by
    have := free_count_le nfa.length (nodes.foldl uset_insert [])
    omega
  obtain ⟨r, hr, hrn, hsub, hreach, hclosed⟩ :=
    eclosure_loop_spec nfa hwf _ _ nodes hd hq hcl hfuel
  refine ⟨r, hr, hrn, ?_⟩
  intro y
  constructor
  · intro hy
    rcases hreach y hy with h | h
    · rcases (mem_foldl_uset_insert nodes [] y).1 h with h1 | h1
      · simp at h1
      · exact ⟨y, h1, nfa_path.nil y⟩
    · exact h
  · rintro ⟨x, hx, hp⟩
    exact eps_closed_reach nfa r hclosed x y [] hp rfl (hsub x (hq x hx))

/-! ## move_s and the letters of a set of nodes -/

theorem mem_move_inner (c : nfa_transition → Bool) (ts : List nfa_transition) :
    ∀ (d : List Nat) (y : Nat),
      y ∈ ts.foldl (fun d tran => if c tran then uset_insert d tran.next else d) d ↔
        y ∈ d ∨ ∃ t ∈ ts, c t = true ∧ t.next = y := by
  induction ts with
  | nil => intro d y; simp
  | cons t ts ih =>
    intro d y
    rw [List.foldl_cons, ih]
    by_cases hc : c t = true
    · simp only [hc, if_true, mem_uset_insert, List.mem_cons, exists_eq_or_imp, true_and]
      constructor
      · rintro ((h | h) | h)
        · exact Or.inl h
        · exact Or.inr (Or.inl h.symm)
        · exact Or.inr (Or.inr h)
      · rintro (h | h | h)
        · exact Or.inl (Or.inl h)
        · exact Or.inl (Or.inr h.symm)
        · exact Or.inr h
    · simp only [hc, Bool.false_eq_true, if_false, List.mem_cons, exists_eq_or_imp, false_and,
        false_or]

theorem move_inner_nodup (c : nfa_transition → Bool) (ts : List nfa_transition) :
    ∀ (d : List Nat), d.Nodup →
      (ts.foldl (fun d tran => if c tran then uset_insert d tran.next else d) d).Nodup := by
  induction ts with
  | nil => intro d h; exact h
  | cons t ts ih =>
    intro d h
    rw [List.foldl_cons]
    apply ih
    split
    · exact uset_insert_nodup d _ h
    · exact h

theorem mem_move_s {T : Type} [TokenInfo T] (nfa : List (nfa_node T)) (chars : discrete_interval)
    (nodes : List Nat) :
    ∀ (dest : List Nat) (y : Nat),
      y ∈ move_s nfa dest nodes chars ↔
        y ∈ dest ∨ ∃ p ∈ nodes, ∃ t ∈ (nfa_at nfa p).transitions,
          t.characters.contains chars = true ∧ t.next = y := by
  unfold move_s
  induction nodes with
  | nil => intro dest y; simp
  | cons p ps ih =>
    intro dest y
    rw [List.foldl_cons, ih, mem_move_inner (fun tran => tran.characters.contains chars)]
    constructor
    · rintro ((h | ⟨t, ht, hc, hn⟩) | ⟨q, hq, h⟩)
      · exact Or.inl h
      · exact Or.inr ⟨p, List.mem_cons_self _ _, t, ht, hc, hn⟩
      · exact Or.inr ⟨q, List.mem_cons_of_mem _ hq, h⟩
    · rintro (h | ⟨q, hq, t, ht, hc, hn⟩)
      · exact Or.inl (Or.inl h)
      · rcases List.mem_cons.1 hq with rfl | hq
        · exact Or.inl (Or.inr ⟨t, ht, hc, hn⟩)
        · exact Or.inr ⟨q, hq, t, ht, hc, hn⟩

theorem move_s_nodup {T : Type} [TokenInfo T] (nfa : List (nfa_node T)) (chars : discrete_interval)
    (nodes : List Nat) : ∀ (dest : List Nat), dest.Nodup → (move_s nfa dest nodes chars).Nodup := by
  unfold move_s
  induction nodes with
  | nil => intro dest h; exact h
  | cons p ps ih =>
    intro dest h
    rw [List.foldl_cons]
    exact ih _ (move_inner_nodup _ _ _ h)

/-- For a letter of a collection of labels made of closed intervals: `contains`
on one of these labels decides membership of every symbol of the letter. -/
theorem letter_contains_iff (lbls : List (List interval_set))
    (hcl : ∀ L ∈ label_intervals lbls, closed_interval L)
    (I : discrete_interval) (hI : I ∈ make_disjoint [] lbls)
    (ts : List interval_set) (hts : ts ∈ lbls) (cs : interval_set) (hcs : cs ∈ ts)
    (x : Int) (hx : discrete_interval.mem x I) :
    interval_set.contains cs I = true ↔ interval_set.mem x cs := by
  apply contains_iff_mem cs I x (make_disjoint_closed lbls I hI) hx
  · intro L hL
    exact (hcl L ((mem_label_intervals lbls L).2 ⟨ts, hts, cs, hcs, hL⟩)).1
  · intro L hL
    exact make_disjoint_no_boundary lbls I hI L
      ((mem_label_intervals lbls L).2 ⟨ts, hts, cs, hcs, hL⟩)

/-- A symbol lies in a letter iff it lies in one of the labels. -/
theorem letter_union (lbls : List (List interval_set))
    (hcl : ∀ L ∈ label_intervals lbls, closed_interval L) (x : Int) :
    (∃ I ∈ make_disjoint [] lbls, discrete_interval.mem x I) ↔
      ∃ ts ∈ lbls, ∃ cs ∈ ts, interval_set.mem x cs := by
  have hn : ∀ L ∈ label_intervals lbls, L.lower ≤ L.upper := fun L hL => (hcl L hL).2
  constructor
  · rintro ⟨I, hI, hx⟩
    rw [closed_interval_mem x I (make_disjoint_closed lbls I hI).1] at hx
    obtain ⟨L, hL, hxL⟩ := (make_disjoint_union lbls hn x).1 ⟨I, hI, hx⟩
    obtain ⟨ts, hts, cs, hcs, hLc⟩ := (mem_label_intervals lbls L).1 hL
    exact ⟨ts, hts, cs, hcs, L, hLc, (closed_interval_mem x L (hcl L hL).1).2 hxL⟩
  · rintro ⟨ts, hts, cs, hcs, L, hLc, hx⟩
    have hL : L ∈ label_intervals lbls := (mem_label_intervals lbls L).2 ⟨ts, hts, cs, hcs, hLc⟩
    rw [closed_interval_mem x L (hcl L hL).1] at hx
    obtain ⟨I, hI, hxI⟩ := (make_disjoint_union lbls hn x).2 ⟨L, hL, hx⟩
    exact ⟨I, hI, (closed_interval_mem x I (make_disjoint_closed lbls I hI).1).2 hxI⟩

/-- Two letters that share a symbol are the same letter. -/
theorem letter_unique (lbls : List (List interval_set)) (I J : discrete_interval)
    (hI : I ∈ make_disjoint [] lbls) (hJ : J ∈ make_disjoint [] lbls) (x : Int)
    (hxI : discrete_interval.mem x I) (hxJ : discrete_interval.mem x J) : I = J := by
  by_contra hne
  have hasc := make_disjoint_ascending lbls
  rw [closed_interval_mem x I (make_disjoint_closed lbls I hI).1] at hxI
  rw [closed_interval_mem x J (make_disjoint_closed lbls J hJ).1] at hxJ
  have hsymm : Symmetric (fun (a b : discrete_interval) => a.upper < b.lower ∨ b.upper < a.lower) :=
    fun a b h => h.symm
  have hp : (make_disjoint [] lbls).Pairwise
      (fun a b => a.upper < b.lower ∨ b.upper < a.lower) :=
    hasc.imp (fun h => Or.inl h)
  have := hp.forall hsymm hI hJ hne
  omega

theorem nfa_label_intervals_closed {T : Type} [TokenInfo T] (nfa : List (nfa_node T))
    (hwf : nfa_wf nfa) (nodes : List Nat) :
    ∀ L ∈ label_intervals (nodes.map (nfa_labels nfa)), closed_interval L := by
  intro L hL
  obtain ⟨ts, hts, cs, hcs, hLc⟩ := (mem_label_intervals _ L).1 hL
  obtain ⟨p, _, rfl⟩ := List.mem_map.1 hts
  obtain ⟨t, ht, rfl⟩ := List.mem_map.1 hcs
  exact (nfa_at_transitions_valid nfa hwf p t ht).2.2 L hLc

/-! ## The subset construction keeps its invariant -/

theorem dfa_push_length (heap : List dfa_node) (D : Nat) (t : dfa_transition) :
    (dfa_push heap D t).length = heap.length :=
  modify_at_length _ _ _

theorem dfa_push_nodes (heap : List dfa_node) (D : Nat) (t : dfa_transition) (p : Nat) :
    (dfa_at (dfa_push heap D t) p).nodes = (dfa_at heap p).nodes := by
  unfold dfa_push
  rw [dfa_at_modify]
  split
  · rename_i h; rw [h.1]
  · rfl

theorem dfa_push_transitions (heap : List dfa_node) (D : Nat) (t : dfa_transition) (p : Nat) :
    (dfa_at (dfa_push heap D t) p).transitions =
      if p = D ∧ D < heap.length then (dfa_at heap D).transitions ++ [t]
      else (dfa_at heap p).transitions := by
  unfold dfa_push
  rw [dfa_at_modify]
  split <;> rfl

theorem target_ok_mono {T : Type} [TokenInfo T] (nfa : List (nfa_node T))
    (heap heap1 : List dfa_node) (hlen : heap.length ≤ heap1.length)
    (hnodes : ∀ p < heap.length, (dfa_at heap1 p).nodes = (dfa_at heap p).nodes)
    (src : List Nat) (I : discrete_interval) (q : Nat) (h : target_ok nfa heap src I q) :
    target_ok nfa heap1 src I q := by
  obtain ⟨hq, r, hr, hx⟩ := h
  exact ⟨by omega, r, hr, by rw [hnodes q hq]; exact hx⟩

theorem node_progress_mono {T : Type} [TokenInfo T] (nfa : List (nfa_node T))
    (heap heap1 : List dfa_node) (hlen : heap.length ≤ heap1.length)
    (hnodes : ∀ p < heap.length, (dfa_at heap1 p).nodes = (dfa_at heap p).nodes)
    (p : Nat) (hp : p < heap.length)
    (htr : (dfa_at heap1 p).transitions = (dfa_at heap p).transitions)
    (proc : List discrete_interval) (h : node_progress nfa heap p proc) :
    node_progress nfa heap1 p proc := by
  obtain ⟨h1, h2⟩ := h
  refine ⟨by rw [htr]; exact h1, ?_⟩
  intro t ht I hI
  rw [htr] at ht
  rw [hnodes p hp]
  exact target_ok_mono nfa heap heap1 hlen hnodes _ I _ (h2 t ht I hI)

/-- Recording a transition from `D` to a node that is already in the arena. -/
theorem build_inv_push {T : Type} [TokenInfo T] (nfa : List (nfa_node T)) (st : build_state)
    (D : Nat) (proc : List discrete_interval) (I : discrete_interval) (q : Nat)
    (hinv : build_inv nfa st (some D) proc)
    (hq : target_ok nfa st.heap (dfa_at st.heap D).nodes I q) :
    build_inv nfa { st with heap := dfa_push st.heap D ⟨[I], q⟩ } (some D) (proc ++ [I]) := by
  obtain ⟨hD, hDu, hDp⟩ := hinv.inprog D rfl
  have hlen : (dfa_push st.heap D ⟨[I], q⟩).length = st.heap.length := dfa_push_length _ _ _
  have hnodes : ∀ p, (dfa_at (dfa_push st.heap D ⟨[I], q⟩) p).nodes = (dfa_at st.heap p).nodes :=
    fun p => dfa_push_nodes _ _ _ p
  have htr : ∀ p, p ≠ D → (dfa_at (dfa_push st.heap D ⟨[I], q⟩) p).transitions =
      (dfa_at st.heap p).transitions := by
    intro p hp
    rw [dfa_push_transitions, if_neg (fun h => hp h.1)]
  have htrD : (dfa_at (dfa_push st.heap D ⟨[I], q⟩) D).transitions =
      (dfa_at st.heap D).transitions ++ [⟨[I], q⟩] := by
    rw [dfa_push_transitions, if_pos ⟨rfl, hD⟩]
  constructor
  · show 0 < (dfa_push st.heap D ⟨[I], q⟩).length
    rw [hlen]; exact hinv.heap_pos
  · show st.result = List.range (dfa_push st.heap D ⟨[I], q⟩).length
    rw [hlen]; exact hinv.result_eq
  · exact hinv.unmarked_nodup
  · intro p hp
    show p < (dfa_push st.heap D ⟨[I], q⟩).length
    rw [hlen]; exact hinv.unmarked_lt p hp
  · intro p hp
    show (dfa_at (dfa_push st.heap D ⟨[I], q⟩) p).nodes ≠ []
    rw [hnodes]; exact hinv.nodes_ne p (by rw [← hlen]; exact hp)
  · intro p hp
    show (dfa_at (dfa_push st.heap D ⟨[I], q⟩) p).nodes.Nodup
    rw [hnodes]; exact hinv.nodes_nodup p (by rw [← hlen]; exact hp)
  · intro p hp
    show ∀ x ∈ (dfa_at (dfa_push st.heap D ⟨[I], q⟩) p).nodes, x < nfa.length
    rw [hnodes]; exact hinv.nodes_lt p (by rw [← hlen]; exact hp)
  · intro p hp
    show ∀ x ∈ (dfa_at (dfa_push st.heap D ⟨[I], q⟩) p).nodes, ∀ y,
      nfa_path nfa x [] y → y ∈ (dfa_at (dfa_push st.heap D ⟨[I], q⟩) p).nodes
    rw [hnodes]; exact hinv.nodes_closed p (by rw [← hlen]; exact hp)
  · intro p r hp hr
    show set_eq (dfa_at (dfa_push st.heap D ⟨[I], q⟩) p).nodes
      (dfa_at (dfa_push st.heap D ⟨[I], q⟩) r).nodes = true → p = r
    rw [hnodes, hnodes]
    exact hinv.inj p r (by rw [← hlen]; exact hp) (by rw [← hlen]; exact hr)
  · intro p hp
    show (dfa_at (dfa_push st.heap D ⟨[I], q⟩) p).transitions = []
    have hpD : p ≠ D := fun h => hDu (h ▸ hp)
    rw [htr p hpD]; exact hinv.unmarked_empty p hp
  · intro p hp hpu hpc
    have hpD : p ≠ D := fun h => hpc (by rw [h])
    have hp1 : p < st.heap.length := by rw [← hlen]; exact hp
    show node_progress nfa (dfa_push st.heap D ⟨[I], q⟩) p
      (nfa_letters nfa (dfa_at (dfa_push st.heap D ⟨[I], q⟩) p).nodes)
    rw [hnodes]
    exact node_progress_mono nfa st.heap _ (le_of_eq hlen.symm) (fun p _ => hnodes p) p hp1
      (htr p hpD) _ (hinv.done p hp1 hpu hpc)
  · intro D1 hD1
    have hDD : D1 = D := by simpa using hD1.symm
    subst hDD
    refine ⟨by show D1 < (dfa_push st.heap D1 ⟨[I], q⟩).length; rw [hlen]; exact hD, hDu, ?_⟩
    constructor
    · rw [htrD, List.map_append, List.map_append, hDp.1]
      rfl
    · intro t ht J hJ
      rw [hnodes]
      rw [htrD] at ht
      rcases List.mem_append.1 ht with h | h
      · exact target_ok_mono nfa st.heap _ (le_of_eq hlen.symm) (fun p _ => hnodes p) _ J _
          (hDp.2 t h J hJ)
      · simp only [List.mem_singleton] at h
        subst h
        simp only [List.cons.injEq, and_true] at hJ
        subst hJ
        exact target_ok_mono nfa st.heap _ (le_of_eq hlen.symm) (fun p _ => hnodes p) _ _ _ hq
  · intro p hp hp0
    have hp1 : p < st.heap.length := by rw [← hlen]; exact hp
    obtain ⟨r, hr, t, ht, htn⟩ := hinv.cover p hp1 hp0
    refine ⟨r, by show r < (dfa_push st.heap D ⟨[I], q⟩).length; rw [hlen]; exact hr, t, ?_, htn⟩
    show t ∈ (dfa_at (dfa_push st.heap D ⟨[I], q⟩) r).transitions
    by_cases hrD : r = D
    · subst hrD
      rw [htrD]; exact List.mem_append_left _ ht
    · rw [htr r hrD]; exact ht

theorem set_eq_symm (a b : List Nat) (h : set_eq a b = true) : set_eq b a = true := by
  rw [set_eq_iff] at h ⊢
  exact fun x => (h x).symm

/-- Allocating a new node for the closure `n` and recording the transition from
`D` to it. -/
theorem build_inv_extend {T : Type} [TokenInfo T] (nfa : List (nfa_node T)) (st : build_state)
    (D : Nat) (proc : List discrete_interval) (I : discrete_interval) (n : List Nat)
    (hinv : build_inv nfa st (some D) proc)
    (hne : n ≠ []) (hnd : n.Nodup) (hlt : ∀ x ∈ n, x < nfa.length)
    (hcl : ∀ x ∈ n, ∀ y, nfa_path nfa x [] y → y ∈ n)
    (hnew : ∀ p < st.heap.length, set_eq (dfa_at st.heap p).nodes n = false)
    (hr : eclosure nfa [] (move_s nfa [] (dfa_at st.heap D).nodes I) = some n) :
    build_inv nfa
      { heap := dfa_push (st.heap ++ [⟨n, []⟩]) D ⟨[I], st.heap.length⟩
        unmarked := st.unmarked ++ [st.heap.length]
        result := st.result ++ [st.heap.length] } (some D) (proc ++ [I]) := by
  obtain ⟨hD, hDu, hDp⟩ := hinv.inprog D rfl
  have hlen : (dfa_push (st.heap ++ [⟨n, []⟩]) D ⟨[I], st.heap.length⟩).length =
      st.heap.length + 1 := by
    rw [dfa_push_length]; simp
  have hnodes : ∀ p < st.heap.length,
      (dfa_at (dfa_push (st.heap ++ [⟨n, []⟩]) D ⟨[I], st.heap.length⟩) p).nodes =
        (dfa_at st.heap p).nodes := by
    intro p hp
    rw [dfa_push_nodes, dfa_at_append_left _ _ _ hp]
  have hnodes_new :
      (dfa_at (dfa_push (st.heap ++ [⟨n, []⟩]) D ⟨[I], st.heap.length⟩) st.heap.length).nodes = n := by
    rw [dfa_push_nodes, dfa_at_append_new]
  have htr : ∀ p < st.heap.length, p ≠ D →
      (dfa_at (dfa_push (st.heap ++ [⟨n, []⟩]) D ⟨[I], st.heap.length⟩) p).transitions =
        (dfa_at st.heap p).transitions := by
    intro p hp hpD
    rw [dfa_push_transitions, if_neg (fun h => hpD h.1), dfa_at_append_left _ _ _ hp]
  have htr_new :
      (dfa_at (dfa_push (st.heap ++ [⟨n, []⟩]) D ⟨[I], st.heap.length⟩) st.heap.length).transitions
        = [] := by
    rw [dfa_push_transitions, if_neg (fun h => by omega), dfa_at_append_new]
  have htrD : (dfa_at (dfa_push (st.heap ++ [⟨n, []⟩]) D ⟨[I], st.heap.length⟩) D).transitions =
      (dfa_at st.heap D).transitions ++ [⟨[I], st.heap.length⟩] := by
    rw [dfa_push_transitions, if_pos ⟨rfl, by simp; omega⟩, dfa_at_append_left _ _ _ hD]
  have hcases : ∀ p, p < st.heap.length + 1 → p < st.heap.length ∨ p = st.heap.length := by
    intro p hp; omega
  have hle : st.heap.length ≤
      (dfa_push (st.heap ++ [⟨n, []⟩]) D ⟨[I], st.heap.length⟩).length := by rw [hlen]; omega
  constructor
  · show 0 < (dfa_push (st.heap ++ [⟨n, []⟩]) D ⟨[I], st.heap.length⟩).length
    rw [hlen]; omega
  · show st.result ++ [st.heap.length] =
      List.range (dfa_push (st.heap ++ [⟨n, []⟩]) D ⟨[I], st.heap.length⟩).length
    rw [hlen, List.range_succ, hinv.result_eq]
  · show (st.unmarked ++ [st.heap.length]).Nodup
    rw [List.nodup_append]
    refine ⟨hinv.unmarked_nodup, List.nodup_singleton _, ?_⟩
    intro a ha hb
    simp only [List.mem_singleton] at hb
    have := hinv.unmarked_lt a ha
    omega
  · intro p hp
    show p < (dfa_push (st.heap ++ [⟨n, []⟩]) D ⟨[I], st.heap.length⟩).length
    rw [hlen]
    rcases List.mem_append.1 hp with h | h
    · have := hinv.unmarked_lt p h; omega
    · simp only [List.mem_singleton] at h; omega
  · intro p hp
    show (dfa_at (dfa_push (st.heap ++ [⟨n, []⟩]) D ⟨[I], st.heap.length⟩) p).nodes ≠ []
    rcases hcases p (by rw [← hlen]; exact hp) with h | h
    · rw [hnodes p h]; exact hinv.nodes_ne p h
    · rw [h, hnodes_new]; exact hne
  · intro p hp
    show (dfa_at (dfa_push (st.heap ++ [⟨n, []⟩]) D ⟨[I], st.heap.length⟩) p).nodes.Nodup
    rcases hcases p (by rw [← hlen]; exact hp) with h | h
    · rw [hnodes p h]; exact hinv.nodes_nodup p h
    · rw [h, hnodes_new]; exact hnd
  · intro p hp
    show ∀ x ∈ (dfa_at (dfa_push (st.heap ++ [⟨n, []⟩]) D ⟨[I], st.heap.length⟩) p).nodes,
      x < nfa.length
    rcases hcases p (by rw [← hlen]; exact hp) with h | h
    · rw [hnodes p h]; exact hinv.nodes_lt p h
    · rw [h, hnodes_new]; exact hlt
  · intro p hp
    show ∀ x ∈ (dfa_at (dfa_push (st.heap ++ [⟨n, []⟩]) D ⟨[I], st.heap.length⟩) p).nodes, ∀ y,
      nfa_path nfa x [] y →
        y ∈ (dfa_at (dfa_push (st.heap ++ [⟨n, []⟩]) D ⟨[I], st.heap.length⟩) p).nodes
    rcases hcases p (by rw [← hlen]; exact hp) with h | h
    · rw [hnodes p h]; exact hinv.nodes_closed p h
    · rw [h, hnodes_new]; exact hcl
  · intro p r hp hr1
    show set_eq (dfa_at (dfa_push (st.heap ++ [⟨n, []⟩]) D ⟨[I], st.heap.length⟩) p).nodes
      (dfa_at (dfa_push (st.heap ++ [⟨n, []⟩]) D ⟨[I], st.heap.length⟩) r).nodes = true → p = r
    rcases hcases p (by rw [← hlen]; exact hp) with h | h <;>
      rcases hcases r (by rw [← hlen]; exact hr1) with h1 | h1
    · rw [hnodes p h, hnodes r h1]; exact hinv.inj p r h h1
    · rw [hnodes p h, h1, hnodes_new]
      intro he; rw [hnew p h] at he; simp at he
    · rw [hnodes r h1, h, hnodes_new]
      intro he
      have := set_eq_symm _ _ he
      rw [hnew r h1] at this; simp at this
    · intro _; omega
  · intro p hp
    show (dfa_at (dfa_push (st.heap ++ [⟨n, []⟩]) D ⟨[I], st.heap.length⟩) p).transitions = []
    rcases List.mem_append.1 hp with h | h
    · have hpD : p ≠ D := fun h1 => hDu (h1 ▸ h)
      rw [htr p (hinv.unmarked_lt p h) hpD]; exact hinv.unmarked_empty p h
    · simp only [List.mem_singleton] at h
      rw [h]; exact htr_new
  · intro p hp hpu hpc
    have hpD : p ≠ D := fun h => hpc (by rw [h])
    have hpn : p ≠ st.heap.length := fun h => hpu (by simp [h])
    have hp1 : p < st.heap.length := by
      rcases hcases p (by rw [← hlen]; exact hp) with h | h
      · exact h
      · exact absurd h hpn
    have hpu1 : p ∉ st.unmarked := fun h => hpu (List.mem_append_left _ h)
    show node_progress nfa (dfa_push (st.heap ++ [⟨n, []⟩]) D ⟨[I], st.heap.length⟩) p
      (nfa_letters nfa (dfa_at (dfa_push (st.heap ++ [⟨n, []⟩]) D ⟨[I], st.heap.length⟩) p).nodes)
    rw [hnodes p hp1]
    exact node_progress_mono nfa st.heap _ hle hnodes p hp1 (htr p hp1 hpD) _
      (hinv.done p hp1 hpu1 hpc)
  · intro D1 hD1
    have hDD : D1 = D := by simpa using hD1.symm
    subst hDD
    have hD1lt : D1 < (dfa_push (st.heap ++ [⟨n, []⟩]) D1 ⟨[I], st.heap.length⟩).length := by
      rw [hlen]; omega
    refine ⟨hD1lt, ?_, ?_⟩
    · show D1 ∉ st.unmarked ++ [st.heap.length]
      intro h
      rcases List.mem_append.1 h with h1 | h1
      · exact hDu h1
      · simp only [List.mem_singleton] at h1; omega
    constructor
    · rw [htrD, List.map_append, List.map_append, hDp.1]
      rfl
    · intro t ht J hJ
      rw [hnodes D1 hD]
      rw [htrD] at ht
      rcases List.mem_append.1 ht with h | h
      · exact target_ok_mono nfa st.heap _ hle hnodes _ J _ (hDp.2 t h J hJ)
      · simp only [List.mem_singleton] at h
        subst h
        simp only [List.cons.injEq, and_true] at hJ
        subst hJ
        have hnl : st.heap.length <
            (dfa_push (st.heap ++ [⟨n, []⟩]) D1 ⟨[I], st.heap.length⟩).length := by
          rw [hlen]; omega
        refine ⟨hnl, n, hr, ?_⟩
        intro x
        show x ∈ (dfa_at (dfa_push (st.heap ++ [⟨n, []⟩]) D1 ⟨[I], st.heap.length⟩)
          st.heap.length).nodes ↔ x ∈ n
        rw [hnodes_new]
  · intro p hp hp0
    rcases hcases p (by rw [← hlen]; exact hp) with h | h
    · obtain ⟨r, hr1, t, ht, htn⟩ := hinv.cover p h hp0
      have hrlt : r < (dfa_push (st.heap ++ [⟨n, []⟩]) D ⟨[I], st.heap.length⟩).length := by
        rw [hlen]; omega
      refine ⟨r, hrlt, t, ?_, htn⟩
      show t ∈ (dfa_at (dfa_push (st.heap ++ [⟨n, []⟩]) D ⟨[I], st.heap.length⟩) r).transitions
      by_cases hrD : r = D
      · subst hrD
        rw [htrD]; exact List.mem_append_left _ ht
      · rw [htr r hr1 hrD]; exact ht
    · have hDlt : D < (dfa_push (st.heap ++ [⟨n, []⟩]) D ⟨[I], st.heap.length⟩).length := by
        rw [hlen]; omega
      refine ⟨D, hDlt, ⟨[I], st.heap.length⟩, ?_, h.symm⟩
      show (⟨[I], st.heap.length⟩ : dfa_transition) ∈
        (dfa_at (dfa_push (st.heap ++ [⟨n, []⟩]) D ⟨[I], st.heap.length⟩) D).transitions
      rw [htrD]; simp

/-! ## The loops of the subset construction -/

theorem dfa_find_some (heap : List dfa_node) (result : List Nat) (n : List Nat) (q : Nat)
    (h : dfa_find heap result n = some q) :
    q ∈ result ∧ set_eq (dfa_at heap q).nodes n = true := by
  unfold dfa_find at h
  exact ⟨List.mem_of_find?_eq_some h, by simpa using List.find?_some h⟩

theorem dfa_find_none (heap : List dfa_node) (result : List Nat) (n : List Nat)
    (h : dfa_find heap result n = none) :
    ∀ q ∈ result, set_eq (dfa_at heap q).nodes n = false := by
  unfold dfa_find at h
  intro q hq
  have := List.find?_eq_none.1 h q hq
  simpa using this

/-- Every letter of a set of NFA nodes moves to at least one node. -/
theorem letter_move_nonempty {T : Type} [TokenInfo T] (nfa : List (nfa_node T))
    (hwf : nfa_wf nfa) (src : List Nat) (I : discrete_interval)
    (hI : I ∈ nfa_letters nfa src) : ∃ y, y ∈ move_s nfa [] src I := by
  have hcl := nfa_label_intervals_closed nfa hwf src
  have hIc := make_disjoint_closed _ I hI
  have hx : discrete_interval.mem I.lower I := by
    rw [closed_interval_mem _ I hIc.1]; exact ⟨le_refl _, hIc.2⟩
  obtain ⟨ts, hts, cs, hcs, hm⟩ := (letter_union _ hcl I.lower).1 ⟨I, hI, hx⟩
  have hcont := (letter_contains_iff _ hcl I hI ts hts cs hcs I.lower hx).2 hm
  obtain ⟨p, hp, rfl⟩ := List.mem_map.1 hts
  obtain ⟨t, ht, rfl⟩ := List.mem_map.1 hcs
  exact ⟨t.next, (mem_move_s nfa I src [] t.next).2 (Or.inr ⟨p, hp, t, ht, hcont, rfl⟩)⟩

theorem move_s_valid {T : Type} [TokenInfo T] (nfa : List (nfa_node T))
    (hwf : nfa_wf nfa) (src : List Nat) (I : discrete_interval) :
    ∀ y ∈ move_s nfa [] src I, y < nfa.length := by
  intro y hy
  rcases (mem_move_s nfa I src [] y).1 hy with h | ⟨p, _, t, ht, _, rfl⟩
  · simp at h
  · exact (nfa_at_transitions_valid nfa hwf p t ht).1

/-- One pass of the body of the letters loop. -/
theorem letter_step_inv {T : Type} [TokenInfo T] (nfa : List (nfa_node T)) (hwf : nfa_wf nfa)
    (D : Nat) (proc rest : List discrete_interval) (I : discrete_interval) (st : build_state)
    (hinv : build_inv nfa st (some D) proc)
    (hlet : nfa_letters nfa (dfa_at st.heap D).nodes = proc ++ I :: rest) :
    ∃ st1, dfa_letter_step nfa D I st = some st1 ∧ build_inv nfa st1 (some D) (proc ++ [I]) ∧
      (dfa_at st1.heap D).nodes = (dfa_at st.heap D).nodes ∧
      (dfa_at st1.heap 0).nodes = (dfa_at st.heap 0).nodes ∧
      st.heap.length ≤ st1.heap.length ∧
      st1.heap.length + st.unmarked.length = st.heap.length + st1.unmarked.length := by
  obtain ⟨hD, hDu, hDp⟩ := hinv.inprog D rfl
  have hI : I ∈ nfa_letters nfa (dfa_at st.heap D).nodes := by rw [hlet]; simp
  have hIc : closed_interval I := make_disjoint_closed _ I hI
  obtain ⟨r, hr, hrn, hrm⟩ := eclosure_spec nfa hwf (move_s nfa [] (dfa_at st.heap D).nodes I)
  have hrne : r ≠ [] := by
    obtain ⟨y, hy⟩ := letter_move_nonempty nfa hwf _ I hI
    have : y ∈ r := (hrm y).2 ⟨y, hy, nfa_path.nil y⟩
    intro h; rw [h] at this; simp at this
  have hrlt : ∀ x ∈ r, x < nfa.length := by
    intro x hx
    obtain ⟨m, hm, hp⟩ := (hrm x).1 hx
    exact nfa_path_valid nfa hwf m x [] hp (move_s_valid nfa hwf _ I m hm)
  have hrcl : ∀ x ∈ r, ∀ y, nfa_path nfa x [] y → y ∈ r := by
    intro x hx y hp
    obtain ⟨m, hm, hp1⟩ := (hrm x).1 hx
    have := nfa_path_trans nfa m x y [] [] hp1 hp
    exact (hrm y).2 ⟨m, hm, by simpa using this⟩
  have hadd : interval_set.add [] I = [I] := add_nil_closed I hIc
  unfold dfa_letter_step
  simp only [hr, hrne, ne_eq, not_false_eq_true, if_true, hadd]
  cases hf : dfa_find st.heap st.result r with
  | some q =>
    obtain ⟨hq1, hq2⟩ := dfa_find_some _ _ _ _ hf
    have hqlt : q < st.heap.length := by
      rw [hinv.result_eq] at hq1; simpa using hq1
    have htq : target_ok nfa st.heap (dfa_at st.heap D).nodes I q :=
      ⟨hqlt, r, hr, (set_eq_iff _ _).1 hq2⟩
    refine ⟨_, rfl, build_inv_push nfa st D proc I q hinv htq, ?_, ?_, ?_, ?_⟩
    · exact dfa_push_nodes _ _ _ _
    · exact dfa_push_nodes _ _ _ _
    · show st.heap.length ≤ (dfa_push st.heap D ⟨[I], q⟩).length
      rw [dfa_push_length]
    · show (dfa_push st.heap D ⟨[I], q⟩).length + st.unmarked.length = _
      rw [dfa_push_length]
  | none =>
    have hnone := dfa_find_none _ _ _ hf
    have hnew : ∀ p < st.heap.length, set_eq (dfa_at st.heap p).nodes r = false := by
      intro p hp
      exact hnone p (by rw [hinv.result_eq]; simpa using hp)
    refine ⟨_, rfl, build_inv_extend nfa st D proc I r hinv hrne hrn hrlt hrcl hnew hr, ?_, ?_,
      ?_, ?_⟩
    · show (dfa_at (dfa_push (st.heap ++ [⟨r, []⟩]) D ⟨[I], st.heap.length⟩) D).nodes = _
      rw [dfa_push_nodes, dfa_at_append_left _ _ _ hD]
    · show (dfa_at (dfa_push (st.heap ++ [⟨r, []⟩]) D ⟨[I], st.heap.length⟩) 0).nodes = _
      rw [dfa_push_nodes, dfa_at_append_left _ _ _ hinv.heap_pos]
    · show st.heap.length ≤ (dfa_push (st.heap ++ [⟨r, []⟩]) D ⟨[I], st.heap.length⟩).length
      rw [dfa_push_length]; simp
    · show (dfa_push (st.heap ++ [⟨r, []⟩]) D ⟨[I], st.heap.length⟩).length + st.unmarked.length
        = st.heap.length + (st.unmarked ++ [st.heap.length]).length
      rw [dfa_push_length]; simp; omega

/-- The letters loop for the node `D`. -/
theorem letters_loop_inv {T : Type} [TokenInfo T] (nfa : List (nfa_node T)) (hwf : nfa_wf nfa)
    (D : Nat) :
    ∀ (rest proc : List discrete_interval) (st : build_state),
      build_inv nfa st (some D) proc →
      nfa_letters nfa (dfa_at st.heap D).nodes = proc ++ rest →
      ∃ st1, dfa_letters_loop nfa D rest st = some st1 ∧
        build_inv nfa st1 (some D) (proc ++ rest) ∧
        (dfa_at st1.heap D).nodes = (dfa_at st.heap D).nodes ∧
        (dfa_at st1.heap 0).nodes = (dfa_at st.heap 0).nodes ∧
        st.heap.length ≤ st1.heap.length ∧
        st1.heap.length + st.unmarked.length = st.heap.length + st1.unmarked.length := by
  intro rest
  induction rest with
  | nil =>
    intro proc st hinv _
    exact ⟨st, rfl, by simpa using hinv, rfl, rfl, le_refl _, rfl⟩
  | cons I rest ih =>
    intro proc st hinv hlet
    obtain ⟨st1, hs, hinv1, hn1, hz1, hl1, hm1⟩ := letter_step_inv nfa hwf D proc rest I st hinv hlet
    have hlet1 : nfa_letters nfa (dfa_at st1.heap D).nodes = (proc ++ [I]) ++ rest := by
      rw [hn1, hlet]; simp
    obtain ⟨st2, hs2, hinv2, hn2, hz2, hl2, hm2⟩ := ih (proc ++ [I]) st1 hinv1 hlet1
    refine ⟨st2, ?_, ?_, ?_, ?_, ?_, ?_⟩
    · simp only [dfa_letters_loop, hs, hs2]
    · simpa using hinv2
    · rw [hn2, hn1]
    · rw [hz2, hz1]
    · omega
    · omega

theorem build_inv_start {T : Type} [TokenInfo T] (nfa : List (nfa_node T)) (st : build_state)
    (D : Nat) (um : List Nat) (hinv : build_inv nfa st none []) (hum : st.unmarked = D :: um) :
    build_inv nfa { st with unmarked := um } (some D) [] := by
  have hnd := hinv.unmarked_nodup
  rw [hum, List.nodup_cons] at hnd
  have hDm : D ∈ st.unmarked := by rw [hum]; exact List.mem_cons_self _ _
  have hsub : ∀ p ∈ um, p ∈ st.unmarked := fun p hp => by rw [hum]; exact List.mem_cons_of_mem _ hp
  exact
    { heap_pos := hinv.heap_pos
      result_eq := hinv.result_eq
      unmarked_nodup := hnd.2
      unmarked_lt := fun p hp => hinv.unmarked_lt p (hsub p hp)
      nodes_ne := hinv.nodes_ne
      nodes_nodup := hinv.nodes_nodup
      nodes_lt := hinv.nodes_lt
      nodes_closed := hinv.nodes_closed
      inj := hinv.inj
      unmarked_empty := fun p hp => hinv.unmarked_empty p (hsub p hp)
      done := by
        intro p hp hpu hpc
        have hpD : p ≠ D := fun h => hpc (by rw [h])
        refine hinv.done p hp ?_ (by simp)
        intro h
        rw [hum] at h
        rcases List.mem_cons.1 h with h1 | h1
        · exact hpD h1
        · exact hpu h1
      inprog := by
        intro D1 hD1
        have hDD : D1 = D := by simpa using hD1.symm
        subst hDD
        refine ⟨hinv.unmarked_lt D1 hDm, hnd.1, ?_, ?_⟩
        · rw [hinv.unmarked_empty D1 hDm]; rfl
        · intro t ht
          rw [hinv.unmarked_empty D1 hDm] at ht
          simp at ht
      cover := hinv.cover }

theorem build_inv_finish {T : Type} [TokenInfo T] (nfa : List (nfa_node T)) (st : build_state)
    (D : Nat) (hinv : build_inv nfa st (some D) (nfa_letters nfa (dfa_at st.heap D).nodes)) :
    build_inv nfa st none [] :=
  { heap_pos := hinv.heap_pos
    result_eq := hinv.result_eq
    unmarked_nodup := hinv.unmarked_nodup
    unmarked_lt := hinv.unmarked_lt
    nodes_ne := hinv.nodes_ne
    nodes_nodup := hinv.nodes_nodup
    nodes_lt := hinv.nodes_lt
    nodes_closed := hinv.nodes_closed
    inj := hinv.inj
    unmarked_empty := hinv.unmarked_empty
    done := by
      intro p hp hpu _
      by_cases hpD : p = D
      · subst hpD
        exact (hinv.inprog p rfl).2.2
      · exact hinv.done p hp hpu (by simpa using fun h : D = p => hpD h.symm)
    inprog := by intro D1 h; simp at h
    cover := hinv.cover }

/-- The arena never holds more nodes than there are sets of NFA nodes. -/
theorem build_inv_card {T : Type} [TokenInfo T] (nfa : List (nfa_node T)) (st : build_state)
    (cur : Option Nat) (proc : List discrete_interval) (hinv : build_inv nfa st cur proc) :
    st.heap.length ≤ 2 ^ nfa.length := by
  have hmaps : ∀ p ∈ Finset.range st.heap.length,
      (dfa_at st.heap p).nodes.toFinset ∈ (Finset.range nfa.length).powerset := by
    intro p hp
    have hp1 : p < st.heap.length := by simpa using hp
    rw [Finset.mem_powerset]
    intro x hx
    have hx1 : x ∈ (dfa_at st.heap p).nodes := by simpa using hx
    simpa using hinv.nodes_lt p hp1 x hx1
  have hinj : Set.InjOn (fun p => (dfa_at st.heap p).nodes.toFinset)
      (Finset.range st.heap.length : Set Nat) := by
    intro p hp q hq heq
    have hp1 : p < st.heap.length := by simpa using hp
    have hq1 : q < st.heap.length := by simpa using hq
    apply hinv.inj p q hp1 hq1
    rw [set_eq_iff]
    intro x
    have := congrArg (fun s => x ∈ s) heq
    simpa using this
  have h := Finset.card_le_card_of_injOn (s := Finset.range st.heap.length)
    (t := (Finset.range nfa.length).powerset)
    (fun p => (dfa_at st.heap p).nodes.toFinset) hmaps hinj
  simpa using h

/-- The `while (!unmarked.empty())` loop terminates within the fuel and ends
with every node processed. -/
theorem build_loop_spec {T : Type} [TokenInfo T] (nfa : List (nfa_node T)) (hwf : nfa_wf nfa) :
    ∀ (fuel : Nat) (st : build_state), build_inv nfa st none [] →
      (2 ^ nfa.length - st.heap.length) + st.unmarked.length < fuel →
      ∃ st1, dfa_build_loop nfa fuel st = some st1 ∧ build_inv nfa st1 none [] ∧
        st1.unmarked = [] ∧ (dfa_at st1.heap 0).nodes = (dfa_at st.heap 0).nodes := by
  intro fuel
  induction fuel with
  | zero => intro st _ h; omega
  | succ fuel ih =>
    intro st hinv hfuel
    cases hum : st.unmarked with
    | nil =>
      refine ⟨st, ?_, hinv, hum, rfl⟩
      simp only [dfa_build_loop, hum]
    | cons D um =>
      have hstart := build_inv_start nfa st D um hinv hum
      obtain ⟨st1, hs, hinv1, hn1, hz1, hl1, hm1⟩ :=
        letters_loop_inv nfa hwf D (nfa_letters nfa (dfa_at st.heap D).nodes) []
          { st with unmarked := um } hstart (by simp)
      have hinv1' : build_inv nfa st1 (some D) (nfa_letters nfa (dfa_at st1.heap D).nodes) := by
        rw [hn1]; simpa using hinv1
      have hinv2 := build_inv_finish nfa st1 D hinv1'
      have hcard := build_inv_card nfa st1 _ _ hinv2
      have hfuel2 : (2 ^ nfa.length - st1.heap.length) + st1.unmarked.length < fuel := by
        rw [hum] at hfuel
        simp only [List.length_cons] at hfuel
        have e1 : ({ st with unmarked := um } : build_state).heap.length = st.heap.length := rfl
        have e2 : ({ st with unmarked := um } : build_state).unmarked.length = um.length := rfl
        rw [e1] at hl1 hm1
        rw [e2] at hm1
        omega
      obtain ⟨st2, hs2, hinv3, hu2, hz2⟩ := ih st1 hinv2 hfuel2
      refine ⟨st2, ?_, hinv3, hu2, ?_⟩
      · simp only [dfa_build_loop, hum]
        have hs' : dfa_letters_loop nfa D
            (make_disjoint [] ((dfa_at st.heap D).nodes.map (nfa_labels nfa)))
            { st with unmarked := um } = some st1 := hs
        rw [hs']
        exact hs2
      · rw [hz2, hz1]

/-! ## aggregate -/

theorem mem_foldl_add (cs : interval_set) :
    ∀ (acc : interval_set) (x : Int),
      interval_set.mem x (cs.foldl interval_set.add acc) ↔
        interval_set.mem x acc ∨ interval_set.mem x cs := by
  induction cs with
  | nil => intro acc x; simp [interval_set_mem_nil]
  | cons i cs ih =>
    intro acc x
    rw [List.foldl_cons, ih, mem_add, interval_set_mem_cons]
    tauto

theorem foldl_add_closed (cs : interval_set) :
    ∀ (acc : interval_set), (∀ i ∈ acc, closed_interval i) → (∀ i ∈ cs, closed_interval i) →
      ∀ k ∈ cs.foldl interval_set.add acc, closed_interval k := by
  induction cs with
  | nil => intro acc h _ k hk; exact h k hk
  | cons i cs ih =>
    intro acc hacc hcs k hk
    rw [List.foldl_cons] at hk
    exact ih _ (add_closed acc i (hcs i (List.mem_cons_self _ _)) hacc)
      (fun j hj => hcs j (List.mem_cons_of_mem _ hj)) k hk

/-- The merge loop of `aggregate` keeps, for every symbol and target, whether
some transition to that target carries the symbol. -/
theorem aggregate_loop_mem (rest : List dfa_transition) :
    ∀ (prev : dfa_transition) (s : Int) (q : Nat),
      (∃ t ∈ aggregate_loop prev rest, interval_set.mem s t.characters ∧ t.next = q) ↔
        (interval_set.mem s prev.characters ∧ prev.next = q) ∨
          ∃ t ∈ rest, interval_set.mem s t.characters ∧ t.next = q := by
  induction rest with
  | nil => intro prev s q; simp [aggregate_loop]
  | cons t rest ih =>
    intro prev s q
    simp only [aggregate_loop]
    split
    · rename_i hn
      rw [ih]
      simp only [mem_foldl_add, List.mem_cons, exists_eq_or_imp, hn]
      tauto
    · simp only [List.mem_cons, exists_eq_or_imp, ih]

theorem aggregate_loop_next (rest : List dfa_transition) :
    ∀ (prev : dfa_transition) (q : Nat),
      (∃ t ∈ aggregate_loop prev rest, t.next = q) ↔
        prev.next = q ∨ ∃ t ∈ rest, t.next = q := by
  induction rest with
  | nil => intro prev q; simp [aggregate_loop]
  | cons t rest ih =>
    intro prev q
    simp only [aggregate_loop]
    split
    · rename_i hn
      rw [ih]
      simp only [List.mem_cons, exists_eq_or_imp, hn]
      tauto
    · simp only [List.mem_cons, exists_eq_or_imp, ih]

theorem aggregate_loop_closed (rest : List dfa_transition) :
    ∀ (prev : dfa_transition), (∀ i ∈ prev.characters, closed_interval i) →
      (∀ t ∈ rest, ∀ i ∈ t.characters, closed_interval i) →
      ∀ t ∈ aggregate_loop prev rest, ∀ i ∈ t.characters, closed_interval i := by
  induction rest with
  | nil =>
    intro prev hp _ t ht
    simp only [aggregate_loop, List.mem_singleton] at ht
    subst ht; exact hp
  | cons t rest ih =>
    intro prev hp hr t1 ht1
    simp only [aggregate_loop] at ht1
    split at ht1
    · exact ih _ (foldl_add_closed _ _ hp (hr t (List.mem_cons_self _ _)))
        (fun t2 h2 => hr t2 (List.mem_cons_of_mem _ h2)) t1 ht1
    · rcases List.mem_cons.1 ht1 with rfl | h
      · exact hp
      · exact ih t (hr t (List.mem_cons_self _ _))
          (fun t2 h2 => hr t2 (List.mem_cons_of_mem _ h2)) t1 h

/-- On a vector sorted by target the merge loop leaves strictly ascending targets. -/
theorem aggregate_loop_ascending (rest : List dfa_transition) :
    ∀ (prev : dfa_transition),
      (prev :: rest).Pairwise (fun a b => a.next ≤ b.next) →
      (aggregate_loop prev rest).Pairwise (fun a b => a.next < b.next) ∧
        ∀ t ∈ aggregate_loop prev rest, prev.next ≤ t.next := by
  induction rest with
  | nil => intro prev _; simp [aggregate_loop]
  | cons t rest ih =>
    intro prev hs
    rw [List.pairwise_cons] at hs
    obtain ⟨h1, h2⟩ := hs
    simp only [aggregate_loop]
    split
    · rename_i hn
      have hs2 : (({ prev with characters := t.characters.foldl interval_set.add prev.characters }
          : dfa_transition) :: rest).Pairwise (fun a b => a.next ≤ b.next) := by
        rw [List.pairwise_cons]
        exact ⟨fun b hb => h1 b (List.mem_cons_of_mem _ hb), (List.pairwise_cons.1 h2).2⟩
      exact ih _ hs2
    · rename_i hn
      obtain ⟨ih1, ih2⟩ := ih t h2
      have hlt : prev.next < t.next := by
        have := h1 t (List.mem_cons_self _ _)
        omega
      constructor
      · rw [List.pairwise_cons]
        exact ⟨fun b hb => lt_of_lt_of_le hlt (ih2 b hb), ih1⟩
      · intro b hb
        rcases List.mem_cons.1 hb with rfl | hb
        · exact le_refl _
        · exact le_trans (le_of_lt hlt) (ih2 b hb)

theorem sort_by_next_sorted (ts : List dfa_transition) :
    (std_sort (fun a b : dfa_transition => decide (a.next < b.next)) ts).Pairwise
      (fun a b => a.next ≤ b.next) := by
  have h := std_sort_sorted (fun a b : dfa_transition => decide (a.next < b.next))
    (by intro a b h; simp only [decide_eq_true_eq, decide_eq_false_iff_not] at h ⊢; omega)
    (by intro a b c h1 h2; simp only [decide_eq_false_iff_not] at h1 h2 ⊢; omega) ts
  exact h.imp (by intro a b h; simp only [decide_eq_false_iff_not] at h; omega)

theorem aggregate_node_mem (ts : List dfa_transition) (s : Int) (q : Nat) :
    (∃ t ∈ aggregate_node ts, interval_set.mem s t.characters ∧ t.next = q) ↔
      ∃ t ∈ ts, interval_set.mem s t.characters ∧ t.next = q := by
  unfold aggregate_node
  have hperm := std_sort_perm (fun a b : dfa_transition => decide (a.next < b.next)) ts
  cases hsort : std_sort (fun a b : dfa_transition => decide (a.next < b.next)) ts with
  | nil =>
    rw [hsort] at hperm
    have : ts = [] := List.Perm.eq_nil hperm.symm
    simp [this]
  | cons t rest =>
    rw [hsort] at hperm
    simp only [aggregate_loop_mem]
    constructor
    · rintro (h | ⟨t1, h1, h2⟩)
      · exact ⟨t, hperm.mem_iff.1 (List.mem_cons_self _ _), h⟩
      · exact ⟨t1, hperm.mem_iff.1 (List.mem_cons_of_mem _ h1), h2⟩
    · rintro ⟨t1, h1, h2⟩
      rcases List.mem_cons.1 (hperm.mem_iff.2 h1) with rfl | h
      · exact Or.inl h2
      · exact Or.inr ⟨t1, h, h2⟩

theorem aggregate_node_next (ts : List dfa_transition) (q : Nat) :
    (∃ t ∈ aggregate_node ts, t.next = q) ↔ ∃ t ∈ ts, t.next = q := by
  unfold aggregate_node
  have hperm := std_sort_perm (fun a b : dfa_transition => decide (a.next < b.next)) ts
  cases hsort : std_sort (fun a b : dfa_transition => decide (a.next < b.next)) ts with
  | nil =>
    rw [hsort] at hperm
    have : ts = [] := List.Perm.eq_nil hperm.symm
    simp [this]
  | cons t rest =>
    rw [hsort] at hperm
    simp only [aggregate_loop_next]
    constructor
    · rintro (h | ⟨t1, h1, h2⟩)
      · exact ⟨t, hperm.mem_iff.1 (List.mem_cons_self _ _), h⟩
      · exact ⟨t1, hperm.mem_iff.1 (List.mem_cons_of_mem _ h1), h2⟩
    · rintro ⟨t1, h1, h2⟩
      rcases List.mem_cons.1 (hperm.mem_iff.2 h1) with rfl | h
      · exact Or.inl h2
      · exact Or.inr ⟨t1, h, h2⟩

theorem aggregate_node_closed (ts : List dfa_transition)
    (h : ∀ t ∈ ts, ∀ i ∈ t.characters, closed_interval i) :
    ∀ t ∈ aggregate_node ts, ∀ i ∈ t.characters, closed_interval i := by
  unfold aggregate_node
  have hperm := std_sort_perm (fun a b : dfa_transition => decide (a.next < b.next)) ts
  cases hsort : std_sort (fun a b : dfa_transition => decide (a.next < b.next)) ts with
  | nil => intro t ht; simp at ht
  | cons t rest =>
    rw [hsort] at hperm
    exact aggregate_loop_closed rest t (h t (hperm.mem_iff.1 (List.mem_cons_self _ _)))
      (fun t1 h1 => h t1 (hperm.mem_iff.1 (List.mem_cons_of_mem _ h1)))

/-- After `aggregate` the targets of a node are pairwise distinct. -/
theorem aggregate_node_ascending (ts : List dfa_transition) :
    (aggregate_node ts).Pairwise (fun a b => a.next < b.next) := by
  unfold aggregate_node
  have hs := sort_by_next_sorted ts
  cases hsort : std_sort (fun a b : dfa_transition => decide (a.next < b.next)) ts with
  | nil => exact List.Pairwise.nil
  | cons t rest =>
    rw [hsort] at hs
    exact (aggregate_loop_ascending rest t hs).1

/-- The relation "no symbol in both labels". -/
theorem labels_disjoint_symm :
    Symmetric (fun (a b : dfa_transition) =>
      ∀ s, ¬ (interval_set.mem s a.characters ∧ interval_set.mem s b.characters)) :=
  fun _ _ h s hs => h s ⟨hs.2, hs.1⟩

/-- `aggregate` keeps a deterministic transition vector deterministic. -/
theorem aggregate_node_deterministic (ts : List dfa_transition)
    (h : ts.Pairwise (fun a b =>
      ∀ s, ¬ (interval_set.mem s a.characters ∧ interval_set.mem s b.characters))) :
    (aggregate_node ts).Pairwise (fun a b =>
      ∀ s, ¬ (interval_set.mem s a.characters ∧ interval_set.mem s b.characters)) := by
  refine (aggregate_node_ascending ts).imp_of_mem ?_
  intro a b ha hb hlt s hs
  obtain ⟨ta, hta, hsa, hna⟩ := (aggregate_node_mem ts s a.next).1 ⟨a, ha, hs.1, rfl⟩
  obtain ⟨tb, htb, hsb, hnb⟩ := (aggregate_node_mem ts s b.next).1 ⟨b, hb, hs.2, rfl⟩
  have hne : ta ≠ tb := by
    intro he
    rw [he] at hna
    omega
  exact h.forall labels_disjoint_symm hta htb hne s ⟨hsa, hsb⟩

/-- The arena after `aggregate`: the nodes listed get their transition vector
aggregated, nothing else changes. -/
theorem aggregate_at (nodes : List Nat) :
    ∀ (heap : List dfa_node), nodes.Nodup → ∀ p,
      dfa_at (aggregate heap nodes) p =
        if p ∈ nodes ∧ p < heap.length then
          { dfa_at heap p with transitions := aggregate_node (dfa_at heap p).transitions }
        else dfa_at heap p := by
  unfold aggregate
  induction nodes with
  | nil => intro heap _ p; simp
  | cons n ns ih =>
    intro heap hnd p
    rw [List.nodup_cons] at hnd
    rw [List.foldl_cons, ih _ hnd.2, modify_at_length]
    by_cases hpn : p = n
    · subst hpn
      have hpns : p ∉ ns := hnd.1
      simp only [hpns, false_and, if_false, List.mem_cons, true_or, true_and]
      rw [dfa_at_modify]
      simp
    · have h1 : dfa_at (modify_at
          (fun n => { n with transitions := aggregate_node n.transitions }) heap n) p =
          dfa_at heap p := by
        rw [dfa_at_modify, if_neg (fun h => hpn h.1)]
      rw [h1]
      simp [hpn]

theorem aggregate_length (nodes : List Nat) :
    ∀ (heap : List dfa_node), (aggregate heap nodes).length = heap.length := by
  unfold aggregate
  induction nodes with
  | nil => intro heap; rfl
  | cons n ns ih => intro heap; rw [List.foldl_cons, ih, modify_at_length]

/-! ## The constructor of dfa -/

theorem eclosure_result_unique {T : Type} [TokenInfo T] (nfa : List (nfa_node T))
    (hwf : nfa_wf nfa) (nodes r : List Nat) (h : eclosure nfa [] nodes = some r) :
    r.Nodup ∧ ∀ y, y ∈ r ↔ ∃ x ∈ nodes, nfa_path nfa x [] y := by
  obtain ⟨r1, h1, h2, h3⟩ := eclosure_spec nfa hwf nodes
  rw [h] at h1
  simp only [Option.some.injEq] at h1
  subst h1
  exact ⟨h2, h3⟩

theorem build_inv_initial {T : Type} [TokenInfo T] (nfa : List (nfa_node T)) (hwf : nfa_wf nfa)
    (start : Nat) (hstart : start < nfa.length) (init : List Nat)
    (hinit : eclosure nfa [] [start] = some init) :
    build_inv nfa ⟨[⟨init, []⟩], [0], [0]⟩ none [] := by
  obtain ⟨hnd, hmem⟩ := eclosure_result_unique nfa hwf [start] init hinit
  have hat : ∀ p, p < 1 → dfa_at [(⟨init, []⟩ : dfa_node)] p = ⟨init, []⟩ := by
    intro p hp
    have : p = 0 := by omega
    subst this; rfl
  exact
    { heap_pos := by simp
      result_eq := by simp [List.range_succ]
      unmarked_nodup := by simp
      unmarked_lt := by simp
      nodes_ne := by
        intro p hp
        rw [hat p (by simpa using hp)]
        have : start ∈ init := (hmem start).2 ⟨start, by simp, nfa_path.nil _⟩
        intro h; simp only at h; rw [h] at this; simp at this
      nodes_nodup := by
        intro p hp
        rw [hat p (by simpa using hp)]; exact hnd
      nodes_lt := by
        intro p hp x hx
        rw [hat p (by simpa using hp)] at hx
        obtain ⟨m, hm, hpath⟩ := (hmem x).1 hx
        simp only [List.mem_singleton] at hm
        subst hm
        exact nfa_path_valid nfa hwf m x [] hpath hstart
      nodes_closed := by
        intro p hp x hx y hpath
        rw [hat p (by simpa using hp)] at hx ⊢
        obtain ⟨m, hm, hp1⟩ := (hmem x).1 hx
        have := nfa_path_trans nfa m x y [] [] hp1 hpath
        exact (hmem y).2 ⟨m, hm, by simpa using this⟩
      inj := by
        intro p q hp hq _
        simp only [List.length_singleton] at hp hq
        omega
      unmarked_empty := by
        intro p hp
        simp only [List.mem_singleton] at hp
        subst hp; rfl
      done := by
        intro p hp hpu
        simp only [List.length_singleton] at hp
        have : p = 0 := by omega
        subst this
        simp at hpu
      inprog := by intro D h; simp at h
      cover := by
        intro p hp hp0
        simp only [List.length_singleton] at hp
        omega }

/-- The constructor returns a DFA: the arena it builds satisfies the invariant
of the subset construction with no node left to process. -/
theorem dfa_ctor_spec {T : Type} [TokenInfo T] (nfa : List (nfa_node T)) (hwf : nfa_wf nfa)
    (start : Nat) (hstart : start < nfa.length) :
    ∃ st, build_inv nfa st none [] ∧ st.unmarked = [] ∧
      (∀ y, y ∈ (dfa_at st.heap 0).nodes ↔ nfa_path nfa start [] y) ∧
      dfa.ctor nfa start =
        some { nfa := nfa, heap := aggregate st.heap st.result, _nodes := st.result,
               _initial := 0 } := by
  obtain ⟨init, hinit, _, hmem⟩ := eclosure_spec nfa hwf [start]
  have hinv0 := build_inv_initial nfa hwf start hstart init hinit
  have hfuel : (2 ^ nfa.length - (⟨[⟨init, []⟩], [0], [0]⟩ : build_state).heap.length) +
      (⟨[⟨init, []⟩], [0], [0]⟩ : build_state).unmarked.length < 2 ^ nfa.length + 1 := by
    have : 1 ≤ 2 ^ nfa.length := Nat.one_le_two_pow
    simp only [List.length_singleton]
    omega
  obtain ⟨st, hs, hinv, hu, hz⟩ := build_loop_spec nfa hwf _ _ hinv0 hfuel
  refine ⟨st, hinv, hu, ?_, ?_⟩
  · intro y
    rw [hz]
    show y ∈ init ↔ _
    rw [hmem]
    simp
  · unfold dfa.ctor
    simp only [hinit, hs]

theorem nfa_path_split {T : Type} [TokenInfo T] (nfa : List (nfa_node T))
    (p q : Nat) (w1 : List Int) (h : nfa_path nfa p w1 q) :
    ∀ (s : Int) (w : List Int), w1 = s :: w →
      ∃ x1, ∃ t ∈ (nfa_at nfa x1).transitions, nfa_path nfa p [] x1 ∧ t.epsilon = false ∧
        interval_set.mem s t.characters ∧ nfa_path nfa t.next w q := by
  induction h with
  | nil p => intro s w h; simp at h
  | eps p q r w1 t ht he hn _ ih =>
    intro s w hw
    obtain ⟨x1, t1, ht1, hp1, he1, hm1, hr1⟩ := ih s w hw
    exact ⟨x1, t1, ht1, nfa_path.eps p q x1 [] t ht he hn hp1, he1, hm1, hr1⟩
  | step p q r s1 w1 t ht he hm hn hrest _ =>
    intro s w hw
    simp only [List.cons.injEq] at hw
    obtain ⟨rfl, rfl⟩ := hw
    exact ⟨p, t, ht, nfa_path.nil p, he, hm, hn ▸ hrest⟩

theorem dfa_step_some (heap : List dfa_node) (p : Nat) (s : Int) (q : Nat)
    (h : dfa_step heap p s = some q) :
    ∃ t ∈ (dfa_at heap p).transitions, interval_set.mem s t.characters ∧ t.next = q := by
  unfold dfa_step at h
  cases hf : (dfa_at heap p).transitions.find?
      (fun t => decide (interval_set.mem s t.characters)) with
  | none => simp [hf] at h
  | some t =>
    simp only [hf, Option.map_some', Option.some.injEq] at h
    exact ⟨t, List.mem_of_find?_eq_some hf, by simpa using List.find?_some hf, h⟩

theorem dfa_step_none (heap : List dfa_node) (p : Nat) (s : Int)
    (h : dfa_step heap p s = none) :
    ∀ t ∈ (dfa_at heap p).transitions, ¬ interval_set.mem s t.characters := by
  unfold dfa_step at h
  simp only [Option.map_eq_none'] at h
  intro t ht
  simpa using List.find?_eq_none.1 h t ht

/-- On a deterministic node the step is the target of any transition whose
label contains the symbol. -/
theorem dfa_step_of_mem (heap : List dfa_node) (p : Nat) (s : Int)
    (hdet : dfa_deterministic_at heap p) (t : dfa_transition)
    (ht : t ∈ (dfa_at heap p).transitions) (hs : interval_set.mem s t.characters) :
    dfa_step heap p s = some t.next := by
  cases hst : dfa_step heap p s with
  | none => exact absurd hs (dfa_step_none heap p s hst t ht)
  | some q =>
    obtain ⟨t1, ht1, hs1, hn1⟩ := dfa_step_some heap p s q hst
    by_cases he : t1 = t
    · rw [← hn1, he]
    · exact absurd ⟨hs1, hs⟩ (hdet.forall labels_disjoint_symm ht1 ht he s)

theorem singleton_mem (s : Int) (I : discrete_interval) :
    interval_set.mem s [I] ↔ discrete_interval.mem s I := by
  simp [interval_set.mem]

/-- The transitions that the subset construction gives a processed node are
deterministic. -/
theorem node_progress_deterministic {T : Type} [TokenInfo T] (nfa : List (nfa_node T))
    (heap : List dfa_node) (p : Nat)
    (h : node_progress nfa heap p (nfa_letters nfa (dfa_at heap p).nodes)) :
    (dfa_at heap p).transitions.Pairwise (fun a b =>
      ∀ s, ¬ (interval_set.mem s a.characters ∧ interval_set.mem s b.characters)) := by
  have hasc := make_disjoint_ascending ((dfa_at heap p).nodes.map (nfa_labels nfa))
  have hcl := make_disjoint_closed ((dfa_at heap p).nodes.map (nfa_labels nfa))
  have h1 : ((nfa_letters nfa (dfa_at heap p).nodes).map (fun I => [I])).Pairwise
      (fun a b => ∀ s, ¬ (interval_set.mem s a ∧ interval_set.mem s b)) := by
    rw [List.pairwise_map]
    refine hasc.imp_of_mem ?_
    intro I J hI hJ hlt s hs
    rw [singleton_mem, singleton_mem, closed_interval_mem s I (hcl I hI).1,
      closed_interval_mem s J (hcl J hJ).1] at hs
    omega
  rw [← h.1, List.pairwise_map] at h1
  exact h1

theorem node_progress_closed {T : Type} [TokenInfo T] (nfa : List (nfa_node T))
    (heap : List dfa_node) (p : Nat)
    (h : node_progress nfa heap p (nfa_letters nfa (dfa_at heap p).nodes)) :
    ∀ t ∈ (dfa_at heap p).transitions, ∀ i ∈ t.characters, closed_interval i := by
  intro t ht i hi
  have hm : t.characters ∈ (dfa_at heap p).transitions.map (fun t => t.characters) :=
    List.mem_map.2 ⟨t, ht, rfl⟩
  rw [h.1] at hm
  obtain ⟨I, hI, hIe⟩ := List.mem_map.1 hm
  rw [← hIe] at hi
  simp only [List.mem_singleton] at hi
  subst hi
  exact make_disjoint_closed _ i hI

/-! ## The refinement passes of optimize: blocks only shrink -/

theorem walk_block_sub (equiv : Nat → Nat → Option Bool) (pivot : Nat) :
    ∀ (G newG G1 : List Nat), walk_block equiv pivot G = some (newG, G1) →
      (∀ x ∈ newG, x ∈ G ∧ equiv pivot x = some true) ∧ (∀ x ∈ G1, x ∈ G) := by
  intro G
  induction G with
  | nil =>
    intro newG G1 h
    simp only [walk_block, Option.some.injEq, Prod.mk.injEq] at h
    obtain ⟨rfl, rfl⟩ := h
    simp
  | cons it rest ih =>
    intro newG G1 h
    simp only [walk_block] at h
    cases he : equiv pivot it with
    | none => simp [he] at h
    | some e =>
      cases hw : walk_block equiv pivot rest with
      | none => simp [he, hw] at h
      | some r =>
        obtain ⟨nG, G2⟩ := r
        obtain ⟨ih1, ih2⟩ := ih nG G2 hw
        simp only [he, hw] at h
        cases e with
        | true =>
          simp only [if_true, Option.some.injEq, Prod.mk.injEq] at h
          obtain ⟨rfl, rfl⟩ := h
          constructor
          · intro x hx
            rcases List.mem_cons.1 hx with rfl | hx
            · exact ⟨List.mem_cons_self _ _, he⟩
            · exact ⟨List.mem_cons_of_mem _ (ih1 x hx).1, (ih1 x hx).2⟩
          · intro x hx
            exact List.mem_cons_of_mem _ (ih2 x hx)
        | false =>
          simp only [Bool.false_eq_true, if_false, Option.some.injEq, Prod.mk.injEq] at h
          obtain ⟨rfl, rfl⟩ := h
          constructor
          · intro x hx
            exact ⟨List.mem_cons_of_mem _ (ih1 x hx).1, (ih1 x hx).2⟩
          · intro x hx
            rcases List.mem_cons.1 hx with rfl | hx
            · exact List.mem_cons_self _ _
            · exact List.mem_cons_of_mem _ (ih2 x hx)

theorem gamma_insert_blocks (Gamma : List (List Nat)) (newG : List Nat) :
    ∀ B ∈ (gamma_insert Gamma newG).1, B ∈ Gamma ∨ B = newG := by
  intro B hB
  unfold gamma_insert at hB
  split at hB
  · exact Or.inl hB
  · rcases List.mem_append.1 hB with h | h
    · exact Or.inl h
    · exact Or.inr (by simpa using h)

/-- Every block that one `while (!G.empty())` loop adds lies inside `G` and all
its states passed the test against one pivot of `G`. -/
theorem split_block_sub (equiv : Nat → Nat → Option Bool) :
    ∀ (fuel : Nat) (G : List Nat) (st st1 : List (List Nat) × List (Nat × Nat)),
      split_block equiv fuel G st = some st1 →
      ∀ B ∈ st1.1, B ∈ st.1 ∨
        ∃ pivot ∈ G, ∀ x ∈ B, x ∈ G ∧ equiv pivot x = some true := by
  intro fuel
  induction fuel with
  | zero =>
    intro G st st1 h B hB
    cases G with
    | nil =>
      simp only [split_block, Option.some.injEq] at h
      subst h; exact Or.inl hB
    | cons p r => simp [split_block] at h
  | succ fuel ih =>
    intro G st st1 h B hB
    cases G with
    | nil =>
      simp only [split_block, Option.some.injEq] at h
      subst h; exact Or.inl hB
    | cons p r =>
      obtain ⟨newGamma, newMap⟩ := st
      simp only [split_block] at h
      cases hw : walk_block equiv p (p :: r) with
      | none => simp [hw] at h
      | some res =>
        obtain ⟨newG, G1⟩ := res
        simp only [hw] at h
        obtain ⟨hs1, hs2⟩ := walk_block_sub equiv p (p :: r) newG G1 hw
        rcases ih G1 _ st1 h B hB with h1 | ⟨pivot, hp, hx⟩
        · rcases gamma_insert_blocks newGamma newG B h1 with h2 | h2
          · exact Or.inl h2
          · subst h2
            exact Or.inr ⟨p, List.mem_cons_self _ _, hs1⟩
        · exact Or.inr ⟨pivot, hs2 pivot hp, fun x hxB => ⟨hs2 x (hx x hxB).1, (hx x hxB).2⟩⟩

theorem refine_round_sub (equiv : Nat → Nat → Option Bool) :
    ∀ (Gamma : List (List Nat)) (st st1 : List (List Nat) × List (Nat × Nat)),
      refine_round equiv Gamma st = some st1 →
      ∀ B ∈ st1.1, B ∈ st.1 ∨
        ∃ G ∈ Gamma, ∃ pivot ∈ G, ∀ x ∈ B, x ∈ G ∧ equiv pivot x = some true := by
  intro Gamma
  induction Gamma with
  | nil =>
    intro st st1 h B hB
    simp only [refine_round, Option.some.injEq] at h
    subst h; exact Or.inl hB
  | cons G rest ih =>
    intro st st1 h B hB
    simp only [refine_round] at h
    cases hs : split_block equiv G.length G st with
    | none => simp [hs] at h
    | some st2 =>
      simp only [hs] at h
      rcases ih st2 st1 h B hB with h1 | ⟨G1, hG1, pivot, hp, hx⟩
      · rcases split_block_sub equiv _ G st st2 hs B h1 with h2 | ⟨pivot, hp, hx⟩
        · exact Or.inl h2
        · exact Or.inr ⟨G, List.mem_cons_self _ _, pivot, hp, hx⟩
      · exact Or.inr ⟨G1, List.mem_cons_of_mem _ hG1, pivot, hp, hx⟩

theorem terminal_equiv_symm {T : Type} [TokenInfo T] [TokenInfoLaws T]
    (nfa : List (nfa_node T)) (heap : List dfa_node) (p q : Nat)
    (h : terminal_equiv nfa heap p q = true) : terminal_equiv nfa heap q p = true := by
  simp only [terminal_equiv, Bool.and_eq_true, beq_iff_eq] at h ⊢
  exact ⟨h.1.symm, TokenInfoLaws.eq_symm _ _ h.2⟩

theorem terminal_equiv_trans {T : Type} [TokenInfo T] [TokenInfoLaws T]
    (nfa : List (nfa_node T)) (heap : List dfa_node) (p q r : Nat)
    (h1 : terminal_equiv nfa heap p q = true) (h2 : terminal_equiv nfa heap q r = true) :
    terminal_equiv nfa heap p r = true := by
  simp only [terminal_equiv, Bool.and_eq_true, beq_iff_eq] at h1 h2 ⊢
  exact ⟨h1.1.trans h2.1, TokenInfoLaws.eq_trans _ _ _ h1.2 h2.2⟩

theorem terminal_equiv_refl {T : Type} [TokenInfo T] [TokenInfoLaws T]
    (nfa : List (nfa_node T)) (heap : List dfa_node) (p : Nat) :
    terminal_equiv nfa heap p p = true := by
  simp only [terminal_equiv, Bool.and_eq_true, beq_self_eq_true, true_and]
  exact TokenInfoLaws.eq_refl _

/-- All states of a block of the partition that `optimize` ends with are in the
same terminal class. -/
theorem optimize_loop_terminal {T : Type} [TokenInfo T] [TokenInfoLaws T]
    (nfa : List (nfa_node T)) (heap : List dfa_node) :
    ∀ (fuel : Nat) (ip : Bool) (Gamma : List (List Nat)) (Map : List (Nat × Nat))
      (res : List (List Nat) × List (Nat × Nat)),
      (ip = false → ∀ B ∈ Gamma, ∀ x ∈ B, ∀ y ∈ B, terminal_equiv nfa heap x y = true) →
      optimize_loop nfa heap fuel ip Gamma Map = some res →
      ∀ B ∈ res.1, ∀ x ∈ B, ∀ y ∈ B, terminal_equiv nfa heap x y = true := by
  intro fuel
  induction fuel with
  | zero => intro ip Gamma Map res _ h; simp [optimize_loop] at h
  | succ fuel ih =>
    intro ip Gamma Map res hG h
    simp only [optimize_loop] at h
    cases hr : refine_round
        (if ip = true then fun pivot it => some (terminal_equiv nfa heap pivot it)
          else fun pivot it => check_equivalence heap pivot it Map) Gamma ([], []) with
    | none => simp [hr] at h
    | some st =>
      obtain ⟨newGamma, newMap⟩ := st
      simp only [hr] at h
      have hnew : ∀ B ∈ newGamma, ∀ x ∈ B, ∀ y ∈ B, terminal_equiv nfa heap x y = true := by
        intro B hB x hx y hy
        rcases refine_round_sub _ Gamma _ _ hr B hB with h1 | ⟨G, hGm, pivot, _, hall⟩
        · simp at h1
        · cases ip with
          | true =>
            simp only [if_true, Option.some.injEq] at hall
            exact terminal_equiv_trans nfa heap x pivot y
              (terminal_equiv_symm nfa heap pivot x (hall x hx).2) (hall y hy).2
          | false =>
            exact hG rfl G hGm x (hall x hx).1 y (hall y hy).1
      by_cases hlen : newGamma.length = Gamma.length
      · rw [if_pos hlen] at h
        simp only [Option.some.injEq] at h
        subst h
        exact hnew
      · rw [if_neg hlen] at h
        exact ih false newGamma newMap res (fun _ => hnew) h

/-! ## The DFA of the constructor simulates the NFA -/

/-- The DFA that the constructor assembles from the final state of its loop. -/
theorem built_at {T : Type} [TokenInfo T] (nfa : List (nfa_node T)) (st : build_state)
    (hinv : build_inv nfa st none []) (p : Nat) (hp : p < st.heap.length) :
    dfa_at (aggregate st.heap st.result) p =
      { dfa_at st.heap p with transitions := aggregate_node (dfa_at st.heap p).transitions } := by
  rw [aggregate_at st.result st.heap (by rw [hinv.result_eq]; exact List.nodup_range _) p,
    if_pos ⟨by rw [hinv.result_eq]; simpa using hp, hp⟩]

theorem built_wf {T : Type} [TokenInfo T] (nfa : List (nfa_node T)) (st : build_state)
    (hinv : build_inv nfa st none []) (hu : st.unmarked = []) :
    dfa_wf ({ nfa := nfa, heap := aggregate st.heap st.result, _nodes := st.result,
              _initial := 0 } : dfa T) := by
  have hmem : ∀ p, p ∈ st.result ↔ p < st.heap.length := by
    intro p; rw [hinv.result_eq]; simp
  have hdone : ∀ p < st.heap.length,
      node_progress nfa st.heap p (nfa_letters nfa (dfa_at st.heap p).nodes) :=
    fun p hp => hinv.done p hp (by rw [hu]; simp) (by simp)
  constructor
  · show st.result.Nodup
    rw [hinv.result_eq]; exact List.nodup_range _
  · intro p hp
    show p < (aggregate st.heap st.result).length
    rw [aggregate_length]; exact (hmem p).1 hp
  · show 0 ∈ st.result
    exact (hmem 0).2 hinv.heap_pos
  · intro p hp t ht
    have hp1 := (hmem p).1 hp
    show t.next ∈ st.result
    change t ∈ (dfa_at (aggregate st.heap st.result) p).transitions at ht
    rw [built_at nfa st hinv p hp1] at ht
    obtain ⟨t0, ht0, hn0⟩ := (aggregate_node_next _ t.next).1 ⟨t, ht, rfl⟩
    have hm : t0.characters ∈ (dfa_at st.heap p).transitions.map (fun t => t.characters) :=
      List.mem_map.2 ⟨t0, ht0, rfl⟩
    rw [(hdone p hp1).1] at hm
    obtain ⟨I, _, hIe⟩ := List.mem_map.1 hm
    have := ((hdone p hp1).2 t0 ht0 I hIe.symm).1
    rw [hn0] at this
    exact (hmem _).2 this
  · intro p hp t ht
    have hp1 := (hmem p).1 hp
    change t ∈ (dfa_at (aggregate st.heap st.result) p).transitions at ht
    rw [built_at nfa st hinv p hp1] at ht
    exact aggregate_node_closed _ (node_progress_closed nfa st.heap p (hdone p hp1)) t ht
  · intro p hp
    have hp1 := (hmem p).1 hp
    show dfa_deterministic_at (aggregate st.heap st.result) p
    unfold dfa_deterministic_at
    rw [built_at nfa st hinv p hp1]
    exact aggregate_node_deterministic _ (node_progress_deterministic nfa st.heap p (hdone p hp1))

theorem built_cover {T : Type} [TokenInfo T] (nfa : List (nfa_node T)) (st : build_state)
    (hinv : build_inv nfa st none []) :
    dfa_cover ({ nfa := nfa, heap := aggregate st.heap st.result, _nodes := st.result,
                 _initial := 0 } : dfa T) := by
  have hmem : ∀ p, p ∈ st.result ↔ p < st.heap.length := by
    intro p; rw [hinv.result_eq]; simp
  intro p hp hp0
  have hp1 := (hmem p).1 hp
  obtain ⟨q, hq, t, ht, hn⟩ := hinv.cover p hp1 hp0
  obtain ⟨t1, ht1, hn1⟩ := (aggregate_node_next (dfa_at st.heap q).transitions p).2 ⟨t, ht, hn⟩
  refine ⟨q, (hmem q).2 hq, t1, ?_, hn1⟩
  show t1 ∈ (dfa_at (aggregate st.heap st.result) q).transitions
  rw [built_at nfa st hinv q hq]
  exact ht1

/-- The closure of the move on a letter is the set of symbol successors for
every symbol of the letter. -/
theorem target_ok_sym {T : Type} [TokenInfo T] (nfa : List (nfa_node T)) (hwf : nfa_wf nfa)
    (heap : List dfa_node) (S : List Nat) (I : discrete_interval) (q : Nat)
    (hI : I ∈ nfa_letters nfa S) (h : target_ok nfa heap S I q) (s : Int)
    (hs : discrete_interval.mem s I) :
    ∀ y, y ∈ (dfa_at heap q).nodes ↔ sym_succ nfa S s y := by
  obtain ⟨_, r, hr, hx⟩ := h
  obtain ⟨_, hrm⟩ := eclosure_result_unique nfa hwf _ r hr
  have hcl := nfa_label_intervals_closed nfa hwf S
  intro y
  rw [hx, hrm]
  constructor
  · rintro ⟨m, hm, hp⟩
    rcases (mem_move_s nfa I S [] m).1 hm with h0 | ⟨x, hxS, t, ht, hc, rfl⟩
    · simp at h0
    · have hmem := (letter_contains_iff _ hcl I hI (nfa_labels nfa x)
        (List.mem_map.2 ⟨x, hxS, rfl⟩) t.characters (List.mem_map.2 ⟨t, ht, rfl⟩) s hs).1 hc
      have hne : t.epsilon = false := by
        cases he : t.epsilon with
        | false => rfl
        | true =>
          have := (nfa_at_transitions_valid nfa hwf x t ht).2.1 he
          rw [this] at hmem
          exact absurd hmem (interval_set_mem_nil s)
      exact ⟨x, hxS, t, ht, hne, hmem, hp⟩
  · rintro ⟨x, hxS, t, ht, _, hmem, hp⟩
    have hc := (letter_contains_iff _ hcl I hI (nfa_labels nfa x)
      (List.mem_map.2 ⟨x, hxS, rfl⟩) t.characters (List.mem_map.2 ⟨t, ht, rfl⟩) s hs).2 hmem
    exact ⟨t.next, (mem_move_s nfa I S [] t.next).2 (Or.inr ⟨x, hxS, t, ht, hc, rfl⟩), hp⟩

/-- One step of the built DFA: the node reached stands for the symbol
successors of the node left. -/
theorem built_step_some {T : Type} [TokenInfo T] (nfa : List (nfa_node T)) (hwf : nfa_wf nfa)
    (st : build_state) (hinv : build_inv nfa st none []) (hu : st.unmarked = [])
    (p : Nat) (hp : p < st.heap.length) (s : Int) (q : Nat)
    (h : dfa_step (aggregate st.heap st.result) p s = some q) :
    q < st.heap.length ∧
      ∀ y, y ∈ (dfa_at st.heap q).nodes ↔ sym_succ nfa (dfa_at st.heap p).nodes s y := by
  have hdone := hinv.done p hp (by rw [hu]; simp) (by simp)
  obtain ⟨t, ht, hs, hn⟩ := dfa_step_some _ p s q h
  rw [built_at nfa st hinv p hp] at ht
  obtain ⟨t0, ht0, hs0, hn0⟩ := (aggregate_node_mem _ s q).1 ⟨t, ht, hs, hn⟩
  have hm : t0.characters ∈ (dfa_at st.heap p).transitions.map (fun t => t.characters) :=
    List.mem_map.2 ⟨t0, ht0, rfl⟩
  rw [hdone.1] at hm
  obtain ⟨I, hI, hIe⟩ := List.mem_map.1 hm
  have htok := hdone.2 t0 ht0 I hIe.symm
  rw [hn0] at htok
  rw [← hIe, singleton_mem] at hs0
  exact ⟨htok.1, target_ok_sym nfa hwf st.heap _ I q hI htok s hs0⟩

theorem built_step_none {T : Type} [TokenInfo T] (nfa : List (nfa_node T)) (hwf : nfa_wf nfa)
    (st : build_state) (hinv : build_inv nfa st none []) (hu : st.unmarked = [])
    (p : Nat) (hp : p < st.heap.length) (s : Int)
    (h : dfa_step (aggregate st.heap st.result) p s = none) :
    ∀ y, ¬ sym_succ nfa (dfa_at st.heap p).nodes s y := by
  have hdone := hinv.done p hp (by rw [hu]; simp) (by simp)
  have hcl := nfa_label_intervals_closed nfa hwf (dfa_at st.heap p).nodes
  rintro y ⟨x, hxS, t, ht, _, hmem, _⟩
  obtain ⟨I, hI, hsI⟩ := (letter_union _ hcl s).2
    ⟨nfa_labels nfa x, List.mem_map.2 ⟨x, hxS, rfl⟩, t.characters,
      List.mem_map.2 ⟨t, ht, rfl⟩, hmem⟩
  have hm : [I] ∈ (nfa_letters nfa (dfa_at st.heap p).nodes).map (fun I => [I]) :=
    List.mem_map.2 ⟨I, hI, rfl⟩
  rw [← hdone.1] at hm
  obtain ⟨t0, ht0, ht0e⟩ := List.mem_map.1 hm
  have hs0 : interval_set.mem s t0.characters := by
    rw [ht0e, singleton_mem]; exact hsI
  obtain ⟨t1, ht1, hs1, _⟩ := (aggregate_node_mem _ s t0.next).2 ⟨t0, ht0, hs0, rfl⟩
  have hnone := dfa_step_none _ p s h t1
  rw [built_at nfa st hinv p hp] at hnone
  exact hnone ht1 hs1

/-- The run of the built DFA from a node over `w` ends in the node that stands
for the NFA nodes reachable from it by paths spelling `w`; the run fails only if
there is no such path. -/
theorem built_run {T : Type} [TokenInfo T] (nfa : List (nfa_node T)) (hwf : nfa_wf nfa)
    (st : build_state) (hinv : build_inv nfa st none []) (hu : st.unmarked = []) :
    ∀ (w : List Int) (p : Nat), p < st.heap.length →
      (∀ q, dfa_run (aggregate st.heap st.result) p w = some q →
        q < st.heap.length ∧
          ∀ y, y ∈ (dfa_at st.heap q).nodes ↔
            ∃ x ∈ (dfa_at st.heap p).nodes, nfa_path nfa x w y) ∧
      (dfa_run (aggregate st.heap st.result) p w = none →
        ∀ x ∈ (dfa_at st.heap p).nodes, ∀ y, ¬ nfa_path nfa x w y) := by
  intro w
  induction w with
  | nil =>
    intro p hp
    constructor
    · intro q hq
      simp only [dfa_run, Option.some.injEq] at hq
      subst hq
      refine ⟨hp, fun y => ⟨fun hy => ⟨y, hy, nfa_path.nil y⟩, ?_⟩⟩
      rintro ⟨x, hx, hpath⟩
      exact hinv.nodes_closed p hp x hx y hpath
    · intro h; simp [dfa_run] at h
  | cons s w ih =>
    intro p hp
    cases hst : dfa_step (aggregate st.heap st.result) p s with
    | none =>
      have hno := built_step_none nfa hwf st hinv hu p hp s hst
      constructor
      · intro q hq; simp [dfa_run, hst] at hq
      · intro _ x hx y hpath
        obtain ⟨x1, t, ht, hp1, he, hm, hrest⟩ := nfa_path_split nfa x y _ hpath s w rfl
        exact hno t.next ⟨x1, hinv.nodes_closed p hp x hx x1 hp1, t, ht, he, hm, nfa_path.nil _⟩
    | some q1 =>
      obtain ⟨hq1, hnodes1⟩ := built_step_some nfa hwf st hinv hu p hp s q1 hst
      obtain ⟨ih1, ih2⟩ := ih q1 hq1
      have hfwd : ∀ y, (∃ x1 ∈ (dfa_at st.heap q1).nodes, nfa_path nfa x1 w y) ↔
          ∃ x ∈ (dfa_at st.heap p).nodes, nfa_path nfa x (s :: w) y := by
        intro y
        constructor
        · rintro ⟨x1, hx1, hpath⟩
          obtain ⟨x, hx, t, ht, he, hm, hp1⟩ := (hnodes1 x1).1 hx1
          have h2 := nfa_path_trans nfa t.next x1 y [] w hp1 hpath
          exact ⟨x, hx, nfa_path.step x t.next y s w t ht he hm rfl (by simpa using h2)⟩
        · rintro ⟨x, hx, hpath⟩
          obtain ⟨x1, t, ht, hp1, he, hm, hrest⟩ := nfa_path_split nfa x y _ hpath s w rfl
          exact ⟨t.next, (hnodes1 t.next).2
            ⟨x1, hinv.nodes_closed p hp x hx x1 hp1, t, ht, he, hm, nfa_path.nil _⟩, hrest⟩
      constructor
      · intro q hq
        simp only [dfa_run, hst] at hq
        obtain ⟨hq2, hn2⟩ := ih1 q hq
        exact ⟨hq2, fun y => (hn2 y).trans (hfwd y)⟩
      · intro hnone x hx y hpath
        simp only [dfa_run, hst] at hnone
        obtain ⟨x1, hx1, hp1⟩ := (hfwd y).2 ⟨x, hx, hpath⟩
        exact ih2 hnone x1 hx1 y hp1

/-! ## One refinement pass of optimize -/

theorem walk_block_spec (equiv : Nat → Nat → Option Bool) (pivot : Nat) :
    ∀ (G : List Nat), (∀ x ∈ G, ∃ b, equiv pivot x = some b) →
      ∃ newG G1, walk_block equiv pivot G = some (newG, G1) ∧
        (∀ x, x ∈ newG ↔ x ∈ G ∧ equiv pivot x = some true) ∧
        (∀ x, x ∈ G1 ↔ x ∈ G ∧ equiv pivot x = some false) ∧
        (newG ++ G1).Perm G := by
  intro G
  induction G with
  | nil => intro _; exact ⟨[], [], rfl, by simp, by simp, List.Perm.refl _⟩
  | cons it rest ih =>
    intro hdec
    obtain ⟨b, hb⟩ := hdec it (List.mem_cons_self _ _)
    obtain ⟨newG, G1, hw, h1, h2, hperm⟩ := ih (fun x hx => hdec x (List.mem_cons_of_mem _ hx))
    cases b with
    | true =>
      refine ⟨it :: newG, G1, by simp [walk_block, hb, hw], ?_, ?_, ?_⟩
      · intro x
        simp only [List.mem_cons, h1]
        constructor
        · rintro (rfl | ⟨h, he⟩)
          · exact ⟨Or.inl rfl, hb⟩
          · exact ⟨Or.inr h, he⟩
        · rintro ⟨rfl | h, he⟩
          · exact Or.inl rfl
          · exact Or.inr ⟨h, he⟩
      · intro x
        simp only [List.mem_cons, h2]
        constructor
        · rintro ⟨h, he⟩; exact ⟨Or.inr h, he⟩
        · rintro ⟨rfl | h, he⟩
          · rw [hb] at he; simp at he
          · exact ⟨h, he⟩
      · exact List.Perm.cons it hperm
    | false =>
      refine ⟨newG, it :: G1, by simp [walk_block, hb, hw], ?_, ?_, ?_⟩
      · intro x
        simp only [List.mem_cons, h1]
        constructor
        · rintro ⟨h, he⟩; exact ⟨Or.inr h, he⟩
        · rintro ⟨rfl | h, he⟩
          · rw [hb] at he; simp at he
          · exact ⟨h, he⟩
      · intro x
        simp only [List.mem_cons, h2]
        constructor
        · rintro (rfl | ⟨h, he⟩)
          · exact ⟨Or.inl rfl, hb⟩
          · exact ⟨Or.inr h, he⟩
        · rintro ⟨rfl | h, he⟩
          · exact Or.inl rfl
          · exact Or.inr ⟨h, he⟩
      · exact (List.perm_middle).trans (List.Perm.cons it hperm)

theorem map_at_append (M : List (Nat × Nat)) (k v x : Nat) :
    map_at (M ++ [(k, v)]) x = (map_at M x).or (if x = k then some v else none) := by
  unfold map_at
  rw [List.find?_append]
  cases hf : List.find? (fun e => e.1 == x) M with
  | some e => simp
  | none =>
    by_cases hk : x = k
    · subst hk; simp [List.find?]
    · have : (k == x) = false := by simpa using fun h : k = x => hk h.symm
      simp [List.find?, this, hk]

theorem map_at_emplace (M : List (Nat × Nat)) (k v x : Nat) :
    map_at (map_emplace M k v) x = (map_at M x).or (if x = k then some v else none) := by
  unfold map_emplace
  cases hk : map_at M k with
  | some j =>
    simp only
    by_cases hx : x = k
    · subst hx; simp [hk]
    · simp [hx]
  | none =>
    simp only
    exact map_at_append M k v x

theorem map_at_foldl_emplace (newG : List Nat) (idx : Nat) :
    ∀ (M : List (Nat × Nat)) (x : Nat),
      map_at (newG.foldl (fun m it => map_emplace m it idx) M) x =
        (map_at M x).or (if x ∈ newG then some idx else none) := by
  induction newG with
  | nil => intro M x; simp
  | cons k rest ih =>
    intro M x
    rw [List.foldl_cons, ih, map_at_emplace]
    cases map_at M x with
    | some j => simp
    | none =>
      by_cases hk : x = k
      · subst hk; simp
      · simp [hk]

theorem gamma_insert_new (Gamma : List (List Nat)) (newG : List Nat) (hne : newG ≠ [])
    (hdis : ∀ x ∈ newG, x ∉ Gamma.flatten) :
    gamma_insert Gamma newG = (Gamma ++ [newG], Gamma.length) := by
  unfold gamma_insert
  have : Gamma.findIdx? (fun G => set_eq G newG) = none := by
    rw [List.findIdx?_eq_none_iff]
    intro B hB
    cases hs : set_eq B newG with
    | false => rfl
    | true =>
      exfalso
      rw [set_eq_iff] at hs
      cases newG with
      | nil => exact hne rfl
      | cons a _ =>
        have ha : a ∈ B := (hs a).2 (List.mem_cons_self _ _)
        exact hdis a (List.mem_cons_self _ _) (List.mem_flatten.2 ⟨B, hB, ha⟩)
  rw [this]

theorem part_ok_mem_flatten (Gamma : List (List Nat)) (Map : List (Nat × Nat))
    (h : part_ok Gamma Map) (x : Nat) :
    x ∈ Gamma.flatten ↔ ∃ i, map_at Map x = some i := by
  constructor
  · intro hx
    obtain ⟨B, hB, hxB⟩ := List.mem_flatten.1 hx
    obtain ⟨i, hi⟩ := List.mem_iff_getElem?.1 hB
    exact ⟨i, (h.map_iff x i).2 ⟨B, hi, hxB⟩⟩
  · rintro ⟨i, hi⟩
    obtain ⟨B, hB, hxB⟩ := (h.map_iff x i).1 hi
    exact List.mem_flatten.2 ⟨B, List.mem_iff_getElem?.2 ⟨i, hB⟩, hxB⟩

/-- Appending a fresh block and mapping its states to it. -/
theorem part_ok_snoc (Gamma : List (List Nat)) (Map : List (Nat × Nat)) (newG : List Nat)
    (h : part_ok Gamma Map) (hne : newG ≠ []) (hnd : newG.Nodup)
    (hdis : ∀ x ∈ newG, x ∉ Gamma.flatten) :
    part_ok (Gamma ++ [newG])
      (newG.foldl (fun m it => map_emplace m it Gamma.length) Map) := by
  constructor
  · intro B hB
    rcases List.mem_append.1 hB with hB | hB
    · exact h.blocks_ne B hB
    · simp only [List.mem_singleton] at hB; rw [hB]; exact hne
  · rw [List.flatten_append, List.nodup_append]
    refine ⟨h.flat_nodup, by simpa using hnd, ?_⟩
    intro a ha hb
    simp only [List.flatten_cons, List.flatten_nil, List.append_nil] at hb
    exact hdis a hb ha
  · intro x i
    rw [map_at_foldl_emplace]
    constructor
    · intro hm
      cases hmx : map_at Map x with
      | some j =>
        rw [hmx] at hm
        have hm1 : j = i := by simpa [Option.or] using hm
        subst hm1
        obtain ⟨B, hB, hxB⟩ := (h.map_iff x j).1 hmx
        refine ⟨B, ?_, hxB⟩
        have hj : j < Gamma.length := (List.getElem?_eq_some_iff.1 hB).1
        rw [List.getElem?_append_left hj]; exact hB
      | none =>
        rw [hmx] at hm
        replace hm : (if x ∈ newG then some Gamma.length else none) = some i := by
          simpa [Option.or] using hm
        by_cases hx : x ∈ newG
        · rw [if_pos hx] at hm
          simp only [Option.some.injEq] at hm
          subst hm
          exact ⟨newG, by simp, hx⟩
        · rw [if_neg hx] at hm; simp at hm
    · rintro ⟨B, hB, hxB⟩
      by_cases hi : i < Gamma.length
      · rw [List.getElem?_append_left hi] at hB
        have := (h.map_iff x i).2 ⟨B, hB, hxB⟩
        rw [this]; simp
      · have hi2 : Gamma.length ≤ i := by omega
        rw [List.getElem?_append_right hi2] at hB
        have hi3 : i - Gamma.length = 0 := by
          by_contra hne0
          have : [newG][i - Gamma.length]? = none := by
            apply List.getElem?_eq_none
            simp; omega
          rw [this] at hB; simp at hB
        rw [hi3] at hB
        simp only [List.getElem?_cons_zero, Option.some.injEq] at hB
        subst hB
        have hnone : map_at Map x = none := by
          cases hmx : map_at Map x with
          | none => rfl
          | some j =>
            exfalso
            exact hdis x hxB ((part_ok_mem_flatten Gamma Map h x).2 ⟨j, hmx⟩)
        rw [hnone, if_pos hxB]
        have : Gamma.length = i := by omega
        simp [Option.or, this]

theorem same_block_flatten_left (Gamma : List (List Nat)) (x y : Nat)
    (h : same_block Gamma x y) : x ∈ Gamma.flatten :=
  let ⟨B, hB, hx, _⟩ := h
  List.mem_flatten.2 ⟨B, hB, hx⟩

theorem same_block_flatten_right (Gamma : List (List Nat)) (x y : Nat)
    (h : same_block Gamma x y) : y ∈ Gamma.flatten :=
  let ⟨B, hB, _, hy⟩ := h
  List.mem_flatten.2 ⟨B, hB, hy⟩

theorem same_block_append (G1 G2 : List (List Nat)) (x y : Nat) :
    same_block (G1 ++ G2) x y ↔ same_block G1 x y ∨ same_block G2 x y := by
  unfold same_block
  constructor
  · rintro ⟨B, hB, h⟩
    rcases List.mem_append.1 hB with h1 | h1
    · exact Or.inl ⟨B, h1, h⟩
    · exact Or.inr ⟨B, h1, h⟩
  · rintro (⟨B, hB, h⟩ | ⟨B, hB, h⟩)
    · exact ⟨B, List.mem_append_left _ hB, h⟩
    · exact ⟨B, List.mem_append_right _ hB, h⟩

theorem same_block_cons (G : List Nat) (rest : List (List Nat)) (x y : Nat) :
    same_block (G :: rest) x y ↔ (x ∈ G ∧ y ∈ G) ∨ same_block rest x y := by
  unfold same_block
  simp only [List.mem_cons, exists_eq_or_imp]

/-- The `while (!G.empty())` loop splits `G` into the classes of `equiv`. -/
theorem split_block_spec (equiv : Nat → Nat → Option Bool) (N : List Nat)
    (heq : equiv_on equiv N) :
    ∀ (fuel : Nat) (G : List Nat) (ng : List (List Nat)) (nm : List (Nat × Nat)),
      G.length ≤ fuel → (∀ x ∈ G, x ∈ N) → G.Nodup → part_ok ng nm →
      (∀ x ∈ G, x ∉ ng.flatten) →
      ∃ blocks nm1, split_block equiv fuel G (ng, nm) = some (ng ++ blocks, nm1) ∧
        part_ok (ng ++ blocks) nm1 ∧ blocks.flatten.Perm G ∧ (G ≠ [] → blocks ≠ []) ∧
        (∀ x ∈ G, ∀ y ∈ G, same_block blocks x y ↔ equiv x y = some true) := by
  intro fuel
  induction fuel with
  | zero =>
    intro G ng nm hlen _ _ hpo _
    have : G = [] := List.length_eq_zero.1 (by omega)
    subst this
    exact ⟨[], nm, by simp [split_block], by simpa using hpo, by simp, by simp, by simp⟩
  | succ fuel ih =>
    intro G ng nm hlen hGN hnd hpo hdis
    cases G with
    | nil => exact ⟨[], nm, by simp [split_block], by simpa using hpo, by simp, by simp, by simp⟩
    | cons pivot rest =>
      have hpN : pivot ∈ N := hGN pivot (List.mem_cons_self _ _)
      obtain ⟨newG, G1, hw, h1, h2, hperm⟩ := walk_block_spec equiv pivot (pivot :: rest)
        (fun x hx => heq.total pivot hpN x (hGN x hx))
      have hpiv : pivot ∈ newG := (h1 pivot).2 ⟨List.mem_cons_self _ _, heq.refl pivot hpN⟩
      have hne : newG ≠ [] := by intro h; rw [h] at hpiv; simp at hpiv
      have hnd2 : (newG ++ G1).Nodup := (hperm.nodup_iff).2 hnd
      rw [List.nodup_append] at hnd2
      obtain ⟨hndn, hndg, hdisj⟩ := hnd2
      have hlen1 : G1.length ≤ fuel := by
        have := hperm.length_eq
        simp only [List.length_append, List.length_cons] at this hlen
        have : 0 < newG.length := List.length_pos.2 hne
        omega
      have hsubn : ∀ x ∈ newG, x ∈ pivot :: rest := fun x hx => ((h1 x).1 hx).1
      have hsubg : ∀ x ∈ G1, x ∈ pivot :: rest := fun x hx => ((h2 x).1 hx).1
      have hins := gamma_insert_new ng newG hne (fun x hx => hdis x (hsubn x hx))
      have hpo1 := part_ok_snoc ng nm newG hpo hne hndn (fun x hx => hdis x (hsubn x hx))
      have hdis1 : ∀ x ∈ G1, x ∉ (ng ++ [newG]).flatten := by
        intro x hx hm
        rw [List.flatten_append] at hm
        rcases List.mem_append.1 hm with h | h
        · exact hdis x (hsubg x hx) h
        · simp only [List.flatten_cons, List.flatten_nil, List.append_nil] at h
          exact hdisj h hx
      obtain ⟨blocks1, nm1, hs1, hpo2, hperm1, _, hsb1⟩ :=
        ih G1 (ng ++ [newG]) _ hlen1 (fun x hx => hGN x (hsubg x hx)) hndg hpo1 hdis1
      have hcase : ∀ x ∈ pivot :: rest, x ∈ newG ∨ x ∈ G1 := by
        intro x hx
        obtain ⟨b, hb⟩ := heq.total pivot hpN x (hGN x hx)
        cases b with
        | true => exact Or.inl ((h1 x).2 ⟨hx, hb⟩)
        | false => exact Or.inr ((h2 x).2 ⟨hx, hb⟩)
      have hnot1 : ∀ x ∈ newG, ∀ B ∈ blocks1, x ∉ B := by
        intro x hx B hB hxB
        have : x ∈ G1 := hperm1.mem_iff.1 (List.mem_flatten.2 ⟨B, hB, hxB⟩)
        exact hdisj hx this
      refine ⟨newG :: blocks1, nm1, ?_, ?_, ?_, by simp, ?_⟩
      · simp only [split_block, hw, hins]
        rw [hs1]; simp
      · have : ng ++ newG :: blocks1 = ng ++ [newG] ++ blocks1 := by simp
        rw [this]; exact hpo2
      · rw [List.flatten_cons]
        exact (List.Perm.append_left newG hperm1).trans hperm
      · intro x hx y hy
        rw [same_block_cons]
        have hxN := hGN x hx
        have hyN := hGN y hy
        rcases hcase x hx with hxn | hxg <;> rcases hcase y hy with hyn | hyg
        · have e1 := ((h1 x).1 hxn).2
          have e2 := ((h1 y).1 hyn).2
          have := heq.trans x hxN pivot hpN y hyN (heq.symm pivot hpN x hxN e1) e2
          exact ⟨fun _ => this, fun _ => Or.inl ⟨hxn, hyn⟩⟩
        · constructor
          · rintro (⟨_, h⟩ | ⟨B, hB, hxB, _⟩)
            · exact absurd hyg (fun h3 => hdisj h h3)
            · exact absurd hxB (hnot1 x hxn B hB)
          · intro he
            have e1 := ((h1 x).1 hxn).2
            have := heq.trans pivot hpN x hxN y hyN e1 he
            exact absurd ((h1 y).2 ⟨hy, this⟩) (fun h3 => hdisj h3 hyg)
        · constructor
          · rintro (⟨h, _⟩ | ⟨B, hB, _, hyB⟩)
            · exact absurd hxg (fun h3 => hdisj h h3)
            · exact absurd hyB (hnot1 y hyn B hB)
          · intro he
            have e2 := ((h1 y).1 hyn).2
            have := heq.trans pivot hpN y hyN x hxN e2 (heq.symm x hxN y hyN he)
            exact absurd ((h1 x).2 ⟨hx, this⟩) (fun h3 => hdisj h3 hxg)
        · rw [← hsb1 x hxg y hyg]
          constructor
          · rintro (⟨h, _⟩ | h)
            · exact absurd hxg (fun h3 => hdisj h h3)
            · exact h
          · exact Or.inr

/-- One refinement pass: every block of `Gamma` is split into the classes of
`equiv`; the number of blocks does not drop, and stays the same only if no block
is split. -/
theorem refine_round_spec (equiv : Nat → Nat → Option Bool) (N : List Nat)
    (heq : equiv_on equiv N) :
    ∀ (Gamma : List (List Nat)) (ng : List (List Nat)) (nm : List (Nat × Nat)),
      (∀ G ∈ Gamma, G ≠ []) → (∀ x ∈ Gamma.flatten, x ∈ N) → Gamma.flatten.Nodup →
      part_ok ng nm → (∀ x ∈ Gamma.flatten, x ∉ ng.flatten) →
      ∃ blocks nm1, refine_round equiv Gamma (ng, nm) = some (ng ++ blocks, nm1) ∧
        part_ok (ng ++ blocks) nm1 ∧ blocks.flatten.Perm Gamma.flatten ∧
        Gamma.length ≤ blocks.length ∧
        (∀ x ∈ Gamma.flatten, ∀ y ∈ Gamma.flatten,
          same_block blocks x y ↔ same_block Gamma x y ∧ equiv x y = some true) ∧
        (blocks.length = Gamma.length →
          ∀ x y, same_block Gamma x y → equiv x y = some true) := by
  intro Gamma
  induction Gamma with
  | nil =>
    intro ng nm _ _ _ hpo _
    refine ⟨[], nm, by simp [refine_round], by simpa using hpo, by simp, by simp, by simp, ?_⟩
    rintro _ x y ⟨B, hB, _⟩
    simp at hB
  | cons G rest ih =>
    intro ng nm hne hN hnd hpo hdis
    rw [List.flatten_cons, List.nodup_append] at hnd
    obtain ⟨hndG, hndR, hdisj⟩ := hnd
    have hGN : ∀ x ∈ G, x ∈ N := fun x hx => hN x (by rw [List.flatten_cons]; exact List.mem_append_left _ hx)
    have hRN : ∀ x ∈ rest.flatten, x ∈ N :=
      fun x hx => hN x (by rw [List.flatten_cons]; exact List.mem_append_right _ hx)
    obtain ⟨blocksG, nmG, hsG, hpoG, hpermG, hneG, hsbG⟩ :=
      split_block_spec equiv N heq G.length G ng nm (le_refl _) hGN hndG hpo
        (fun x hx => hdis x (by rw [List.flatten_cons]; exact List.mem_append_left _ hx))
    have hdisR : ∀ x ∈ rest.flatten, x ∉ (ng ++ blocksG).flatten := by
      intro x hx hm
      rw [List.flatten_append] at hm
      rcases List.mem_append.1 hm with h | h
      · exact hdis x (by rw [List.flatten_cons]; exact List.mem_append_right _ hx) h
      · exact hdisj (hpermG.mem_iff.1 h) hx
    obtain ⟨blocksR, nmR, hsR, hpoR, hpermR, hlenR, hsbR, hsameR⟩ :=
      ih (ng ++ blocksG) nmG (fun B hB => hne B (List.mem_cons_of_mem _ hB)) hRN hndR hpoG hdisR
    have hGne : G ≠ [] := hne G (List.mem_cons_self _ _)
    have hlenG : 1 ≤ blocksG.length := List.length_pos.2 (hneG hGne)
    have hinG : ∀ x y, same_block blocksG x y → x ∈ G ∧ y ∈ G := by
      intro x y h
      exact ⟨hpermG.mem_iff.1 (same_block_flatten_left _ x y h),
        hpermG.mem_iff.1 (same_block_flatten_right _ x y h)⟩
    have hinR : ∀ x y, same_block blocksR x y → x ∈ rest.flatten ∧ y ∈ rest.flatten := by
      intro x y h
      exact ⟨hpermR.mem_iff.1 (same_block_flatten_left _ x y h),
        hpermR.mem_iff.1 (same_block_flatten_right _ x y h)⟩
    have hinRest : ∀ x y, same_block rest x y → x ∈ rest.flatten ∧ y ∈ rest.flatten :=
      fun x y h => ⟨same_block_flatten_left _ x y h, same_block_flatten_right _ x y h⟩
    refine ⟨blocksG ++ blocksR, nmR, ?_, ?_, ?_, ?_, ?_, ?_⟩
    · simp only [refine_round, hsG]
      rw [hsR]; simp
    · have : ng ++ (blocksG ++ blocksR) = ng ++ blocksG ++ blocksR := by simp
      rw [this]; exact hpoR
    · rw [List.flatten_append, List.flatten_cons]
      exact List.Perm.append hpermG hpermR
    · simp only [List.length_append, List.length_cons]; omega
    · intro x hx y hy
      rw [same_block_append, same_block_cons]
      rw [List.flatten_cons] at hx hy
      rcases List.mem_append.1 hx with hxG | hxR <;> rcases List.mem_append.1 hy with hyG | hyR
      · rw [← hsbG x hxG y hyG]
        constructor
        · rintro (h | h)
          · exact ⟨Or.inl ⟨hxG, hyG⟩, h⟩
          · exact absurd (hinR x y h).1 (fun h3 => hdisj hxG h3)
        · rintro ⟨_, h⟩; exact Or.inl h
      · constructor
        · rintro (h | h)
          · exact absurd hyR (fun h3 => hdisj (hinG x y h).2 h3)
          · exact absurd (hinR x y h).1 (fun h3 => hdisj hxG h3)
        · rintro ⟨(⟨_, h⟩ | h), _⟩
          · exact absurd hyR (fun h3 => hdisj h h3)
          · exact absurd (hinRest x y h).1 (fun h3 => hdisj hxG h3)
      · constructor
        · rintro (h | h)
          · exact absurd hxR (fun h3 => hdisj (hinG x y h).1 h3)
          · exact absurd (hinR x y h).2 (fun h3 => hdisj hyG h3)
        · rintro ⟨(⟨h, _⟩ | h), _⟩
          · exact absurd hxR (fun h3 => hdisj h h3)
          · exact absurd (hinRest x y h).2 (fun h3 => hdisj hyG h3)
      · have := hsbR x hxR y hyR
        constructor
        · rintro (h | h)
          · exact absurd hxR (fun h3 => hdisj (hinG x y h).1 h3)
          · exact ⟨Or.inr (this.1 h).1, (this.1 h).2⟩
        · rintro ⟨(⟨h, _⟩ | h), he⟩
          · exact absurd hxR (fun h3 => hdisj h h3)
          · exact Or.inr (this.2 ⟨h, he⟩)
    · intro hlen x y hsb
      simp only [List.length_append, List.length_cons] at hlen
      rw [same_block_cons] at hsb
      rcases hsb with ⟨hxG, hyG⟩ | h
      · have h1 : blocksG.length = 1 := by omega
        obtain ⟨B, hB⟩ := List.length_eq_one.1 h1
        rw [← hsbG x hxG y hyG, hB]
        rw [hB] at hpermG
        simp only [List.flatten_cons, List.flatten_nil, List.append_nil] at hpermG
        exact ⟨B, by simp, hpermG.mem_iff.2 hxG, hpermG.mem_iff.2 hyG⟩
      · exact hsameR (by omega) x y h

/-! ## check_equivalence -/

theorem find_next_none (c : dfa_transition → Bool) (ts : List dfa_transition) :
    ∀ (acc : Option Nat), (∀ t ∈ ts, c t = false) →
      ts.foldl (fun next tran => if c tran then some tran.next else next) acc = acc := by
  induction ts with
  | nil => intro acc _; rfl
  | cons t ts ih =>
    intro acc h
    rw [List.foldl_cons, h t (List.mem_cons_self _ _)]
    exact ih acc (fun t1 h1 => h t1 (List.mem_cons_of_mem _ h1))

theorem find_next_some (c : dfa_transition → Bool) (ts : List dfa_transition) :
    ∀ (acc : Option Nat) (n : Nat), (∃ t ∈ ts, c t = true) →
      (∀ t ∈ ts, c t = true → t.next = n) →
      ts.foldl (fun next tran => if c tran then some tran.next else next) acc = some n := by
  induction ts with
  | nil => intro acc n h; obtain ⟨t, ht, _⟩ := h; simp at ht
  | cons t ts ih =>
    intro acc n hex huniq
    rw [List.foldl_cons]
    by_cases hrest : ∃ t1 ∈ ts, c t1 = true
    · exact ih _ n hrest (fun t1 h1 => huniq t1 (List.mem_cons_of_mem _ h1))
    · have hnone : ∀ t1 ∈ ts, c t1 = false := by
        intro t1 h1
        cases hc : c t1 with
        | false => rfl
        | true => exact absurd ⟨t1, h1, hc⟩ hrest
      rw [find_next_none c ts _ hnone]
      obtain ⟨t1, ht1, hc1⟩ := hex
      rcases List.mem_cons.1 ht1 with rfl | h
      · rw [hc1, if_pos rfl, huniq t1 (List.mem_cons_self _ _) hc1]
      · rw [hnone t1 h] at hc1; simp at hc1

/-- On a deterministic state, for an interval that no label cuts, the target
found by the loop of `check_equivalence` is the step on any symbol of the
interval. -/
theorem find_next_eq_step (heap : List dfa_node) (p : Nat) (I : discrete_interval) (s : Int)
    (hdet : dfa_deterministic_at heap p)
    (hc : ∀ t ∈ (dfa_at heap p).transitions,
      t.characters.contains I = true ↔ interval_set.mem s t.characters) :
    find_next (dfa_at heap p).transitions I = dfa_step heap p s := by
  unfold find_next
  cases hst : dfa_step heap p s with
  | none =>
    apply find_next_none (fun tran => tran.characters.contains I)
    intro t ht
    have := dfa_step_none heap p s hst t ht
    cases hcc : t.characters.contains I with
    | false => rfl
    | true => exact absurd ((hc t ht).1 hcc) this
  | some q =>
    obtain ⟨t, ht, hs, hn⟩ := dfa_step_some heap p s q hst
    apply find_next_some (fun tran => tran.characters.contains I)
    · exact ⟨t, ht, (hc t ht).2 hs⟩
    · intro t1 ht1 hc1
      have hs1 := (hc t1 ht1).1 hc1
      have := dfa_step_of_mem heap p s hdet t1 ht1 hs1
      rw [hst] at this
      simpa using this.symm

theorem check_letters_spec (ts1 ts2 : List dfa_transition) (Map : List (Nat × Nat))
    (letters : List discrete_interval)
    (h1 : ∀ I ∈ letters, ∀ n, find_next ts1 I = some n → ∃ i, map_at Map n = some i)
    (h2 : ∀ I ∈ letters, ∀ n, find_next ts2 I = some n → ∃ i, map_at Map n = some i) :
    ∃ b, check_letters ts1 ts2 Map letters = some b ∧
      (b = true ↔ ∀ I ∈ letters,
        (find_next ts1 I).bind (map_at Map) = (find_next ts2 I).bind (map_at Map)) := by
  induction letters with
  | nil => exact ⟨true, rfl, by simp⟩
  | cons I rest ih =>
    obtain ⟨b, hb, hiff⟩ := ih (fun J hJ => h1 J (List.mem_cons_of_mem _ hJ))
      (fun J hJ => h2 J (List.mem_cons_of_mem _ hJ))
    cases hf1 : find_next ts1 I with
    | none =>
      cases hf2 : find_next ts2 I with
      | none =>
        refine ⟨b, by simp [check_letters, hf1, hf2, hb], ?_⟩
        rw [hiff]
        simp [hf1, hf2]
      | some n2 =>
        obtain ⟨i2, hi2⟩ := h2 I (List.mem_cons_self _ _) n2 hf2
        refine ⟨false, by simp [check_letters, hf1, hf2], ?_⟩
        simp [hf1, hf2, hi2]
    | some n1 =>
      obtain ⟨i1, hi1⟩ := h1 I (List.mem_cons_self _ _) n1 hf1
      cases hf2 : find_next ts2 I with
      | none =>
        refine ⟨false, by simp [check_letters, hf1, hf2], ?_⟩
        simp [hf1, hf2, hi1]
      | some n2 =>
        obtain ⟨i2, hi2⟩ := h2 I (List.mem_cons_self _ _) n2 hf2
        by_cases hne : i1 = i2
        · refine ⟨b, by simp [check_letters, hf1, hf2, hi1, hi2, hne, hb], ?_⟩
          rw [hiff]
          simp [hf1, hf2, hi1, hi2, hne]
        · refine ⟨false, by simp [check_letters, hf1, hf2, hi1, hi2, hne], ?_⟩
          simp [hf1, hf2, hi1, hi2, hne]

theorem dfa_label_intervals_closed (heap : List dfa_node) (p q : Nat)
    (hp : ∀ t ∈ (dfa_at heap p).transitions, ∀ i ∈ t.characters, closed_interval i)
    (hq : ∀ t ∈ (dfa_at heap q).transitions, ∀ i ∈ t.characters, closed_interval i) :
    ∀ L ∈ label_intervals [dfa_labels heap p, dfa_labels heap q], closed_interval L := by
  intro L hL
  obtain ⟨ts, hts, cs, hcs, hLc⟩ := (mem_label_intervals _ L).1 hL
  simp only [List.mem_cons, List.mem_singleton, List.not_mem_nil, or_false] at hts
  rcases hts with rfl | rfl
  · obtain ⟨t, ht, rfl⟩ := List.mem_map.1 hcs
    exact hp t ht L hLc
  · obtain ⟨t, ht, rfl⟩ := List.mem_map.1 hcs
    exact hq t ht L hLc

/-- The two-state interval check equals the symbol-wise check: for two
deterministic states whose targets are all keys of `Map`, `check_equivalence`
answers, and answers `true` iff on every symbol both states have no transition
or both move into the same block. -/
theorem check_equivalence_spec (heap : List dfa_node) (Map : List (Nat × Nat)) (p q : Nat)
    (hdp : dfa_deterministic_at heap p) (hdq : dfa_deterministic_at heap q)
    (hcp : ∀ t ∈ (dfa_at heap p).transitions, ∀ i ∈ t.characters, closed_interval i)
    (hcq : ∀ t ∈ (dfa_at heap q).transitions, ∀ i ∈ t.characters, closed_interval i)
    (hmp : ∀ t ∈ (dfa_at heap p).transitions, ∃ i, map_at Map t.next = some i)
    (hmq : ∀ t ∈ (dfa_at heap q).transitions, ∃ i, map_at Map t.next = some i) :
    ∃ b, check_equivalence heap p q Map = some b ∧
      (b = true ↔ ∀ s, step_block heap Map p s = step_block heap Map q s) := by
  unfold check_equivalence
  by_cases hpq : p = q
  · subst hpq
    exact ⟨true, by simp, by simp⟩
  · rw [if_neg hpq]
    have hcl := dfa_label_intervals_closed heap p q hcp hcq
    have hfp : ∀ I ∈ make_disjoint [] [dfa_labels heap p, dfa_labels heap q], ∀ s,
        discrete_interval.mem s I →
        find_next (dfa_at heap p).transitions I = dfa_step heap p s := by
      intro I hI s hs
      apply find_next_eq_step heap p I s hdp
      intro t ht
      exact letter_contains_iff _ hcl I hI (dfa_labels heap p) (by simp) t.characters
        (List.mem_map.2 ⟨t, ht, rfl⟩) s hs
    have hfq : ∀ I ∈ make_disjoint [] [dfa_labels heap p, dfa_labels heap q], ∀ s,
        discrete_interval.mem s I →
        find_next (dfa_at heap q).transitions I = dfa_step heap q s := by
      intro I hI s hs
      apply find_next_eq_step heap q I s hdq
      intro t ht
      exact letter_contains_iff _ hcl I hI (dfa_labels heap q) (by simp) t.characters
        (List.mem_map.2 ⟨t, ht, rfl⟩) s hs
    have hlow : ∀ I ∈ make_disjoint [] [dfa_labels heap p, dfa_labels heap q],
        discrete_interval.mem I.lower I := by
      intro I hI
      have hc := make_disjoint_closed _ I hI
      rw [closed_interval_mem _ I hc.1]; exact ⟨le_refl _, hc.2⟩
    obtain ⟨b, hb, hiff⟩ := check_letters_spec (dfa_at heap p).transitions
      (dfa_at heap q).transitions Map
      (make_disjoint [] [dfa_labels heap p, dfa_labels heap q])
      (by
        intro I hI n hn
        rw [hfp I hI I.lower (hlow I hI)] at hn
        obtain ⟨t, ht, _, htn⟩ := dfa_step_some heap p _ n hn
        rw [← htn]; exact hmp t ht)
      (by
        intro I hI n hn
        rw [hfq I hI I.lower (hlow I hI)] at hn
        obtain ⟨t, ht, _, htn⟩ := dfa_step_some heap q _ n hn
        rw [← htn]; exact hmq t ht)
    refine ⟨b, hb, ?_⟩
    rw [hiff]
    constructor
    · intro h s
      unfold step_block
      by_cases hex : ∃ I ∈ make_disjoint [] [dfa_labels heap p, dfa_labels heap q],
          discrete_interval.mem s I
      · obtain ⟨I, hI, hs⟩ := hex
        rw [← hfp I hI s hs, ← hfq I hI s hs]
        exact h I hI
      · have hnone : ∀ r, (r = p ∨ r = q) → dfa_step heap r s = none := by
          intro r hr
          cases hst : dfa_step heap r s with
          | none => rfl
          | some n =>
            exfalso
            obtain ⟨t, ht, hsm, _⟩ := dfa_step_some heap r s n hst
            apply hex
            apply (letter_union _ hcl s).2
            refine ⟨dfa_labels heap r, ?_, t.characters, List.mem_map.2 ⟨t, ht, rfl⟩, hsm⟩
            rcases hr with rfl | rfl <;> simp
        rw [hnone p (Or.inl rfl), hnone q (Or.inr rfl)]
    · intro h I hI
      have := h I.lower
      unfold step_block at this
      rw [hfp I hI I.lower (hlow I hI), hfq I hI I.lower (hlow I hI)]
      exact this

/-! ## The refinement loop of optimize -/

theorem part_ok_nil : part_ok [] [] := by
  constructor
  · intro B hB; simp at hB
  · simp
  · intro x i; simp [map_at]

theorem part_ok_same_block (Gamma : List (List Nat)) (Map : List (Nat × Nat))
    (h : part_ok Gamma Map) (x y : Nat) (hx : x ∈ Gamma.flatten) :
    same_block Gamma x y ↔ map_at Map x = map_at Map y := by
  constructor
  · rintro ⟨B, hB, hxB, hyB⟩
    obtain ⟨i, hi⟩ := List.mem_iff_getElem?.1 hB
    rw [(h.map_iff x i).2 ⟨B, hi, hxB⟩, (h.map_iff y i).2 ⟨B, hi, hyB⟩]
  · intro he
    obtain ⟨i, hi⟩ := (part_ok_mem_flatten Gamma Map h x).1 hx
    obtain ⟨B, hB, hxB⟩ := (h.map_iff x i).1 hi
    rw [hi] at he
    obtain ⟨B1, hB1, hyB⟩ := (h.map_iff y i).1 he.symm
    rw [hB] at hB1
    simp only [Option.some.injEq] at hB1
    subst hB1
    exact ⟨B, List.mem_iff_getElem?.2 ⟨i, hB⟩, hxB, hyB⟩

theorem blocks_length_le (Gamma : List (List Nat)) (h : ∀ B ∈ Gamma, B ≠ []) :
    Gamma.length ≤ Gamma.flatten.length := by
  induction Gamma with
  | nil => simp
  | cons B rest ih =>
    have hB : 0 < B.length := List.length_pos.2 (h B (List.mem_cons_self _ _))
    have := ih (fun C hC => h C (List.mem_cons_of_mem _ hC))
    simp only [List.flatten_cons, List.length_append, List.length_cons]
    omega

theorem terminal_equiv_on {T : Type} [TokenInfo T] [TokenInfoLaws T]
    (nfa : List (nfa_node T)) (heap : List dfa_node) (N : List Nat) :
    equiv_on (fun pivot it => some (terminal_equiv nfa heap pivot it)) N := by
  constructor
  · intro x _ y _; exact ⟨_, rfl⟩
  · intro x _; simp [terminal_equiv_refl]
  · intro x _ y _ h
    simp only [Option.some.injEq] at h ⊢
    exact terminal_equiv_symm nfa heap x y h
  · intro x _ y _ z _ h1 h2
    simp only [Option.some.injEq] at h1 h2 ⊢
    exact terminal_equiv_trans nfa heap x y z h1 h2

/-- With a map that is total on the states, `check_equivalence` is an
equivalence relation on the states of a well-formed DFA. -/
theorem check_equivalence_on {T : Type} (d : dfa T) (hwf : dfa_wf d) (Map : List (Nat × Nat))
    (hmap : ∀ x ∈ d._nodes, ∃ i, map_at Map x = some i) :
    equiv_on (fun pivot it => check_equivalence d.heap pivot it Map) d._nodes := by
  have hspec : ∀ x ∈ d._nodes, ∀ y ∈ d._nodes, ∃ b, check_equivalence d.heap x y Map = some b ∧
      (b = true ↔ ∀ s, step_block d.heap Map x s = step_block d.heap Map y s) := by
    intro x hx y hy
    exact check_equivalence_spec d.heap Map x y (hwf.det x hx) (hwf.det y hy)
      (hwf.closed x hx) (hwf.closed y hy)
      (fun t ht => hmap _ (hwf.targets x hx t ht)) (fun t ht => hmap _ (hwf.targets y hy t ht))
  have hiff : ∀ x ∈ d._nodes, ∀ y ∈ d._nodes, check_equivalence d.heap x y Map = some true ↔
      ∀ s, step_block d.heap Map x s = step_block d.heap Map y s := by
    intro x hx y hy
    obtain ⟨b, hb, hbi⟩ := hspec x hx y hy
    rw [hb]
    constructor
    · intro h
      simp only [Option.some.injEq] at h
      exact hbi.1 h
    · intro h
      rw [hbi.2 h]
  constructor
  · intro x hx y hy
    obtain ⟨b, hb, _⟩ := hspec x hx y hy
    exact ⟨b, hb⟩
  · intro x hx
    exact (hiff x hx x hx).2 (fun _ => rfl)
  · intro x hx y hy h
    exact (hiff y hy x hx).2 (fun s => ((hiff x hx y hy).1 h s).symm)
  · intro x hx y hy z hz h1 h2
    exact (hiff x hx z hz).2
      (fun s => ((hiff x hx y hy).1 h1 s).trans ((hiff y hy z hz).1 h2 s))

theorem check_equivalence_iff {T : Type} (d : dfa T) (hwf : dfa_wf d) (Map : List (Nat × Nat))
    (hmap : ∀ x ∈ d._nodes, ∃ i, map_at Map x = some i) (x y : Nat) (hx : x ∈ d._nodes)
    (hy : y ∈ d._nodes) :
    check_equivalence d.heap x y Map = some true ↔
      ∀ s, step_block d.heap Map x s = step_block d.heap Map y s := by
  obtain ⟨b, hb, hbi⟩ := check_equivalence_spec d.heap Map x y (hwf.det x hx) (hwf.det y hy)
    (hwf.closed x hx) (hwf.closed y hy)
    (fun t ht => hmap _ (hwf.targets x hx t ht)) (fun t ht => hmap _ (hwf.targets y hy t ht))
  rw [hb]
  constructor
  · intro h
    simp only [Option.some.injEq] at h
    exact hbi.1 h
  · intro h
    rw [hbi.2 h]

theorem dfa_step_target {T : Type} (d : dfa T) (hwf : dfa_wf d) (x : Nat) (hx : x ∈ d._nodes)
    (s : Int) (x1 : Nat) (h : dfa_step d.heap x s = some x1) : x1 ∈ d._nodes := by
  obtain ⟨t, ht, _, htn⟩ := dfa_step_some d.heap x s x1 h
  rw [← htn]; exact hwf.targets x hx t ht

theorem runs_agree_cons {T : Type} [TokenInfo T] (nfa : List (nfa_node T))
    (heap : List dfa_node) (x y x1 y1 : Nat) (s : Int) (w : List Int)
    (hx : dfa_step heap x s = some x1) (hy : dfa_step heap y s = some y1) :
    runs_agree nfa heap x y (s :: w) ↔ runs_agree nfa heap x1 y1 w := by
  unfold runs_agree
  simp only [dfa_run, hx, hy]

/-- Two states of different blocks of the refined partition are told apart. -/
theorem separated_refine {T : Type} [TokenInfo T] (d : dfa T) (hwf : dfa_wf d)
    (Gamma : List (List Nat)) (Map : List (Nat × Nat)) (hpo : part_ok Gamma Map)
    (hperm : Gamma.flatten.Perm d._nodes)
    (hsep : part_separated d.nfa d.heap d._nodes Gamma)
    (x y : Nat) (hx : x ∈ d._nodes) (hy : y ∈ d._nodes)
    (hne : ¬ ∀ s, step_block d.heap Map x s = step_block d.heap Map y s) :
    ∃ w, ¬ runs_agree d.nfa d.heap x y w := by
  have hmap : ∀ z ∈ d._nodes, ∃ i, map_at Map z = some i :=
    fun z hz => (part_ok_mem_flatten Gamma Map hpo z).1 (hperm.mem_iff.2 hz)
  obtain ⟨s, hs⟩ := not_forall.1 hne
  unfold step_block at hs
  cases hsx : dfa_step d.heap x s with
  | none =>
    cases hsy : dfa_step d.heap y s with
    | none => rw [hsx, hsy] at hs; exact absurd rfl hs
    | some y1 =>
      refine ⟨[s], ?_⟩
      unfold runs_agree
      simp [dfa_run, hsx, hsy]
  | some x1 =>
    cases hsy : dfa_step d.heap y s with
    | none =>
      refine ⟨[s], ?_⟩
      unfold runs_agree
      simp [dfa_run, hsx, hsy]
    | some y1 =>
      rw [hsx, hsy] at hs
      simp only [Option.some_bind] at hs
      have hx1 := dfa_step_target d hwf x hx s x1 hsx
      have hy1 := dfa_step_target d hwf y hy s y1 hsy
      have hnsb : ¬ same_block Gamma x1 y1 := by
        rw [part_ok_same_block Gamma Map hpo x1 y1 (hperm.mem_iff.2 hx1)]
        exact hs
      obtain ⟨w, hw⟩ := hsep x1 hx1 y1 hy1 hnsb
      exact ⟨s :: w, fun h => hw ((runs_agree_cons d.nfa d.heap x y x1 y1 s w hsx hsy).1 h)⟩

/-- The rounds of `optimize` after the first one: the loop ends within the fuel
with a stable partition whose blocks are told apart pairwise. -/
theorem optimize_loop_rounds {T : Type} [TokenInfo T] (d : dfa T) (hwf : dfa_wf d) :
    ∀ (fuel : Nat) (Gamma : List (List Nat)) (Map : List (Nat × Nat)),
      part_ok Gamma Map → Gamma.flatten.Perm d._nodes →
      part_separated d.nfa d.heap d._nodes Gamma →
      d._nodes.length < fuel + Gamma.length →
      ∃ G1 M1, optimize_loop d.nfa d.heap fuel false Gamma Map = some (G1, M1) ∧
        part_ok G1 M1 ∧ G1.flatten.Perm d._nodes ∧ part_stable d.heap G1 M1 ∧
        part_separated d.nfa d.heap d._nodes G1 ∧
        (∀ x y, same_block G1 x y → same_block Gamma x y) := by
  intro fuel
  induction fuel with
  | zero =>
    intro Gamma Map hpo hperm _ hfuel
    have := blocks_length_le Gamma hpo.blocks_ne
    rw [hperm.length_eq] at this
    omega
  | succ fuel ih =>
    intro Gamma Map hpo hperm hsep hfuel
    have hmap : ∀ z ∈ d._nodes, ∃ i, map_at Map z = some i :=
      fun z hz => (part_ok_mem_flatten Gamma Map hpo z).1 (hperm.mem_iff.2 hz)
    have heq := check_equivalence_on d hwf Map hmap
    obtain ⟨blocks, nm1, hr, hpo1, hperm1, hlen1, hsb1, hsame1⟩ :=
      refine_round_spec _ d._nodes heq Gamma [] [] hpo.blocks_ne
        (fun x hx => hperm.mem_iff.1 hx) hpo.flat_nodup part_ok_nil (by simp)
    simp only [List.nil_append] at hr hpo1
    have hpermN : blocks.flatten.Perm d._nodes := hperm1.trans hperm
    have hsub : ∀ x y, same_block blocks x y → same_block Gamma x y := by
      intro x y h
      have hx := hperm1.mem_iff.1 (same_block_flatten_left _ x y h)
      have hy := hperm1.mem_iff.1 (same_block_flatten_right _ x y h)
      exact ((hsb1 x hx y hy).1 h).1
    have hsep1 : part_separated d.nfa d.heap d._nodes blocks := by
      intro x hx y hy hnsb
      by_cases hg : same_block Gamma x y
      · have hne : ¬ check_equivalence d.heap x y Map = some true := by
          intro he
          exact hnsb ((hsb1 x (hperm.mem_iff.2 hx) y (hperm.mem_iff.2 hy)).2 ⟨hg, he⟩)
        rw [check_equivalence_iff d hwf Map hmap x y hx hy] at hne
        exact separated_refine d hwf Gamma Map hpo hperm hsep x y hx hy hne
      · exact hsep x hx y hy hg
    have hstep : optimize_loop d.nfa d.heap (fuel + 1) false Gamma Map =
        if blocks.length = Gamma.length then some (blocks, nm1)
        else optimize_loop d.nfa d.heap fuel false blocks nm1 := by
      simp only [optimize_loop, Bool.false_eq_true, if_false, hr]
    rw [hstep]
    by_cases hlen : blocks.length = Gamma.length
    · rw [if_pos hlen]
      refine ⟨blocks, nm1, rfl, hpo1, hpermN, ?_, hsep1, hsub⟩
      intro x y hsb s
      have hx := hpermN.mem_iff.1 (same_block_flatten_left _ x y hsb)
      have hy := hpermN.mem_iff.1 (same_block_flatten_right _ x y hsb)
      have he := hsame1 hlen x y (hsub x y hsb)
      have hst := (check_equivalence_iff d hwf Map hmap x y hx hy).1 he s
      unfold step_block at hst ⊢
      cases hsx : dfa_step d.heap x s with
      | none =>
        cases hsy : dfa_step d.heap y s with
        | none => rfl
        | some y1 =>
          rw [hsx, hsy] at hst
          obtain ⟨i, hi⟩ := hmap y1 (dfa_step_target d hwf y hy s y1 hsy)
          simp [hi] at hst
      | some x1 =>
        have hx1 := dfa_step_target d hwf x hx s x1 hsx
        cases hsy : dfa_step d.heap y s with
        | none =>
          rw [hsx, hsy] at hst
          obtain ⟨i, hi⟩ := hmap x1 hx1
          simp [hi] at hst
        | some y1 =>
          have hy1 := dfa_step_target d hwf y hy s y1 hsy
          rw [hsx, hsy] at hst
          simp only [Option.some_bind] at hst ⊢
          have h1 : same_block Gamma x1 y1 :=
            (part_ok_same_block Gamma Map hpo x1 y1 (hperm.mem_iff.2 hx1)).2 hst
          have h2 : same_block blocks x1 y1 :=
            (hsb1 x1 (hperm.mem_iff.2 hx1) y1 (hperm.mem_iff.2 hy1)).2
              ⟨h1, hsame1 hlen x1 y1 h1⟩
          exact (part_ok_same_block blocks nm1 hpo1 x1 y1 (hpermN.mem_iff.2 hx1)).1 h2
    · rw [if_neg hlen]
      obtain ⟨G2, M2, hr2, hpo2, hperm2, hst2, hsep2, hsub2⟩ :=
        ih blocks nm1 hpo1 hpermN hsep1 (by omega)
      exact ⟨G2, M2, hr2, hpo2, hperm2, hst2, hsep2, fun x y h => hsub x y (hsub2 x y h)⟩

theorem get_terminal_nonterminal {T : Type} [TokenInfo T] (nfa : List (nfa_node T))
    (n : dfa_node) (h : n.terminal nfa = false) : n.get_terminal nfa = TokenInfo.dflt := by
  unfold dfa_node.terminal at h
  unfold dfa_node.get_terminal
  have hf : n.nodes.filter (fun node => (nfa_at nfa node).terminal) = [] := by
    rw [List.filter_eq_nil_iff]
    intro a ha
    have := List.any_eq_false.1 h a ha
    simpa using this
  rw [hf]
  rfl

theorem same_token_iff {T : Type} [TokenInfo T] [TokenInfoLaws T] (nfa : List (nfa_node T))
    (heap : List dfa_node) (p q : Nat) :
    same_token nfa heap p q ↔ terminal_equiv nfa heap p q = true := by
  unfold same_token terminal_equiv
  simp only [Bool.and_eq_true, beq_iff_eq]
  constructor
  · rintro ⟨h1, h2⟩
    refine ⟨h1, ?_⟩
    cases ht : (dfa_at heap p).terminal nfa with
    | true => exact h2 ht
    | false =>
      rw [get_terminal_nonterminal nfa _ ht, get_terminal_nonterminal nfa _ (h1 ▸ ht)]
      exact TokenInfoLaws.eq_refl _
  · rintro ⟨h1, h2⟩
    exact ⟨h1, fun _ => h2⟩

theorem runs_agree_nil {T : Type} [TokenInfo T] (nfa : List (nfa_node T))
    (heap : List dfa_node) (p q : Nat) :
    runs_agree nfa heap p q [] ↔ same_token nfa heap p q := by
  unfold runs_agree
  simp only [dfa_run]

/-- The refinement loop of `optimize` on a well-formed DFA: it ends within its
fuel; the partition it returns covers the states and refines the terminal
classes; and either it has a single block (the loop stopped after the first
pass) or it is stable, its blocks are told apart pairwise, and there are two
states of different terminal classes. -/
theorem optimize_loop_spec {T : Type} [TokenInfo T] [TokenInfoLaws T] (d : dfa T)
    (hwf : dfa_wf d) :
    ∃ Gamma Map,
      optimize_loop d.nfa d.heap (d._nodes.length + 2) true [d._nodes] [] = some (Gamma, Map) ∧
      part_ok Gamma Map ∧ Gamma.flatten.Perm d._nodes ∧
      (∀ x y, same_block Gamma x y → terminal_equiv d.nfa d.heap x y = true) ∧
      (Gamma.length = 1 ∨
        (part_stable d.heap Gamma Map ∧ part_separated d.nfa d.heap d._nodes Gamma ∧
          ∃ x ∈ d._nodes, ∃ y ∈ d._nodes, terminal_equiv d.nfa d.heap x y = false)) := by
  have hNne : d._nodes ≠ [] := by
    intro h
    have := hwf.initial_mem
    rw [h] at this; simp at this
  have heq := terminal_equiv_on d.nfa d.heap d._nodes
  obtain ⟨blocks, nm1, hr, hpo1, hperm1, hlen1, hsb1, _⟩ :=
    refine_round_spec _ d._nodes heq [d._nodes] [] []
      (by intro G hG; simp only [List.mem_singleton] at hG; rw [hG]; exact hNne)
      (by intro x hx; simpa using hx) (by simpa using hwf.nodes_nodup) part_ok_nil (by simp)
  simp only [List.nil_append] at hr hpo1
  have hpermN : blocks.flatten.Perm d._nodes := by
    have : [d._nodes].flatten = d._nodes := by simp
    rw [this] at hperm1; exact hperm1
  have hterm : ∀ x y, same_block blocks x y → terminal_equiv d.nfa d.heap x y = true := by
    intro x y h
    have hx := hpermN.mem_iff.1 (same_block_flatten_left _ x y h)
    have hy := hpermN.mem_iff.1 (same_block_flatten_right _ x y h)
    have := ((hsb1 x (by simpa using hx) y (by simpa using hy)).1 h).2
    simpa using this
  have hterm2 : ∀ x ∈ d._nodes, ∀ y ∈ d._nodes, ¬ same_block blocks x y →
      terminal_equiv d.nfa d.heap x y = false := by
    intro x hx y hy hn
    cases he : terminal_equiv d.nfa d.heap x y with
    | false => rfl
    | true =>
      exfalso
      apply hn
      exact (hsb1 x (by simpa using hx) y (by simpa using hy)).2
        ⟨⟨d._nodes, by simp, hx, hy⟩, by simp [he]⟩
  have hstep : optimize_loop d.nfa d.heap (d._nodes.length + 2) true [d._nodes] [] =
      if blocks.length = 1 then some (blocks, nm1)
      else optimize_loop d.nfa d.heap (d._nodes.length + 1) false blocks nm1 := by
    simp only [optimize_loop, if_true, hr, List.length_singleton]
  rw [hstep]
  by_cases hlen : blocks.length = 1
  · rw [if_pos hlen]
    exact ⟨blocks, nm1, rfl, hpo1, hpermN, hterm, Or.inl hlen⟩
  · rw [if_neg hlen]
    have hsep : part_separated d.nfa d.heap d._nodes blocks := by
      intro x hx y hy hn
      refine ⟨[], ?_⟩
      rw [runs_agree_nil, same_token_iff, hterm2 x hx y hy hn]
      simp
    obtain ⟨G2, M2, hr2, hpo2, hperm2, hst2, hsep2, hsub2⟩ :=
      optimize_loop_rounds d hwf (d._nodes.length + 1) blocks nm1 hpo1 hpermN hsep (by omega)
    refine ⟨G2, M2, hr2, hpo2, hperm2, fun x y h => hterm x y (hsub2 x y h), Or.inr ⟨hst2, hsep2, ?_⟩⟩
    simp only [List.length_singleton] at hlen1
    have h2 : 2 ≤ blocks.length := by omega
    have h0 : 0 < blocks.length := by omega
    have h1 : 1 < blocks.length := by omega
    have hB0 : blocks[0]? = some blocks[0] := List.getElem?_eq_getElem h0
    have hB1 : blocks[1]? = some blocks[1] := List.getElem?_eq_getElem h1
    have hne0 := hpo1.blocks_ne _ (List.getElem_mem h0)
    have hne1 := hpo1.blocks_ne _ (List.getElem_mem h1)
    obtain ⟨x, hx⟩ := List.exists_mem_of_ne_nil _ hne0
    obtain ⟨y, hy⟩ := List.exists_mem_of_ne_nil _ hne1
    have hxN : x ∈ d._nodes :=
      hpermN.mem_iff.1 (List.mem_flatten.2 ⟨_, List.getElem_mem h0, hx⟩)
    have hyN : y ∈ d._nodes :=
      hpermN.mem_iff.1 (List.mem_flatten.2 ⟨_, List.getElem_mem h1, hy⟩)
    refine ⟨x, hxN, y, hyN, hterm2 x hxN y hyN ?_⟩
    rw [part_ok_same_block blocks nm1 hpo1 x y (hpermN.mem_iff.2 hxN),
      (hpo1.map_iff x 0).2 ⟨_, hB0, hx⟩, (hpo1.map_iff y 1).2 ⟨_, hB1, hy⟩]
    simp

/-! ## The rewrite phase of optimize -/

theorem class_of_spec (Gamma : List (List Nat)) (Map : List (Nat × Nat)) (h : part_ok Gamma Map)
    (x : Nat) (hx : x ∈ Gamma.flatten) :
    ∃ r others, class_of Gamma Map x = some (r :: others) ∧ (r :: others) ∈ Gamma ∧
      x ∈ r :: others := by
  obtain ⟨i, hi⟩ := (part_ok_mem_flatten Gamma Map h x).1 hx
  obtain ⟨B, hB, hxB⟩ := (h.map_iff x i).1 hi
  have hBm : B ∈ Gamma := List.mem_iff_getElem?.2 ⟨i, hB⟩
  cases B with
  | nil => simp at hxB
  | cons r others =>
    refine ⟨r, others, ?_, hBm, hxB⟩
    unfold class_of
    rw [hi]
    exact hB

theorem rep_of_spec (Gamma : List (List Nat)) (Map : List (Nat × Nat)) (h : part_ok Gamma Map)
    (x : Nat) (hx : x ∈ Gamma.flatten) :
    ∃ others, (rep_of Gamma Map x :: others) ∈ Gamma ∧ x ∈ rep_of Gamma Map x :: others ∧
      tail_of Gamma Map x = others ∧
      class_of Gamma Map x = some (rep_of Gamma Map x :: others) := by
  obtain ⟨r, others, hc, hB, hxB⟩ := class_of_spec Gamma Map h x hx
  refine ⟨others, ?_, ?_, ?_, ?_⟩
  · unfold rep_of; rw [hc]; exact hB
  · unfold rep_of; rw [hc]; exact hxB
  · unfold tail_of; rw [hc]
  · unfold rep_of; rw [hc]

theorem rep_of_same_block (Gamma : List (List Nat)) (Map : List (Nat × Nat))
    (h : part_ok Gamma Map) (x : Nat) (hx : x ∈ Gamma.flatten) :
    same_block Gamma (rep_of Gamma Map x) x := by
  obtain ⟨others, hB, hxB, _, _⟩ := rep_of_spec Gamma Map h x hx
  exact ⟨_, hB, List.mem_cons_self _ _, hxB⟩

theorem rep_of_mem (Gamma : List (List Nat)) (Map : List (Nat × Nat))
    (h : part_ok Gamma Map) (x : Nat) (hx : x ∈ Gamma.flatten) :
    rep_of Gamma Map x ∈ Gamma.flatten :=
  same_block_flatten_left _ _ _ (rep_of_same_block Gamma Map h x hx)

/-- Two blocks of a partition that share a state are the same block. -/
theorem block_unique (Gamma : List (List Nat)) (hnd : Gamma.flatten.Nodup)
    (B C : List Nat) (hB : B ∈ Gamma) (hC : C ∈ Gamma) (x : Nat) (hxB : x ∈ B) (hxC : x ∈ C) :
    B = C := by
  by_contra hne
  have hp := (List.nodup_flatten.1 hnd).2
  have hsymm : Symmetric (fun (a b : List Nat) => a.Disjoint b) := fun a b h => h.symm
  exact hp.forall hsymm hB hC hne hxB hxC

theorem block_nodup (Gamma : List (List Nat)) (hnd : Gamma.flatten.Nodup)
    (B : List Nat) (hB : B ∈ Gamma) : B.Nodup :=
  (List.nodup_flatten.1 hnd).1 B hB

/-- States of one block have the same representative. -/
theorem rep_of_eq (Gamma : List (List Nat)) (Map : List (Nat × Nat)) (h : part_ok Gamma Map)
    (x y : Nat) (hsb : same_block Gamma x y) :
    rep_of Gamma Map x = rep_of Gamma Map y ∧ tail_of Gamma Map x = tail_of Gamma Map y := by
  have hx := same_block_flatten_left _ _ _ hsb
  have hy := same_block_flatten_right _ _ _ hsb
  obtain ⟨B, hB, hxB, hyB⟩ := hsb
  obtain ⟨ox, hBx, hxBx, htx, _⟩ := rep_of_spec Gamma Map h x hx
  obtain ⟨oy, hBy, hyBy, hty, _⟩ := rep_of_spec Gamma Map h y hy
  have e1 := block_unique Gamma h.flat_nodup _ _ hBx hB x hxBx hxB
  have e2 := block_unique Gamma h.flat_nodup _ _ hBy hB y hyBy hyB
  have e3 : rep_of Gamma Map x :: ox = rep_of Gamma Map y :: oy := e1.trans e2.symm
  simp only [List.cons.injEq] at e3
  exact ⟨e3.1, by rw [htx, hty, e3.2]⟩

/-- The representative of a block is not among the other states of any block. -/
theorem rep_not_in_tail (Gamma : List (List Nat)) (Map : List (Nat × Nat)) (h : part_ok Gamma Map)
    (x y : Nat) (hx : x ∈ Gamma.flatten) (hy : y ∈ Gamma.flatten) :
    rep_of Gamma Map x ∉ tail_of Gamma Map y := by
  obtain ⟨ox, hBx, _, _, _⟩ := rep_of_spec Gamma Map h x hx
  obtain ⟨oy, hBy, _, hty, _⟩ := rep_of_spec Gamma Map h y hy
  intro hm
  rw [hty] at hm
  have e := block_unique Gamma h.flat_nodup _ _ hBx hBy (rep_of Gamma Map x)
    (List.mem_cons_self _ _) (List.mem_cons_of_mem _ hm)
  simp only [List.cons.injEq] at e
  have hnd := block_nodup Gamma h.flat_nodup _ hBy
  rw [List.nodup_cons] at hnd
  rw [e.1] at hm
  exact hnd.1 hm

/-- A state is among the other states of its block iff it is not the
representative. -/
theorem mem_tail_iff (Gamma : List (List Nat)) (Map : List (Nat × Nat)) (h : part_ok Gamma Map)
    (x : Nat) (hx : x ∈ Gamma.flatten) :
    x ∈ tail_of Gamma Map x ↔ rep_of Gamma Map x ≠ x := by
  obtain ⟨ox, hBx, hxB, htx, _⟩ := rep_of_spec Gamma Map h x hx
  have hnd := block_nodup Gamma h.flat_nodup _ hBx
  rw [List.nodup_cons] at hnd
  rw [htx]
  constructor
  · intro hm he
    rw [he] at hnd
    exact hnd.1 hm
  · intro hne
    rcases List.mem_cons.1 hxB with h1 | h1
    · exact absurd h1.symm hne
    · exact h1

theorem rewrite_transitions_spec (Gamma : List (List Nat)) (Map : List (Nat × Nat))
    (h : part_ok Gamma Map) :
    ∀ (ts : List dfa_transition) (dead : List Nat), (∀ t ∈ ts, t.next ∈ Gamma.flatten) →
      ∃ dead1, rewrite_transitions Gamma Map ts dead = some (ts.map (retarget Gamma Map), dead1) ∧
        ∀ y, y ∈ dead1 ↔ y ∈ dead ∨ ∃ t ∈ ts, y ∈ tail_of Gamma Map t.next := by
  intro ts
  induction ts with
  | nil => intro dead _; exact ⟨dead, rfl, by simp⟩
  | cons t ts ih =>
    intro dead hts
    obtain ⟨others, _, _, htl, hc⟩ :=
      rep_of_spec Gamma Map h t.next (hts t (List.mem_cons_self _ _))
    obtain ⟨dead1, hr, hm⟩ := ih (others.foldl uset_insert dead)
      (fun t1 h1 => hts t1 (List.mem_cons_of_mem _ h1))
    refine ⟨dead1, ?_, ?_⟩
    · simp only [rewrite_transitions, hc, hr, List.map_cons]
      rfl
    · intro y
      rw [hm, mem_foldl_uset_insert]
      simp only [List.mem_cons, exists_eq_or_imp, htl]
      tauto

/-- The loop over `_nodes` of the rewrite phase: the transitions of the listed
nodes are retargeted, `dead_states` collects the non-representatives of the
blocks that are targeted. -/
theorem rewrite_nodes_spec (Gamma : List (List Nat)) (Map : List (Nat × Nat))
    (h : part_ok Gamma Map) :
    ∀ (nodes : List Nat) (heap : List dfa_node) (dead : List Nat), nodes.Nodup →
      (∀ p ∈ nodes, ∀ t ∈ (dfa_at heap p).transitions, t.next ∈ Gamma.flatten) →
      ∃ heap1 dead1, rewrite_nodes Gamma Map nodes heap dead = some (heap1, dead1) ∧
        heap1.length = heap.length ∧
        (∀ p, (dfa_at heap1 p).nodes = (dfa_at heap p).nodes) ∧
        (∀ p, (dfa_at heap1 p).transitions =
          if p ∈ nodes then (dfa_at heap p).transitions.map (retarget Gamma Map)
          else (dfa_at heap p).transitions) ∧
        (∀ y, y ∈ dead1 ↔ y ∈ dead ∨
          ∃ p ∈ nodes, ∃ t ∈ (dfa_at heap p).transitions, y ∈ tail_of Gamma Map t.next) := by
  intro nodes
  induction nodes with
  | nil =>
    intro heap dead _ _
    exact ⟨heap, dead, rfl, rfl, fun _ => rfl, by simp, by simp⟩
  | cons n ns ih =>
    intro heap dead hnd hts
    rw [List.nodup_cons] at hnd
    obtain ⟨dead1, hr1, hm1⟩ := rewrite_transitions_spec Gamma Map h
      (dfa_at heap n).transitions dead (hts n (List.mem_cons_self _ _))
    have hsame : ∀ p, p ≠ n → dfa_at (modify_at (fun nd =>
        { nd with transitions := (dfa_at heap n).transitions.map (retarget Gamma Map) })
        heap n) p = dfa_at heap p := by
      intro p hp
      rw [dfa_at_modify, if_neg (fun h1 => hp h1.1)]
    have hts2 : ∀ p ∈ ns, ∀ t ∈ (dfa_at (modify_at (fun nd =>
        { nd with transitions := (dfa_at heap n).transitions.map (retarget Gamma Map) })
        heap n) p).transitions, t.next ∈ Gamma.flatten := by
      intro p hp t ht
      have hpn : p ≠ n := fun h1 => hnd.1 (h1 ▸ hp)
      rw [hsame p hpn] at ht
      exact hts p (List.mem_cons_of_mem _ hp) t ht
    obtain ⟨heap2, dead2, hr2, hl2, hn2, ht2, hm2⟩ := ih _ dead1 hnd.2 hts2
    refine ⟨heap2, dead2, ?_, ?_, ?_, ?_, ?_⟩
    · simp only [rewrite_nodes, hr1]
      exact hr2
    · rw [hl2, modify_at_length]
    · intro p
      rw [hn2, dfa_at_modify]
      split
      · rename_i hc; rw [hc.1]
      · rfl
    · intro p
      rw [ht2]
      by_cases hpn : p = n
      · subst hpn
        rw [if_neg hnd.1, if_pos (List.mem_cons_self _ _), dfa_at_modify]
        by_cases hlt : p < heap.length
        · rw [if_pos ⟨rfl, hlt⟩]
        · rw [if_neg (fun h1 => hlt h1.2)]
          have : dfa_at heap p = ⟨[], []⟩ := by
            unfold dfa_at
            rw [List.getElem?_eq_none (by omega)]
            rfl
          rw [this]; rfl
      · rw [hsame p hpn]
        simp only [List.mem_cons, hpn, false_or]
    · intro y
      rw [hm2, hm1]
      constructor
      · rintro ((h1 | ⟨t, ht, hy⟩) | ⟨p, hp, t, ht, hy⟩)
        · exact Or.inl h1
        · exact Or.inr ⟨n, List.mem_cons_self _ _, t, ht, hy⟩
        · have hpn : p ≠ n := fun h1 => hnd.1 (h1 ▸ hp)
          rw [hsame p hpn] at ht
          exact Or.inr ⟨p, List.mem_cons_of_mem _ hp, t, ht, hy⟩
      · rintro (h1 | ⟨p, hp, t, ht, hy⟩)
        · exact Or.inl (Or.inl h1)
        · rcases List.mem_cons.1 hp with rfl | hp1
          · exact Or.inl (Or.inr ⟨t, ht, hy⟩)
          · have hpn : p ≠ n := fun h1 => hnd.1 (h1 ▸ hp1)
            refine Or.inr ⟨p, hp1, t, ?_, hy⟩
            rw [hsame p hpn]; exact ht

/-! ## The method optimize as a whole -/

/-- On a well-formed DFA `optimize` returns; the result is described by the
partition the refinement loop stopped with. -/
theorem optimize_spec {T : Type} [TokenInfo T] [TokenInfoLaws T] (d : dfa T)
    (hwf : dfa_wf d) :
    ∃ Gamma Map d1,
      optimize_loop d.nfa d.heap (d._nodes.length + 2) true [d._nodes] [] = some (Gamma, Map) ∧
      d.optimize = some d1 ∧ optimize_result d Gamma Map d1 ∧
      part_ok Gamma Map ∧ Gamma.flatten.Perm d._nodes ∧
      (∀ x y, same_block Gamma x y → terminal_equiv d.nfa d.heap x y = true) ∧
      (Gamma.length = 1 ∨
        (part_stable d.heap Gamma Map ∧ part_separated d.nfa d.heap d._nodes Gamma ∧
          ∃ x ∈ d._nodes, ∃ y ∈ d._nodes, terminal_equiv d.nfa d.heap x y = false)) := by
  obtain ⟨Gamma, Map, hloop, hok, hperm, hterm, hdich⟩ := optimize_loop_spec d hwf
  have hinit : d._initial ∈ Gamma.flatten := hperm.mem_iff.2 hwf.initial_mem
  obtain ⟨others, _, _, _, hc⟩ := rep_of_spec Gamma Map hok d._initial hinit
  have htg : ∀ p ∈ d._nodes, ∀ t ∈ (dfa_at d.heap p).transitions, t.next ∈ Gamma.flatten :=
    fun p hp t ht => hperm.mem_iff.2 (hwf.targets p hp t ht)
  obtain ⟨heap1, dead, hrw, hlen, hnf, htr, hdead⟩ :=
    rewrite_nodes_spec Gamma Map hok d._nodes d.heap [] hwf.nodes_nodup htg
  have hnd1 : (d._nodes.filter (fun n => decide (n ∉ dead))).Nodup :=
    hwf.nodes_nodup.filter _
  refine ⟨Gamma, Map,
    { nfa := d.nfa
      heap := aggregate heap1 (d._nodes.filter (fun n => decide (n ∉ dead)))
      _nodes := d._nodes.filter (fun n => decide (n ∉ dead))
      _initial := rep_of Gamma Map d._initial },
    hloop, ?_, ?_, hok, hperm, hterm, hdich⟩
  · simp only [dfa.optimize, hloop, hc, hrw]
  · refine ⟨rfl, ?_, rfl, ⟨dead, rfl, ?_⟩, ?_, ?_⟩
    · show (aggregate heap1 _).length = d.heap.length
      rw [aggregate_length, hlen]
    · intro y
      rw [hdead]
      simp
    · intro p
      show (dfa_at (aggregate heap1 _) p).nodes = _
      rw [aggregate_at _ _ hnd1]
      split
      · exact hnf p
      · exact hnf p
    · intro p hp
      show (dfa_at (aggregate heap1 _) p).transitions = _
      have hp0 : p ∈ d._nodes := (List.mem_filter.1 hp).1
      have hplt : p < heap1.length := by rw [hlen]; exact hwf.nodes_lt p hp0
      rw [aggregate_at _ _ hnd1, if_pos ⟨hp, hplt⟩]
      show aggregate_node (dfa_at heap1 p).transitions = _
      rw [htr, if_pos hp0]

/-- Membership in the node set left by `optimize`. -/
theorem optimize_result_mem {T : Type} (d d1 : dfa T) (Gamma : List (List Nat))
    (Map : List (Nat × Nat)) (hres : optimize_result d Gamma Map d1) (p : Nat) :
    p ∈ d1._nodes ↔ p ∈ d._nodes ∧
      ¬ ∃ q ∈ d._nodes, ∃ t ∈ (dfa_at d.heap q).transitions, p ∈ tail_of Gamma Map t.next := by
  obtain ⟨dead, hn, hd⟩ := hres.nodes_eq
  rw [hn, List.mem_filter, ← hd]
  simp

/-- The representative of every block survives `optimize`. -/
theorem optimize_rep_mem {T : Type} (d d1 : dfa T) (Gamma : List (List Nat))
    (Map : List (Nat × Nat)) (hwf : dfa_wf d) (hok : part_ok Gamma Map)
    (hperm : Gamma.flatten.Perm d._nodes) (hres : optimize_result d Gamma Map d1)
    (x : Nat) (hx : x ∈ d._nodes) : rep_of Gamma Map x ∈ d1._nodes := by
  rw [optimize_result_mem d d1 Gamma Map hres]
  have hxf := hperm.mem_iff.2 hx
  refine ⟨hperm.mem_iff.1 (rep_of_mem Gamma Map hok x hxf), ?_⟩
  rintro ⟨q, hq, t, ht, hm⟩
  exact rep_not_in_tail Gamma Map hok x t.next hxf
    (hperm.mem_iff.2 (hwf.targets q hq t ht)) hm

/-- When every node but the initial one is the target of a transition, exactly
the representatives survive `optimize`. -/
theorem optimize_mem_rep {T : Type} (d d1 : dfa T) (Gamma : List (List Nat))
    (Map : List (Nat × Nat)) (hcov : dfa_cover d) (hok : part_ok Gamma Map)
    (hperm : Gamma.flatten.Perm d._nodes) (hres : optimize_result d Gamma Map d1)
    (p : Nat) (hp : p ∈ d1._nodes) : rep_of Gamma Map p = p := by
  rw [optimize_result_mem d d1 Gamma Map hres] at hp
  obtain ⟨hp0, hnot⟩ := hp
  have hpf := hperm.mem_iff.2 hp0
  by_contra hne
  have htail : p ∈ tail_of Gamma Map p := (mem_tail_iff Gamma Map hok p hpf).2 hne
  by_cases hpi : p = d._initial
  · -- the representative is not the initial node, so it is a target
    have hr0 : rep_of Gamma Map p ∈ d._nodes :=
      hperm.mem_iff.1 (rep_of_mem Gamma Map hok p hpf)
    have hri : rep_of Gamma Map p ≠ d._initial := fun h1 => hne (h1.trans hpi.symm)
    obtain ⟨q, hq, t, ht, hnext⟩ := hcov _ hr0 hri
    apply hnot
    refine ⟨q, hq, t, ht, ?_⟩
    rw [hnext, (rep_of_eq Gamma Map hok _ _ (rep_of_same_block Gamma Map hok p hpf)).2]
    exact htail
  · obtain ⟨q, hq, t, ht, hnext⟩ := hcov p hp0 hpi
    apply hnot
    exact ⟨q, hq, t, ht, by rw [hnext]; exact htail⟩

theorem retarget_characters (Gamma : List (List Nat)) (Map : List (Nat × Nat))
    (t : dfa_transition) : (retarget Gamma Map t).characters = t.characters := rfl

theorem retarget_next (Gamma : List (List Nat)) (Map : List (Nat × Nat))
    (t : dfa_transition) : (retarget Gamma Map t).next = rep_of Gamma Map t.next := rfl

/-- The DFA left by `optimize` is well formed. -/
theorem optimize_wf {T : Type} (d d1 : dfa T) (Gamma : List (List Nat))
    (Map : List (Nat × Nat)) (hwf : dfa_wf d) (hok : part_ok Gamma Map)
    (hperm : Gamma.flatten.Perm d._nodes) (hres : optimize_result d Gamma Map d1) :
    dfa_wf d1 := by
  have hsub : ∀ p ∈ d1._nodes, p ∈ d._nodes :=
    fun p hp => ((optimize_result_mem d d1 Gamma Map hres p).1 hp).1
  refine ⟨?_, ?_, ?_, ?_, ?_, ?_⟩
  · obtain ⟨dead, hn, _⟩ := hres.nodes_eq
    rw [hn]
    exact hwf.nodes_nodup.filter _
  · intro p hp
    rw [hres.length_eq]
    exact hwf.nodes_lt p (hsub p hp)
  · rw [hres.initial_eq]
    exact optimize_rep_mem d d1 Gamma Map hwf hok hperm hres _ hwf.initial_mem
  · intro p hp t ht
    rw [hres.transitions_eq p hp] at ht
    obtain ⟨t0, ht0, hn0⟩ := (aggregate_node_next _ t.next).1 ⟨t, ht, rfl⟩
    obtain ⟨t1, ht1, rfl⟩ := List.mem_map.1 ht0
    rw [← hn0, retarget_next]
    exact optimize_rep_mem d d1 Gamma Map hwf hok hperm hres _
      (hwf.targets p (hsub p hp) t1 ht1)
  · intro p hp
    rw [hres.transitions_eq p hp]
    apply aggregate_node_closed
    intro t ht
    obtain ⟨t1, ht1, rfl⟩ := List.mem_map.1 ht
    exact hwf.closed p (hsub p hp) t1 ht1
  · intro p hp
    unfold dfa_deterministic_at
    rw [hres.transitions_eq p hp]
    apply aggregate_node_deterministic
    rw [List.pairwise_map]
    exact hwf.det p (hsub p hp)

/-- A step of the optimized DFA is the step of the original one followed by
taking the representative. -/
theorem optimize_step {T : Type} (d d1 : dfa T) (Gamma : List (List Nat))
    (Map : List (Nat × Nat)) (hwf : dfa_wf d) (hok : part_ok Gamma Map)
    (hperm : Gamma.flatten.Perm d._nodes) (hres : optimize_result d Gamma Map d1)
    (p : Nat) (hp : p ∈ d1._nodes) (s : Int) :
    dfa_step d1.heap p s = (dfa_step d.heap p s).map (rep_of Gamma Map) := by
  have hwf1 := optimize_wf d d1 Gamma Map hwf hok hperm hres
  have hp0 : p ∈ d._nodes := ((optimize_result_mem d d1 Gamma Map hres p).1 hp).1
  cases hstep : dfa_step d.heap p s with
  | some q =>
    obtain ⟨t0, ht0, hs0, hn0⟩ := dfa_step_some d.heap p s q hstep
    have hagg : ∃ t ∈ aggregate_node ((dfa_at d.heap p).transitions.map (retarget Gamma Map)),
        interval_set.mem s t.characters ∧ t.next = rep_of Gamma Map q :=
      (aggregate_node_mem _ s _).2
        ⟨retarget Gamma Map t0, List.mem_map_of_mem _ ht0, hs0, by rw [retarget_next, hn0]⟩
    obtain ⟨t, ht, hs, hn⟩ := hagg
    rw [← hres.transitions_eq p hp] at ht
    rw [Option.map_some']
    rw [← hn]
    exact dfa_step_of_mem d1.heap p s (hwf1.det p hp) t ht hs
  | none =>
    rw [Option.map_none']
    cases hstep1 : dfa_step d1.heap p s with
    | none => rfl
    | some q1 =>
      exfalso
      obtain ⟨t, ht, hs, hn⟩ := dfa_step_some d1.heap p s q1 hstep1
      rw [hres.transitions_eq p hp] at ht
      obtain ⟨t0, ht0, hs0, _⟩ := (aggregate_node_mem _ s _).1 ⟨t, ht, hs, rfl⟩
      obtain ⟨t1, ht1, rfl⟩ := List.mem_map.1 ht0
      rw [retarget_characters] at hs0
      exact dfa_step_none d.heap p s hstep t1 ht1 hs0

/-! ## Runs of the optimized DFA -/

theorem same_block_symm (Gamma : List (List Nat)) (x y : Nat) (h : same_block Gamma x y) :
    same_block Gamma y x := by
  obtain ⟨B, hB, hx, hy⟩ := h
  exact ⟨B, hB, hy, hx⟩

theorem same_block_trans (Gamma : List (List Nat)) (hnd : Gamma.flatten.Nodup) (x y z : Nat)
    (h1 : same_block Gamma x y) (h2 : same_block Gamma y z) : same_block Gamma x z := by
  obtain ⟨B, hB, hx, hy⟩ := h1
  obtain ⟨C, hC, hy2, hz⟩ := h2
  have := block_unique Gamma hnd B C hB hC y hy hy2
  subst this
  exact ⟨B, hB, hx, hz⟩

theorem same_block_refl (Gamma : List (List Nat)) (x : Nat) (hx : x ∈ Gamma.flatten) :
    same_block Gamma x x := by
  obtain ⟨B, hB, hxB⟩ := List.mem_flatten.1 hx
  exact ⟨B, hB, hxB, hxB⟩

/-- In a stable partition two states of one block step, on every symbol, both
nowhere or into one block. -/
theorem stable_step {T : Type} (d : dfa T) (hwf : dfa_wf d) (Gamma : List (List Nat))
    (Map : List (Nat × Nat)) (hok : part_ok Gamma Map) (hperm : Gamma.flatten.Perm d._nodes)
    (hst : part_stable d.heap Gamma Map) (x y : Nat) (hsb : same_block Gamma x y) (s : Int) :
    (dfa_step d.heap x s = none ∧ dfa_step d.heap y s = none) ∨
      ∃ x1 y1, dfa_step d.heap x s = some x1 ∧ dfa_step d.heap y s = some y1 ∧
        same_block Gamma x1 y1 := by
  have hx := hperm.mem_iff.1 (same_block_flatten_left _ _ _ hsb)
  have hy := hperm.mem_iff.1 (same_block_flatten_right _ _ _ hsb)
  have hmap : ∀ z ∈ d._nodes, ∃ i, map_at Map z = some i :=
    fun z hz => (part_ok_mem_flatten Gamma Map hok z).1 (hperm.mem_iff.2 hz)
  have h := hst x y hsb s
  unfold step_block at h
  cases hsx : dfa_step d.heap x s with
  | none =>
    cases hsy : dfa_step d.heap y s with
    | none => exact Or.inl ⟨rfl, rfl⟩
    | some y1 =>
      exfalso
      obtain ⟨i, hi⟩ := hmap y1 (dfa_step_target d hwf y hy s y1 hsy)
      rw [hsx, hsy] at h
      simp [hi] at h
  | some x1 =>
    have hx1 := dfa_step_target d hwf x hx s x1 hsx
    obtain ⟨i, hi⟩ := hmap x1 hx1
    cases hsy : dfa_step d.heap y s with
    | none =>
      exfalso
      rw [hsx, hsy] at h
      simp [hi] at h
    | some y1 =>
      refine Or.inr ⟨x1, y1, rfl, rfl, ?_⟩
      rw [hsx, hsy] at h
      simp only [Option.some_bind] at h
      exact (part_ok_same_block Gamma Map hok x1 y1 (hperm.mem_iff.2 hx1)).2 h

/-- The terminal test reads only the NFA-state set of a DFA node. -/
theorem terminal_congr {T : Type} [TokenInfo T] (nfa : List (nfa_node T)) (n m : dfa_node)
    (h : n.nodes = m.nodes) :
    n.terminal nfa = m.terminal nfa ∧ n.get_terminal nfa = m.get_terminal nfa := by
  unfold dfa_node.terminal dfa_node.get_terminal
  rw [h]
  exact ⟨rfl, rfl⟩

theorem same_token_congr {T : Type} [TokenInfo T] (nfa : List (nfa_node T))
    (heap heap1 : List dfa_node)
    (h : ∀ p, (dfa_at heap1 p).nodes = (dfa_at heap p).nodes) (p q : Nat) :
    same_token nfa heap1 p q ↔ same_token nfa heap p q := by
  unfold same_token
  rw [(terminal_congr nfa _ _ (h p)).1, (terminal_congr nfa _ _ (h p)).2,
    (terminal_congr nfa _ _ (h q)).1, (terminal_congr nfa _ _ (h q)).2]

theorem same_token_symm {T : Type} [TokenInfo T] [TokenInfoLaws T] (nfa : List (nfa_node T))
    (heap : List dfa_node) (p q : Nat) (h : same_token nfa heap p q) :
    same_token nfa heap q p := by
  rw [same_token_iff] at h ⊢
  exact terminal_equiv_symm nfa heap p q h

theorem same_token_trans {T : Type} [TokenInfo T] [TokenInfoLaws T] (nfa : List (nfa_node T))
    (heap : List dfa_node) (p q r : Nat) (h1 : same_token nfa heap p q)
    (h2 : same_token nfa heap q r) : same_token nfa heap p r := by
  rw [same_token_iff] at h1 h2 ⊢
  exact terminal_equiv_trans nfa heap p q r h1 h2

/-- A run of the optimized DFA from a surviving state follows, block by block,
the run of the original DFA from any state of the same block. -/
theorem optimize_run {T : Type} (d d1 : dfa T) (Gamma : List (List Nat))
    (Map : List (Nat × Nat)) (hwf : dfa_wf d) (hok : part_ok Gamma Map)
    (hperm : Gamma.flatten.Perm d._nodes) (hst : part_stable d.heap Gamma Map)
    (hres : optimize_result d Gamma Map d1) :
    ∀ (w : List Int) (x y : Nat), x ∈ d1._nodes → same_block Gamma x y →
      (dfa_run d1.heap x w = none ∧ dfa_run d.heap y w = none) ∨
        ∃ x1 y1, dfa_run d1.heap x w = some x1 ∧ dfa_run d.heap y w = some y1 ∧
          same_block Gamma x1 y1 := by
  intro w
  induction w with
  | nil =>
    intro x y _ hsb
    exact Or.inr ⟨x, y, rfl, rfl, hsb⟩
  | cons s w ih =>
    intro x y hx hsb
    have hstep := optimize_step d d1 Gamma Map hwf hok hperm hres x hx s
    rcases stable_step d hwf Gamma Map hok hperm hst x y hsb s with
      ⟨h1, h2⟩ | ⟨x1, y1, h1, h2, hsb1⟩
    · left
      rw [h1] at hstep
      simp only [dfa_run, hstep, h2, Option.map_none', and_self]
    · rw [h1, Option.map_some'] at hstep
      have hx1 : x1 ∈ d._nodes :=
        hperm.mem_iff.1 (same_block_flatten_left _ _ _ hsb1)
      have hrep := optimize_rep_mem d d1 Gamma Map hwf hok hperm hres x1 hx1
      have hsb2 : same_block Gamma (rep_of Gamma Map x1) y1 :=
        same_block_trans Gamma hok.flat_nodup _ _ _
          (rep_of_same_block Gamma Map hok x1 (hperm.mem_iff.2 hx1)) hsb1
      simp only [dfa_run, hstep, h2]
      exact ih _ _ hrep hsb2

/-- In a stable partition the runs from two states of one block stay in one
block. -/
theorem stable_run {T : Type} (d : dfa T) (hwf : dfa_wf d) (Gamma : List (List Nat))
    (Map : List (Nat × Nat)) (hok : part_ok Gamma Map) (hperm : Gamma.flatten.Perm d._nodes)
    (hst : part_stable d.heap Gamma Map) :
    ∀ (w : List Int) (x y : Nat), same_block Gamma x y →
      (dfa_run d.heap x w = none ∧ dfa_run d.heap y w = none) ∨
        ∃ x1 y1, dfa_run d.heap x w = some x1 ∧ dfa_run d.heap y w = some y1 ∧
          same_block Gamma x1 y1 := by
  intro w
  induction w with
  | nil =>
    intro x y hsb
    exact Or.inr ⟨x, y, rfl, rfl, hsb⟩
  | cons s w ih =>
    intro x y hsb
    rcases stable_step d hwf Gamma Map hok hperm hst x y hsb s with
      ⟨h1, h2⟩ | ⟨x1, y1, h1, h2, hsb1⟩
    · left
      simp only [dfa_run, h1, h2, and_self]
    · simp only [dfa_run, h1, h2]
      exact ih _ _ hsb1

/-- States of one block of a stable partition that refines the terminal
classes are equivalent. -/
theorem stable_equivalent {T : Type} [TokenInfo T] [TokenInfoLaws T] (d : dfa T)
    (hwf : dfa_wf d) (Gamma : List (List Nat))
    (Map : List (Nat × Nat)) (hok : part_ok Gamma Map) (hperm : Gamma.flatten.Perm d._nodes)
    (hst : part_stable d.heap Gamma Map)
    (hterm : ∀ x y, same_block Gamma x y → terminal_equiv d.nfa d.heap x y = true)
    (x y : Nat) (hsb : same_block Gamma x y) : dfa_equivalent d.nfa d.heap x y := by
  intro w
  unfold runs_agree
  rcases stable_run d hwf Gamma Map hok hperm hst w x y hsb with
    ⟨h1, h2⟩ | ⟨x1, y1, h1, h2, hsb1⟩
  · rw [h1, h2]; trivial
  · rw [h1, h2]
    exact (same_token_iff d.nfa d.heap x1 y1).2 (hterm x1 y1 hsb1)

/-- Two surviving states agree on a string in the optimized DFA iff they do in
the original one. -/
theorem optimize_runs_agree {T : Type} [TokenInfo T] [TokenInfoLaws T] (d d1 : dfa T)
    (Gamma : List (List Nat))
    (Map : List (Nat × Nat)) (hwf : dfa_wf d) (hok : part_ok Gamma Map)
    (hperm : Gamma.flatten.Perm d._nodes) (hst : part_stable d.heap Gamma Map)
    (hterm : ∀ x y, same_block Gamma x y → terminal_equiv d.nfa d.heap x y = true)
    (hres : optimize_result d Gamma Map d1) (p q : Nat) (hp : p ∈ d1._nodes)
    (hq : q ∈ d1._nodes) (w : List Int) :
    runs_agree d1.nfa d1.heap p q w ↔ runs_agree d.nfa d.heap p q w := by
  have hp0 : p ∈ Gamma.flatten :=
    hperm.mem_iff.2 ((optimize_result_mem d d1 Gamma Map hres p).1 hp).1
  have hq0 : q ∈ Gamma.flatten :=
    hperm.mem_iff.2 ((optimize_result_mem d d1 Gamma Map hres q).1 hq).1
  have htok : ∀ a b, same_block Gamma a b → same_token d.nfa d.heap a b :=
    fun a b h => (same_token_iff d.nfa d.heap a b).2 (hterm a b h)
  unfold runs_agree
  rw [hres.nfa_eq]
  rcases optimize_run d d1 Gamma Map hwf hok hperm hst hres w p p hp
      (same_block_refl Gamma p hp0) with ⟨hp1, hp2⟩ | ⟨p1, p2, hp1, hp2, hsbp⟩ <;>
    rcases optimize_run d d1 Gamma Map hwf hok hperm hst hres w q q hq
      (same_block_refl Gamma q hq0) with ⟨hq1, hq2⟩ | ⟨q1, q2, hq1, hq2, hsbq⟩
  · rw [hp1, hp2, hq1, hq2]
  · rw [hp1, hp2, hq1, hq2]
  · rw [hp1, hp2, hq1, hq2]
  · rw [hp1, hp2, hq1, hq2]
    show same_token d.nfa d1.heap p1 q1 ↔ same_token d.nfa d.heap p2 q2
    rw [same_token_congr d.nfa d.heap d1.heap hres.nodes_field]
    constructor
    · intro h
      exact same_token_trans _ _ _ _ _ (same_token_symm _ _ _ _ (htok _ _ hsbp))
        (same_token_trans _ _ _ _ _ h (htok _ _ hsbq))
    · intro h
      exact same_token_trans _ _ _ _ _ (htok _ _ hsbp)
        (same_token_trans _ _ _ _ _ h (same_token_symm _ _ _ _ (htok _ _ hsbq)))

theorem terminal_equiv_congr {T : Type} [TokenInfo T] (nfa : List (nfa_node T))
    (heap heap1 : List dfa_node)
    (h : ∀ p, (dfa_at heap1 p).nodes = (dfa_at heap p).nodes) (p q : Nat) :
    terminal_equiv nfa heap1 p q = terminal_equiv nfa heap p q := by
  unfold terminal_equiv
  rw [(terminal_congr nfa _ _ (h p)).1, (terminal_congr nfa _ _ (h p)).2,
    (terminal_congr nfa _ _ (h q)).1, (terminal_congr nfa _ _ (h q)).2]

/-- After `optimize` on a DFA in which every node but the initial one is a
target, no two distinct states are equivalent; and when all remaining states
are in one terminal class, only one state remains. -/
theorem optimize_distinct {T : Type} [TokenInfo T] [TokenInfoLaws T] (d : dfa T)
    (hwf : dfa_wf d) (hcov : dfa_cover d) :
    ∃ d1, d.optimize = some d1 ∧ dfa_wf d1 ∧
      (∀ p ∈ d1._nodes, ∀ q ∈ d1._nodes, p ≠ q → ¬ dfa_equivalent d1.nfa d1.heap p q) ∧
      ((∀ p ∈ d1._nodes, ∀ q ∈ d1._nodes, terminal_equiv d1.nfa d1.heap p q = true) →
        ∀ p ∈ d1._nodes, ∀ q ∈ d1._nodes, p = q) := by
  obtain ⟨Gamma, Map, d1, _, hopt, hres, hok, hperm, hterm, hdich⟩ := optimize_spec d hwf
  have hmem0 : ∀ p ∈ d1._nodes, p ∈ d._nodes :=
    fun p hp => ((optimize_result_mem d d1 Gamma Map hres p).1 hp).1
  have hrep : ∀ p ∈ d1._nodes, rep_of Gamma Map p = p :=
    fun p hp => optimize_mem_rep d d1 Gamma Map hcov hok hperm hres p hp
  have hnsb : ∀ p ∈ d1._nodes, ∀ q ∈ d1._nodes, same_block Gamma p q → p = q := by
    intro p hp q hq hsb
    have := (rep_of_eq Gamma Map hok p q hsb).1
    rw [hrep p hp, hrep q hq] at this
    exact this
  have hone : Gamma.length = 1 → ∀ p ∈ d1._nodes, ∀ q ∈ d1._nodes, p = q := by
    intro hlen p hp q hq
    apply hnsb p hp q hq
    match Gamma, hlen, hperm with
    | [B], _, hperm =>
      refine ⟨B, List.mem_singleton.2 rfl, ?_, ?_⟩
      · simpa using hperm.mem_iff.2 (hmem0 p hp)
      · simpa using hperm.mem_iff.2 (hmem0 q hq)
  refine ⟨d1, hopt, optimize_wf d d1 Gamma Map hwf hok hperm hres, ?_, ?_⟩
  · intro p hp q hq hne
    rcases hdich with hlen | ⟨hst, hsep, _⟩
    · exact absurd (hone hlen p hp q hq) hne
    · obtain ⟨w, hw⟩ := hsep p (hmem0 p hp) q (hmem0 q hq)
        (fun hsb => hne (hnsb p hp q hq hsb))
      intro heq
      exact hw ((optimize_runs_agree d d1 Gamma Map hwf hok hperm hst hterm hres p q hp hq w).1
        (heq w))
  · intro hall
    rcases hdich with hlen | ⟨_, _, x, hx, y, hy, hxy⟩
    · exact hone hlen
    · exfalso
      have hxf := hperm.mem_iff.2 hx
      have hyf := hperm.mem_iff.2 hy
      have h1 := hall _ (optimize_rep_mem d d1 Gamma Map hwf hok hperm hres x hx)
        _ (optimize_rep_mem d d1 Gamma Map hwf hok hperm hres y hy)
      rw [hres.nfa_eq, terminal_equiv_congr d.nfa d.heap d1.heap hres.nodes_field] at h1
      have h2 := hterm _ _ (rep_of_same_block Gamma Map hok x hxf)
      have h3 := hterm _ _ (rep_of_same_block Gamma Map hok y hyf)
      have h4 := terminal_equiv_trans d.nfa d.heap _ _ _
        (terminal_equiv_trans d.nfa d.heap _ _ _ (terminal_equiv_symm _ _ _ _ h2) h1) h3
      rw [h4] at hxy
      exact Bool.noConfusion hxy

/-- A second `optimize` removes no state. -/
theorem optimize_twice {T : Type} [TokenInfo T] [TokenInfoLaws T] (d : dfa T)
    (hwf : dfa_wf d) (hcov : dfa_cover d) :
    ∃ d1 d2, d.optimize = some d1 ∧ d1.optimize = some d2 ∧ d2._nodes = d1._nodes := by
  obtain ⟨d1, hopt1, hwf1, hdist, hsingle⟩ := optimize_distinct d hwf hcov
  obtain ⟨Gamma, Map, d2, _, hopt2, hres, hok, hperm, hterm, hdich⟩ := optimize_spec d1 hwf1
  refine ⟨d1, d2, hopt1, hopt2, ?_⟩
  have hnsb : ∀ p ∈ d1._nodes, ∀ q ∈ d1._nodes, same_block Gamma p q → p = q := by
    intro p hp q hq hsb
    rcases hdich with hlen | ⟨hst, _, _⟩
    · apply hsingle _ p hp q hq
      intro a ha b hb
      apply hterm
      match Gamma, hlen, hperm with
      | [B], _, hperm =>
        refine ⟨B, List.mem_singleton.2 rfl, ?_, ?_⟩
        · simpa using hperm.mem_iff.2 ha
        · simpa using hperm.mem_iff.2 hb
    · by_contra hne
      exact hdist p hp q hq hne
        (stable_equivalent d1 hwf1 Gamma Map hok hperm hst hterm p q hsb)
  obtain ⟨dead, hn, hd⟩ := hres.nodes_eq
  rw [hn, List.filter_eq_self]
  intro p hp
  simp only [decide_eq_true_eq]
  rw [hd]
  rintro ⟨q, hq, t, ht, hm⟩
  have ht1 : t.next ∈ d1._nodes := hwf1.targets q hq t ht
  have htf := hperm.mem_iff.2 ht1
  have hpf := hperm.mem_iff.2 hp
  obtain ⟨others, hB, htB, htl, _⟩ := rep_of_spec Gamma Map hok t.next htf
  rw [htl] at hm
  have hsb : same_block Gamma p (rep_of Gamma Map t.next) :=
    ⟨_, hB, List.mem_cons_of_mem _ hm, List.mem_cons_self _ _⟩
  have heq := hnsb p hp _ (hperm.mem_iff.1 (rep_of_mem Gamma Map hok t.next htf)) hsb
  have hnot := rep_not_in_tail Gamma Map hok t.next t.next htf htf
  rw [htl, ← heq] at hnot
  exact hnot hm
/-! ## The table built by generate -/

theorem map_at_filter_ne (index : List (Nat × Nat)) (state : Nat)
    (h : map_at index state = none) :
    index.filter (fun e => e.1 != state) = index := by
  rw [List.filter_eq_self]
  intro e he
  unfold map_at at h
  simp only [Option.map_eq_none'] at h
  have := List.find?_eq_none.1 h e he
  simpa using this

/-- The first loop of `generate` appends one entry per state and records its
position. -/
theorem generate_index_spec {α : Type} [Inhabited α]
    (nfa : List (nfa_node (basic_token_info α))) (heap : List dfa_node) :
    ∀ (states : List Nat) (nodes : List (lexer_node α)) (index : List (Nat × Nat)),
      states.Nodup → (∀ s ∈ states, map_at index s = none) →
      (generate_index nfa heap states (nodes, index)).1 =
          nodes ++ states.map (fun s => lexer_node.ctor nfa (dfa_at heap s)) ∧
        (∀ j s, states[j]? = some s →
          map_at (generate_index nfa heap states (nodes, index)).2 s =
            some (nodes.length + j)) ∧
        (∀ k, k ∉ states →
          map_at (generate_index nfa heap states (nodes, index)).2 k = map_at index k) := by
  intro states
  induction states with
  | nil =>
    intro nodes index _ _
    refine ⟨by simp [generate_index], ?_, ?_⟩
    · intro j s h; simp at h
    · intro k _; rfl
  | cons state rest ih =>
    intro nodes index hnd hnone
    rw [List.nodup_cons] at hnd
    have hf := map_at_filter_ne index state (hnone state (List.mem_cons_self _ _))
    have hnone1 : ∀ s ∈ rest, map_at (index ++ [(state, nodes.length)]) s = none := by
      intro s hs
      rw [map_at_append, hnone s (List.mem_cons_of_mem _ hs)]
      have : s ≠ state := fun h => hnd.1 (h ▸ hs)
      simp [Option.or, this]
    obtain ⟨h1, h2, h3⟩ := ih (nodes ++ [lexer_node.ctor nfa (dfa_at heap state)])
      (index ++ [(state, nodes.length)]) hnd.2 hnone1
    simp only [generate_index, hf]
    refine ⟨?_, ?_, ?_⟩
    · rw [h1]; simp
    · intro j s hj
      cases j with
      | zero =>
        simp only [List.getElem?_cons_zero, Option.some.injEq] at hj
        subst hj
        rw [h3 state hnd.1, map_at_append, hnone state (List.mem_cons_self _ _)]
        simp [Option.or]
      | succ j =>
        simp only [List.getElem?_cons_succ] at hj
        rw [h2 j s hj]
        simp only [List.length_append, List.length_singleton]
        congr 1
        omega
    · intro k hk
      simp only [List.mem_cons, not_or] at hk
      rw [h3 k hk.2, map_at_append]
      cases map_at index k <;> simp [Option.or, hk.1]

theorem modify_at_middle {β : Type} (f : β → β) (A : List β) (x : β) (B : List β) :
    modify_at f (A ++ x :: B) A.length = A ++ f x :: B := by
  induction A with
  | nil => rfl
  | cons a A ih => simp [modify_at, ih]

theorem generate_inner_spec {α : Type} (index : List (Nat × Nat)) (A B : List (lexer_node α)) :
    ∀ (ts : List dfa_transition) (x : lexer_node α),
      ts.foldl
        (fun ns transition =>
          modify_at
            (fun n => { n with
              transitions := n.transitions ++
                [⟨transition.characters, index_at index transition.next⟩] })
            ns A.length)
        (A ++ x :: B) =
      A ++ { x with transitions := x.transitions ++ ts.map (table_transition index) } :: B := by
  intro ts
  induction ts with
  | nil => intro x; simp
  | cons t ts ih =>
    intro x
    rw [List.foldl_cons, modify_at_middle, ih]
    simp [table_transition]

/-- The second loop of `generate` fills in the transitions of every entry. -/
theorem generate_transitions_spec {α : Type} [Inhabited α]
    (nfa : List (nfa_node (basic_token_info α))) (heap : List dfa_node)
    (index : List (Nat × Nat)) :
    ∀ (rest done : List Nat),
      (∀ j s, (done ++ rest)[j]? = some s → index_at index s = j) →
      generate_transitions heap index rest
          (done.map (table_node nfa heap index) ++
            rest.map (fun s => lexer_node.ctor nfa (dfa_at heap s))) =
        (done ++ rest).map (table_node nfa heap index) := by
  intro rest
  induction rest with
  | nil => intro done _; simp [generate_transitions]
  | cons s rest ih =>
    intro done hidx
    have hs : index_at index s = done.length := by
      apply hidx
      rw [List.getElem?_append_right (le_refl _)]
      simp
    have hlen : (done.map (table_node nfa heap index)).length = done.length := by simp
    simp only [generate_transitions, List.map_cons, hs]
    rw [← hlen, generate_inner_spec]
    have hfull : ({ lexer_node.ctor nfa (dfa_at heap s) with
        transitions := (lexer_node.ctor nfa (dfa_at heap s)).transitions ++
          (dfa_at heap s).transitions.map (table_transition index) } : lexer_node α) =
        table_node nfa heap index s := by
      simp [table_node, lexer_node.ctor]
    rw [hfull]
    have := ih (done ++ [s]) (by simpa using hidx)
    simpa using this

/-- The table of `generate`, in terms of the optimized DFA: entry `j` is made of
the `j`-th state of `_nodes`, with targets translated to positions. -/
theorem generate_table {α : Type} [Inhabited α]
    (d1 : dfa (basic_token_info α)) (hnd : d1._nodes.Nodup) :
    ∃ index : List (Nat × Nat),
      (∀ j s, d1._nodes[j]? = some s → index_at index s = j) ∧
      generate_index d1.nfa d1.heap d1._nodes ([], []) =
        (d1._nodes.map (fun s => lexer_node.ctor d1.nfa (dfa_at d1.heap s)), index) ∧
      generate_transitions d1.heap index d1._nodes
          (d1._nodes.map (fun s => lexer_node.ctor d1.nfa (dfa_at d1.heap s))) =
        d1._nodes.map (table_node d1.nfa d1.heap index) := by
  obtain ⟨h1, h2, _⟩ := generate_index_spec d1.nfa d1.heap d1._nodes [] [] hnd
    (fun s _ => rfl)
  refine ⟨(generate_index d1.nfa d1.heap d1._nodes ([], [])).2, ?_, ?_, ?_⟩
  · intro j s hj
    unfold index_at
    rw [h2 j s hj]
    simp
  · rw [← h1.trans (List.nil_append _)]
  · have := generate_transitions_spec d1.nfa d1.heap
      (generate_index d1.nfa d1.heap d1._nodes ([], [])).2 d1._nodes []
      (by
        intro j s hj
        unfold index_at
        rw [h2 j s (by simpa using hj)]
        simp)
    simpa using this

/-- Every entry of the table made of a well-formed DFA is deterministic. -/
theorem table_node_deterministic {α : Type} [Inhabited α]
    (d1 : dfa (basic_token_info α)) (hwf : dfa_wf d1) (index : List (Nat × Nat)) :
    ∀ node ∈ d1._nodes.map (table_node d1.nfa d1.heap index),
      node.transitions.Pairwise (fun a b =>
        ∀ s, ¬ (interval_set.mem s a.characters ∧ interval_set.mem s b.characters)) := by
  intro node hnode
  obtain ⟨p, hp, rfl⟩ := List.mem_map.1 hnode
  show ((dfa_at d1.heap p).transitions.map (table_transition index)).Pairwise _
  rw [List.pairwise_map]
  exact hwf.det p hp

/-- Labels that pairwise share no symbol: at most one contains a given symbol. -/
theorem pairwise_count_le_one {β : Type} (chars : β → interval_set) (s : Int) :
    ∀ (ts : List β),
      ts.Pairwise (fun a b =>
        ∀ s, ¬ (interval_set.mem s (chars a) ∧ interval_set.mem s (chars b))) →
      (ts.filter (fun t => decide (interval_set.mem s (chars t)))).length ≤ 1 := by
  intro ts
  induction ts with
  | nil => intro _; simp
  | cons t ts ih =>
    intro h
    rw [List.pairwise_cons] at h
    by_cases ht : interval_set.mem s (chars t)
    · have hnone : ts.filter (fun t => decide (interval_set.mem s (chars t))) = [] := by
        rw [List.filter_eq_nil_iff]
        intro b hb
        simpa using fun hsb => h.1 b hb s ⟨ht, hsb⟩
      rw [List.filter_cons_of_pos (by simpa using ht), hnone]
      simp
    · rw [List.filter_cons_of_neg (by simpa using ht)]
      exact ih h.2

/-! ## The DFA of the constructor, as the later stages see it -/

/-- The constructor returns a well-formed DFA in which every node but the
initial one is a target, and whose runs from the initial node track the set of
NFA nodes reachable from `start`. -/
theorem ctor_built {T : Type} [TokenInfo T] (nfa : List (nfa_node T)) (hwf : nfa_wf nfa)
    (start : Nat) (hstart : start < nfa.length) :
    ∃ d, dfa.ctor nfa start = some d ∧ d.nfa = nfa ∧ dfa_wf d ∧ dfa_cover d ∧
      (∀ p ∈ d._nodes, (dfa_at d.heap p).nodes ≠ [] ∧ (dfa_at d.heap p).nodes.Nodup) ∧
      ∀ w,
        (∀ q, dfa_run d.heap d._initial w = some q →
          q ∈ d._nodes ∧ ∀ y, y ∈ (dfa_at d.heap q).nodes ↔ nfa_path nfa start w y) ∧
        (dfa_run d.heap d._initial w = none → ∀ y, ¬ nfa_path nfa start w y) := by
  obtain ⟨st, hinv, hu, hinit, hctor⟩ := dfa_ctor_spec nfa hwf start hstart
  have hmem : ∀ p, p ∈ st.result ↔ p < st.heap.length := by
    intro p; rw [hinv.result_eq]; simp
  have hnodes : ∀ p < st.heap.length,
      (dfa_at (aggregate st.heap st.result) p).nodes = (dfa_at st.heap p).nodes := by
    intro p hp
    rw [built_at nfa st hinv p hp]
  have hfrom : ∀ w y, (∃ x ∈ (dfa_at st.heap 0).nodes, nfa_path nfa x w y) ↔
      nfa_path nfa start w y := by
    intro w y
    constructor
    · rintro ⟨x, hx, hp⟩
      have := nfa_path_trans nfa start x y [] w ((hinit x).1 hx) hp
      simpa using this
    · intro hp
      exact ⟨start, (hinit start).2 (nfa_path.nil start), hp⟩
  refine ⟨_, hctor, rfl, built_wf nfa st hinv hu, built_cover nfa st hinv, ?_, ?_⟩
  · intro p hp
    have hp1 := (hmem p).1 hp
    show (dfa_at (aggregate st.heap st.result) p).nodes ≠ [] ∧ _
    rw [hnodes p hp1]
    exact ⟨hinv.nodes_ne p hp1, hinv.nodes_nodup p hp1⟩
  · intro w
    obtain ⟨h1, h2⟩ := built_run nfa hwf st hinv hu w 0 hinv.heap_pos
    constructor
    · intro q hq
      obtain ⟨hq1, hq2⟩ := h1 q hq
      refine ⟨(hmem q).2 hq1, fun y => ?_⟩
      show y ∈ (dfa_at (aggregate st.heap st.result) q).nodes ↔ _
      rw [hnodes q hq1, hq2 y, hfrom]
    · intro hnone y hp
      obtain ⟨x, hx, hpx⟩ := (hfrom w y).2 hp
      exact h2 hnone x hx y hpx

/-! ## The parser builds well-formed character sets -/

theorem regex_wf_list_iff (ts : List regex_node) :
    regex_wf_list ts ↔ ∀ t ∈ ts, regex_wf t := by
  induction ts with
  | nil => simp [regex_wf_list]
  | cons t ts ih => simp [regex_wf_list, ih]

theorem make_closed_closed (s : interval_set) : ∀ k ∈ make_closed s, closed_interval k := by
  unfold make_closed
  suffices h : ∀ (acc : interval_set), (∀ i ∈ acc, closed_interval i) →
      ∀ k ∈ s.foldl
        (fun new_set interval =>
          new_set.add (discrete_interval.closed
            (interval.lower + (if interval.left_open then 1 else 0))
            (interval.upper - (if interval.right_open then 1 else 0)))) acc,
        closed_interval k from h [] (by simp)
  induction s with
  | nil => intro acc h k hk; exact h k hk
  | cons i s ih =>
    intro acc hacc
    rw [List.foldl_cons]
    apply ih
    intro k hk
    by_cases he : (discrete_interval.closed
        (i.lower + (if i.left_open then 1 else 0))
        (i.upper - (if i.right_open then 1 else 0))).is_empty = true
    · unfold interval_set.add at hk
      rw [if_pos he] at hk
      exact hacc k hk
    · refine add_closed acc _ ?_ hacc k hk
      simp only [discrete_interval.is_empty, discrete_interval.first, discrete_interval.last,
        discrete_interval.closed, decide_eq_true_eq] at he
      refine ⟨rfl, ?_⟩
      simp only [discrete_interval.closed]
      simp at he
      omega

theorem add_element_closed (c : Int) :
    ∀ k ∈ interval_set.add_element [] c, closed_interval k := by
  unfold interval_set.add_element
  apply add_closed
  · exact ⟨rfl, le_refl _⟩
  · simp

theorem except_bind_ok {ε α β : Type} (x : Except ε α) (f : α → Except ε β) (r : β)
    (h : (x >>= f) = .ok r) : ∃ a, x = .ok a ∧ f a = .ok r := by
  cases x with
  | error e => simp [bind, Except.bind] at h
  | ok a => exact ⟨a, rfl, h⟩

theorem parse_char_range_loop_wf (regex : List Int) (complement : Bool) :
    ∀ (fuel : Nat) (state : states) (last : Option Int) (char_set : interval_set) (b : Nat)
      (r : regex_node × Nat),
      parse_char_range_loop regex complement fuel state last char_set b = .ok r →
      regex_wf r.1 := by
  intro fuel
  induction fuel with
  | zero => intro state last cs b r h; simp [parse_char_range_loop, throw, throwThe, MonadExceptOf.throw] at h
  | succ fuel ih =>
    intro state last cs b r h
    rw [parse_char_range_loop] at h
    split at h
    · simp [throw, throwThe, MonadExceptOf.throw] at h
    · obtain ⟨c, _, h⟩ := except_bind_ok _ _ _ h
      have hint : ∀ r, (match last with
          | none => (throw parse_error.uninitialized : Except parse_error (regex_node × Nat))
          | some l =>
            parse_char_range_loop regex complement fuel states.normal last
              (char_range_interval complement cs l c) (b + 1)) = .ok r → regex_wf r.1 := by
        intro r hr
        cases last with
        | none => simp [throw, throwThe, MonadExceptOf.throw] at hr
        | some l => exact ih _ _ _ _ _ hr
      cases state with
      | normal =>
        simp only at h
        split at h
        · simp only [pure, Except.pure, Except.ok.injEq] at h
          subst h
          simp only [regex_wf]
          exact make_closed_closed cs
        · split at h
          · exact ih _ _ _ _ _ h
          · split at h
            · exact ih _ _ _ _ _ h
            · exact ih _ _ _ _ _ h
      | escape => exact ih _ _ _ _ _ h
      | range =>
        simp only at h
        split at h
        · exact ih _ _ _ _ _ h
        · exact hint r h
      | «escape_range» => exact hint r h

theorem throw_ne_ok {α : Type} (e : parse_error) (r : α) :
    (throw e : Except parse_error α) ≠ .ok r := by
  intro h; cases h

theorem make_operand_wf (child : Option regex_node) (oper : operator_type) (node : regex_node)
    (h : make_operand child oper = .ok node) (hc : ∀ t, child = some t → regex_wf t) :
    regex_wf node := by
  cases child with
  | none => exact absurd h (throw_ne_ok _ _)
  | some c =>
    simp only [make_operand, pure, Except.pure, Except.ok.injEq] at h
    subst h
    simp only [regex_wf]
    exact hc c rfl

theorem parser_wf (lim : char_limits) (regex : List Int) :
    ∀ (fuel : Nat),
      (∀ b r, parse_atom lim regex fuel b = .ok r → ∀ t, r.1 = some t → regex_wf t) ∧
      (∀ b r, parse_term lim regex fuel b = .ok r → ∀ t, r.1 = some t → regex_wf t) ∧
      (∀ terms b r, (∀ t ∈ terms, regex_wf t) →
        parse_factor_loop lim regex fuel terms b = .ok r → regex_wf r.1) ∧
      (∀ alts b r, (∀ t ∈ alts, regex_wf t) →
        parse_regex_loop lim regex fuel alts b = .ok r → regex_wf r.1) ∧
      (∀ b r, parse_regex lim regex fuel b = .ok r → regex_wf r.1) := by
  intro fuel
  induction fuel with
  | zero =>
    refine ⟨?_, ?_, ?_, ?_, ?_⟩
    · intro b r h; rw [parse_atom] at h; exact absurd h (throw_ne_ok _ _)
    · intro b r h; rw [parse_term] at h; exact absurd h (throw_ne_ok _ _)
    · intro ts b r _ h; rw [parse_factor_loop] at h; exact absurd h (throw_ne_ok _ _)
    · intro ts b r _ h; rw [parse_regex_loop] at h; exact absurd h (throw_ne_ok _ _)
    · intro b r h; rw [parse_regex] at h; exact absurd h (throw_ne_ok _ _)
  | succ fuel ih =>
    obtain ⟨ihA, ihT, ihF, ihRL, ihR⟩ := ih
    refine ⟨?_, ?_, ?_, ?_, ?_⟩
    · intro b r h t ht
      rw [parse_atom] at h
      obtain ⟨c, _, h⟩ := except_bind_ok _ _ _ h
      split at h
      · exact absurd h (throw_ne_ok _ _)
      · split at h
        · simp only [pure, Except.pure, Except.ok.injEq] at h
          subst h; simp at ht
        · split at h
          · obtain ⟨⟨node, b1⟩, hp, h⟩ := except_bind_ok _ _ _ h
            obtain ⟨c1, _, h⟩ := except_bind_ok _ _ _ h
            split at h
            · exact absurd h (throw_ne_ok _ _)
            · simp only [pure, Except.pure, Except.ok.injEq] at h
              subst h
              simp only [Option.some.injEq] at ht
              subst ht
              exact ihR _ _ hp
          · split at h
            · obtain ⟨c1, _, h⟩ := except_bind_ok _ _ _ h
              simp only at h
              split at h
              · obtain ⟨⟨node, b3⟩, hp, h⟩ := except_bind_ok _ _ _ h
                simp only [pure, Except.pure, Except.ok.injEq] at h
                subst h
                simp only [Option.some.injEq] at ht
                subst ht
                exact parse_char_range_loop_wf _ _ _ _ _ _ _ _ hp
              · obtain ⟨⟨node, b3⟩, hp, h⟩ := except_bind_ok _ _ _ h
                simp only [pure, Except.pure, Except.ok.injEq] at h
                subst h
                simp only [Option.some.injEq] at ht
                subst ht
                exact parse_char_range_loop_wf _ _ _ _ _ _ _ _ hp
            · obtain ⟨c1, _, h⟩ := except_bind_ok _ _ _ h
              simp only [pure, Except.pure, Except.ok.injEq] at h
              subst h
              simp only [Option.some.injEq] at ht
              subst ht
              simp only [regex_wf]
              exact add_element_closed c1
    · intro b r h t ht
      rw [parse_term] at h
      obtain ⟨⟨char_range, b1⟩, hp, h⟩ := except_bind_ok _ _ _ h
      have hcr : ∀ t, char_range = some t → regex_wf t := fun t ht => ihA _ _ hp t ht
      simp only at h
      split at h
      · simp only [pure, Except.pure, Except.ok.injEq] at h
        subst h; exact hcr t ht
      · obtain ⟨c, _, h⟩ := except_bind_ok _ _ _ h
        split at h
        · obtain ⟨node, hm, h⟩ := except_bind_ok _ _ _ h
          simp only [pure, Except.pure, Except.ok.injEq] at h
          subst h
          simp only [Option.some.injEq] at ht
          subst ht
          exact make_operand_wf _ _ _ hm hcr
        · split at h
          · obtain ⟨node, hm, h⟩ := except_bind_ok _ _ _ h
            simp only [pure, Except.pure, Except.ok.injEq] at h
            subst h
            simp only [Option.some.injEq] at ht
            subst ht
            exact make_operand_wf _ _ _ hm hcr
          · split at h
            · obtain ⟨node, hm, h⟩ := except_bind_ok _ _ _ h
              simp only [pure, Except.pure, Except.ok.injEq] at h
              subst h
              simp only [Option.some.injEq] at ht
              subst ht
              exact make_operand_wf _ _ _ hm hcr
            · simp only [pure, Except.pure, Except.ok.injEq] at h
              subst h; exact hcr t ht
    · intro terms b r hts h
      rw [parse_factor_loop] at h
      split at h
      · simp only [pure, Except.pure, Except.ok.injEq] at h
        subst h
        simp only [regex_wf]
        exact (regex_wf_list_iff terms).2 hts
      · obtain ⟨⟨new_term, b1⟩, hp, h⟩ := except_bind_ok _ _ _ h
        simp only at h
        cases new_term with
        | none =>
          simp only [pure, Except.pure, Except.ok.injEq] at h
          subst h
          simp only [regex_wf]
          exact (regex_wf_list_iff terms).2 hts
        | some t =>
          simp only at h
          refine ihF _ _ _ ?_ h
          intro t1 ht1
          rcases List.mem_append.1 ht1 with h1 | h1
          · exact hts t1 h1
          · simp only [List.mem_singleton] at h1
            subst h1
            exact ihT _ _ hp t1 rfl
    · intro alts b r hts h
      rw [parse_regex_loop] at h
      split at h
      · simp only [pure, Except.pure, Except.ok.injEq] at h
        subst h
        simp only [regex_wf]
        exact (regex_wf_list_iff alts).2 hts
      · obtain ⟨c, _, h⟩ := except_bind_ok _ _ _ h
        split at h
        · obtain ⟨⟨factor, b1⟩, hp, h⟩ := except_bind_ok _ _ _ h
          simp only at h
          refine ihRL _ _ _ ?_ h
          intro t1 ht1
          rcases List.mem_append.1 ht1 with h1 | h1
          · exact hts t1 h1
          · simp only [List.mem_singleton] at h1
            subst h1
            exact ihF _ _ _ (by simp) hp
        · simp only [pure, Except.pure, Except.ok.injEq] at h
          subst h
          simp only [regex_wf]
          exact (regex_wf_list_iff alts).2 hts
    · intro b r h
      rw [parse_regex] at h
      obtain ⟨⟨factor, b1⟩, hp, h⟩ := except_bind_ok _ _ _ h
      simp only at h
      refine ihRL _ _ _ ?_ h
      intro t1 ht1
      simp only [List.mem_singleton] at ht1
      subst ht1
      exact ihF _ _ _ (by simp) hp

/-! ## The Thompson construction keeps the arena well formed -/

theorem mem_modify_at {β : Type} (f : β → β) (l : List β) (p : Nat) (x : β)
    (h : x ∈ modify_at f l p) : x ∈ l ∨ ∃ y ∈ l, x = f y := by
  induction l generalizing p with
  | nil => simp [modify_at] at h
  | cons a l ih =>
    cases p with
    | zero =>
      simp only [modify_at, List.mem_cons] at h
      rcases h with h | h
      · exact Or.inr ⟨a, List.mem_cons_self _ _, h⟩
      · exact Or.inl (List.mem_cons_of_mem _ h)
    | succ p =>
      simp only [modify_at, List.mem_cons] at h
      rcases h with h | h
      · exact Or.inl (h ▸ List.mem_cons_self _ _)
      · rcases ih p h with h1 | ⟨y, hy, h1⟩
        · exact Or.inl (List.mem_cons_of_mem _ h1)
        · exact Or.inr ⟨y, List.mem_cons_of_mem _ hy, h1⟩

theorem nfa_wf_iff {T : Type} [TokenInfo T] (heap : List (nfa_node T)) :
    nfa_wf heap ↔ ∀ n ∈ heap, ∀ t ∈ n.transitions, transition_ok heap.length t := Iff.rfl

theorem nfa_push_length {T : Type} (heap : List (nfa_node T)) (p : Nat) (t : nfa_transition) :
    (nfa_push heap p t).length = heap.length := modify_at_length _ _ _

theorem nfa_push_wf {T : Type} [TokenInfo T] (heap : List (nfa_node T)) (p : Nat)
    (t : nfa_transition) (h : nfa_wf heap) (ht : transition_ok heap.length t) :
    nfa_wf (nfa_push heap p t) := by
  rw [nfa_wf_iff, nfa_push_length]
  intro n hn t1 ht1
  rcases mem_modify_at _ _ _ _ hn with h1 | ⟨m, hm, rfl⟩
  · exact h n h1 t1 ht1
  · simp only [List.mem_append, List.mem_singleton] at ht1
    rcases ht1 with h2 | h2
    · exact h m hm t1 h2
    · rw [h2]; exact ht

theorem nfa_wf_append_fresh {T : Type} [TokenInfo T] (heap : List (nfa_node T))
    (h : nfa_wf heap) (extra : List (nfa_node T)) (he : ∀ n ∈ extra, n.transitions = []) :
    nfa_wf (heap ++ extra) := by
  rw [nfa_wf_iff]
  intro n hn t ht
  rcases List.mem_append.1 hn with h1 | h1
  · obtain ⟨h2, h3⟩ := h n h1 t ht
    refine ⟨?_, h3⟩
    rw [List.length_append]; omega
  · rw [he n h1] at ht; simp at ht

theorem eps_ok (n next : Nat) (h : next < n) : transition_ok n (nfa_transition.eps next) :=
  ⟨h, fun _ => rfl, by simp [nfa_transition.eps]⟩

theorem foldl_push_wf {T : Type} [TokenInfo T] (last : Nat) :
    ∀ (ts : List nfa_transition) (heap : List (nfa_node T)), nfa_wf heap →
      (∀ t ∈ ts, transition_ok heap.length t) →
      nfa_wf (ts.foldl (fun h transition => nfa_push h last transition) heap) ∧
        (ts.foldl (fun h transition => nfa_push h last transition) heap).length =
          heap.length := by
  intro ts
  induction ts with
  | nil => intro heap h _; exact ⟨h, rfl⟩
  | cons t ts ih =>
    intro heap h hts
    rw [List.foldl_cons]
    have h1 := nfa_push_wf heap last t h (hts t (List.mem_cons_self _ _))
    obtain ⟨h2, h3⟩ := ih (nfa_push heap last t) h1
      (by intro t1 ht1; rw [nfa_push_length]; exact hts t1 (List.mem_cons_of_mem _ ht1))
    exact ⟨h2, by rw [h3, nfa_push_length]⟩

theorem fresh_pair_transitions {T : Type} [TokenInfo T] :
    ∀ n ∈ ([nfa_node.fresh, nfa_node.fresh] : List (nfa_node T)), n.transitions = [] := by
  intro n hn
  simp only [List.mem_cons, List.mem_singleton, List.not_mem_nil, or_false, or_self] at hn
  rw [hn]; rfl

theorem operand_finish {T : Type} [TokenInfo T] (heap h0 h : List (nfa_node T))
    (seg : nfa_segment) (c2 : heap.length ≤ h0.length) (c3 : seg.begin < h0.length)
    (hwf : nfa_wf h) (hlen : h.length = h0.length + 2) :
    segment_ok heap
      ((⟨h0.length, h0.length + 1⟩ : nfa_segment),
        nfa_push (nfa_push h h0.length (nfa_transition.eps seg.begin)) seg.end
          (nfa_transition.eps (h0.length + 1))) := by
  have h4 := nfa_push_wf _ h0.length _ hwf (eps_ok _ seg.begin (by rw [hlen]; omega))
  have h5 := nfa_push_wf _ seg.end _ h4
    (eps_ok _ (h0.length + 1) (by rw [nfa_push_length, hlen]; omega))
  refine ⟨h5, ?_, ?_, ?_⟩
  · show heap.length ≤ (nfa_push _ _ _).length
    rw [nfa_push_length, nfa_push_length, hlen]; omega
  · show h0.length < (nfa_push _ _ _).length
    rw [nfa_push_length, nfa_push_length, hlen]; omega
  · show h0.length + 1 < (nfa_push _ _ _).length
    rw [nfa_push_length, nfa_push_length, hlen]; omega

theorem thompson_wf {T : Type} [TokenInfo T] (t : regex_node) :
    regex_wf t → ∀ heap : List (nfa_node T), nfa_wf heap →
      segment_ok heap (regex_node.nfa t heap) := by
  refine @regex_node.rec
    (fun t => regex_wf t → ∀ heap : List (nfa_node T), nfa_wf heap →
      segment_ok heap (regex_node.nfa t heap))
    (fun ts => regex_wf_list ts →
      (∀ (last : Nat) (heap : List (nfa_node T)), nfa_wf heap → last < heap.length →
        nfa_wf (concatenate_loop ts last heap).2 ∧
          heap.length ≤ (concatenate_loop ts last heap).2.length ∧
          (concatenate_loop ts last heap).1 < (concatenate_loop ts last heap).2.length) ∧
      (∀ (result : nfa_segment) (heap : List (nfa_node T)), nfa_wf heap →
        result.begin < heap.length → result.end < heap.length →
        nfa_wf (alternative_loop ts result heap) ∧
          heap.length ≤ (alternative_loop ts result heap).length))
    ?_ ?_ ?_ ?_ ?_ ?_ t
  · -- character_set
    intro cs hcs heap hwf
    simp only [regex_wf] at hcs
    simp only [regex_node.nfa, new_segment]
    have h1 := nfa_wf_append_fresh heap hwf [nfa_node.fresh, nfa_node.fresh]
      (fresh_pair_transitions)
    refine ⟨nfa_push_wf _ _ _ h1 ⟨?_, ?_, ?_⟩, ?_, ?_, ?_⟩
    · simp [nfa_transition.labelled]
    · intro h; simp [nfa_transition.labelled] at h
    · exact hcs
    · simp [nfa_push_length]
    · simp [nfa_push_length]
    · simp [nfa_push_length]
  · -- operand
    intro child oper ih hc heap hwf
    simp only [regex_wf] at hc
    obtain ⟨c1, c2, c3, c4⟩ := ih hc heap hwf
    simp only [regex_node.nfa, new_segment]
    generalize regex_node.nfa child heap = r at c1 c2 c3 c4
    obtain ⟨seg, h0⟩ := r
    simp only at c1 c2 c3 c4 ⊢
    have h1 := nfa_wf_append_fresh h0 c1 [nfa_node.fresh, nfa_node.fresh]
      (fresh_pair_transitions)
    have hlen : (h0 ++ [nfa_node.fresh, nfa_node.fresh] : List (nfa_node T)).length =
        h0.length + 2 := by simp
    cases oper with
    | plus =>
      exact operand_finish heap h0 _ seg c2 c3
        (nfa_push_wf _ _ _ h1 (eps_ok _ _ (by rw [hlen]; omega)))
        (by rw [nfa_push_length, hlen])
    | star =>
      have h3 := nfa_push_wf _ h0.length _ h1
        (eps_ok (h0 ++ [nfa_node.fresh, nfa_node.fresh] : List (nfa_node T)).length
          (h0.length + 1) (by rw [hlen]; omega))
      exact operand_finish heap h0 _ seg c2 c3
        (nfa_push_wf _ _ _ h3 (eps_ok _ _ (by rw [nfa_push_length, hlen]; omega)))
        (by rw [nfa_push_length, nfa_push_length, hlen])
    | optional =>
      exact operand_finish heap h0 _ seg c2 c3
        (nfa_push_wf _ _ _ h1 (eps_ok _ _ (by rw [hlen]; omega)))
        (by rw [nfa_push_length, hlen])
  · -- concatenate
    intro terms ih hts heap hwf
    simp only [regex_wf] at hts
    have h1 := nfa_wf_append_fresh heap hwf [nfa_node.fresh]
      (by intro n hn; simp at hn; rw [hn]; rfl)
    obtain ⟨c1, c2, c3⟩ := (ih hts).1 heap.length (heap ++ [nfa_node.fresh]) h1 (by simp)
    simp only [regex_node.nfa]
    simp only [List.length_append, List.length_singleton] at c2
    refine ⟨c1, ?_, ?_, c3⟩
    · show heap.length ≤ (concatenate_loop terms heap.length (heap ++ [nfa_node.fresh])).2.length
      omega
    · show heap.length < (concatenate_loop terms heap.length (heap ++ [nfa_node.fresh])).2.length
      omega
  · -- alternative
    intro alts ih hts heap hwf
    simp only [regex_wf] at hts
    have h1 := nfa_wf_append_fresh heap hwf [nfa_node.fresh, nfa_node.fresh]
      (fresh_pair_transitions)
    obtain ⟨c1, c2⟩ := (ih hts).2 ⟨heap.length, heap.length + 1⟩
      (heap ++ [nfa_node.fresh, nfa_node.fresh]) h1 (by simp) (by simp)
    simp only [regex_node.nfa, new_segment]
    simp only [List.length_append, List.length_cons, List.length_nil] at c2
    refine ⟨c1, ?_, ?_, ?_⟩
    · show heap.length ≤ (alternative_loop alts ⟨heap.length, heap.length + 1⟩
        (heap ++ [nfa_node.fresh, nfa_node.fresh])).length
      omega
    · show heap.length < (alternative_loop alts ⟨heap.length, heap.length + 1⟩
        (heap ++ [nfa_node.fresh, nfa_node.fresh])).length
      omega
    · show heap.length + 1 < (alternative_loop alts ⟨heap.length, heap.length + 1⟩
        (heap ++ [nfa_node.fresh, nfa_node.fresh])).length
      omega
  · -- nil
    intro _
    refine ⟨?_, ?_⟩
    · intro last heap hwf hl
      simp only [concatenate_loop]
      exact ⟨hwf, le_refl _, hl⟩
    · intro result heap hwf _ _
      simp only [alternative_loop]
      exact ⟨hwf, le_refl _⟩
  · -- cons
    intro node rest ihn ihr hts
    simp only [regex_wf_list] at hts
    obtain ⟨ihc, iha⟩ := ihr hts.2
    refine ⟨?_, ?_⟩
    · intro last heap hwf hl
      obtain ⟨c1, c2, c3, c4⟩ := ihn hts.1 heap hwf
      simp only [concatenate_loop]
      generalize regex_node.nfa node heap = r at c1 c2 c3 c4
      obtain ⟨seg, h0⟩ := r
      simp only at c1 c2 c3 c4 ⊢
      have hvalid : ∀ t ∈ (nfa_at h0 seg.begin).transitions, transition_ok h0.length t := by
        intro t ht
        have hm : nfa_at h0 seg.begin ∈ h0 := by
          unfold nfa_at
          rw [List.getElem?_eq_getElem c3]
          exact List.getElem_mem _
        exact c1 _ hm t ht
      obtain ⟨f1, f2⟩ := foldl_push_wf last _ h0 c1 hvalid
      obtain ⟨d1, d2, d3⟩ := ihc seg.end _ f1 (by rw [f2]; exact c4)
      exact ⟨d1, by rw [f2] at d2; omega, d3⟩
    · intro result heap hwf hb he
      obtain ⟨c1, c2, c3, c4⟩ := ihn hts.1 heap hwf
      simp only [alternative_loop]
      generalize regex_node.nfa node heap = r at c1 c2 c3 c4
      obtain ⟨seg, h0⟩ := r
      simp only at c1 c2 c3 c4 ⊢
      have h4 := nfa_push_wf h0 result.begin _ c1 (eps_ok _ seg.begin c3)
      have h5 := nfa_push_wf _ seg.end _ h4
        (eps_ok _ result.end (by rw [nfa_push_length]; omega))
      obtain ⟨d1, d2⟩ := iha result _ h5
        (by rw [nfa_push_length, nfa_push_length]; omega)
        (by rw [nfa_push_length, nfa_push_length]; omega)
      exact ⟨d1, by rw [nfa_push_length, nfa_push_length] at d2; omega⟩
/-! ## The NFA of the constructor is well formed -/

theorem modify_at_keep_wf {T : Type} [TokenInfo T] (heap : List (nfa_node T)) (p : Nat)
    (f : nfa_node T → nfa_node T) (hf : ∀ n, (f n).transitions = n.transitions)
    (h : nfa_wf heap) : nfa_wf (modify_at f heap p) := by
  rw [nfa_wf_iff, modify_at_length]
  intro n hn t ht
  rcases mem_modify_at _ _ _ _ hn with h1 | ⟨m, hm, rfl⟩
  · exact h n h1 t ht
  · rw [hf] at ht
    exact h m hm t ht

theorem nfa_productions_loop_wf {T : Type} [TokenInfo T] (lim : char_limits) (start : Nat) :
    ∀ (productions : List (terminal_node T)) (heap heap1 : List (nfa_node T)),
      nfa_wf heap → start < heap.length →
      nfa_productions_loop lim start productions heap = .ok heap1 →
      nfa_wf heap1 ∧ start < heap1.length := by
  intro productions
  induction productions with
  | nil =>
    intro heap heap1 hwf hs h
    simp only [nfa_productions_loop, pure, Except.pure, Except.ok.injEq] at h
    subst h
    exact ⟨hwf, hs⟩
  | cons production rest ih =>
    intro heap heap1 hwf hs h
    rw [nfa_productions_loop] at h
    obtain ⟨⟨node, b⟩, hp, h⟩ := except_bind_ok _ _ _ h
    have hnode : regex_wf node := (parser_wf lim production.regex _).2.2.2.2 _ _ hp
    obtain ⟨c1, c2, c3, c4⟩ := thompson_wf node hnode heap hwf
    simp only at h
    generalize regex_node.nfa node heap = r at c1 c2 c3 c4 h
    obtain ⟨seg, h0⟩ := r
    simp only at c1 c2 c3 c4 h
    refine ih _ heap1 ?_ ?_ h
    · apply nfa_push_wf
      · exact modify_at_keep_wf h0 seg.end _ (fun _ => rfl) c1
      · rw [modify_at_length]
        exact eps_ok _ _ c3
    · rw [nfa_push_length, modify_at_length]
      omega

/-- The constructor `nfa(begin, end)`, when the regexes parse, returns a
well-formed arena that contains its start node. -/
theorem nfa_ctor_wf {T : Type} [TokenInfo T] (lim : char_limits)
    (productions : List (terminal_node T)) (n : nfa T)
    (h : nfa.ctor lim productions = .ok n) : nfa_wf n.heap ∧ n._start < n.heap.length := by
  unfold nfa.ctor at h
  obtain ⟨heap, hl, h⟩ := except_bind_ok _ _ _ h
  simp only [pure, Except.pure, Except.ok.injEq] at h
  subst h
  have hfresh : nfa_wf ([nfa_node.fresh] : List (nfa_node T)) := by
    intro n hn t ht
    simp only [List.mem_singleton] at hn
    rw [hn] at ht
    simp [nfa_node.fresh] at ht
  exact nfa_productions_loop_wf lim 0 productions _ heap hfresh (by simp) hl

/-! ## terminal and get_terminal -/

/-- The scan of `std::min_element` returns an element of the range, and no
element of the range is smaller. -/
theorem min_element_spec {T : Type} [TokenInfo T] [TokenInfoOrder T] (xs : List T) :
    ∀ (x : T) (seen : List T), x ∈ seen →
      (∀ y ∈ seen, TokenInfo.lt y x = false) →
      min_element x xs ∈ seen ++ xs ∧
        ∀ y ∈ seen ++ xs, TokenInfo.lt y (min_element x xs) = false := by
  induction xs with
  | nil =>
    intro x seen hx hmin
    simp only [min_element, List.foldl_nil, List.append_nil]
    exact ⟨hx, hmin⟩
  | cons z zs ih =>
    intro x seen hx hmin
    have hstep : min_element x (z :: zs) =
        min_element (if TokenInfo.lt z x then z else x) zs := by
      simp only [min_element, List.foldl_cons]
    rw [hstep]
    have hseen : seen ++ z :: zs = (seen ++ [z]) ++ zs := by simp
    rw [hseen]
    by_cases hz : TokenInfo.lt z x = true
    · rw [if_pos hz]
      apply ih z (seen ++ [z]) (by simp)
      intro y hy
      rcases List.mem_append.1 hy with h1 | h1
      · cases hyz : TokenInfo.lt y z with
        | false => rfl
        | true =>
          have := TokenInfoOrder.lt_trans y z x hyz hz
          rw [hmin y h1] at this
          exact absurd this (by simp)
      · simp only [List.mem_singleton] at h1
        rw [h1]; exact TokenInfoOrder.lt_irrefl z
    · rw [if_neg hz]
      apply ih x (seen ++ [z]) (by simp [hx])
      intro y hy
      rcases List.mem_append.1 hy with h1 | h1
      · exact hmin y h1
      · simp only [List.mem_singleton] at h1
        rw [h1]; simpa using hz

theorem terminal_iff {T : Type} [TokenInfo T] (nfa : List (nfa_node T)) (n : dfa_node) :
    n.terminal nfa = true ↔ ∃ x ∈ n.nodes, (nfa_at nfa x).terminal = true := by
  unfold dfa_node.terminal
  rw [List.any_eq_true]

theorem get_terminal_spec {T : Type} [TokenInfo T] [TokenInfoOrder T]
    (nfa : List (nfa_node T)) (n : dfa_node) (h : n.terminal nfa = true) :
    (∃ x ∈ n.nodes, (nfa_at nfa x).terminal = true ∧
      n.get_terminal nfa = (nfa_at nfa x).token) ∧
    ∀ y ∈ n.nodes, (nfa_at nfa y).terminal = true →
      TokenInfo.lt (nfa_at nfa y).token (n.get_terminal nfa) = false := by
  obtain ⟨x0, hx0, ht0⟩ := (terminal_iff nfa n).1 h
  have hne : (n.nodes.filter (fun node => (nfa_at nfa node).terminal)).map
      (fun node => (nfa_at nfa node).token) ≠ [] := by
    intro he
    have : x0 ∈ n.nodes.filter (fun node => (nfa_at nfa node).terminal) :=
      List.mem_filter.2 ⟨hx0, ht0⟩
    rw [List.map_eq_nil_iff] at he
    rw [he] at this
    simp at this
  unfold dfa_node.get_terminal
  cases hti : (n.nodes.filter (fun node => (nfa_at nfa node).terminal)).map
      (fun node => (nfa_at nfa node).token) with
  | nil => exact absurd hti hne
  | cons t ts =>
    simp only
    obtain ⟨hm, hmin⟩ := min_element_spec ts t [t] (by simp)
      (by intro y hy; simp only [List.mem_singleton] at hy; rw [hy];
          exact TokenInfoOrder.lt_irrefl t)
    have hlist : [t] ++ ts = (n.nodes.filter (fun node => (nfa_at nfa node).terminal)).map
        (fun node => (nfa_at nfa node).token) := by rw [hti]; rfl
    rw [hlist] at hm hmin
    constructor
    · obtain ⟨x, hx, hxe⟩ := List.mem_map.1 hm
      obtain ⟨hx1, hx2⟩ := List.mem_filter.1 hx
      exact ⟨x, hx1, hx2, hxe.symm⟩
    · intro y hy hyt
      apply hmin
      exact List.mem_map.2 ⟨y, List.mem_filter.2 ⟨hy, hyt⟩, rfl⟩

/-! ## The productions of a generator -/

theorem of_productions_snoc {α : Type} (ps : List (lexer_production α))
    (p : lexer_production α) :
    lexer_generator.of_productions (ps ++ [p]) =
      (lexer_generator.of_productions ps).shl p := by
  unfold lexer_generator.of_productions
  rw [List.foldl_append]
  rfl

/-- After `lexer_generator() << p0 << p1 << ...` the generator holds one
production per `<<`, in order, the `k`-th with precedence `k`, and `seq_number`
is the number of productions. -/
theorem of_productions_spec {α : Type} (ps : List (lexer_production α)) :
    (lexer_generator.of_productions ps).productions.length = ps.length ∧
    (lexer_generator.of_productions ps).seq_number = (ps.length : Int) ∧
    ∀ (k : Nat) (p : lexer_production α), ps[k]? = some p →
      (lexer_generator.of_productions ps).productions[k]? =
        some ⟨⟨(k : Int), p.node⟩, p.regex⟩ := by
  induction ps using List.reverseRecOn with
  | nil =>
    refine ⟨rfl, rfl, ?_⟩
    intro k p h
    simp at h
  | append_singleton ps q ih =>
    obtain ⟨h1, h2, h3⟩ := ih
    rw [of_productions_snoc]
    refine ⟨?_, ?_, ?_⟩
    · simp only [lexer_generator.shl, List.length_append, List.length_singleton, h1]
    · simp only [lexer_generator.shl, h2, List.length_append, List.length_singleton]
      push_cast
      rfl
    · intro k p hk
      simp only [lexer_generator.shl]
      by_cases hlt : k < ps.length
      · rw [List.getElem?_append_left hlt] at hk
        rw [List.getElem?_append_left (by rw [h1]; exact hlt)]
        exact h3 k p hk
      · have hge : ps.length ≤ k := Nat.le_of_not_lt hlt
        rw [List.getElem?_append_right hge] at hk
        rw [List.getElem?_append_right (by rw [h1]; exact hge), h1]
        cases hkk : k - ps.length with
        | zero =>
          rw [hkk] at hk
          simp only [List.getElem?_cons_zero, Option.some.injEq] at hk
          subst hk
          have : k = ps.length := by omega
          simp only [List.getElem?_cons_zero, h2, this]
        | succ m =>
          rw [hkk] at hk
          simp at hk

/-! ## The start state through the pipeline -/

/-- After `optimize()` the start node has the terminal status of the start node
before. -/
theorem optimize_initial_terminal {T : Type} [TokenInfo T] [TokenInfoLaws T] (d : dfa T)
    (hwf : dfa_wf d) :
    ∃ d1, d.optimize = some d1 ∧ dfa_wf d1 ∧
      (dfa_at d1.heap d1._initial).terminal d1.nfa =
        (dfa_at d.heap d._initial).terminal d.nfa := by
  obtain ⟨Gamma, Map, d1, _, hopt, hres, hok, hperm, hterm, _⟩ := optimize_spec d hwf
  refine ⟨d1, hopt, optimize_wf d d1 Gamma Map hwf hok hperm hres, ?_⟩
  have hinit : d._initial ∈ Gamma.flatten := hperm.mem_iff.2 hwf.initial_mem
  have h1 := hterm _ _ (rep_of_same_block Gamma Map hok d._initial hinit)
  simp only [terminal_equiv, Bool.and_eq_true, beq_iff_eq] at h1
  rw [hres.nfa_eq, hres.initial_eq,
    (terminal_congr d.nfa _ _ (hres.nodes_field (rep_of Gamma Map d._initial))).1]
  exact h1.1

/-- The start node of the DFA of the constructor is terminal iff the NFA has a
path of epsilon transitions from `start` to a terminal node. -/
theorem ctor_initial_terminal {T : Type} [TokenInfo T] (nfa : List (nfa_node T))
    (hwf : nfa_wf nfa) (start : Nat) (hstart : start < nfa.length) (d : dfa T)
    (hd : dfa.ctor nfa start = some d) :
    (dfa_at d.heap d._initial).terminal d.nfa = true ↔ nfa_accepts nfa start [] := by
  obtain ⟨d0, hctor, hnfa, _, _, _, hrun⟩ := ctor_built nfa hwf start hstart
  rw [hd] at hctor
  simp only [Option.some.injEq] at hctor
  subst hctor
  obtain ⟨_, hnodes⟩ := (hrun []).1 d._initial rfl
  rw [terminal_iff, hnfa]
  unfold nfa_accepts
  constructor
  · rintro ⟨x, hx, ht⟩
    exact ⟨x, (hnodes x).1 hx, ht⟩
  · rintro ⟨x, hx, ht⟩
    exact ⟨x, (hnodes x).2 hx, ht⟩

/-! ## One step of each parser function -/

theorem deref_some (regex : List Int) (b : Nat) (c : Int) (h : regex[b]? = some c) :
    deref regex b = .ok c := by
  simp [deref, h, pure, Except.pure]

theorem add_element_nil (c : Int) :
    interval_set.add_element [] c = [discrete_interval.closed c c] := by
  unfold interval_set.add_element
  exact add_nil_closed _ ⟨rfl, le_refl _⟩

theorem parse_atom_escape (lim : char_limits) (regex : List Int) (b fuel : Nat) (c : Int)
    (h0 : regex[b]? = some (ch '\\')) (h1 : regex[b + 1]? = some c) :
    parse_atom lim regex (fuel + 1) b =
      .ok (some (regex_node.character_set [discrete_interval.closed c c]), b + 2) := by
  rw [parse_atom, deref_some regex b _ h0]
  have e1 : ¬ (ch '\\' = ch ']') := by decide
  have e2 : ¬ (ch '\\' = ch '?' ∨ ch '\\' = ch '*' ∨ ch '\\' = ch ')' ∨ ch '\\' = ch '+' ∨
      ch '\\' = ch '|') := by decide
  have e3 : ¬ (ch '\\' = ch '(') := by decide
  have e4 : ¬ (ch '\\' = ch '[') := by decide
  simp only [bind, Except.bind, e1, e2, e3, e4, if_false, if_true, deref_some regex (b + 1) c h1,
    add_element_nil, pure, Except.pure]

theorem char_range_escape (regex : List Int) (complement : Bool) (fuel : Nat)
    (last : Option Int) (char_set : interval_set) (b : Nat) (c : Int)
    (h0 : regex[b]? = some (ch '\\')) (h1 : regex[b + 1]? = some c) :
    parse_char_range_loop regex complement (fuel + 2) states.normal last char_set b =
      parse_char_range_loop regex complement fuel states.normal (some c)
        (char_range_single complement char_set c) (b + 2) := by
  have hb : b < regex.length := (List.getElem?_eq_some_iff.1 h0).1
  have hb1 : b + 1 < regex.length := (List.getElem?_eq_some_iff.1 h1).1
  rw [parse_char_range_loop, if_neg (by omega), deref_some regex b _ h0]
  have e1 : ¬ (ch '\\' = ch ']') := by decide
  simp only [bind, Except.bind, e1, if_false, if_true]
  rw [parse_char_range_loop, if_neg (by omega), deref_some regex (b + 1) c h1]
  simp only [bind, Except.bind]

theorem char_range_close (regex : List Int) (complement : Bool) (fuel : Nat)
    (last : Option Int) (char_set : interval_set) (b : Nat)
    (h0 : regex[b]? = some (ch ']')) :
    parse_char_range_loop regex complement (fuel + 1) states.normal last char_set b =
      .ok (regex_node.character_set (make_closed char_set), b + 1) := by
  have hb : b < regex.length := (List.getElem?_eq_some_iff.1 h0).1
  rw [parse_char_range_loop, if_neg (by omega), deref_some regex b _ h0]
  simp only [bind, Except.bind, if_true, pure, Except.pure]

theorem make_closed_singleton (c : Int) :
    make_closed [discrete_interval.closed c c] = [discrete_interval.closed c c] := by
  simp only [make_closed, List.foldl_cons, List.foldl_nil, discrete_interval.closed,
    Bool.false_eq_true, if_false, add_zero, sub_zero]
  exact add_nil_closed _ ⟨rfl, le_refl _⟩

theorem parse_term_end (lim : char_limits) (regex : List Int) (fuel b : Nat)
    (r : Option regex_node) (h : parse_atom lim regex fuel b = .ok (r, regex.length)) :
    parse_term lim regex (fuel + 1) b = .ok (r, regex.length) := by
  rw [parse_term, h]
  simp only [bind, Except.bind, if_true, pure, Except.pure]

theorem parse_term_plain (lim : char_limits) (regex : List Int) (fuel b b1 : Nat)
    (r : Option regex_node) (c : Int) (h : parse_atom lim regex fuel b = .ok (r, b1))
    (hc : regex[b1]? = some c) (h1 : c ≠ ch '+') (h2 : c ≠ ch '*') (h3 : c ≠ ch '?') :
    parse_term lim regex (fuel + 1) b = .ok (r, b1) := by
  have hb : b1 < regex.length := (List.getElem?_eq_some_iff.1 hc).1
  rw [parse_term, h]
  simp only [bind, Except.bind]
  rw [if_neg (by omega), deref_some regex b1 c hc]
  simp only [h1, h2, h3, if_false, pure, Except.pure]

/-- A quantifier character after an atom builds an `operand` node. -/
theorem parse_term_quantified (lim : char_limits) (regex : List Int) (fuel b b1 : Nat)
    (t : regex_node) (c : Int) (oper : operator_type)
    (h : parse_atom lim regex fuel b = .ok (some t, b1))
    (hc : regex[b1]? = some c)
    (hq : (c = ch '+' ∧ oper = .plus) ∨ (c = ch '*' ∧ oper = .star) ∨
      (c = ch '?' ∧ oper = .optional)) :
    parse_term lim regex (fuel + 1) b = .ok (some (regex_node.operand t oper), b1 + 1) := by
  have hb : b1 < regex.length := (List.getElem?_eq_some_iff.1 hc).1
  rw [parse_term, h]
  simp only [bind, Except.bind]
  rw [if_neg (by omega), deref_some regex b1 c hc]
  have e1 : ¬ (ch '*' = ch '+') := by decide
  have e2 : ¬ (ch '?' = ch '+') := by decide
  have e3 : ¬ (ch '?' = ch '*') := by decide
  rcases hq with ⟨rfl, rfl⟩ | ⟨rfl, rfl⟩ | ⟨rfl, rfl⟩
  · simp only [if_true, make_operand, pure, Except.pure]
  · simp only [e1, if_false, if_true, make_operand, pure, Except.pure]
  · simp only [e2, e3, if_false, if_true, make_operand, pure, Except.pure]

theorem parse_factor_end (lim : char_limits) (regex : List Int) (fuel : Nat)
    (terms : List regex_node) :
    parse_factor_loop lim regex (fuel + 1) terms regex.length =
      .ok (regex_node.concatenate terms, regex.length) := by
  rw [parse_factor_loop, if_pos rfl]
  rfl

theorem parse_factor_stop (lim : char_limits) (regex : List Int) (fuel b b1 : Nat)
    (terms : List regex_node) (hb : b ≠ regex.length)
    (h : parse_term lim regex fuel b = .ok (none, b1)) :
    parse_factor_loop lim regex (fuel + 1) terms b =
      .ok (regex_node.concatenate terms, b1) := by
  rw [parse_factor_loop, if_neg hb, h]
  rfl

theorem parse_factor_more (lim : char_limits) (regex : List Int) (fuel b b1 : Nat)
    (terms : List regex_node) (t : regex_node) (hb : b ≠ regex.length)
    (h : parse_term lim regex fuel b = .ok (some t, b1)) :
    parse_factor_loop lim regex (fuel + 1) terms b =
      parse_factor_loop lim regex fuel (terms ++ [t]) b1 := by
  rw [parse_factor_loop, if_neg hb, h]
  rfl

theorem parse_regex_loop_end (lim : char_limits) (regex : List Int) (fuel : Nat)
    (alts : List regex_node) :
    parse_regex_loop lim regex (fuel + 1) alts regex.length =
      .ok (regex_node.alternative alts, regex.length) := by
  rw [parse_regex_loop, if_pos rfl]
  rfl

theorem parse_regex_loop_stop (lim : char_limits) (regex : List Int) (fuel b : Nat)
    (alts : List regex_node) (c : Int) (hc : regex[b]? = some c) (hne : c ≠ ch '|') :
    parse_regex_loop lim regex (fuel + 1) alts b =
      .ok (regex_node.alternative alts, b) := by
  have hb : b < regex.length := (List.getElem?_eq_some_iff.1 hc).1
  rw [parse_regex_loop, if_neg (by omega), deref_some regex b c hc]
  simp only [bind, Except.bind, hne, if_false, pure, Except.pure]

theorem parse_regex_loop_more (lim : char_limits) (regex : List Int) (fuel b b1 : Nat)
    (alts : List regex_node) (factor : regex_node) (hc : regex[b]? = some (ch '|'))
    (h : parse_factor_loop lim regex fuel [] (b + 1) = .ok (factor, b1)) :
    parse_regex_loop lim regex (fuel + 1) alts b =
      parse_regex_loop lim regex fuel (alts ++ [factor]) b1 := by
  have hb : b < regex.length := (List.getElem?_eq_some_iff.1 hc).1
  rw [parse_regex_loop, if_neg (by omega), deref_some regex b _ hc]
  simp only [bind, Except.bind, if_true, h]

theorem parse_regex_step (lim : char_limits) (regex : List Int) (fuel b b1 : Nat)
    (factor : regex_node) (h : parse_factor_loop lim regex fuel [] b = .ok (factor, b1)) :
    parse_regex lim regex (fuel + 1) b = parse_regex_loop lim regex fuel [factor] b1 := by
  rw [parse_regex, h]
  rfl

theorem parse_atom_class (lim : char_limits) (regex : List Int) (fuel b : Nat)
    (c1 : Int) (r : regex_node × Nat)
    (h0 : regex[b]? = some (ch '[')) (h1 : regex[b + 1]? = some c1) (hc : c1 ≠ ch '^')
    (h : parse_char_range lim regex (b + 1) false = .ok r) :
    parse_atom lim regex (fuel + 1) b = .ok (some r.1, r.2) := by
  rw [parse_atom, deref_some regex b _ h0]
  have e1 : ¬ (ch '[' = ch ']') := by decide
  have e2 : ¬ (ch '[' = ch '?' ∨ ch '[' = ch '*' ∨ ch '[' = ch ')' ∨ ch '[' = ch '+' ∨
      ch '[' = ch '|') := by decide
  have e3 : ¬ (ch '[' = ch '(') := by decide
  simp only [bind, Except.bind, e1, e2, e3, if_false, if_true, deref_some regex (b + 1) c1 h1,
    hc, h, pure, Except.pure]

theorem parse_atom_complement_class (lim : char_limits) (regex : List Int) (fuel b : Nat)
    (r : regex_node × Nat)
    (h0 : regex[b]? = some (ch '[')) (h1 : regex[b + 1]? = some (ch '^'))
    (h : parse_char_range lim regex (b + 2) true = .ok r) :
    parse_atom lim regex (fuel + 1) b = .ok (some r.1, r.2) := by
  rw [parse_atom, deref_some regex b _ h0]
  have e1 : ¬ (ch '[' = ch ']') := by decide
  have e2 : ¬ (ch '[' = ch '?' ∨ ch '[' = ch '*' ∨ ch '[' = ch ')' ∨ ch '[' = ch '+' ∨
      ch '[' = ch '|') := by decide
  have e3 : ¬ (ch '[' = ch '(') := by decide
  simp only [bind, Except.bind, e1, e2, e3, if_false, if_true, deref_some regex (b + 1) _ h1,
    h, pure, Except.pure]

theorem char_range_literal (regex : List Int) (complement : Bool) (fuel : Nat)
    (last : Option Int) (char_set : interval_set) (b : Nat) (c : Int)
    (h0 : regex[b]? = some c) (h1 : c ≠ ch ']') (h2 : c ≠ ch '\\') (h3 : c ≠ ch '-') :
    parse_char_range_loop regex complement (fuel + 1) states.normal last char_set b =
      parse_char_range_loop regex complement fuel states.normal (some c)
        (char_range_single complement char_set c) (b + 1) := by
  have hb : b < regex.length := (List.getElem?_eq_some_iff.1 h0).1
  rw [parse_char_range_loop, if_neg (by omega), deref_some regex b _ h0]
  simp only [bind, Except.bind, h1, h2, h3, if_false]

theorem char_range_dash (regex : List Int) (complement : Bool) (fuel : Nat)
    (last : Option Int) (char_set : interval_set) (b : Nat)
    (h0 : regex[b]? = some (ch '-')) :
    parse_char_range_loop regex complement (fuel + 1) states.normal last char_set b =
      parse_char_range_loop regex complement fuel states.range last char_set (b + 1) := by
  have hb : b < regex.length := (List.getElem?_eq_some_iff.1 h0).1
  rw [parse_char_range_loop, if_neg (by omega), deref_some regex b _ h0]
  have e1 : ¬ (ch '-' = ch ']') := by decide
  have e2 : ¬ (ch '-' = ch '\\') := by decide
  simp only [bind, Except.bind, e1, e2, if_false, if_true]

theorem char_range_upper (regex : List Int) (complement : Bool) (fuel : Nat)
    (l : Int) (char_set : interval_set) (b : Nat) (c : Int)
    (h0 : regex[b]? = some c) (h1 : c ≠ ch '\\') :
    parse_char_range_loop regex complement (fuel + 1) states.range (some l) char_set b =
      parse_char_range_loop regex complement fuel states.normal (some l)
        (char_range_interval complement char_set l c) (b + 1) := by
  have hb : b < regex.length := (List.getElem?_eq_some_iff.1 h0).1
  rw [parse_char_range_loop, if_neg (by omega), deref_some regex b _ h0]
  simp only [bind, Except.bind, h1, if_false]

theorem char_range_upper_escaped (regex : List Int) (complement : Bool) (fuel : Nat)
    (l : Int) (char_set : interval_set) (b : Nat) (c : Int)
    (h0 : regex[b]? = some (ch '\\')) (h1 : regex[b + 1]? = some c) :
    parse_char_range_loop regex complement (fuel + 2) states.range (some l) char_set b =
      parse_char_range_loop regex complement fuel states.normal (some l)
        (char_range_interval complement char_set l c) (b + 2) := by
  have hb : b < regex.length := (List.getElem?_eq_some_iff.1 h0).1
  have hb1 : b + 1 < regex.length := (List.getElem?_eq_some_iff.1 h1).1
  rw [parse_char_range_loop, if_neg (by omega), deref_some regex b _ h0]
  simp only [bind, Except.bind, if_true]
  rw [parse_char_range_loop, if_neg (by omega), deref_some regex (b + 1) c h1]
  simp only [bind, Except.bind]

/-- An inverted range is an empty interval: adding or subtracting it changes
nothing. -/
theorem char_range_interval_inverted (complement : Bool) (char_set : interval_set)
    (a b : Int) (h : b < a) : char_range_interval complement char_set a b = char_set := by
  have he : (discrete_interval.closed a b).is_empty = true := by
    simp only [discrete_interval.is_empty, discrete_interval.first, discrete_interval.last,
      discrete_interval.closed, Bool.false_eq_true, if_false, add_zero, sub_zero,
      decide_eq_true_eq]
    exact h
  unfold char_range_interval
  cases complement
  · simp only [Bool.false_eq_true, if_false, interval_set.add, he, if_true]
  · simp only [if_true, interval_set.subtract, he]

/-! ## Character classes -/

theorem getElem?_append_add {α : Type} (pre w : List α) (k : Nat) :
    (pre ++ w)[pre.length + k]? = w[k]? := by
  rw [List.getElem?_append_right (by omega)]
  congr 1
  omega

theorem getElem?_append_zero {α : Type} (pre post : List α) (c : α) :
    (pre ++ (c :: post))[pre.length]? = some c := by
  have h := getElem?_append_add pre (c :: post) 0
  rw [Nat.add_zero] at h
  rw [h]
  simp

theorem getElem?_append_one {α : Type} (pre post : List α) (a c : α) :
    (pre ++ (a :: c :: post))[pre.length + 1]? = some c := by
  rw [getElem?_append_add pre (a :: c :: post) 1]
  simp

theorem class_char_step (regex : List Int) (complement : Bool) (fuel : Nat)
    (last : Option Int) (char_set : interval_set) (pre post : List Int) (c : class_char)
    (hc : c.literal) (hr : regex = pre ++ (c.render ++ post)) :
    parse_char_range_loop regex complement (fuel + c.render.length) states.normal last
        char_set pre.length =
      parse_char_range_loop regex complement fuel states.normal (some c.val)
        (char_range_single complement char_set c.val) (pre.length + c.render.length) := by
  subst hr
  cases c with
  | plain c =>
    obtain ⟨h1, h2, h3⟩ := hc
    exact char_range_literal _ complement fuel last char_set pre.length c
      (getElem?_append_zero pre post c) h1 h2 h3
  | escaped c =>
    exact char_range_escape _ complement fuel last char_set pre.length c
      (getElem?_append_zero pre (c :: post) (ch '\\'))
      (getElem?_append_one pre post (ch '\\') c)

theorem class_upper_step (regex : List Int) (complement : Bool) (fuel : Nat)
    (l : Int) (char_set : interval_set) (pre post : List Int) (c : class_char)
    (hc : c.literal) (hr : regex = pre ++ (c.render ++ post)) :
    parse_char_range_loop regex complement (fuel + c.render.length) states.range (some l)
        char_set pre.length =
      parse_char_range_loop regex complement fuel states.normal (some l)
        (char_range_interval complement char_set l c.val) (pre.length + c.render.length) := by
  subst hr
  cases c with
  | plain c =>
    obtain ⟨_, h2, _⟩ := hc
    exact char_range_upper _ complement fuel l char_set pre.length c
      (getElem?_append_zero pre post c) h2
  | escaped c =>
    exact char_range_upper_escaped _ complement fuel l char_set pre.length c
      (getElem?_append_zero pre (c :: post) (ch '\\'))
      (getElem?_append_one pre post (ch '\\') c)

/-- Reading one atom of a class. -/
theorem class_atom_step (regex : List Int) (complement : Bool) (fuel : Nat)
    (last : Option Int) (char_set : interval_set) (pre post : List Int) (a : class_atom)
    (ha : a.valid) (hr : regex = pre ++ (a.render ++ post)) :
    ∃ last1, parse_char_range_loop regex complement (fuel + a.render.length) states.normal last
        char_set pre.length =
      parse_char_range_loop regex complement fuel states.normal last1
        (a.apply complement char_set) (pre.length + a.render.length) := by
  cases a with
  | single c =>
    exact ⟨some c.val, class_char_step regex complement fuel last char_set pre post c ha hr⟩
  | range lo hi =>
    obtain ⟨hlo, hhi, _⟩ := ha
    refine ⟨some lo.val, ?_⟩
    simp only [class_atom.render, List.length_append, List.length_cons] at hr ⊢
    have e1 : fuel + (lo.render.length + (hi.render.length + 1)) =
        (fuel + hi.render.length + 1) + lo.render.length := by omega
    rw [e1, class_char_step regex complement _ last char_set pre
      (ch '-' :: hi.render ++ post) lo hlo (by simpa using hr)]
    have h2 : regex = (pre ++ lo.render) ++ (ch '-' :: (hi.render ++ post)) := by simpa using hr
    have hd : regex[pre.length + lo.render.length]? = some (ch '-') := by
      rw [h2]
      simpa using getElem?_append_zero (pre ++ lo.render) (hi.render ++ post) (ch '-')
    rw [char_range_dash regex complement _ _ _ _ hd]
    have h3 : regex = (pre ++ lo.render ++ [ch '-']) ++ (hi.render ++ post) := by simpa using hr
    have h4 := class_upper_step regex complement fuel lo.val
      (char_range_single complement char_set lo.val) (pre ++ lo.render ++ [ch '-']) post hi hhi h3
    simp only [List.length_append, List.length_singleton] at h4
    rw [h4]
    simp only [class_atom.apply]
    congr 1
    omega

theorem class_body_length_cons (a : class_atom) (rest : List class_atom) :
    (class_body (a :: rest)).length = a.render.length + (class_body rest).length := by
  simp [class_body]

/-- Reading the atoms of a class up to the closing bracket. -/
theorem class_body_loop (regex : List Int) (complement : Bool) (post : List Int) :
    ∀ (atoms : List class_atom) (fuel : Nat) (last : Option Int) (char_set : interval_set)
      (pre : List Int), (∀ a ∈ atoms, a.valid) →
      regex = pre ++ (class_body atoms ++ ch ']' :: post) →
      parse_char_range_loop regex complement (fuel + (class_body atoms).length + 1)
          states.normal last char_set pre.length =
        .ok (regex_node.character_set
          (make_closed (atoms.foldl (class_atom.apply complement) char_set)),
          pre.length + (class_body atoms).length + 1) := by
  intro atoms
  induction atoms with
  | nil =>
    intro fuel last cs pre _ hr
    simp only [class_body, List.length_nil, List.nil_append, Nat.add_zero, List.foldl_nil] at hr ⊢
    exact char_range_close regex complement fuel last cs pre.length
      (by rw [hr]; exact getElem?_append_zero pre post (ch ']'))
  | cons a rest ih =>
    intro fuel last cs pre hv hr
    have hr1 : regex = pre ++ (a.render ++ (class_body rest ++ ch ']' :: post)) := by
      simpa [class_body] using hr
    obtain ⟨last1, h1⟩ := class_atom_step regex complement (fuel + (class_body rest).length + 1)
      last cs pre _ a (hv a (List.mem_cons_self _ _)) hr1
    have e1 : fuel + (class_body (a :: rest)).length + 1 =
        (fuel + (class_body rest).length + 1) + a.render.length := by
      rw [class_body_length_cons]; omega
    rw [e1, h1]
    have hr2 : regex = (pre ++ a.render) ++ (class_body rest ++ ch ']' :: post) := by
      simpa using hr1
    have h2 := ih fuel last1 (a.apply complement cs) (pre ++ a.render)
      (fun b hb => hv b (List.mem_cons_of_mem _ hb)) hr2
    simp only [List.length_append] at h2
    rw [h2, List.foldl_cons, class_body_length_cons]
    congr 2
    omega
/-! ## Members of the character set of a class -/

theorem mem_closed (x lo hi : Int) :
    discrete_interval.mem x (discrete_interval.closed lo hi) ↔ lo ≤ x ∧ x ≤ hi := by
  simp [discrete_interval.mem, discrete_interval.first, discrete_interval.last,
    discrete_interval.closed]

/-- The function `make_closed` keeps the members. -/
theorem mem_make_closed (s : interval_set) (x : Int) :
    interval_set.mem x (make_closed s) ↔ interval_set.mem x s := by
  unfold make_closed
  suffices h : ∀ (acc : interval_set),
      interval_set.mem x (s.foldl
        (fun new_set interval =>
          new_set.add (discrete_interval.closed
            (interval.lower + (if interval.left_open then 1 else 0))
            (interval.upper - (if interval.right_open then 1 else 0)))) acc) ↔
        interval_set.mem x acc ∨ interval_set.mem x s by
    rw [h []]
    simp [interval_set_mem_nil]
  induction s with
  | nil => intro acc; simp [interval_set_mem_nil]
  | cons i s ih =>
    intro acc
    rw [List.foldl_cons, ih, mem_add, interval_set_mem_cons, mem_closed]
    simp only [discrete_interval.mem, discrete_interval.first, discrete_interval.last]
    tauto

theorem mem_char_range_single_add (cs : interval_set) (c x : Int) :
    interval_set.mem x (char_range_single false cs c) ↔ interval_set.mem x cs ∨ x = c := by
  simp only [char_range_single, Bool.false_eq_true, if_false, interval_set.add_element, mem_add,
    mem_closed]
  constructor
  · rintro (h | h)
    · exact Or.inl h
    · exact Or.inr (by omega)
  · rintro (h | h)
    · exact Or.inl h
    · exact Or.inr (by omega)

theorem mem_char_range_interval_add (cs : interval_set) (l c x : Int) :
    interval_set.mem x (char_range_interval false cs l c) ↔
      interval_set.mem x cs ∨ (l ≤ x ∧ x ≤ c) := by
  simp only [char_range_interval, Bool.false_eq_true, if_false, mem_add, mem_closed]

theorem mem_class_atom_apply (cs : interval_set) (a : class_atom) (ha : a.valid) (x : Int) :
    interval_set.mem x (a.apply false cs) ↔ interval_set.mem x cs ∨ a.mem x := by
  cases a with
  | single c => exact mem_char_range_single_add cs c.val x
  | range lo hi =>
    obtain ⟨_, _, hle⟩ := ha
    simp only [class_atom.apply, mem_char_range_interval_add, mem_char_range_single_add,
      class_atom.mem]
    constructor
    · rintro ((h | h) | h)
      · exact Or.inl h
      · exact Or.inr ⟨by omega, by omega⟩
      · exact Or.inr h
    · rintro (h | h)
      · exact Or.inl (Or.inl h)
      · exact Or.inr h

theorem mem_class_atoms_fold (atoms : List class_atom) :
    ∀ (cs : interval_set), (∀ a ∈ atoms, a.valid) → ∀ x,
      interval_set.mem x (atoms.foldl (class_atom.apply false) cs) ↔
        interval_set.mem x cs ∨ ∃ a ∈ atoms, a.mem x := by
  induction atoms with
  | nil => intro cs _ x; simp
  | cons a rest ih =>
    intro cs hv x
    rw [List.foldl_cons, ih _ (fun b hb => hv b (List.mem_cons_of_mem _ hb)),
      mem_class_atom_apply cs a (hv a (List.mem_cons_self _ _))]
    simp only [List.mem_cons, exists_eq_or_imp]
    tauto

/-- A regex that is one atom parses to the alternative of the concatenation of
that atom. -/
theorem parse_regex_of_atom (lim : char_limits) (regex : List Int) (fuel : Nat)
    (t : regex_node) (hne : 0 ≠ regex.length)
    (h : parse_atom lim regex fuel 0 = .ok (some t, regex.length)) :
    parse_regex lim regex (fuel + 3) 0 =
      .ok (regex_node.alternative [regex_node.concatenate [t]], regex.length) := by
  have hterm := parse_term_end lim regex fuel 0 _ h
  have hfac : parse_factor_loop lim regex (fuel + 2) [] 0 =
      .ok (regex_node.concatenate [t], regex.length) := by
    rw [parse_factor_more lim regex (fuel + 1) 0 regex.length [] t hne hterm]
    exact parse_factor_end lim regex fuel _
  rw [parse_regex_step lim regex (fuel + 2) 0 regex.length _ hfac]
  exact parse_regex_loop_end lim regex (fuel + 1) _

/-- A class that lists valid atoms and does not begin with `^` parses to the
character set that the atoms make. -/
theorem parse_class_of_atoms (lim : char_limits) (atoms : List class_atom)
    (hv : ∀ a ∈ atoms, a.valid) (hs : (class_body atoms).head? ≠ some (ch '^')) :
    parse_regex lim (ch '[' :: (class_body atoms ++ [ch ']']))
        (parse_fuel (ch '[' :: (class_body atoms ++ [ch ']']))) 0 =
      .ok (regex_node.alternative [regex_node.concatenate [regex_node.character_set
        (make_closed (atoms.foldl (class_atom.apply false) []))]],
        (ch '[' :: (class_body atoms ++ [ch ']'])).length) := by
  have hlen : (ch '[' :: (class_body atoms ++ [ch ']'])).length =
      (class_body atoms).length + 2 := by simp
  have hloop : parse_char_range lim (ch '[' :: (class_body atoms ++ [ch ']'])) 1 false =
      .ok (regex_node.character_set (make_closed (atoms.foldl (class_atom.apply false) [])),
        (ch '[' :: (class_body atoms ++ [ch ']'])).length) := by
    have h := class_body_loop (ch '[' :: (class_body atoms ++ [ch ']'])) false [] atoms 2 none
      [] [ch '['] hv (by simp)
    simp only [List.length_singleton] at h
    have e1 : (ch '[' :: (class_body atoms ++ [ch ']'])).length + 1 =
        2 + (class_body atoms).length + 1 := by rw [hlen]; omega
    have e2 : (ch '[' :: (class_body atoms ++ [ch ']'])).length =
        1 + (class_body atoms).length + 1 := by rw [hlen]; omega
    simp only [parse_char_range, Bool.false_eq_true, if_false]
    rw [e1, h, ← e2]
  obtain ⟨c1, hc1, hne⟩ : ∃ c1, (ch '[' :: (class_body atoms ++ [ch ']']))[0 + 1]? = some c1 ∧
      c1 ≠ ch '^' := by
    cases hb : class_body atoms with
    | nil => exact ⟨ch ']', by simp, by decide⟩
    | cons c rest =>
      rw [hb] at hs
      exact ⟨c, by simp, fun h => hs (by simp [h])⟩
  have hatom := parse_atom_class lim (ch '[' :: (class_body atoms ++ [ch ']']))
    (4 * (ch '[' :: (class_body atoms ++ [ch ']'])).length + 4) 0 c1 _ (by simp) hc1 hne hloop
  exact parse_regex_of_atom lim _ _ _ (by simp) hatom
/-! ## What the parser reads: transfer of a parse to another input -/

theorem looks_deref (regex2 : List Int) (p : Nat) (regex1 : List Int) (q : Nat)
    (h : looks regex2 p regex1 q) : deref regex2 p = deref regex1 q := by
  unfold deref
  rw [h.1]
  cases regex1[q]? with
  | some c => rfl
  | none =>
    simp only
    by_cases hq : q = regex1.length
    · rw [if_pos hq, if_pos (h.2.2 hq)]
    · rw [if_neg hq, if_neg (fun hp => hq (h.2.1 hp))]

theorem deref_ok_inside (regex : List Int) (b : Nat) (c : Int) (h : deref regex b = .ok c)
    (hb : b ≠ regex.length) : regex[b]? = some c := by
  unfold deref at h
  cases hr : regex[b]? with
  | some d =>
    rw [hr] at h
    simp only [pure, Except.pure, Except.ok.injEq] at h
    rw [h]
  | none =>
    rw [hr] at h
    simp only [if_neg hb] at h
    exact absurd h (throw_ne_ok _ _)

theorem deref_ok_le (regex : List Int) (b : Nat) (c : Int) (h : deref regex b = .ok c) :
    b ≤ regex.length := by
  by_cases hb : b = regex.length
  · omega
  · have := (List.getElem?_eq_some_iff.1 (deref_ok_inside regex b c h hb)).1
    omega

theorem looks_shift (regex2 : List Int) (b2 : Nat) (regex1 : List Int) (b1 n m : Nat)
    (h : ∀ k, k < n + m → looks regex2 (b2 + k) regex1 (b1 + k)) :
    ∀ k, k < n → looks regex2 (b2 + m + k) regex1 (b1 + m + k) := by
  intro k hk
  have := h (m + k) (by omega)
  rw [Nat.add_assoc, Nat.add_assoc]
  exact this

theorem char_range_backslash (regex : List Int) (complement : Bool) (fuel : Nat)
    (last : Option Int) (char_set : interval_set) (b : Nat)
    (h0 : regex[b]? = some (ch '\\')) :
    parse_char_range_loop regex complement (fuel + 1) states.normal last char_set b =
      parse_char_range_loop regex complement fuel states.escape last char_set (b + 1) := by
  have hb : b < regex.length := (List.getElem?_eq_some_iff.1 h0).1
  rw [parse_char_range_loop, if_neg (by omega), deref_some regex b _ h0]
  have e1 : ¬ (ch '\\' = ch ']') := by decide
  simp only [bind, Except.bind, e1, if_false, if_true]

theorem char_range_escaped (regex : List Int) (complement : Bool) (fuel : Nat)
    (last : Option Int) (char_set : interval_set) (b : Nat) (c : Int)
    (h0 : regex[b]? = some c) :
    parse_char_range_loop regex complement (fuel + 1) states.escape last char_set b =
      parse_char_range_loop regex complement fuel states.normal (some c)
        (char_range_single complement char_set c) (b + 1) := by
  have hb : b < regex.length := (List.getElem?_eq_some_iff.1 h0).1
  rw [parse_char_range_loop, if_neg (by omega), deref_some regex b _ h0]
  simp only [bind, Except.bind]

theorem char_range_range_backslash (regex : List Int) (complement : Bool) (fuel : Nat)
    (last : Option Int) (char_set : interval_set) (b : Nat)
    (h0 : regex[b]? = some (ch '\\')) :
    parse_char_range_loop regex complement (fuel + 1) states.range last char_set b =
      parse_char_range_loop regex complement fuel states.escape_range last char_set (b + 1) := by
  have hb : b < regex.length := (List.getElem?_eq_some_iff.1 h0).1
  rw [parse_char_range_loop, if_neg (by omega), deref_some regex b _ h0]
  simp only [bind, Except.bind, if_true]

theorem char_range_escaped_upper (regex : List Int) (complement : Bool) (fuel : Nat)
    (l : Int) (char_set : interval_set) (b : Nat) (c : Int)
    (h0 : regex[b]? = some c) :
    parse_char_range_loop regex complement (fuel + 1) states.escape_range (some l) char_set b =
      parse_char_range_loop regex complement fuel states.normal (some l)
        (char_range_interval complement char_set l c) (b + 1) := by
  have hb : b < regex.length := (List.getElem?_eq_some_iff.1 h0).1
  rw [parse_char_range_loop, if_neg (by omega), deref_some regex b _ h0]
  simp only [bind, Except.bind]

theorem char_range_no_last (regex : List Int) (complement : Bool) (fuel : Nat)
    (state : states) (char_set : interval_set) (b : Nat) (c : Int)
    (h0 : regex[b]? = some c)
    (hs : (state = states.range ∧ c ≠ ch '\\') ∨ state = states.escape_range) :
    parse_char_range_loop regex complement (fuel + 1) state none char_set b =
      .error parse_error.uninitialized := by
  have hb : b < regex.length := (List.getElem?_eq_some_iff.1 h0).1
  rw [parse_char_range_loop, if_neg (by omega), deref_some regex b _ h0]
  rcases hs with ⟨rfl, hc⟩ | rfl
  · simp only [bind, Except.bind, hc, if_false]
    rfl
  · simp only [bind, Except.bind]
    rfl

theorem char_range_ok_lt (regex : List Int) (complement : Bool) (fuel : Nat)
    (state : states) (last : Option Int) (char_set : interval_set) (b : Nat)
    (r : regex_node × Nat)
    (h : parse_char_range_loop regex complement fuel state last char_set b = .ok r) :
    b < regex.length := by
  cases fuel with
  | zero => rw [parse_char_range_loop] at h; exact absurd h (throw_ne_ok _ _)
  | succ fuel =>
    rw [parse_char_range_loop] at h
    split at h
    · exact absurd h (throw_ne_ok _ _)
    · rename_i hb
      obtain ⟨c, hc, _⟩ := except_bind_ok _ _ _ h
      have := deref_ok_le regex b c hc
      omega

/-- The class loop reads the characters up to the closing bracket and nothing
else: it handles a sequence of intervals that depends on these characters only,
and on every input that shows the same characters it handles the same
intervals, whatever the complement flag and the starting set are. -/
theorem class_loop_transfer (regex : List Int) (complement : Bool) :
    ∀ (fuel : Nat) (state : states) (last : Option Int) (cs : interval_set) (b : Nat)
      (r : regex_node) (e : Nat),
      parse_char_range_loop regex complement fuel state last cs b = .ok (r, e) →
      ∃ (n : Nat) (ops : List (Int × Int)), e = b + n ∧ 1 ≤ n ∧ b + n ≤ regex.length ∧
        r = regex_node.character_set (make_closed
          (ops.foldl (fun s p => char_range_interval complement s p.1 p.2) cs)) ∧
        ∀ (regex2 : List Int) (complement2 : Bool) (cs2 : interval_set) (b2 fuel2 : Nat),
          n ≤ fuel2 → (∀ k, k < n → looks regex2 (b2 + k) regex (b + k)) →
          parse_char_range_loop regex2 complement2 fuel2 state last cs2 b2 =
            .ok (regex_node.character_set (make_closed
              (ops.foldl (fun s p => char_range_interval complement2 s p.1 p.2) cs2)),
              b2 + n) := by
  intro fuel
  induction fuel with
  | zero =>
    intro state last cs b r e h
    rw [parse_char_range_loop] at h
    exact absurd h (throw_ne_ok _ _)
  | succ fuel ih =>
    intro state last cs b r e h
    have hb := char_range_ok_lt _ _ _ _ _ _ _ _ h
    obtain ⟨c, hc⟩ : ∃ c, regex[b]? = some c := ⟨regex[b], List.getElem?_eq_getElem hb⟩
    have key : ∀ (st1 : states) (la1 : Option Int) (op : List (Int × Int)),
        (∀ (rg : List Int) (cp : Bool) (fl : Nat) (s : interval_set) (p : Nat),
          rg[p]? = some c →
          parse_char_range_loop rg cp (fl + 1) state last s p =
            parse_char_range_loop rg cp fl st1 la1
              (op.foldl (fun s p => char_range_interval cp s p.1 p.2) s) (p + 1)) →
        ∃ (n : Nat) (ops : List (Int × Int)), e = b + n ∧ 1 ≤ n ∧ b + n ≤ regex.length ∧
          r = regex_node.character_set (make_closed
            (ops.foldl (fun s p => char_range_interval complement s p.1 p.2) cs)) ∧
          ∀ (regex2 : List Int) (complement2 : Bool) (cs2 : interval_set) (b2 fuel2 : Nat),
            n ≤ fuel2 → (∀ k, k < n → looks regex2 (b2 + k) regex (b + k)) →
            parse_char_range_loop regex2 complement2 fuel2 state last cs2 b2 =
              .ok (regex_node.character_set (make_closed
                (ops.foldl (fun s p => char_range_interval complement2 s p.1 p.2) cs2)),
                b2 + n) := by
      intro st1 la1 op hstep
      rw [hstep regex complement fuel cs b hc] at h
      obtain ⟨n1, ops1, he, hn, hle, hr, htr⟩ := ih _ _ _ _ _ _ h
      refine ⟨n1 + 1, op ++ ops1, by omega, by omega, by omega, ?_, ?_⟩
      · rw [List.foldl_append]; exact hr
      · intro regex2 complement2 cs2 b2 fuel2 hf hw
        obtain ⟨f2, rfl⟩ : ∃ f2, fuel2 = f2 + 1 := ⟨fuel2 - 1, by omega⟩
        have h0 := (hw 0 (by omega)).1
        rw [Nat.add_zero, Nat.add_zero, hc] at h0
        rw [hstep regex2 complement2 f2 cs2 b2 h0,
          htr regex2 complement2 _ (b2 + 1) f2 (by omega)
            (looks_shift regex2 b2 regex b n1 1 hw), List.foldl_append]
        congr 2
        omega
    cases state with
    | normal =>
      by_cases h1 : c = ch ']'
      · subst h1
        rw [char_range_close regex complement fuel last cs b hc] at h
        simp only [Except.ok.injEq, Prod.mk.injEq] at h
        refine ⟨1, [], h.2.symm, le_refl _, by omega, h.1.symm, ?_⟩
        intro regex2 complement2 cs2 b2 fuel2 hf hw
        obtain ⟨f2, rfl⟩ : ∃ f2, fuel2 = f2 + 1 := ⟨fuel2 - 1, by omega⟩
        have h0 := (hw 0 (by omega)).1
        rw [Nat.add_zero, Nat.add_zero, hc] at h0
        exact char_range_close regex2 complement2 f2 last cs2 b2 h0
      · by_cases h2 : c = ch '\\'
        · subst h2
          exact key .escape last [] (fun rg cp fl s p hp =>
            char_range_backslash rg cp fl last s p hp)
        · by_cases h3 : c = ch '-'
          · subst h3
            exact key .range last [] (fun rg cp fl s p hp =>
              char_range_dash rg cp fl last s p hp)
          · exact key .normal (some c) [(c, c)] (fun rg cp fl s p hp =>
              char_range_literal rg cp fl last s p c hp h1 h2 h3)
    | escape =>
      exact key .normal (some c) [(c, c)] (fun rg cp fl s p hp =>
        char_range_escaped rg cp fl last s p c hp)
    | range =>
      by_cases h2 : c = ch '\\'
      · subst h2
        exact key .escape_range last [] (fun rg cp fl s p hp =>
          char_range_range_backslash rg cp fl last s p hp)
      · cases last with
        | none =>
          rw [char_range_no_last regex complement fuel _ cs b c hc (Or.inl ⟨rfl, h2⟩)] at h
          cases h
        | some l =>
          exact key .normal (some l) [(l, c)] (fun rg cp fl s p hp =>
            char_range_upper rg cp fl l s p c hp h2)
    | «escape_range» =>
      cases last with
      | none =>
        rw [char_range_no_last regex complement fuel _ cs b c hc (Or.inr rfl)] at h
        cases h
      | some l =>
        exact key .normal (some l) [(l, c)] (fun rg cp fl s p hp =>
          char_range_escaped_upper rg cp fl l s p c hp)

/-- The function `parse_char_range` gives the same result on every input that
shows the same characters up to the closing bracket. -/
theorem char_range_transfer (lim : char_limits) (regex : List Int) (b : Nat)
    (complement : Bool) (r : regex_node) (e : Nat)
    (h : parse_char_range lim regex b complement = .ok (r, e)) :
    ∃ n, e = b + n ∧ 1 ≤ n ∧ b + n ≤ regex.length ∧
      ∀ (regex2 : List Int) (b2 : Nat), (∀ k, k < n → looks regex2 (b2 + k) regex (b + k)) →
        parse_char_range lim regex2 b2 complement = .ok (r, b2 + n) := by
  unfold parse_char_range at h
  obtain ⟨n, ops, he, hn, hle, hr, htr⟩ := class_loop_transfer _ _ _ _ _ _ _ _ _ h
  refine ⟨n, he, hn, hle, ?_⟩
  intro regex2 b2 hw
  unfold parse_char_range
  have h1 := (hw (n - 1) (by omega)).1
  have h2 : b + (n - 1) < regex.length := by omega
  rw [List.getElem?_eq_getElem h2] at h1
  have h3 := (List.getElem?_eq_some_iff.1 h1).1
  rw [htr regex2 complement _ b2 _ (by omega) hw, hr]
/-! ## The successful runs of each parser function -/

theorem atom_ok_iff (lim : char_limits) (regex : List Int) (fuel b : Nat)
    (r : Option regex_node) (e : Nat) :
    parse_atom lim regex (fuel + 1) b = .ok (r, e) ↔
      ∃ c, deref regex b = .ok c ∧ c ≠ ch ']' ∧
        ((atom_stop c ∧ r = none ∧ e = b) ∨
         (c = ch '(' ∧ ∃ node b1, parse_regex lim regex fuel (b + 1) = .ok (node, b1) ∧
            deref regex b1 = .ok (ch ')') ∧ r = some node ∧ e = b1 + 1) ∨
         (c = ch '[' ∧ ∃ c1 node, deref regex (b + 1) = .ok c1 ∧
            ((c1 = ch '^' ∧ parse_char_range lim regex (b + 2) true = .ok (node, e)) ∨
             (c1 ≠ ch '^' ∧ parse_char_range lim regex (b + 1) false = .ok (node, e))) ∧
            r = some node) ∨
         (¬ atom_stop c ∧ c ≠ ch '(' ∧ c ≠ ch '[' ∧
            ∃ c1, deref regex (if c = ch '\\' then b + 1 else b) = .ok c1 ∧
              r = some (regex_node.character_set (interval_set.add_element [] c1)) ∧
              e = (if c = ch '\\' then b + 1 else b) + 1)) := by
  have e1 : ¬ (ch '(' = ch ']') := by decide
  have e2 : ¬ atom_stop (ch '(') := by decide
  have e3 : ¬ (ch '[' = ch ']') := by decide
  have e4 : ¬ atom_stop (ch '[') := by decide
  have e5 : ¬ (ch '[' = ch '(') := by decide
  constructor
  · intro h
    rw [parse_atom] at h
    obtain ⟨c, hc, h⟩ := except_bind_ok _ _ _ h
    refine ⟨c, hc, ?_⟩
    split at h
    · exact absurd h (throw_ne_ok _ _)
    · rename_i h1
      refine ⟨h1, ?_⟩
      split at h
      · rename_i h2
        simp only [pure, Except.pure, Except.ok.injEq, Prod.mk.injEq] at h
        exact Or.inl ⟨h2, h.1.symm, h.2.symm⟩
      · rename_i h2
        split at h
        · rename_i h3
          obtain ⟨⟨node, b1⟩, hp, h⟩ := except_bind_ok _ _ _ h
          obtain ⟨c1, hc1, h⟩ := except_bind_ok _ _ _ h
          split at h
          · exact absurd h (throw_ne_ok _ _)
          · rename_i h4
            simp only [ne_eq, not_not] at h4
            simp only [pure, Except.pure, Except.ok.injEq, Prod.mk.injEq] at h
            exact Or.inr (Or.inl ⟨h3, node, b1, hp, h4 ▸ hc1, h.1.symm, h.2.symm⟩)
        · rename_i h3
          split at h
          · rename_i h4
            obtain ⟨c1, hc1, h⟩ := except_bind_ok _ _ _ h
            simp only at h
            split at h
            · rename_i h5
              obtain ⟨⟨node, b3⟩, hp, h⟩ := except_bind_ok _ _ _ h
              simp only [pure, Except.pure, Except.ok.injEq, Prod.mk.injEq] at h
              obtain ⟨hr, he⟩ := h
              subst he
              exact Or.inr (Or.inr (Or.inl ⟨h4, c1, node, hc1, Or.inl ⟨h5, hp⟩, hr.symm⟩))
            · rename_i h5
              obtain ⟨⟨node, b3⟩, hp, h⟩ := except_bind_ok _ _ _ h
              simp only [pure, Except.pure, Except.ok.injEq, Prod.mk.injEq] at h
              obtain ⟨hr, he⟩ := h
              subst he
              exact Or.inr (Or.inr (Or.inl ⟨h4, c1, node, hc1, Or.inr ⟨h5, hp⟩, hr.symm⟩))
          · rename_i h4
            obtain ⟨c1, hc1, h⟩ := except_bind_ok _ _ _ h
            simp only [pure, Except.pure, Except.ok.injEq, Prod.mk.injEq] at h
            exact Or.inr (Or.inr (Or.inr ⟨h2, h3, h4, c1, hc1, h.1.symm, h.2.symm⟩))
  · rintro ⟨c, hc, h1, h⟩
    rw [parse_atom, hc]
    rcases h with ⟨h2, rfl, rfl⟩ | ⟨rfl, node, b1, hp, hc1, rfl, rfl⟩ |
      ⟨rfl, c1, node, hc1, hp, rfl⟩ | ⟨h2, h3, h4, c1, hc1, rfl, rfl⟩
    · unfold atom_stop at h2
      simp only [bind, Except.bind, h1, h2, if_false, if_true, pure, Except.pure]
    · unfold atom_stop at e2
      simp only [bind, Except.bind, e1, e2, if_false, if_true, hp, hc1, ne_eq, not_true,
        pure, Except.pure]
    · unfold atom_stop at e4
      rcases hp with ⟨h5, hp⟩ | ⟨h5, hp⟩
      · simp only [bind, Except.bind, e3, e4, e5, if_false, if_true, hc1, h5, hp, pure,
          Except.pure]
      · simp only [bind, Except.bind, e3, e4, e5, if_false, if_true, hc1, h5, hp, pure,
          Except.pure]
    · unfold atom_stop at h2
      simp only [bind, Except.bind, h1, h2, h3, h4, if_false, hc1, pure, Except.pure]

theorem no_quantifier_of_looks (regex2 : List Int) (p : Nat) (regex1 : List Int) (q : Nat)
    (h : looks regex2 p regex1 q) (hq : no_quantifier regex1 q) : no_quantifier regex2 p := by
  rcases hq with hq | ⟨c, hc, hn⟩
  · exact Or.inl (h.2.2 hq)
  · exact Or.inr ⟨c, h.1.trans hc, hn⟩

theorem term_ok_iff (lim : char_limits) (regex : List Int) (fuel b : Nat)
    (r : Option regex_node) (e : Nat) :
    parse_term lim regex (fuel + 1) b = .ok (r, e) ↔
      ∃ cr b1, parse_atom lim regex fuel b = .ok (cr, b1) ∧
        ((no_quantifier regex b1 ∧ r = cr ∧ e = b1) ∨
         (∃ t c oper, cr = some t ∧ regex[b1]? = some c ∧ is_quantifier c oper ∧
            r = some (regex_node.operand t oper) ∧ e = b1 + 1)) := by
  constructor
  · intro h
    rw [parse_term] at h
    obtain ⟨⟨cr, b1⟩, hp, h⟩ := except_bind_ok _ _ _ h
    refine ⟨cr, b1, hp, ?_⟩
    simp only at h
    split at h
    · rename_i hb
      simp only [pure, Except.pure, Except.ok.injEq, Prod.mk.injEq] at h
      exact Or.inl ⟨Or.inl hb, h.1.symm, h.2.symm⟩
    · rename_i hb
      obtain ⟨c, hc, h⟩ := except_bind_ok _ _ _ h
      have hc0 := deref_ok_inside regex b1 c hc hb
      have hop : ∀ oper node, make_operand cr oper = .ok node →
          ∃ t, cr = some t ∧ node = regex_node.operand t oper := by
        intro oper node hm
        cases cr with
        | none => exact absurd hm (throw_ne_ok _ _)
        | some t =>
          simp only [make_operand, pure, Except.pure, Except.ok.injEq] at hm
          exact ⟨t, rfl, hm.symm⟩
      split at h
      · rename_i h1
        obtain ⟨node, hm, h⟩ := except_bind_ok _ _ _ h
        obtain ⟨t, rfl, rfl⟩ := hop _ _ hm
        simp only [pure, Except.pure, Except.ok.injEq, Prod.mk.injEq] at h
        exact Or.inr ⟨t, c, .plus, rfl, hc0, Or.inl ⟨h1, rfl⟩, h.1.symm, h.2.symm⟩
      · rename_i h1
        split at h
        · rename_i h2
          obtain ⟨node, hm, h⟩ := except_bind_ok _ _ _ h
          obtain ⟨t, rfl, rfl⟩ := hop _ _ hm
          simp only [pure, Except.pure, Except.ok.injEq, Prod.mk.injEq] at h
          exact Or.inr ⟨t, c, .star, rfl, hc0, Or.inr (Or.inl ⟨h2, rfl⟩), h.1.symm, h.2.symm⟩
        · rename_i h2
          split at h
          · rename_i h3
            obtain ⟨node, hm, h⟩ := except_bind_ok _ _ _ h
            obtain ⟨t, rfl, rfl⟩ := hop _ _ hm
            simp only [pure, Except.pure, Except.ok.injEq, Prod.mk.injEq] at h
            exact Or.inr ⟨t, c, .optional, rfl, hc0, Or.inr (Or.inr ⟨h3, rfl⟩), h.1.symm,
              h.2.symm⟩
          · rename_i h3
            simp only [pure, Except.pure, Except.ok.injEq, Prod.mk.injEq] at h
            exact Or.inl ⟨Or.inr ⟨c, hc0, h1, h2, h3⟩, h.1.symm, h.2.symm⟩
  · rintro ⟨cr, b1, hp, h⟩
    rcases h with ⟨hq, rfl, rfl⟩ | ⟨t, c, oper, rfl, hc, hq, rfl, rfl⟩
    · rcases hq with hq | ⟨c, hc, h1, h2, h3⟩
      · subst hq
        exact parse_term_end lim regex fuel b _ hp
      · exact parse_term_plain lim regex fuel b _ _ c hp hc h1 h2 h3
    · exact parse_term_quantified lim regex fuel b b1 t c oper hp hc hq

theorem factor_ok_iff (lim : char_limits) (regex : List Int) (fuel : Nat)
    (terms : List regex_node) (b : Nat) (r : regex_node) (e : Nat) :
    parse_factor_loop lim regex (fuel + 1) terms b = .ok (r, e) ↔
      (b = regex.length ∧ r = regex_node.concatenate terms ∧ e = b) ∨
      (b ≠ regex.length ∧ ∃ nt b1, parse_term lim regex fuel b = .ok (nt, b1) ∧
        ((nt = none ∧ r = regex_node.concatenate terms ∧ e = b1) ∨
         (∃ t, nt = some t ∧
            parse_factor_loop lim regex fuel (terms ++ [t]) b1 = .ok (r, e)))) := by
  constructor
  · intro h
    rw [parse_factor_loop] at h
    split at h
    · rename_i hb
      simp only [pure, Except.pure, Except.ok.injEq, Prod.mk.injEq] at h
      exact Or.inl ⟨hb, h.1.symm, h.2.symm⟩
    · rename_i hb
      obtain ⟨⟨nt, b1⟩, hp, h⟩ := except_bind_ok _ _ _ h
      refine Or.inr ⟨hb, nt, b1, hp, ?_⟩
      cases nt with
      | none =>
        simp only [pure, Except.pure, Except.ok.injEq, Prod.mk.injEq] at h
        exact Or.inl ⟨rfl, h.1.symm, h.2.symm⟩
      | some t => exact Or.inr ⟨t, rfl, h⟩
  · rintro (⟨rfl, rfl, rfl⟩ | ⟨hb, nt, b1, hp, h⟩)
    · exact parse_factor_end lim regex fuel terms
    · rcases h with ⟨rfl, rfl, rfl⟩ | ⟨t, rfl, h⟩
      · exact parse_factor_stop lim regex fuel _ _ terms hb hp
      · rw [parse_factor_more lim regex fuel b b1 terms t hb hp]
        exact h

theorem regex_loop_ok_iff (lim : char_limits) (regex : List Int) (fuel : Nat)
    (alts : List regex_node) (b : Nat) (r : regex_node) (e : Nat) :
    parse_regex_loop lim regex (fuel + 1) alts b = .ok (r, e) ↔
      (b = regex.length ∧ r = regex_node.alternative alts ∧ e = b) ∨
      (∃ c, regex[b]? = some c ∧
        ((c ≠ ch '|' ∧ r = regex_node.alternative alts ∧ e = b) ∨
         (c = ch '|' ∧ ∃ factor b1,
            parse_factor_loop lim regex fuel [] (b + 1) = .ok (factor, b1) ∧
            parse_regex_loop lim regex fuel (alts ++ [factor]) b1 = .ok (r, e)))) := by
  constructor
  · intro h
    rw [parse_regex_loop] at h
    split at h
    · rename_i hb
      simp only [pure, Except.pure, Except.ok.injEq, Prod.mk.injEq] at h
      exact Or.inl ⟨hb, h.1.symm, h.2.symm⟩
    · rename_i hb
      obtain ⟨c, hc, h⟩ := except_bind_ok _ _ _ h
      refine Or.inr ⟨c, deref_ok_inside regex b c hc hb, ?_⟩
      split at h
      · rename_i h1
        obtain ⟨⟨factor, b1⟩, hp, h⟩ := except_bind_ok _ _ _ h
        exact Or.inr ⟨h1, factor, b1, hp, h⟩
      · rename_i h1
        simp only [pure, Except.pure, Except.ok.injEq, Prod.mk.injEq] at h
        exact Or.inl ⟨h1, h.1.symm, h.2.symm⟩
  · rintro (⟨rfl, rfl, rfl⟩ | ⟨c, hc, h⟩)
    · exact parse_regex_loop_end lim regex fuel alts
    · rcases h with ⟨h1, rfl, rfl⟩ | ⟨rfl, factor, b1, hp, h⟩
      · exact parse_regex_loop_stop lim regex fuel _ alts c hc h1
      · rw [parse_regex_loop_more lim regex fuel b b1 alts factor hc hp]
        exact h

theorem regex_ok_iff (lim : char_limits) (regex : List Int) (fuel b : Nat)
    (r : regex_node) (e : Nat) :
    parse_regex lim regex (fuel + 1) b = .ok (r, e) ↔
      ∃ factor b1, parse_factor_loop lim regex fuel [] b = .ok (factor, b1) ∧
        parse_regex_loop lim regex fuel [factor] b1 = .ok (r, e) := by
  constructor
  · intro h
    rw [parse_regex] at h
    obtain ⟨⟨factor, b1⟩, hp, h⟩ := except_bind_ok _ _ _ h
    exact ⟨factor, b1, hp, h⟩
  · rintro ⟨factor, b1, hp, h⟩
    rw [parse_regex_step lim regex fuel b b1 factor hp]
    exact h
/-! ## Transfer of a successful parse -/

theorem looks_at (regex2 : List Int) (b2 : Nat) (regex1 : List Int) (b1 k p2 p1 : Nat)
    (h : looks regex2 (b2 + k) regex1 (b1 + k)) (h2 : p2 = b2 + k) (h1 : p1 = b1 + k) :
    looks regex2 p2 regex1 p1 := by
  subst h2 h1
  exact h

/-- A successful run of a parser function reads a stretch of the input, and
runs in the same way, with the same result, on every input that looks the same
along this stretch.  The function `parse_atom` that returns a node has not read
the character at which it stops; the function `parse_term` has only tested
whether a quantifier stands there; the other functions have read it. -/
theorem parser_transfer (lim : char_limits) (regex : List Int) :
    ∀ (fuel : Nat),
      (∀ b r e, parse_atom lim regex fuel b = .ok (r, e) →
        ∃ n, e = b + n ∧ (r = none → n = 0) ∧ (r ≠ none → 1 ≤ n) ∧
          ∀ (regex2 : List Int) (b2 fuel2 : Nat), fuel ≤ fuel2 →
            (∀ k, k < n ∨ k = 0 → looks regex2 (b2 + k) regex (b + k)) →
            parse_atom lim regex2 fuel2 b2 = .ok (r, b2 + n)) ∧
      (∀ b r e, parse_term lim regex fuel b = .ok (r, e) →
        ∃ n, e = b + n ∧ (r = none → n = 0) ∧ (r ≠ none → 1 ≤ n) ∧
          ∀ (regex2 : List Int) (b2 fuel2 : Nat), fuel ≤ fuel2 →
            (∀ k, k < n ∨ k = 0 → looks regex2 (b2 + k) regex (b + k)) →
            (no_quantifier regex (b + n) → no_quantifier regex2 (b2 + n)) →
            parse_term lim regex2 fuel2 b2 = .ok (r, b2 + n)) ∧
      (∀ terms b r e, parse_factor_loop lim regex fuel terms b = .ok (r, e) →
        ∃ n more, e = b + n ∧ r = regex_node.concatenate (terms ++ more) ∧
          ∀ (regex2 : List Int) (b2 fuel2 : Nat) (terms2 : List regex_node), fuel ≤ fuel2 →
            (∀ k, k ≤ n → looks regex2 (b2 + k) regex (b + k)) →
            parse_factor_loop lim regex2 fuel2 terms2 b2 =
              .ok (regex_node.concatenate (terms2 ++ more), b2 + n)) ∧
      (∀ alts b r e, parse_regex_loop lim regex fuel alts b = .ok (r, e) →
        ∃ n more, e = b + n ∧ r = regex_node.alternative (alts ++ more) ∧
          ∀ (regex2 : List Int) (b2 fuel2 : Nat) (alts2 : List regex_node), fuel ≤ fuel2 →
            (∀ k, k ≤ n → looks regex2 (b2 + k) regex (b + k)) →
            parse_regex_loop lim regex2 fuel2 alts2 b2 =
              .ok (regex_node.alternative (alts2 ++ more), b2 + n)) ∧
      (∀ b r e, parse_regex lim regex fuel b = .ok (r, e) →
        ∃ n, e = b + n ∧
          ∀ (regex2 : List Int) (b2 fuel2 : Nat), fuel ≤ fuel2 →
            (∀ k, k ≤ n → looks regex2 (b2 + k) regex (b + k)) →
            parse_regex lim regex2 fuel2 b2 = .ok (r, b2 + n)) := by
  intro fuel
  induction fuel with
  | zero =>
    refine ⟨?_, ?_, ?_, ?_, ?_⟩
    · intro b r e h; rw [parse_atom] at h; exact absurd h (throw_ne_ok _ _)
    · intro b r e h; rw [parse_term] at h; exact absurd h (throw_ne_ok _ _)
    · intro ts b r e h; rw [parse_factor_loop] at h; exact absurd h (throw_ne_ok _ _)
    · intro ts b r e h; rw [parse_regex_loop] at h; exact absurd h (throw_ne_ok _ _)
    · intro b r e h; rw [parse_regex] at h; exact absurd h (throw_ne_ok _ _)
  | succ fuel ih =>
    obtain ⟨ihA, ihT, ihF, ihRL, ihR⟩ := ih
    refine ⟨?_, ?_, ?_, ?_, ?_⟩
    · -- parse_atom
      intro b r e h
      obtain ⟨c, hc, h1, h⟩ := (atom_ok_iff lim regex fuel b r e).1 h
      rcases h with ⟨h2, rfl, rfl⟩ | ⟨rfl, node, b1, hp, hc1, rfl, rfl⟩ |
        ⟨rfl, c1, node, hc1, hp, rfl⟩ | ⟨h2, h3, h4, c1, hc1, rfl, rfl⟩
      · refine ⟨0, rfl, fun _ => rfl, fun h => absurd rfl h, ?_⟩
        intro regex2 b2 fuel2 hf hw
        obtain ⟨f2, rfl⟩ : ∃ f2, fuel2 = f2 + 1 := ⟨fuel2 - 1, by omega⟩
        have hd := looks_deref _ _ _ _ (hw 0 (Or.inr rfl))
        exact (atom_ok_iff lim regex2 f2 b2 none (b2 + 0)).2
          ⟨c, hd.trans hc, h1, Or.inl ⟨h2, rfl, rfl⟩⟩
      · obtain ⟨n1, he1, htr⟩ := ihR _ _ _ hp
        refine ⟨n1 + 2, by omega, (fun h => (Option.some_ne_none _ h).elim), (fun _ => by omega), ?_⟩
        intro regex2 b2 fuel2 hf hw
        obtain ⟨f2, rfl⟩ : ∃ f2, fuel2 = f2 + 1 := ⟨fuel2 - 1, by omega⟩
        have hd := looks_deref _ _ _ _ (hw 0 (Or.inl (by omega)))
        have hd1 := looks_deref _ _ _ _ (looks_at regex2 b2 regex b (n1 + 1) (b2 + 1 + n1) b1
          (hw (n1 + 1) (Or.inl (by omega))) (by omega) (by omega))
        refine (atom_ok_iff lim regex2 f2 b2 (some node) (b2 + (n1 + 2))).2
          ⟨ch '(', hd.trans hc, h1, Or.inr (Or.inl ⟨rfl, node, b2 + 1 + n1, ?_, hd1.trans hc1,
            rfl, by omega⟩)⟩
        refine htr regex2 (b2 + 1) f2 (by omega) ?_
        intro k hk
        exact looks_at regex2 b2 regex b (k + 1) _ _ (hw (k + 1) (Or.inl (by omega)))
          (by omega) (by omega)
      · have hm : ∀ (m : Nat) (complement : Bool), 1 ≤ m →
            parse_char_range lim regex (b + m) complement = .ok (node, e) →
            ∃ n, e = b + n ∧ ((some node : Option regex_node) = none → n = 0) ∧
              ((some node : Option regex_node) ≠ none → 1 ≤ n) ∧ m + 1 ≤ n ∧
              ∀ (regex2 : List Int) (b2 : Nat),
                (∀ k, k < n ∨ k = 0 → looks regex2 (b2 + k) regex (b + k)) →
                parse_char_range lim regex2 (b2 + m) complement = .ok (node, b2 + n) := by
          intro m complement hm hp
          obtain ⟨n1, he1, hn1, _, htr⟩ := char_range_transfer lim regex (b + m) complement _ _ hp
          refine ⟨m + n1, by omega, (fun h => (Option.some_ne_none _ h).elim), (fun _ => by omega), by omega, ?_⟩
          intro regex2 b2 hw
          rw [htr regex2 (b2 + m) (fun k hk => looks_at regex2 b2 regex b (m + k) _ _
            (hw (m + k) (Or.inl (by omega))) (by omega) (by omega))]
          congr 2
          omega
        have fin : ∀ (m : Nat) (complement : Bool), 1 ≤ m →
            ((c1 = ch '^' ∧ complement = true ∧ m = 2) ∨
              (c1 ≠ ch '^' ∧ complement = false ∧ m = 1)) →
            parse_char_range lim regex (b + m) complement = .ok (node, e) →
            ∃ n, e = b + n ∧ ((some node : Option regex_node) = none → n = 0) ∧
              ((some node : Option regex_node) ≠ none → 1 ≤ n) ∧
              ∀ (regex2 : List Int) (b2 fuel2 : Nat), fuel + 1 ≤ fuel2 →
                (∀ k, k < n ∨ k = 0 → looks regex2 (b2 + k) regex (b + k)) →
                parse_atom lim regex2 fuel2 b2 = .ok (some node, b2 + n) := by
          intro m complement hm1 hcase hp
          obtain ⟨n, he, hn0, hn1, hmn, htr⟩ := hm m complement hm1 hp
          refine ⟨n, he, hn0, hn1, ?_⟩
          intro regex2 b2 fuel2 hf hw
          obtain ⟨f2, rfl⟩ : ∃ f2, fuel2 = f2 + 1 := ⟨fuel2 - 1, by omega⟩
          have hd := looks_deref _ _ _ _ (hw 0 (Or.inr rfl))
          have hd1 := looks_deref _ _ _ _ (hw 1 (Or.inl (by omega)))
          refine (atom_ok_iff lim regex2 f2 b2 (some node) (b2 + n)).2
            ⟨ch '[', hd.trans hc, h1, Or.inr (Or.inr (Or.inl ⟨rfl, c1, node, hd1.trans hc1, ?_,
              rfl⟩))⟩
          rcases hcase with ⟨h5, rfl, rfl⟩ | ⟨h5, rfl, rfl⟩
          · exact Or.inl ⟨h5, htr regex2 b2 hw⟩
          · exact Or.inr ⟨h5, htr regex2 b2 hw⟩
        rcases hp with ⟨h5, hp⟩ | ⟨h5, hp⟩
        · exact fin 2 true (by omega) (Or.inl ⟨h5, rfl, rfl⟩) hp
        · exact fin 1 false (by omega) (Or.inr ⟨h5, rfl, rfl⟩) hp
      · by_cases h5 : c = ch '\\'
        · simp only [h5, if_true] at hc1 ⊢
          refine ⟨2, by omega, (fun h => (Option.some_ne_none _ h).elim), (fun _ => by omega), ?_⟩
          intro regex2 b2 fuel2 hf hw
          obtain ⟨f2, rfl⟩ : ∃ f2, fuel2 = f2 + 1 := ⟨fuel2 - 1, by omega⟩
          have hd := looks_deref _ _ _ _ (hw 0 (Or.inr rfl))
          have hd1 := looks_deref _ _ _ _ (hw 1 (Or.inl (by omega)))
          refine (atom_ok_iff lim regex2 f2 b2 _ (b2 + 2)).2
            ⟨c, hd.trans hc, h1, Or.inr (Or.inr (Or.inr ⟨h2, h3, h4, c1, ?_, rfl, ?_⟩))⟩
          · simp only [h5, if_true]; exact hd1.trans hc1
          · simp only [h5, if_true]
        · simp only [h5, if_false] at hc1 ⊢
          refine ⟨1, by omega, (fun h => (Option.some_ne_none _ h).elim), (fun _ => by omega), ?_⟩
          intro regex2 b2 fuel2 hf hw
          obtain ⟨f2, rfl⟩ : ∃ f2, fuel2 = f2 + 1 := ⟨fuel2 - 1, by omega⟩
          have hd := looks_deref _ _ _ _ (hw 0 (Or.inr rfl))
          refine (atom_ok_iff lim regex2 f2 b2 _ (b2 + 1)).2
            ⟨c, hd.trans hc, h1, Or.inr (Or.inr (Or.inr ⟨h2, h3, h4, c1, ?_, rfl, ?_⟩))⟩
          · simp only [h5, if_false]; exact hd.trans hc1
          · simp only [h5, if_false]
    · -- parse_term
      intro b r e h
      obtain ⟨cr, b1, hp, h⟩ := (term_ok_iff lim regex fuel b r e).1 h
      obtain ⟨n1, he1, hn0, hn1, htr⟩ := ihA _ _ _ hp
      rcases h with ⟨hq, rfl, rfl⟩ | ⟨t, c, oper, rfl, hc, hq, rfl, rfl⟩
      · refine ⟨n1, he1, hn0, hn1, ?_⟩
        intro regex2 b2 fuel2 hf hw hfin
        obtain ⟨f2, rfl⟩ : ∃ f2, fuel2 = f2 + 1 := ⟨fuel2 - 1, by omega⟩
        exact (term_ok_iff lim regex2 f2 b2 r (b2 + n1)).2
          ⟨r, b2 + n1, htr regex2 b2 f2 (by omega) hw, Or.inl ⟨hfin (he1 ▸ hq), rfl, rfl⟩⟩
      · refine ⟨n1 + 1, by omega, (fun h => (Option.some_ne_none _ h).elim), (fun _ => by omega), ?_⟩
        intro regex2 b2 fuel2 hf hw _
        obtain ⟨f2, rfl⟩ : ∃ f2, fuel2 = f2 + 1 := ⟨fuel2 - 1, by omega⟩
        have hl := (hw n1 (Or.inl (by omega))).1
        rw [← he1, hc] at hl
        exact (term_ok_iff lim regex2 f2 b2 _ (b2 + (n1 + 1))).2
          ⟨some t, b2 + n1, htr regex2 b2 f2 (by omega)
            (fun k hk => hw k (hk.elim (fun h => Or.inl (by omega)) Or.inr)),
            Or.inr ⟨t, c, oper, rfl, hl, hq, rfl, by omega⟩⟩
    · -- parse_factor_loop
      intro terms b r e h
      rcases (factor_ok_iff lim regex fuel terms b r e).1 h with
        ⟨hb, rfl, rfl⟩ | ⟨hb, nt, b1, hp, h⟩
      · refine ⟨0, [], rfl, by rw [List.append_nil], ?_⟩
        intro regex2 b2 fuel2 terms2 hf hw
        obtain ⟨f2, rfl⟩ : ∃ f2, fuel2 = f2 + 1 := ⟨fuel2 - 1, by omega⟩
        have hl := (hw 0 (le_refl _)).2.2 hb
        exact (factor_ok_iff lim regex2 f2 terms2 b2 _ (b2 + 0)).2
          (Or.inl ⟨hl, by rw [List.append_nil], rfl⟩)
      · obtain ⟨n1, he1, hn0, hn1, htr⟩ := ihT _ _ _ hp
        rcases h with ⟨rfl, rfl, rfl⟩ | ⟨t, rfl, h⟩
        · have hz := hn0 rfl
          subst hz
          refine ⟨0, [], he1, by rw [List.append_nil], ?_⟩
          intro regex2 b2 fuel2 terms2 hf hw
          obtain ⟨f2, rfl⟩ : ∃ f2, fuel2 = f2 + 1 := ⟨fuel2 - 1, by omega⟩
          have hl : b2 ≠ regex2.length := fun h2 => hb ((hw 0 (le_refl _)).2.1 h2)
          exact (factor_ok_iff lim regex2 f2 terms2 b2 _ (b2 + 0)).2
            (Or.inr ⟨hl, none, b2 + 0, htr regex2 b2 f2 (by omega)
              (fun k hk => hw k (by omega))
              (no_quantifier_of_looks _ _ _ _ (hw 0 (le_refl _))),
              Or.inl ⟨rfl, by rw [List.append_nil], rfl⟩⟩)
        · obtain ⟨n2, more2, he2, hr, htr2⟩ := ihF _ _ _ _ h
          refine ⟨n1 + n2, t :: more2, by omega, by rw [hr]; simp, ?_⟩
          intro regex2 b2 fuel2 terms2 hf hw
          obtain ⟨f2, rfl⟩ : ∃ f2, fuel2 = f2 + 1 := ⟨fuel2 - 1, by omega⟩
          have hl : b2 ≠ regex2.length := fun h2 => hb ((hw 0 (by omega)).2.1 h2)
          have h1 := htr regex2 b2 f2 (by omega)
            (fun k hk => hw k (by have := hn1 (by simp); omega))
            (no_quantifier_of_looks _ _ _ _ (hw n1 (by omega)))
          have h2 := htr2 regex2 (b2 + n1) f2 (terms2 ++ [t]) (by omega)
            (fun k hk => looks_at regex2 b2 regex b (n1 + k) _ _ (hw (n1 + k) (by omega))
              (by omega) (by omega))
          refine (factor_ok_iff lim regex2 f2 terms2 b2 _ (b2 + (n1 + n2))).2
            (Or.inr ⟨hl, some t, b2 + n1, h1, Or.inr ⟨t, rfl, ?_⟩⟩)
          rw [h2]
          simp only [List.append_assoc, List.singleton_append, Nat.add_assoc]
    · -- parse_regex_loop
      intro alts b r e h
      rcases (regex_loop_ok_iff lim regex fuel alts b r e).1 h with
        ⟨hb, rfl, rfl⟩ | ⟨c, hc, h⟩
      · refine ⟨0, [], rfl, by rw [List.append_nil], ?_⟩
        intro regex2 b2 fuel2 alts2 hf hw
        obtain ⟨f2, rfl⟩ : ∃ f2, fuel2 = f2 + 1 := ⟨fuel2 - 1, by omega⟩
        have hl := (hw 0 (le_refl _)).2.2 hb
        exact (regex_loop_ok_iff lim regex2 f2 alts2 b2 _ (b2 + 0)).2
          (Or.inl ⟨hl, by rw [List.append_nil], rfl⟩)
      · rcases h with ⟨h1, rfl, rfl⟩ | ⟨rfl, factor, b1, hp, h⟩
        · refine ⟨0, [], rfl, by rw [List.append_nil], ?_⟩
          intro regex2 b2 fuel2 alts2 hf hw
          obtain ⟨f2, rfl⟩ : ∃ f2, fuel2 = f2 + 1 := ⟨fuel2 - 1, by omega⟩
          have hl := (hw 0 (le_refl _)).1
          exact (regex_loop_ok_iff lim regex2 f2 alts2 b2 _ (b2 + 0)).2
            (Or.inr ⟨c, hl.trans hc, Or.inl ⟨h1, by rw [List.append_nil], rfl⟩⟩)
        · obtain ⟨n1, more1, he1, hr1, htr1⟩ := ihF _ _ _ _ hp
          obtain ⟨n2, more2, he2, hr2, htr2⟩ := ihRL _ _ _ _ h
          refine ⟨1 + n1 + n2, factor :: more2, by omega, by rw [hr2]; simp, ?_⟩
          intro regex2 b2 fuel2 alts2 hf hw
          obtain ⟨f2, rfl⟩ : ∃ f2, fuel2 = f2 + 1 := ⟨fuel2 - 1, by omega⟩
          have hl := (hw 0 (by omega)).1
          have h1 := htr1 regex2 (b2 + 1) f2 [] (by omega)
            (fun k hk => looks_at regex2 b2 regex b (1 + k) _ _ (hw (1 + k) (by omega))
              (by omega) (by omega))
          rw [← hr1] at h1
          have h2 := htr2 regex2 (b2 + 1 + n1) f2 (alts2 ++ [factor]) (by omega)
            (fun k hk => looks_at regex2 b2 regex b (1 + n1 + k) _ _
              (hw (1 + n1 + k) (by omega)) (by omega) (by omega))
          refine (regex_loop_ok_iff lim regex2 f2 alts2 b2 _ (b2 + (1 + n1 + n2))).2
            (Or.inr ⟨ch '|', hl.trans hc, Or.inr ⟨rfl, factor, b2 + 1 + n1, h1, ?_⟩⟩)
          rw [h2]
          simp only [List.append_assoc, List.singleton_append, Nat.add_assoc]
    · -- parse_regex
      intro b r e h
      obtain ⟨factor, b1, hp, h⟩ := (regex_ok_iff lim regex fuel b r e).1 h
      obtain ⟨n1, more1, he1, hr1, htr1⟩ := ihF _ _ _ _ hp
      obtain ⟨n2, more2, he2, hr2, htr2⟩ := ihRL _ _ _ _ h
      refine ⟨n1 + n2, by omega, ?_⟩
      intro regex2 b2 fuel2 hf hw
      obtain ⟨f2, rfl⟩ : ∃ f2, fuel2 = f2 + 1 := ⟨fuel2 - 1, by omega⟩
      have h1 := htr1 regex2 b2 f2 [] (by omega) (fun k hk => hw k (by omega))
      rw [← hr1] at h1
      have h2 := htr2 regex2 (b2 + n1) f2 [factor] (by omega)
        (fun k hk => looks_at regex2 b2 regex b (n1 + k) _ _ (hw (n1 + k) (by omega))
          (by omega) (by omega))
      refine (regex_ok_iff lim regex2 f2 b2 _ (b2 + (n1 + n2))).2 ⟨factor, b2 + n1, h1, ?_⟩
      rw [h2, hr2]
      simp only [Nat.add_assoc]
/-! ## The fuel of the parser -/

theorem looks_refl (regex : List Int) (p : Nat) : looks regex p regex p :=
  ⟨rfl, Iff.rfl⟩

theorem atom_ok_le (lim : char_limits) (regex : List Int) (fuel b : Nat)
    (r : Option regex_node × Nat) (h : parse_atom lim regex fuel b = .ok r) :
    b ≤ regex.length := by
  cases fuel with
  | zero => rw [parse_atom] at h; exact absurd h (throw_ne_ok _ _)
  | succ fuel =>
    obtain ⟨c, hc, _⟩ := (atom_ok_iff lim regex fuel b r.1 r.2).1 h
    exact deref_ok_le regex b c hc

theorem term_ok_le (lim : char_limits) (regex : List Int) (fuel b : Nat)
    (r : Option regex_node × Nat) (h : parse_term lim regex fuel b = .ok r) :
    b ≤ regex.length := by
  cases fuel with
  | zero => rw [parse_term] at h; exact absurd h (throw_ne_ok _ _)
  | succ fuel =>
    obtain ⟨cr, b1, hp, _⟩ := (term_ok_iff lim regex fuel b r.1 r.2).1 h
    exact atom_ok_le lim regex fuel b _ hp

theorem term_some_progress (lim : char_limits) (regex : List Int) (fuel b : Nat)
    (t : regex_node) (e : Nat) (h : parse_term lim regex fuel b = .ok (some t, e)) :
    b + 1 ≤ e := by
  obtain ⟨n, he, _, hn, _⟩ := (parser_transfer lim regex fuel).2.1 b _ _ h
  have := hn (by simp)
  omega

theorem factor_ok_ge (lim : char_limits) (regex : List Int) (fuel : Nat)
    (terms : List regex_node) (b : Nat) (r : regex_node) (e : Nat)
    (h : parse_factor_loop lim regex fuel terms b = .ok (r, e)) : b ≤ e := by
  obtain ⟨n, _, he, _⟩ := (parser_transfer lim regex fuel).2.2.1 terms b _ _ h
  omega

theorem except_bind_congr {ε α β : Type} (x : Except ε α) (f g : α → Except ε β)
    (h : ∀ a, x = .ok a → f a = g a) : (x >>= f) = (x >>= g) := by
  cases x with
  | error e => rfl
  | ok a => exact h a rfl

/-- With the fuel that the remaining input calls for, one more unit of fuel
changes nothing. -/
theorem parser_fuel_stable (lim : char_limits) (regex : List Int) :
    ∀ (fuel : Nat),
      (∀ b, 4 * (regex.length + 1 - b) + 1 ≤ fuel →
        parse_atom lim regex (fuel + 1) b = parse_atom lim regex fuel b) ∧
      (∀ b, 4 * (regex.length + 1 - b) + 2 ≤ fuel →
        parse_term lim regex (fuel + 1) b = parse_term lim regex fuel b) ∧
      (∀ terms b, 4 * (regex.length + 1 - b) + 3 ≤ fuel →
        parse_factor_loop lim regex (fuel + 1) terms b =
          parse_factor_loop lim regex fuel terms b) ∧
      (∀ alts b, 4 * (regex.length + 1 - b) + 3 ≤ fuel →
        parse_regex_loop lim regex (fuel + 1) alts b =
          parse_regex_loop lim regex fuel alts b) ∧
      (∀ b, 4 * (regex.length + 1 - b) + 4 ≤ fuel →
        parse_regex lim regex (fuel + 1) b = parse_regex lim regex fuel b) := by
  intro fuel
  induction fuel with
  | zero =>
    refine ⟨?_, ?_, ?_, ?_, ?_⟩
    · intro b h; omega
    · intro b h; omega
    · intro ts b h; omega
    · intro ts b h; omega
    · intro b h; omega
  | succ fuel ih =>
    obtain ⟨ihA, ihT, ihF, ihRL, ihR⟩ := ih
    refine ⟨?_, ?_, ?_, ?_, ?_⟩
    · intro b hf
      rw [parse_atom, parse_atom]
      apply except_bind_congr
      intro c hc
      have hb := deref_ok_le regex b c hc
      rw [ihR (b + 1) (by omega)]
    · intro b hf
      rw [parse_term, parse_term, ihA b (by omega)]
    · intro terms b hf
      rw [parse_factor_loop, parse_factor_loop, ihT b (by omega)]
      split
      · rfl
      · apply except_bind_congr
        rintro ⟨nt, b1⟩ hp
        cases nt with
        | none => rfl
        | some t =>
          have h1 := term_some_progress lim regex fuel b t b1 hp
          have h2 := term_ok_le lim regex fuel b _ hp
          exact ihF _ b1 (by omega)
    · intro alts b hf
      rw [parse_regex_loop, parse_regex_loop]
      split
      · rfl
      · apply except_bind_congr
        intro c hc
        have hb := deref_ok_le regex b c hc
        split
        · rw [ihF [] (b + 1) (by omega)]
          apply except_bind_congr
          rintro ⟨factor, b1⟩ hp
          have h1 := factor_ok_ge lim regex fuel [] (b + 1) factor b1 hp
          exact ihRL _ b1 (by omega)
        · rfl
    · intro b hf
      rw [parse_regex, parse_regex, ihF [] b (by omega)]
      apply except_bind_congr
      rintro ⟨factor, b1⟩ hp
      have h1 := factor_ok_ge lim regex fuel [] b factor b1 hp
      exact ihRL _ b1 (by omega)

/-- A node that `parse_atom` returns with some fuel is returned with any fuel
that the remaining input calls for. -/
theorem atom_ok_at (lim : char_limits) (regex : List Int) (fuel1 fuel b : Nat)
    (r : Option regex_node × Nat) (h : parse_atom lim regex fuel1 b = .ok r)
    (hf : 4 * (regex.length + 1 - b) + 1 ≤ fuel) : parse_atom lim regex fuel b = .ok r := by
  obtain ⟨n, he, _, _, htr⟩ := (parser_transfer lim regex fuel1).1 b r.1 r.2 h
  have hup : ∀ d, parse_atom lim regex (fuel + d) b = parse_atom lim regex fuel b := by
    intro d
    induction d with
    | zero => rfl
    | succ d ihd =>
      rw [← ihd]
      exact (parser_fuel_stable lim regex (fuel + d)).1 b (by omega)
  rw [← hup fuel1, htr regex b (fuel + fuel1) (by omega) (fun k _ => looks_refl _ _), ← he]

/-- A node that `parse_factor` returns with some fuel is returned with any fuel
that the remaining input calls for. -/
theorem factor_ok_at (lim : char_limits) (regex : List Int) (fuel1 fuel : Nat)
    (terms : List regex_node) (b : Nat) (r : regex_node × Nat)
    (h : parse_factor_loop lim regex fuel1 terms b = .ok r)
    (hf : 4 * (regex.length + 1 - b) + 3 ≤ fuel) :
    parse_factor_loop lim regex fuel terms b = .ok r := by
  obtain ⟨n, more, he, hr, htr⟩ := (parser_transfer lim regex fuel1).2.2.1 terms b r.1 r.2 h
  have hup : ∀ d, parse_factor_loop lim regex (fuel + d) terms b =
      parse_factor_loop lim regex fuel terms b := by
    intro d
    induction d with
    | zero => rfl
    | succ d ihd =>
      rw [← ihd]
      exact (parser_fuel_stable lim regex (fuel + d)).2.2.1 terms b (by omega)
  rw [← hup fuel1, htr regex b (fuel + fuel1) terms (by omega) (fun k _ => looks_refl _ _),
    ← he, ← hr]

/-- A result that `parse_regex` returns with some fuel is returned with any
fuel that the remaining input calls for, in particular with `parse_fuel`. -/
theorem regex_ok_at (lim : char_limits) (regex : List Int) (fuel1 fuel b : Nat)
    (r : regex_node × Nat) (h : parse_regex lim regex fuel1 b = .ok r)
    (hf : 4 * (regex.length + 1 - b) + 4 ≤ fuel) : parse_regex lim regex fuel b = .ok r := by
  obtain ⟨n, he, htr⟩ := (parser_transfer lim regex fuel1).2.2.2.2 b r.1 r.2 h
  have hup : ∀ d, parse_regex lim regex (fuel + d) b = parse_regex lim regex fuel b := by
    intro d
    induction d with
    | zero => rfl
    | succ d ihd =>
      rw [← ihd]
      exact (parser_fuel_stable lim regex (fuel + d)).2.2.2.2 b (by omega)
  rw [← hup fuel1, htr regex b (fuel + fuel1) (by omega) (fun k _ => looks_refl _ _), ← he]
/-! ## A factor ends where the input ends, or at a bar or a closing parenthesis -/

theorem factor_stop_no_quantifier (regex : List Int) (p : Nat) (h : factor_stop regex p) :
    no_quantifier regex p := by
  rcases h with h | h | h
  · exact Or.inl h
  · exact Or.inr ⟨_, h, by decide, by decide, by decide⟩
  · exact Or.inr ⟨_, h, by decide, by decide, by decide⟩

theorem factor_loop_at_stop (lim : char_limits) (regex : List Int) (fuel : Nat)
    (terms : List regex_node) (p : Nat) (h : factor_stop regex p) :
    parse_factor_loop lim regex (fuel + 3) terms p =
      .ok (regex_node.concatenate terms, p) := by
  by_cases hp : p = regex.length
  · subst hp
    exact parse_factor_end lim regex (fuel + 2) terms
  · have hc : ∃ c, regex[p]? = some c ∧ atom_stop c ∧ c ≠ ch ']' := by
      rcases h with h | h | h
      · exact absurd h hp
      · exact ⟨_, h, by decide, by decide⟩
      · exact ⟨_, h, by decide, by decide⟩
    obtain ⟨c, hc, hs, hne⟩ := hc
    have hatom : parse_atom lim regex (fuel + 1) p = .ok (none, p) :=
      (atom_ok_iff lim regex fuel p none p).2
        ⟨c, deref_some regex p c hc, hne, Or.inl ⟨hs, rfl, rfl⟩⟩
    have hterm : parse_term lim regex (fuel + 2) p = .ok (none, p) :=
      (term_ok_iff lim regex (fuel + 1) p none p).2
        ⟨none, p, hatom, Or.inl ⟨factor_stop_no_quantifier regex p h, rfl, rfl⟩⟩
    exact parse_factor_stop lim regex (fuel + 2) p p terms hp hterm

/-- A successful run of `parse_factor` has read the input up to the position
where it stops; on an input that looks the same up to there and has a stopping
position there, it returns the same terms. -/
theorem factor_transfer_stop (lim : char_limits) (regex : List Int) :
    ∀ (fuel : Nat) (terms : List regex_node) (b : Nat) (r : regex_node) (e : Nat),
      parse_factor_loop lim regex fuel terms b = .ok (r, e) →
      ∃ n more, e = b + n ∧ r = regex_node.concatenate (terms ++ more) ∧
        ∀ (regex2 : List Int) (b2 fuel2 : Nat) (terms2 : List regex_node), fuel + 2 ≤ fuel2 →
          (∀ k, k < n → looks regex2 (b2 + k) regex (b + k)) →
          factor_stop regex2 (b2 + n) →
          parse_factor_loop lim regex2 fuel2 terms2 b2 =
            .ok (regex_node.concatenate (terms2 ++ more), b2 + n) := by
  intro fuel
  induction fuel with
  | zero =>
    intro ts b r e h
    rw [parse_factor_loop] at h
    exact absurd h (throw_ne_ok _ _)
  | succ fuel ih =>
    intro terms b r e h
    have stop_case : ∀ (regex2 : List Int) (b2 fuel2 : Nat) (terms2 : List regex_node),
        fuel + 1 + 2 ≤ fuel2 → factor_stop regex2 (b2 + 0) →
        parse_factor_loop lim regex2 fuel2 terms2 b2 =
          .ok (regex_node.concatenate (terms2 ++ []), b2 + 0) := by
      intro regex2 b2 fuel2 terms2 hf hs
      obtain ⟨f2, rfl⟩ : ∃ f2, fuel2 = f2 + 3 := ⟨fuel2 - 3, by omega⟩
      rw [List.append_nil]
      exact factor_loop_at_stop lim regex2 f2 terms2 b2 hs
    rcases (factor_ok_iff lim regex fuel terms b r e).1 h with
      ⟨hb, rfl, rfl⟩ | ⟨hb, nt, b1, hp, h⟩
    · exact ⟨0, [], rfl, by rw [List.append_nil],
        fun regex2 b2 fuel2 terms2 hf _ hs => stop_case regex2 b2 fuel2 terms2 hf hs⟩
    · obtain ⟨n1, he1, hn0, hn1, htr⟩ := (parser_transfer lim regex fuel).2.1 _ _ _ hp
      rcases h with ⟨rfl, rfl, rfl⟩ | ⟨t, rfl, h⟩
      · have hz := hn0 rfl
        subst hz
        exact ⟨0, [], he1, by rw [List.append_nil],
          fun regex2 b2 fuel2 terms2 hf _ hs => stop_case regex2 b2 fuel2 terms2 hf hs⟩
      · obtain ⟨n2, more2, he2, hr, htr2⟩ := ih _ _ _ _ h
        have hn1 := hn1 (by simp)
        refine ⟨n1 + n2, t :: more2, by omega, by rw [hr]; simp, ?_⟩
        intro regex2 b2 fuel2 terms2 hf hw hs
        obtain ⟨f2, rfl⟩ : ∃ f2, fuel2 = f2 + 1 := ⟨fuel2 - 1, by omega⟩
        have hl : b2 ≠ regex2.length := fun h2 => hb ((hw 0 (by omega)).2.1 h2)
        have hq : no_quantifier regex (b + n1) → no_quantifier regex2 (b2 + n1) := by
          intro hq
          by_cases hn2 : n2 = 0
          · subst hn2
            exact factor_stop_no_quantifier _ _ hs
          · exact no_quantifier_of_looks _ _ _ _ (hw n1 (by omega)) hq
        have h1 := htr regex2 b2 f2 (by omega)
          (fun k hk => hw k (by omega)) hq
        have h2 := htr2 regex2 (b2 + n1) f2 (terms2 ++ [t]) (by omega)
          (fun k hk => looks_at regex2 b2 regex b (n1 + k) _ _ (hw (n1 + k) (by omega))
            (by omega) (by omega))
          (by rw [Nat.add_assoc]; exact hs)
        refine (factor_ok_iff lim regex2 f2 terms2 b2 _ (b2 + (n1 + n2))).2
          (Or.inr ⟨hl, some t, b2 + n1, h1, Or.inr ⟨t, rfl, ?_⟩⟩)
        rw [h2]
        simp only [List.append_assoc, List.singleton_append, Nat.add_assoc]
/-! ## Parsing a part of a longer input -/

theorem looks_inside (pre f post : List Int) (k : Nat) (hk : k < f.length) :
    looks (pre ++ (f ++ post)) (pre.length + k) f (0 + k) := by
  constructor
  · rw [getElem?_append_add, Nat.zero_add, List.getElem?_append_left hk]
  · simp only [List.length_append]
    constructor <;> intro h <;> omega

theorem atom_some_first (lim : char_limits) (B : List Int) (fuel : Nat) (t : regex_node)
    (h : parse_atom lim B fuel 0 = .ok (some t, B.length)) :
    1 ≤ B.length ∧ ∃ c, B[0]? = some c ∧ c ≠ ch '+' ∧ c ≠ ch '*' ∧ c ≠ ch '?' := by
  obtain ⟨n, he, _, hn, _⟩ := (parser_transfer lim B fuel).1 0 _ _ h
  have hn := hn (by simp)
  have hlen : 1 ≤ B.length := by omega
  refine ⟨hlen, ?_⟩
  cases fuel with
  | zero => rw [parse_atom] at h; exact absurd h (throw_ne_ok _ _)
  | succ fuel =>
    obtain ⟨c, hc, h1, hcase⟩ := (atom_ok_iff lim B fuel 0 _ _).1 h
    refine ⟨c, deref_ok_inside B 0 c hc (by omega), ?_⟩
    rcases hcase with ⟨_, h2, _⟩ | ⟨rfl, _⟩ | ⟨rfl, _⟩ | ⟨h2, _⟩
    · cases h2
    · exact ⟨by decide, by decide, by decide⟩
    · exact ⟨by decide, by decide, by decide⟩
    · unfold atom_stop at h2
      refine ⟨fun h => h2 ?_, fun h => h2 ?_, fun h => h2 ?_⟩
      · exact Or.inr (Or.inr (Or.inr (Or.inl h)))
      · exact Or.inr (Or.inl h)
      · exact Or.inl h

/-- An atom that is a part of a longer input is parsed there as it is parsed on
its own. -/
theorem atom_inside (lim : char_limits) (pre A post : List Int) (fuelA fuel : Nat)
    (t : regex_node) (h : parse_atom lim A fuelA 0 = .ok (some t, A.length))
    (hf : 4 * ((pre ++ (A ++ post)).length + 1 - pre.length) + 1 ≤ fuel) :
    parse_atom lim (pre ++ (A ++ post)) fuel pre.length =
      .ok (some t, pre.length + A.length) := by
  obtain ⟨n, he, _, hn, htr⟩ := (parser_transfer lim A fuelA).1 0 _ _ h
  have hn := hn (by simp)
  have hA : A.length = n := by omega
  have h1 := htr (pre ++ (A ++ post)) pre.length fuelA (le_refl _)
    (fun k hk => looks_inside pre A post k (by omega))
  rw [← hA] at h1
  exact atom_ok_at lim _ fuelA fuel pre.length _ h1 hf

theorem bar_tail_stop (pre f : List Int) (rest : List (List Int)) :
    factor_stop (pre ++ (f ++ bar_tail rest)) (pre.length + f.length) := by
  cases rest with
  | nil =>
    left
    simp [bar_tail]
  | cons g rest =>
    right; right
    have h := getElem?_append_zero (pre ++ f) (g ++ bar_tail rest) (ch '|')
    simpa [bar_tail] using h

/-- A regex without a top-level bar that is a part of a longer input, followed
there by a bar or by the end of the input, is parsed there by `parse_factor` as
it is parsed on its own. -/
theorem factor_inside (lim : char_limits) (pre f : List Int) (rest : List (List Int))
    (fuel1 fuel : Nat) (c : regex_node)
    (h : parse_factor_loop lim f fuel1 [] 0 = .ok (c, f.length))
    (hf : 4 * ((pre ++ (f ++ bar_tail rest)).length + 1 - pre.length) + 3 ≤ fuel) :
    parse_factor_loop lim (pre ++ (f ++ bar_tail rest)) fuel [] pre.length =
      .ok (c, pre.length + f.length) ∧ ∃ terms, c = regex_node.concatenate terms := by
  obtain ⟨n, more, he, hr, htr⟩ := factor_transfer_stop lim f fuel1 [] 0 _ _ h
  have hn : f.length = n := by omega
  have h1 := htr (pre ++ (f ++ bar_tail rest)) pre.length (fuel1 + 2) [] (le_refl _)
    (fun k hk => looks_inside pre f (bar_tail rest) k (by omega))
    (hn ▸ bar_tail_stop pre f rest)
  rw [← hr, ← hn] at h1
  exact ⟨factor_ok_at lim _ (fuel1 + 2) fuel [] pre.length _ h1 hf, _, hr⟩

/-- The loop of `parse_regex` over the alternatives that remain. -/
theorem regex_loop_bar_tail (lim : char_limits) (fs : List (List Int)) (cs : List regex_node)
    (h : List.Forall₂ (fun f c => ∃ fuel, parse_factor_loop lim f fuel [] 0 = .ok (c, f.length))
      fs cs) :
    ∀ (pre : List Int) (alts : List regex_node) (fuel : Nat),
      4 * ((pre ++ bar_tail fs).length + 1 - pre.length) + 3 ≤ fuel →
      parse_regex_loop lim (pre ++ bar_tail fs) fuel alts pre.length =
        .ok (regex_node.alternative (alts ++ cs), (pre ++ bar_tail fs).length) := by
  induction h with
  | nil =>
    intro pre alts fuel hf
    obtain ⟨f0, rfl⟩ : ∃ f0, fuel = f0 + 1 := ⟨fuel - 1, by omega⟩
    exact (regex_loop_ok_iff lim _ f0 alts pre.length _ _).2
      (Or.inl ⟨by simp [bar_tail], by simp, by simp [bar_tail]⟩)
  | @cons f c fs cs hfc _ ih =>
    intro pre alts fuel hf
    obtain ⟨f0, rfl⟩ : ∃ f0, fuel = f0 + 1 := ⟨fuel - 1, by omega⟩
    obtain ⟨fuel1, hfc⟩ := hfc
    have hR : pre ++ bar_tail (f :: fs) = (pre ++ [ch '|']) ++ (f ++ bar_tail fs) := by
      simp [bar_tail]
    have hR2 : pre ++ bar_tail (f :: fs) = (pre ++ ch '|' :: f) ++ bar_tail fs := by
      simp [bar_tail]
    have hlen : (pre ++ bar_tail (f :: fs)).length =
        pre.length + 1 + f.length + (bar_tail fs).length := by
      simp [bar_tail]; omega
    have hbar : (pre ++ bar_tail (f :: fs))[pre.length]? = some (ch '|') :=
      getElem?_append_zero pre (f ++ bar_tail fs) (ch '|')
    have h1 := (factor_inside lim (pre ++ [ch '|']) f fs fuel1 f0 c hfc
      (by rw [← hR, hlen]; simp only [List.length_append, List.length_singleton]; omega)).1
    rw [← hR] at h1
    simp only [List.length_append, List.length_singleton] at h1
    have h2 := ih (pre ++ ch '|' :: f) (alts ++ [c]) f0
      (by rw [← hR2, hlen]; simp only [List.length_append, List.length_cons]; omega)
    rw [← hR2] at h2
    simp only [List.length_append, List.length_cons] at h2
    rw [parse_regex_loop_more lim _ f0 pre.length _ alts c hbar h1]
    have e1 : pre.length + (f.length + 1) = pre.length + 1 + f.length := by omega
    rw [e1] at h2
    rw [h2]
    simp
/-! ## Subtraction of an interval -/

theorem interval_set_mem_append (x : Int) (s t : interval_set) :
    interval_set.mem x (s ++ t) ↔ interval_set.mem x s ∨ interval_set.mem x t := by
  simp only [interval_set.mem, List.mem_append]
  constructor
  · rintro ⟨i, hi | hi, hm⟩
    · exact Or.inl ⟨i, hi, hm⟩
    · exact Or.inr ⟨i, hi, hm⟩
  · rintro (⟨i, hi, hm⟩ | ⟨i, hi, hm⟩)
    · exact ⟨i, Or.inl hi, hm⟩
    · exact ⟨i, Or.inr hi, hm⟩

theorem cut_left_first (j i : discrete_interval) :
    (discrete_interval.mk j.lower i.lower j.left_open (!i.left_open)).first = j.first := rfl

theorem cut_left_last (j i : discrete_interval) :
    (discrete_interval.mk j.lower i.lower j.left_open (!i.left_open)).last = i.first - 1 := by
  simp only [discrete_interval.last, discrete_interval.first]
  cases i.left_open <;> simp

theorem cut_right_first (j i : discrete_interval) :
    (discrete_interval.mk i.upper j.upper (!i.right_open) j.right_open).first = i.last + 1 := by
  simp only [discrete_interval.last, discrete_interval.first]
  cases i.right_open <;> simp

theorem cut_right_last (j i : discrete_interval) :
    (discrete_interval.mk i.upper j.upper (!i.right_open) j.right_open).last = j.last := rfl

/-- Every interval that is left after a cut is non-empty and lies inside an
interval of the set. -/
theorem cut_inside (s : interval_set) (i : discrete_interval)
    (hs : ∀ j ∈ s, j.first ≤ j.last) :
    ∀ k ∈ interval_set.cut s i, ∃ j ∈ s, j.first ≤ k.first ∧ k.last ≤ j.last ∧
      k.first ≤ k.last := by
  induction s with
  | nil => intro k hk; simp [interval_set.cut] at hk
  | cons j rest ih =>
    intro k hk
    have hj := hs j (List.mem_cons_self _ _)
    have ih1 := ih (fun j1 hj1 => hs j1 (List.mem_cons_of_mem _ hj1))
    have hrest : k ∈ interval_set.cut rest i →
        ∃ j1 ∈ j :: rest, j1.first ≤ k.first ∧ k.last ≤ j1.last ∧ k.first ≤ k.last := by
      intro hk
      obtain ⟨j1, hj1, h⟩ := ih1 k hk
      exact ⟨j1, List.mem_cons_of_mem _ hj1, h⟩
    simp only [interval_set.cut] at hk
    split at hk
    · rcases List.mem_cons.1 hk with rfl | hk
      · exact ⟨k, List.mem_cons_self _ _, le_refl _, le_refl _, hj⟩
      · exact hrest hk
    · split at hk
      · exact ⟨k, hk, le_refl _, le_refl _, hs k hk⟩
      · rename_i h1 h2
        rcases List.mem_append.1 hk with hk | hk
        · rcases List.mem_append.1 hk with hk | hk
          · split at hk
            · rename_i h3
              simp only [List.mem_singleton] at hk
              subst hk
              refine ⟨j, List.mem_cons_self _ _, ?_, ?_, ?_⟩
              · rw [cut_left_first]
              · rw [cut_left_last]; omega
              · rw [cut_left_first, cut_left_last]; omega
            · simp at hk
          · split at hk
            · rename_i h3
              simp only [List.mem_singleton] at hk
              subst hk
              refine ⟨j, List.mem_cons_self _ _, ?_, ?_, ?_⟩
              · rw [cut_right_first]; omega
              · rw [cut_right_last]
              · rw [cut_right_first, cut_right_last]; omega
            · simp at hk
        · exact hrest hk

theorem ordered_cons (j : discrete_interval) (rest : interval_set) :
    interval_set.ordered (j :: rest) ↔
      (∀ k ∈ rest, j.last < k.first) ∧ j.first ≤ j.last ∧ interval_set.ordered rest := by
  simp only [interval_set.ordered, List.pairwise_cons, List.mem_cons, forall_eq_or_imp]
  tauto

theorem ordered_nil : interval_set.ordered [] := by
  simp [interval_set.ordered]

/-- A cut keeps the order of the intervals. -/
theorem cut_ordered (s : interval_set) (i : discrete_interval) (hi : i.first ≤ i.last)
    (hs : interval_set.ordered s) : interval_set.ordered (interval_set.cut s i) := by
  induction s with
  | nil => simpa [interval_set.cut] using ordered_nil
  | cons j rest ih =>
    obtain ⟨hlt, hj, hrest⟩ := (ordered_cons j rest).1 hs
    have ih1 := ih hrest
    have hafter : ∀ k ∈ interval_set.cut rest i, j.last < k.first := by
      intro k hk
      obtain ⟨j1, hj1, h1, _, _⟩ := cut_inside rest i hrest.2 k hk
      have := hlt j1 hj1
      omega
    simp only [interval_set.cut]
    split
    · exact (ordered_cons _ _).2 ⟨hafter, hj, ih1⟩
    · split
      · exact hs
      · rename_i h1 h2
        by_cases h3 : j.first < i.first <;> by_cases h4 : i.last < j.last <;>
          simp only [h3, h4, if_true, if_false, List.nil_append, List.singleton_append,
            List.cons_append]
        · refine (ordered_cons _ _).2 ⟨?_, ?_, (ordered_cons _ _).2 ⟨?_, ?_, ih1⟩⟩
          · intro k hk
            rcases List.mem_cons.1 hk with rfl | hk
            · rw [cut_left_last, cut_right_first]; omega
            · rw [cut_left_last]; have := hafter k hk; omega
          · rw [cut_left_first, cut_left_last]; omega
          · intro k hk
            rw [cut_right_last]; exact hafter k hk
          · rw [cut_right_first, cut_right_last]; omega
        · refine (ordered_cons _ _).2 ⟨?_, ?_, ih1⟩
          · intro k hk
            rw [cut_left_last]; have := hafter k hk; omega
          · rw [cut_left_first, cut_left_last]; omega
        · refine (ordered_cons _ _).2 ⟨?_, ?_, ih1⟩
          · intro k hk
            rw [cut_right_last]; exact hafter k hk
          · rw [cut_right_first, cut_right_last]; omega
        · exact ih1

/-- The members after a cut are the members that are not in the interval. -/
theorem mem_cut (s : interval_set) (i : discrete_interval)
    (hs : interval_set.ordered s) (x : Int) :
    interval_set.mem x (interval_set.cut s i) ↔
      interval_set.mem x s ∧ ¬ discrete_interval.mem x i := by
  induction s with
  | nil => simp [interval_set.cut, interval_set_mem_nil]
  | cons j rest ih =>
    obtain ⟨hlt, hj, hrest⟩ := (ordered_cons j rest).1 hs
    have ih1 := ih hrest
    have hafter : interval_set.mem x rest → j.last < x := by
      rintro ⟨k, hk, hm⟩
      have := hlt k hk
      have := hm.1
      omega
    simp only [interval_set.cut]
    split
    · rename_i h1
      rw [interval_set_mem_cons, interval_set_mem_cons, ih1]
      simp only [discrete_interval.mem]
      constructor
      · rintro (h | ⟨h, h2⟩)
        · exact ⟨Or.inl h, by omega⟩
        · exact ⟨Or.inr h, h2⟩
      · rintro ⟨h | h, h2⟩
        · exact Or.inl h
        · exact Or.inr ⟨h, h2⟩
    · split
      · rename_i h1 h2
        rw [interval_set_mem_cons]
        simp only [discrete_interval.mem]
        constructor
        · rintro (h | h)
          · exact ⟨Or.inl h, by omega⟩
          · exact ⟨Or.inr h, by have := hafter h; omega⟩
        · rintro ⟨h, _⟩
          exact h
      · rename_i h1 h2
        rw [interval_set_mem_append, interval_set_mem_append, ih1, interval_set_mem_cons]
        have hL : interval_set.mem x
            (if j.first < i.first then
              [discrete_interval.mk j.lower i.lower j.left_open (!i.left_open)] else []) ↔
            j.first ≤ x ∧ x < i.first ∧ j.first < i.first := by
          split
          · rw [interval_set_mem_cons]
            simp only [discrete_interval.mem, cut_left_first, cut_left_last,
              interval_set_mem_nil, or_false]
            constructor <;> intro h <;> omega
          · simp only [interval_set_mem_nil, false_iff]
            omega
        have hR : interval_set.mem x
            (if i.last < j.last then
              [discrete_interval.mk i.upper j.upper (!i.right_open) j.right_open] else []) ↔
            i.last < x ∧ x ≤ j.last ∧ i.last < j.last := by
          split
          · rw [interval_set_mem_cons]
            simp only [discrete_interval.mem, cut_right_first, cut_right_last,
              interval_set_mem_nil, or_false]
            constructor <;> intro h <;> omega
          · simp only [interval_set_mem_nil, false_iff]
            omega
        rw [hL, hR]
        simp only [discrete_interval.mem]
        constructor
        · rintro ((h | h) | ⟨h, h2⟩)
          · exact ⟨Or.inl (by omega), by omega⟩
          · exact ⟨Or.inl (by omega), by omega⟩
          · exact ⟨Or.inr h, h2⟩
        · rintro ⟨h | h, h2⟩
          · by_cases h3 : x < i.first
            · exact Or.inl (Or.inl (by omega))
            · exact Or.inl (Or.inr (by omega))
          · exact Or.inr ⟨h, h2⟩

theorem subtract_ordered (s : interval_set) (i : discrete_interval)
    (hs : interval_set.ordered s) : interval_set.ordered (interval_set.subtract s i) := by
  unfold interval_set.subtract
  split
  · exact hs
  · rename_i h
    simp only [discrete_interval.is_empty, decide_eq_true_eq, not_lt] at h
    exact cut_ordered s i h hs

theorem mem_subtract (s : interval_set) (i : discrete_interval)
    (hs : interval_set.ordered s) (x : Int) :
    interval_set.mem x (interval_set.subtract s i) ↔
      interval_set.mem x s ∧ ¬ discrete_interval.mem x i := by
  unfold interval_set.subtract
  split
  · rename_i h
    simp only [discrete_interval.is_empty, decide_eq_true_eq] at h
    simp only [discrete_interval.mem]
    constructor
    · intro hm; exact ⟨hm, by omega⟩
    · exact fun hm => hm.1
  · rename_i h
    simp only [discrete_interval.is_empty, decide_eq_true_eq, not_lt] at h
    exact mem_cut s i hs x

/-- The universe of a complement class. -/
theorem universe_ordered (lim : char_limits) :
    interval_set.ordered (interval_set.add [] (discrete_interval.closed lim.min lim.max)) := by
  unfold interval_set.add
  split
  · exact ordered_nil
  · rename_i h
    simp only [discrete_interval.is_empty, decide_eq_true_eq, not_lt] at h
    simp only [interval_set.join]
    exact (ordered_cons _ _).2 ⟨by simp, h, ordered_nil⟩

theorem mem_universe (lim : char_limits) (x : Int) :
    interval_set.mem x (interval_set.add [] (discrete_interval.closed lim.min lim.max)) ↔
      lim.min ≤ x ∧ x ≤ lim.max := by
  rw [mem_add, mem_closed]
  simp [interval_set_mem_nil]

/-- The intervals that a class adds. -/
theorem mem_fold_add (ops : List (Int × Int)) :
    ∀ (cs : interval_set) (x : Int),
      interval_set.mem x (ops.foldl (fun s p => char_range_interval false s p.1 p.2) cs) ↔
        interval_set.mem x cs ∨ ∃ p ∈ ops, p.1 ≤ x ∧ x ≤ p.2 := by
  induction ops with
  | nil => intro cs x; simp
  | cons p ops ih =>
    intro cs x
    rw [List.foldl_cons, ih, mem_char_range_interval_add]
    simp only [List.mem_cons, exists_eq_or_imp]
    tauto

/-- The intervals that a complement class subtracts. -/
theorem mem_fold_subtract (ops : List (Int × Int)) :
    ∀ (cs : interval_set), interval_set.ordered cs → ∀ (x : Int),
      interval_set.mem x (ops.foldl (fun s p => char_range_interval true s p.1 p.2) cs) ↔
        interval_set.mem x cs ∧ ¬ ∃ p ∈ ops, p.1 ≤ x ∧ x ≤ p.2 := by
  induction ops with
  | nil => intro cs _ x; simp
  | cons p ops ih =>
    intro cs hcs x
    have h1 : char_range_interval true cs p.1 p.2 =
        interval_set.subtract cs (discrete_interval.closed p.1 p.2) := by
      simp [char_range_interval]
    rw [List.foldl_cons, h1, ih _ (subtract_ordered cs _ hcs), mem_subtract cs _ hcs, mem_closed]
    simp only [List.mem_cons, exists_eq_or_imp]
    rw [not_or, and_assoc]
/-! ## A class and its complement class -/

theorem looks_after_caret (a x : Int) (rest : List Int) (p : Nat) (hp : 1 ≤ p) :
    looks (a :: x :: rest) (p + 1) (a :: rest) p := by
  obtain ⟨q, rfl⟩ : ∃ q, p = q + 1 := ⟨p - 1, by omega⟩
  constructor
  · simp
  · simp only [List.length_cons]
    constructor <;> intro h <;> omega

theorem looks_cast (regex2 : List Int) (p : Nat) (regex1 : List Int) (q p2 q2 : Nat)
    (h : looks regex2 p regex1 q) (hp : p2 = p) (hq : q2 = q) : looks regex2 p2 regex1 q2 := by
  subst hp hq
  exact h

theorem fuel_pos_of_ok {α : Type} (f : Nat → Except parse_error α)
    (h0 : f 0 = .error parse_error.out_of_fuel) (fuel : Nat) (r : α) (h : f fuel = .ok r) :
    ∃ f1, fuel = f1 + 1 := by
  cases fuel with
  | zero => rw [h0] at h; cases h
  | succ f1 => exact ⟨f1, rfl⟩

/-- The parse of `[^B]`, from the parse of `[B]` for a body `B` that does not
begin with `^`: the class loop handles the same intervals, and subtracts them
from the universe instead of adding them to the empty set. -/
theorem complement_class_parse (lim : char_limits) (B : List Int) (X : interval_set)
    (fuel e : Nat) (hB : B.head? ≠ some (ch '^'))
    (h : parse_regex lim (ch '[' :: (B ++ [ch ']'])) fuel 0 =
      .ok (regex_node.alternative [regex_node.concatenate [regex_node.character_set X]], e)) :
    ∃ ops : List (Int × Int),
      X = make_closed (ops.foldl (fun s p => char_range_interval false s p.1 p.2) []) ∧
      parse_regex lim (ch '[' :: ch '^' :: (B ++ [ch ']']))
          (parse_fuel (ch '[' :: ch '^' :: (B ++ [ch ']']))) 0 =
        .ok (regex_node.alternative [regex_node.concatenate [regex_node.character_set
          (make_closed (ops.foldl (fun s p => char_range_interval true s p.1 p.2)
            (interval_set.add [] (discrete_interval.closed lim.min lim.max))))]], e + 1) := by
  have hlook : ∀ p, 1 ≤ p →
      looks (ch '[' :: ch '^' :: (B ++ [ch ']'])) (p + 1) (ch '[' :: (B ++ [ch ']'])) p :=
    fun p hp => looks_after_caret _ _ _ p hp
  have hlen : (ch '[' :: ch '^' :: (B ++ [ch ']'])).length =
      (ch '[' :: (B ++ [ch ']'])).length + 1 := by simp
  obtain ⟨c1, h11, hc1⟩ : ∃ c1, (ch '[' :: (B ++ [ch ']']))[0 + 1]? = some c1 ∧ c1 ≠ ch '^' := by
    cases hb : B with
    | nil => exact ⟨ch ']', by simp, by decide⟩
    | cons c rest =>
      rw [hb] at hB
      exact ⟨c, by simp, fun h => hB (by simp [h])⟩
  generalize hr1 : ch '[' :: (B ++ [ch ']']) = r1 at h hlook hlen h11
  generalize hr2 : ch '[' :: ch '^' :: (B ++ [ch ']']) = r2 at hlook hlen
  have h10 : r1[0]? = some (ch '[') := by rw [← hr1]; simp
  have h20 : r2[0]? = some (ch '[') := by rw [← hr2]; simp
  have h21 : r2[0 + 1]? = some (ch '^') := by rw [← hr2]; simp
  have hlen1 : 0 ≠ r1.length := by rw [← hr1]; simp
  have hlen2 : 0 ≠ r2.length := by rw [← hr2]; simp
  -- parse_regex
  obtain ⟨f1, rfl⟩ := fuel_pos_of_ok (fun f => parse_regex lim r1 f 0) (by simp [parse_regex]; rfl)
    fuel _ h
  obtain ⟨factor, b1, hfac, hloop⟩ := (regex_ok_iff lim r1 f1 0 _ _).1 h
  obtain ⟨n4, more4, he4, hr4, htr4⟩ := (parser_transfer lim r1 f1).2.2.2.1 _ _ _ _ hloop
  simp only [regex_node.alternative.injEq, List.singleton_append, List.cons.injEq] at hr4
  obtain ⟨hfactor, hmore4⟩ := hr4
  subst hfactor
  subst hmore4
  -- parse_factor
  obtain ⟨f2, rfl⟩ := fuel_pos_of_ok (fun f => parse_factor_loop lim r1 f [] 0)
    (by simp [parse_factor_loop]; rfl) f1 _ hfac
  rcases (factor_ok_iff lim r1 f2 [] 0 _ _).1 hfac with ⟨hb, _⟩ | ⟨_, nt, b2, hterm, hcase⟩
  · exact absurd hb hlen1
  rcases hcase with ⟨_, hr, _⟩ | ⟨t, rfl, hloop2⟩
  · simp at hr
  obtain ⟨n3, more3, he3, hr3, htr3⟩ := (parser_transfer lim r1 f2).2.2.1 _ _ _ _ hloop2
  simp only [regex_node.concatenate.injEq, List.nil_append, List.singleton_append,
    List.cons.injEq] at hr3
  obtain ⟨ht, hmore3⟩ := hr3
  subst ht
  subst hmore3
  -- parse_term
  obtain ⟨f3, rfl⟩ := fuel_pos_of_ok (fun f => parse_term lim r1 f 0)
    (by simp [parse_term]; rfl) f2 _ hterm
  obtain ⟨cr, b3, hatom, hcase⟩ := (term_ok_iff lim r1 f3 0 _ _).1 hterm
  rcases hcase with ⟨hq, hcr, hb23⟩ | ⟨t0, c, oper, _, _, _, hr, _⟩
  swap
  · simp at hr
  subst hcr
  subst hb23
  -- parse_atom
  obtain ⟨f4, rfl⟩ := fuel_pos_of_ok (fun f => parse_atom lim r1 f 0)
    (by simp [parse_atom]; rfl) f3 _ hatom
  obtain ⟨c, hc, hne, hcase⟩ := (atom_ok_iff lim r1 f4 0 _ _).1 hatom
  have hcb : c = ch '[' := by
    rw [deref_some r1 0 _ h10] at hc
    simp only [Except.ok.injEq] at hc
    exact hc.symm
  subst hcb
  rcases hcase with ⟨_, hr, _⟩ | ⟨hr, _⟩ | ⟨_, c2, node, hc2, hp, hnode⟩ | ⟨_, _, hr, _⟩
  · simp at hr
  · exact absurd hr (by decide)
  swap
  · exact absurd rfl hr
  have hc21 : c2 = c1 := by
    rw [deref_some r1 (0 + 1) _ h11] at hc2
    simp only [Except.ok.injEq] at hc2
    exact hc2.symm
  subst hc21
  simp only [Option.some.injEq] at hnode
  subst hnode
  rcases hp with ⟨hr, _⟩ | ⟨_, hp⟩
  · exact absurd hr hc1
  -- the class loop
  unfold parse_char_range at hp
  simp only [Bool.false_eq_true, if_false] at hp
  obtain ⟨n, ops, he, hn, hle, hr, htr⟩ := class_loop_transfer _ _ _ _ _ _ _ _ _ hp
  simp only [regex_node.character_set.injEq] at hr
  refine ⟨ops, hr, ?_⟩
  have hY := htr r2 true (interval_set.add [] (discrete_interval.closed lim.min lim.max))
    (0 + 2) (r2.length + 1) (by omega)
    (fun k hk => looks_cast r2 _ r1 _ _ _ (hlook (1 + k) (by omega))
      (by omega) (by omega))
  -- the parse of the complement class
  have atom2 : parse_atom lim r2 (f4 + 1) 0 = .ok (some (regex_node.character_set
      (make_closed (ops.foldl (fun s p => char_range_interval true s p.1 p.2)
        (interval_set.add [] (discrete_interval.closed lim.min lim.max))))), 0 + 2 + n) :=
    (atom_ok_iff lim r2 f4 0 _ _).2 ⟨ch '[', deref_some r2 0 _ h20, by decide,
      Or.inr (Or.inr (Or.inl ⟨rfl, ch '^', _, deref_some r2 (0 + 1) _ h21,
        Or.inl ⟨rfl, by unfold parse_char_range; simp only [if_true]; exact hY⟩, rfl⟩))⟩
  have hq2 : no_quantifier r2 (0 + 2 + n) :=
    no_quantifier_of_looks _ _ _ _
      (looks_cast r2 _ r1 _ _ _ (hlook (1 + n) (by omega)) (by omega) (by omega))
      hq
  have term2 := (term_ok_iff lim r2 (f4 + 1) 0 _ _).2
    ⟨_, _, atom2, Or.inl ⟨hq2, rfl, rfl⟩⟩
  have loop2 := htr3 r2 (0 + 2 + n) (f4 + 1 + 1) [regex_node.character_set
      (make_closed (ops.foldl (fun s p => char_range_interval true s p.1 p.2)
        (interval_set.add [] (discrete_interval.closed lim.min lim.max))))] (le_refl _)
    (fun k hk => looks_cast r2 _ r1 _ _ _ (hlook (1 + n + k) (by omega))
      (by omega) (by omega))
  have factor2 := (factor_ok_iff lim r2 (f4 + 1 + 1) [] 0 _ _).2
    (Or.inr ⟨hlen2, _, _, term2, Or.inr ⟨_, rfl, loop2⟩⟩)
  have loop4 := htr4 r2 (0 + 2 + n + n3) (f4 + 1 + 1 + 1) [regex_node.concatenate
      [regex_node.character_set
        (make_closed (ops.foldl (fun s p => char_range_interval true s p.1 p.2)
          (interval_set.add [] (discrete_interval.closed lim.min lim.max))))]] (le_refl _)
    (fun k hk => looks_cast r2 _ r1 _ _ _ (hlook (1 + n + n3 + k) (by omega))
      (by omega) (by omega))
  have regex2 := (regex_ok_iff lim r2 (f4 + 1 + 1 + 1) 0 _ _).2 ⟨_, _, factor2, loop4⟩
  have hfin := regex_ok_at lim r2 _ (parse_fuel r2) 0 _ regex2 (by unfold parse_fuel; omega)
  rw [hfin]
  simp only [List.nil_append, List.singleton_append, List.append_nil]
  congr 2
  omega
/-! ## Evaluation at concrete inputs -/

theorem nfa_path_of_trace {T : Type} [TokenInfo T] (nfa : List (nfa_node T)) :
    ∀ (tr : List (Option Int × Nat)) (p : Nat), nfa_trace_ok nfa p tr = true →
      nfa_path nfa p (trace_word tr) (trace_end p tr) := by
  intro tr
  induction tr with
  | nil => intro p _; exact nfa_path.nil p
  | cons e rest ih =>
    intro p h
    obtain ⟨o, q⟩ := e
    cases o with
    | none =>
      simp only [nfa_trace_ok, Bool.and_eq_true, List.any_eq_true, beq_iff_eq] at h
      obtain ⟨⟨t, ht, hte, htn⟩, hrest⟩ := h
      exact nfa_path.eps p q _ _ t ht hte htn (ih q hrest)
    | some s =>
      simp only [nfa_trace_ok, Bool.and_eq_true, List.any_eq_true, beq_iff_eq,
        Bool.not_eq_true', decide_eq_true_eq] at h
      obtain ⟨⟨t, ht, ⟨hte, hm⟩, htn⟩, hrest⟩ := h
      exact nfa_path.step p q _ s _ t ht hte hm htn (ih q hrest)

/-- C3, evaluated at the DFA of the production `(ab?)?`: before `optimize()` the
run over "ab" ends in a terminal state, after `optimize()` there is no run over
"ab" at all, so the recognised language is not preserved. -/
theorem optimize_changes_language :
    ∃ (n : nfa (basic_token_info Nat)) (d d1 : dfa (basic_token_info Nat)),
      nfa.ctor char8 [⟨⟨0, 7⟩, str "(ab?)?"⟩] = .ok n ∧
      dfa.ctor n.heap n._start = some d ∧ d.optimize = some d1 ∧
      (∃ q, dfa_run d.heap d._initial (str "ab") = some q ∧
        (dfa_at d.heap q).terminal d.nfa = true) ∧
      dfa_run d1.heap d1._initial (str "ab") = none ∧ d1._nodes.length = 1 := by
  refine ⟨_, _, _, rfl, rfl, rfl, ⟨_, rfl, ?_⟩, ?_, ?_⟩ <;> decide
/-! ## Transitions and paths of an arena -/

theorem mem_trans_push {T : Type} [TokenInfo T] (H : List (nfa_node T)) (p q : Nat)
    (t tr : nfa_transition) :
    tr ∈ (nfa_at (nfa_push H p t) q).transitions ↔
      tr ∈ (nfa_at H q).transitions ∨ (q = p ∧ p < H.length ∧ tr = t) := by
  unfold nfa_at nfa_push
  rw [modify_at_get]
  by_cases hq : q = p
  · subst hq
    rw [if_pos rfl]
    by_cases hp : q < H.length
    · rw [List.getElem?_eq_getElem hp]
      simp only [Option.map_some', Option.getD_some, List.mem_append, List.mem_singleton,
        true_and, hp]
    · rw [List.getElem?_eq_none (by omega)]
      simp only [Option.map_none', Option.getD_none, hp, false_and, and_false, or_false]
  · rw [if_neg hq]
    simp only [hq, false_and, or_false]

theorem mem_trans_append {T : Type} [TokenInfo T] (H extra : List (nfa_node T)) (q : Nat)
    (tr : nfa_transition) (he : ∀ n ∈ extra, n.transitions = []) :
    tr ∈ (nfa_at (H ++ extra) q).transitions ↔ tr ∈ (nfa_at H q).transitions := by
  unfold nfa_at
  by_cases hq : q < H.length
  · rw [List.getElem?_append_left hq]
  · rw [List.getElem?_append_right (by omega), List.getElem?_eq_none (l := H) (by omega)]
    have h1 : ((extra[q - H.length]?).getD nfa_node.fresh).transitions = [] := by
      cases hx : extra[q - H.length]? with
      | none => rfl
      | some n =>
        obtain ⟨hlt, hget⟩ := List.getElem?_eq_some_iff.1 hx
        exact he n (hget ▸ List.getElem_mem _)
    rw [h1]
    simp only [Option.getD_none]
    constructor
    · intro h; cases h
    · intro h; cases h

theorem mem_trans_foldl_push {T : Type} [TokenInfo T] (last : Nat) (ts : List nfa_transition) :
    ∀ (H : List (nfa_node T)) (q : Nat) (tr : nfa_transition),
      tr ∈ (nfa_at (ts.foldl (fun h transition => nfa_push h last transition) H) q).transitions ↔
        tr ∈ (nfa_at H q).transitions ∨ (q = last ∧ last < H.length ∧ tr ∈ ts) := by
  induction ts with
  | nil => intro H q tr; simp
  | cons t ts ih =>
    intro H q tr
    rw [List.foldl_cons, ih, mem_trans_push, nfa_push_length]
    simp only [List.mem_cons]
    tauto

theorem foldl_push_length {T : Type} (last : Nat) (ts : List nfa_transition) :
    ∀ (H : List (nfa_node T)),
      (ts.foldl (fun h transition => nfa_push h last transition) H).length = H.length := by
  induction ts with
  | nil => intro H; rfl
  | cons t ts ih => intro H; rw [List.foldl_cons, ih, nfa_push_length]

theorem trans_beyond {T : Type} [TokenInfo T] (H : List (nfa_node T)) (q : Nat)
    (hq : H.length ≤ q) (tr : nfa_transition) : tr ∉ (nfa_at H q).transitions := by
  unfold nfa_at
  rw [List.getElem?_eq_none hq]
  intro h
  cases h

theorem path_n_of_path {T : Type} [TokenInfo T] (H : List (nfa_node T)) (p q : Nat)
    (w : List Int) (h : nfa_path H p w q) : ∃ n, nfa_path_n H p w q n := by
  induction h with
  | nil p => exact ⟨0, nfa_path_n.nil p⟩
  | eps p q r w t h1 h2 h3 _ ih =>
    obtain ⟨n, hn⟩ := ih
    exact ⟨n + 1, nfa_path_n.eps p q r w t n h1 h2 h3 hn⟩
  | step p q r s w t h1 h2 h3 h4 _ ih =>
    obtain ⟨n, hn⟩ := ih
    exact ⟨n + 1, nfa_path_n.step p q r s w t n h1 h2 h3 h4 hn⟩

theorem path_of_path_n {T : Type} [TokenInfo T] (H : List (nfa_node T)) (p q : Nat)
    (w : List Int) (n : Nat) (h : nfa_path_n H p w q n) : nfa_path H p w q := by
  induction h with
  | nil p => exact nfa_path.nil p
  | eps p q r w t n h1 h2 h3 _ ih => exact nfa_path.eps p q r w t h1 h2 h3 ih
  | step p q r s w t n h1 h2 h3 h4 _ ih => exact nfa_path.step p q r s w t h1 h2 h3 h4 ih

theorem path_append {T : Type} [TokenInfo T] (H : List (nfa_node T)) (p q r : Nat)
    (u v : List Int) (h1 : nfa_path H p u q) (h2 : nfa_path H q v r) :
    nfa_path H p (u ++ v) r := by
  induction h1 with
  | nil p => exact h2
  | eps p q r1 w t e1 e2 e3 _ ih => exact nfa_path.eps p q r _ t e1 e2 e3 (ih h2)
  | step p q r1 s w t e1 e2 e3 e4 _ ih => exact nfa_path.step p q r s _ t e1 e2 e3 e4 (ih h2)

theorem path_mono {T : Type} [TokenInfo T] (H H2 : List (nfa_node T))
    (hm : ∀ p tr, tr ∈ (nfa_at H p).transitions → tr ∈ (nfa_at H2 p).transitions)
    (p q : Nat) (w : List Int) (h : nfa_path H p w q) : nfa_path H2 p w q := by
  induction h with
  | nil p => exact nfa_path.nil p
  | eps p q r w t e1 e2 e3 _ ih => exact nfa_path.eps p q r w t (hm p t e1) e2 e3 ih
  | step p q r s w t e1 e2 e3 e4 _ ih =>
    exact nfa_path.step p q r s w t (hm p t e1) e2 e3 e4 ih

/-- The first transition of a path. -/
theorem path_n_cases {T : Type} [TokenInfo T] (H : List (nfa_node T)) (p q : Nat)
    (w : List Int) (n : Nat) (h : nfa_path_n H p w q n) :
    (n = 0 ∧ w = [] ∧ q = p) ∨
    ∃ m tr, n = m + 1 ∧ tr ∈ (nfa_at H p).transitions ∧
      ((tr.epsilon = true ∧ nfa_path_n H tr.next w q m) ∨
       (tr.epsilon = false ∧ ∃ s w1, w = s :: w1 ∧ interval_set.mem s tr.characters ∧
          nfa_path_n H tr.next w1 q m)) := by
  cases h with
  | nil => exact Or.inl ⟨rfl, rfl, rfl⟩
  | eps _ q1 _ _ t m e1 e2 e3 h1 =>
    subst e3
    exact Or.inr ⟨m, t, rfl, e1, Or.inl ⟨e2, h1⟩⟩
  | step _ q1 _ s w1 t m e1 e2 e3 e4 h1 =>
    subst e4
    exact Or.inr ⟨m, t, rfl, e1, Or.inr ⟨e2, s, w1, rfl, e3, h1⟩⟩

theorem path_n_stuck {T : Type} [TokenInfo T] (H : List (nfa_node T)) (p q : Nat)
    (w : List Int) (n : Nat) (hs : ∀ tr, tr ∉ (nfa_at H p).transitions)
    (h : nfa_path_n H p w q n) : n = 0 ∧ w = [] ∧ q = p := by
  rcases path_n_cases H p q w n h with h1 | ⟨m, tr, _, htr, _⟩
  · exact h1
  · exact absurd htr (hs tr)

theorem path_stuck {T : Type} [TokenInfo T] (H : List (nfa_node T)) (p q : Nat)
    (w : List Int) (hs : ∀ tr, tr ∉ (nfa_at H p).transitions)
    (h : nfa_path H p w q) : w = [] ∧ q = p := by
  obtain ⟨n, hn⟩ := path_n_of_path H p q w h
  exact (path_n_stuck H p q w n hs hn).2

/-- A path that starts in a set of nodes that no transition leaves ends in it. -/
theorem path_closed {T : Type} [TokenInfo T] (H : List (nfa_node T)) (R : Nat → Prop)
    (hcl : ∀ p, R p → ∀ tr ∈ (nfa_at H p).transitions, R tr.next)
    (p q : Nat) (w : List Int) (h : nfa_path H p w q) : R p → R q := by
  induction h with
  | nil p => exact id
  | eps p q r w t e1 e2 e3 _ ih => intro hp; exact ih (e3 ▸ hcl p hp t e1)
  | step p q r s w t e1 e2 e3 e4 _ ih => intro hp; exact ih (e4 ▸ hcl p hp t e1)

/-- A path of `H2` that starts in a region whose nodes, except the node `e`,
have in `H2` only the transitions that they have in `H`, and that no transition
of `H` leaves: it is a path of `H`, or it is a path of `H` to `e` followed by a
path of `H2` from `e`. -/
theorem path_split {T : Type} [TokenInfo T] (H H2 : List (nfa_node T)) (R : Nat → Prop)
    (e : Nat)
    (hsub : ∀ p, R p → p ≠ e → ∀ tr, tr ∈ (nfa_at H2 p).transitions →
      tr ∈ (nfa_at H p).transitions)
    (hcl : ∀ p, R p → ∀ tr ∈ (nfa_at H p).transitions, R tr.next) (q : Nat) :
    ∀ (n p : Nat) (w : List Int), R p → nfa_path_n H2 p w q n →
      nfa_path H p w q ∨
      ∃ u v m, m ≤ n ∧ w = u ++ v ∧ nfa_path H p u e ∧ nfa_path_n H2 e v q m := by
  intro n
  induction n with
  | zero =>
    intro p w hp h
    rcases path_n_cases H2 p q w 0 h with ⟨_, rfl, rfl⟩ | ⟨m, _, hm, _⟩
    · exact Or.inl (nfa_path.nil _)
    · omega
  | succ n ih =>
    intro p w hp h
    by_cases hpe : p = e
    · subst hpe
      exact Or.inr ⟨[], w, n + 1, le_refl _, rfl, nfa_path.nil _, h⟩
    · rcases path_n_cases H2 p q w (n + 1) h with ⟨h0, _⟩ | ⟨m, tr, hm, htr, hcase⟩
      · omega
      · have hm : m = n := by omega
        subst hm
        have htr1 := hsub p hp hpe tr htr
        have hnext := hcl p hp tr htr1
        rcases hcase with ⟨he, hrest⟩ | ⟨he, s, w1, rfl, hs, hrest⟩
        · rcases ih tr.next w hnext hrest with h1 | ⟨u, v, k, hk, rfl, h1, h2⟩
          · exact Or.inl (nfa_path.eps p tr.next q w tr htr1 he rfl h1)
          · exact Or.inr ⟨u, v, k, by omega, rfl,
              nfa_path.eps p tr.next e u tr htr1 he rfl h1, h2⟩
        · rcases ih tr.next w1 hnext hrest with h1 | ⟨u, v, k, hk, rfl, h1, h2⟩
          · exact Or.inl (nfa_path.step p tr.next q s w1 tr htr1 he hs rfl h1)
          · exact Or.inr ⟨s :: u, v, k, by omega, rfl,
              nfa_path.step p tr.next e s u tr htr1 he hs rfl h1, h2⟩

/-- A path of a later arena that starts at the begin of a segment and ends at
its end or outside of it: it spells a word of the segment and goes on from the
end of the segment. -/
theorem through_child_n {T : Type} [TokenInfo T] (h H0 H2 : List (nfa_node T))
    (seg : nfa_segment) (L : List Int → Prop) (hs : segment_sound h (seg, H0) L)
    (hsub : ∀ p, h.length ≤ p → p < H0.length → p ≠ seg.end →
      ∀ tr, tr ∈ (nfa_at H2 p).transitions → tr ∈ (nfa_at H0 p).transitions)
    (q : Nat) (hq : q = seg.end ∨ ¬ (h.length ≤ q ∧ q < H0.length))
    (w : List Int) (n : Nat) (hp : nfa_path_n H2 seg.begin w q n) :
    ∃ u v m, m ≤ n ∧ w = u ++ v ∧ L u ∧ nfa_path_n H2 seg.end v q m := by
  have hcl : ∀ p, (h.length ≤ p ∧ p < H0.length) → ∀ tr ∈ (nfa_at H0 p).transitions,
      (h.length ≤ tr.next ∧ tr.next < H0.length) := fun p hp tr htr => hs.closed p hp.1 tr htr
  rcases path_split H0 H2 (fun p => h.length ≤ p ∧ p < H0.length) seg.end
    (fun p hp hne tr htr => hsub p hp.1 hp.2 hne tr htr) hcl q n seg.begin w hs.begin_in hp with
    h1 | ⟨u, v, m, hm, rfl, h1, h2⟩
  · have hqR := path_closed H0 _ hcl _ _ _ h1 hs.begin_in
    rcases hq with rfl | hq
    · exact ⟨w, [], 0, Nat.zero_le _, by simp, (hs.lang w).1 h1, nfa_path_n.nil _⟩
    · exact absurd hqR hq
  · exact ⟨u, v, m, hm, rfl, (hs.lang u).1 h1, h2⟩

theorem through_child {T : Type} [TokenInfo T] (h H0 H2 : List (nfa_node T))
    (seg : nfa_segment) (L : List Int → Prop) (hs : segment_sound h (seg, H0) L)
    (hsub : ∀ p, h.length ≤ p → p < H0.length → p ≠ seg.end →
      ∀ tr, tr ∈ (nfa_at H2 p).transitions → tr ∈ (nfa_at H0 p).transitions)
    (hmono : ∀ p tr, tr ∈ (nfa_at H0 p).transitions → tr ∈ (nfa_at H2 p).transitions)
    (q : Nat) (hq : q = seg.end ∨ ¬ (h.length ≤ q ∧ q < H0.length)) (w : List Int) :
    nfa_path H2 seg.begin w q ↔ ∃ u v, w = u ++ v ∧ L u ∧ nfa_path H2 seg.end v q := by
  constructor
  · intro hp
    obtain ⟨n, hn⟩ := path_n_of_path _ _ _ _ hp
    obtain ⟨u, v, m, _, hw, hu, hv⟩ := through_child_n h H0 H2 seg L hs hsub q hq w n hn
    exact ⟨u, v, hw, hu, path_of_path_n _ _ _ _ _ hv⟩
  · rintro ⟨u, v, rfl, hu, hv⟩
    exact path_append H2 _ _ _ u v (path_mono H0 H2 hmono _ _ _ ((hs.lang u).2 hu)) hv

theorem segment_sound_congr {T : Type} [TokenInfo T] (heap : List (nfa_node T))
    (r : nfa_segment × List (nfa_node T)) (L L2 : List Int → Prop)
    (h : ∀ w, L w ↔ L2 w) (hs : segment_sound heap r L) : segment_sound heap r L2 :=
  ⟨hs.grow, hs.frame, hs.closed, hs.begin_in, hs.end_in, hs.end_free,
    fun w => (hs.lang w).trans (h w)⟩

/-- Two nodes with the same transitions start the same paths to a third node. -/
theorem path_mirror {T : Type} [TokenInfo T] (H : List (nfa_node T)) (a b q : Nat)
    (hab : ∀ tr, tr ∈ (nfa_at H a).transitions → tr ∈ (nfa_at H b).transitions)
    (ha : a ≠ q) (w : List Int) (h : nfa_path H a w q) : nfa_path H b w q := by
  cases h with
  | nil => exact absurd rfl ha
  | eps _ q1 _ _ t e1 e2 e3 h1 => exact nfa_path.eps b q1 q w t (hab t e1) e2 e3 h1
  | step _ q1 _ s w1 t e1 e2 e3 e4 h1 =>
    exact nfa_path.step b q1 q s w1 t (hab t e1) e2 e3 e4 h1

theorem eps_step {T : Type} [TokenInfo T] (H : List (nfa_node T)) (p q r : Nat)
    (w : List Int) (h : nfa_transition.eps q ∈ (nfa_at H p).transitions)
    (hp : nfa_path H q w r) : nfa_path H p w r :=
  nfa_path.eps p q r w (nfa_transition.eps q) h rfl rfl hp

theorem star_lang_iff (L : List Int → Prop) (w : List Int) :
    star_lang L w ↔ w = [] ∨ ∃ u v, w = u ++ v ∧ L u ∧ star_lang L v := by
  constructor
  · intro h
    cases h with
    | nil => exact Or.inl rfl
    | app u v hu hv => exact Or.inr ⟨u, v, rfl, hu, hv⟩
  · rintro (rfl | ⟨u, v, rfl, hu, hv⟩)
    · exact star_lang.nil
    · exact star_lang.app u v hu hv
/-! ## The segments of a character set and of a quantified node -/

theorem mem_trans_fresh2 {T : Type} [TokenInfo T] (H : List (nfa_node T)) (q : Nat)
    (tr : nfa_transition) :
    tr ∈ (nfa_at (H ++ [nfa_node.fresh, nfa_node.fresh]) q).transitions ↔
      tr ∈ (nfa_at H q).transitions :=
  mem_trans_append H _ q tr fresh_pair_transitions

theorem mem_trans_fresh1 {T : Type} [TokenInfo T] (H : List (nfa_node T)) (q : Nat)
    (tr : nfa_transition) :
    tr ∈ (nfa_at (H ++ [nfa_node.fresh]) q).transitions ↔ tr ∈ (nfa_at H q).transitions :=
  mem_trans_append H _ q tr (by intro n hn; simp at hn; rw [hn]; rfl)

theorem character_set_sound {T : Type} [TokenInfo T] (cs : interval_set)
    (h : List (nfa_node T)) :
    segment_sound h (regex_node.nfa (regex_node.character_set cs) h)
      (regex_lang (regex_node.character_set cs)) ∧
    (regex_node.nfa (regex_node.character_set cs) h).1.begin ≠
      (regex_node.nfa (regex_node.character_set cs) h).1.end := by
  simp only [regex_node.nfa, new_segment]
  have hedge : ∀ p tr, tr ∈ (nfa_at (nfa_push (h ++ [nfa_node.fresh, nfa_node.fresh]) h.length
        (nfa_transition.labelled cs (h.length + 1))) p).transitions ↔
      tr ∈ (nfa_at h p).transitions ∨
        (p = h.length ∧ tr = nfa_transition.labelled cs (h.length + 1)) := by
    intro p tr
    rw [mem_trans_push, mem_trans_fresh2]
    simp only [List.length_append, List.length_cons, List.length_nil]
    constructor
    · rintro (h1 | ⟨h1, _, h2⟩)
      · exact Or.inl h1
      · exact Or.inr ⟨h1, h2⟩
    · rintro (h1 | ⟨h1, h2⟩)
      · exact Or.inl h1
      · exact Or.inr ⟨h1, by omega, h2⟩
  have hfree : ∀ tr, tr ∉ (nfa_at (nfa_push (h ++ [nfa_node.fresh, nfa_node.fresh]) h.length
      (nfa_transition.labelled cs (h.length + 1))) (h.length + 1)).transitions := by
    intro tr htr
    rcases (hedge _ _).1 htr with h1 | ⟨h1, _⟩
    · exact trans_beyond h _ (by omega) tr h1
    · omega
  refine ⟨⟨?_, ?_, ?_, ?_, ?_, hfree, ?_⟩, ?_⟩
  · simp [nfa_push_length]
  · intro p hp tr
    rw [hedge]
    constructor
    · rintro (h1 | ⟨h1, _⟩)
      · exact h1
      · omega
    · exact Or.inl
  · intro p hp tr htr
    rcases (hedge _ _).1 htr with h1 | ⟨_, rfl⟩
    · exact absurd h1 (trans_beyond h p hp tr)
    · simp [nfa_push_length, nfa_transition.labelled]
  · simp [nfa_push_length]
  · simp [nfa_push_length]
  · intro w
    simp only [regex_lang]
    constructor
    · intro hp
      obtain ⟨n, hn⟩ := path_n_of_path _ _ _ _ hp
      rcases path_n_cases _ _ _ _ _ hn with ⟨_, _, h0⟩ | ⟨m, tr, _, htr, hcase⟩
      · simp at h0
      · rcases (hedge _ _).1 htr with h1 | ⟨_, rfl⟩
        · exact absurd h1 (trans_beyond h _ (le_refl _) tr)
        · rcases hcase with ⟨he, _⟩ | ⟨_, s, w1, rfl, hs, hrest⟩
          · simp [nfa_transition.labelled] at he
          · obtain ⟨_, hw1, _⟩ := path_n_stuck _ _ _ _ _ hfree hrest
            subst hw1
            exact ⟨s, rfl, hs⟩
    · rintro ⟨s, rfl, hs⟩
      exact nfa_path.step _ _ _ s [] (nfa_transition.labelled cs (h.length + 1))
        ((hedge _ _).2 (Or.inr ⟨rfl, rfl⟩)) rfl hs rfl (nfa_path.nil _)
  · simp

/-- The segment of a quantified node, from the segment of its child: the begin
`rb` and the end `re` are new, `rb` leads to the begin of the child and the end
of the child leads to `re`; with `loop` the end of the child leads back to its
begin, with `skip` the node `rb` leads to `re`. -/
theorem operand_sound {T : Type} [TokenInfo T] (h H0 H2 : List (nfa_node T))
    (seg : nfa_segment) (L : List Int → Prop) ( loop skip : Bool)
    (hs : segment_sound h (seg, H0) L) (hlen : H2.length = H0.length + 2)
    (hedge : ∀ p tr, tr ∈ (nfa_at H2 p).transitions ↔
      tr ∈ (nfa_at H0 p).transitions ∨
      (p = H0.length ∧ tr = nfa_transition.eps seg.begin) ∨
      (p = seg.end ∧ tr = nfa_transition.eps (H0.length + 1)) ∨
      (loop = true ∧ p = seg.end ∧ tr = nfa_transition.eps seg.begin) ∨
      (skip = true ∧ p = H0.length ∧ tr = nfa_transition.eps (H0.length + 1))) :
    segment_sound h ((⟨H0.length, H0.length + 1⟩ : nfa_segment), H2)
      (fun w => (skip = true ∧ w = []) ∨
        ∃ u v, w = u ++ v ∧ L u ∧ (if loop = true then star_lang L v else v = [])) := by
  have hg := hs.grow
  have hb := hs.begin_in
  have he := hs.end_in
  simp only at hg hb he
  have hfree : ∀ tr, tr ∉ (nfa_at H2 (H0.length + 1)).transitions := by
    intro tr htr
    rcases (hedge _ _).1 htr with h1 | ⟨h1, _⟩ | ⟨h1, _⟩ | ⟨_, h1, _⟩ | ⟨_, h1, _⟩
    · exact trans_beyond H0 _ (by omega) tr h1
    all_goals omega
  have hsub : ∀ p, h.length ≤ p → p < H0.length → p ≠ seg.end →
      ∀ tr, tr ∈ (nfa_at H2 p).transitions → tr ∈ (nfa_at H0 p).transitions := by
    intro p _ hp hne tr htr
    rcases (hedge _ _).1 htr with h1 | ⟨h1, _⟩ | ⟨h1, _⟩ | ⟨_, h1, _⟩ | ⟨_, h1, _⟩
    · exact h1
    · omega
    · exact absurd h1 hne
    · exact absurd h1 hne
    · omega
  have hmono : ∀ p tr, tr ∈ (nfa_at H0 p).transitions → tr ∈ (nfa_at H2 p).transitions :=
    fun p tr htr => (hedge p tr).2 (Or.inl htr)
  have hout : (H0.length + 1 = seg.end) ∨ ¬ (h.length ≤ H0.length + 1 ∧ H0.length + 1 < H0.length) :=
    Or.inr (by omega)
  -- from the end of the child to the end of the segment
  have hfrom : ∀ n v, nfa_path_n H2 seg.end v (H0.length + 1) n →
      (if loop = true then star_lang L v else v = []) := by
    intro n
    induction n using Nat.strong_induction_on with
    | _ n ih =>
      intro v hp
      rcases path_n_cases _ _ _ _ _ hp with ⟨_, _, h0⟩ | ⟨m, tr, hm, htr, hcase⟩
      · omega
      · have hnil : (if loop = true then star_lang L [] else ([] : List Int) = []) := by
          split
          · exact star_lang.nil
          · rfl
        rcases (hedge _ _).1 htr with h1 | ⟨h1, _⟩ | ⟨_, rfl⟩ | ⟨hl, _, rfl⟩ | ⟨_, h1, _⟩
        · exact absurd h1 (hs.end_free tr)
        · omega
        · rcases hcase with ⟨_, hrest⟩ | ⟨hne, _⟩
          · obtain ⟨_, hv, _⟩ := path_n_stuck _ _ _ _ _ hfree hrest
            subst hv
            exact hnil
          · simp [nfa_transition.eps] at hne
        · rcases hcase with ⟨_, hrest⟩ | ⟨hne, _⟩
          · obtain ⟨u, v1, k, hk, rfl, hu, hv1⟩ :=
              through_child_n h H0 H2 seg L hs hsub _ hout v m hrest
            have h2 := ih k (by omega) v1 hv1
            rw [if_pos hl] at h2 ⊢
            exact star_lang.app u v1 hu h2
          · simp [nfa_transition.eps] at hne
        · omega
  have hto : ∀ v, (if loop = true then star_lang L v else v = []) →
      nfa_path H2 seg.end v (H0.length + 1) := by
    have hlast : nfa_path H2 seg.end [] (H0.length + 1) :=
      eps_step H2 _ _ _ [] ((hedge _ _).2 (Or.inr (Or.inr (Or.inl ⟨rfl, rfl⟩))))
        (nfa_path.nil _)
    intro v hv
    by_cases hl : loop = true
    · rw [if_pos hl] at hv
      induction hv with
      | nil => exact hlast
      | app u v1 hu _ ih =>
        refine eps_step H2 _ seg.begin _ _
          ((hedge _ _).2 (Or.inr (Or.inr (Or.inr (Or.inl ⟨hl, rfl, rfl⟩))))) ?_
        exact path_append H2 _ _ _ u v1 (path_mono H0 H2 hmono _ _ _ ((hs.lang u).2 hu)) ih
    · rw [if_neg hl] at hv
      subst hv
      exact hlast
  refine ⟨by simp only; omega, ?_, ?_, by simp only; omega, by simp only; omega, hfree, ?_⟩
  · intro p hp tr
    simp only
    rw [← hs.frame p hp tr]
    constructor
    · intro htr
      rcases (hedge _ _).1 htr with h1 | ⟨h1, _⟩ | ⟨h1, _⟩ | ⟨_, h1, _⟩ | ⟨_, h1, _⟩
      · exact h1
      all_goals omega
    · exact hmono p tr
  · intro p hp tr htr
    simp only at htr ⊢
    rcases (hedge _ _).1 htr with h1 | ⟨_, rfl⟩ | ⟨_, rfl⟩ | ⟨_, _, rfl⟩ | ⟨_, _, rfl⟩
    · have := hs.closed p hp tr h1
      simp only at this
      omega
    all_goals simp only [nfa_transition.eps]; omega
  · intro w
    simp only
    constructor
    · intro hp
      obtain ⟨n, hn⟩ := path_n_of_path _ _ _ _ hp
      rcases path_n_cases _ _ _ _ _ hn with ⟨_, _, h0⟩ | ⟨m, tr, hm, htr, hcase⟩
      · omega
      · rcases (hedge _ _).1 htr with h1 | ⟨_, rfl⟩ | ⟨h1, _⟩ | ⟨_, h1, _⟩ | ⟨hsk, _, rfl⟩
        · exact absurd h1 (trans_beyond H0 _ (le_refl _) tr)
        · rcases hcase with ⟨_, hrest⟩ | ⟨hne, _⟩
          · obtain ⟨u, v1, k, hk, rfl, hu, hv1⟩ :=
              through_child_n h H0 H2 seg L hs hsub _ hout w m hrest
            exact Or.inr ⟨u, v1, rfl, hu, hfrom k v1 hv1⟩
          · simp [nfa_transition.eps] at hne
        · omega
        · omega
        · rcases hcase with ⟨_, hrest⟩ | ⟨hne, _⟩
          · obtain ⟨_, hv, _⟩ := path_n_stuck _ _ _ _ _ hfree hrest
            exact Or.inl ⟨hsk, hv⟩
          · simp [nfa_transition.eps] at hne
    · rintro (⟨hsk, rfl⟩ | ⟨u, v, rfl, hu, hv⟩)
      · exact eps_step H2 _ _ _ []
          ((hedge _ _).2 (Or.inr (Or.inr (Or.inr (Or.inr ⟨hsk, rfl, rfl⟩))))) (nfa_path.nil _)
      · refine eps_step H2 _ seg.begin _ _ ((hedge _ _).2 (Or.inr (Or.inl ⟨rfl, rfl⟩))) ?_
        exact path_append H2 _ _ _ u v (path_mono H0 H2 hmono _ _ _ ((hs.lang u).2 hu))
          (hto v hv)

theorem operand_case {T : Type} [TokenInfo T] (child : regex_node) (oper : operator_type)
    (h : List (nfa_node T))
    (hs : segment_sound h (regex_node.nfa child h) (regex_lang child)) :
    segment_sound h (regex_node.nfa (regex_node.operand child oper) h)
      (regex_lang (regex_node.operand child oper)) ∧
    (regex_node.nfa (regex_node.operand child oper) h).1.begin ≠
      (regex_node.nfa (regex_node.operand child oper) h).1.end := by
  simp only [regex_node.nfa, new_segment]
  generalize regex_node.nfa child h = r at hs
  obtain ⟨seg, H0⟩ := r
  have he := hs.end_in
  simp only at he ⊢
  have l1 : H0.length < H0.length + 1 + 1 := by omega
  have l2 : seg.end < H0.length + 1 + 1 := by omega
  refine ⟨?_, by omega⟩
  cases oper with
  | plus =>
    refine segment_sound_congr _ _ _ _ ?_
      (operand_sound h H0 _ seg (regex_lang child) true false hs ?_ ?_)
    · intro w
      simp only [regex_lang, Bool.false_eq_true, false_and, false_or, if_true]
    · simp only [nfa_push_length, List.length_append, List.length_cons, List.length_nil]
    · intro p tr
      simp only [mem_trans_push, mem_trans_fresh2, nfa_push_length, List.length_append,
        List.length_cons, List.length_nil, Nat.zero_add, l1, l2, true_and,
        Bool.false_eq_true, false_and, or_false]
      tauto
  | star =>
    refine segment_sound_congr _ _ _ _ ?_
      (operand_sound h H0 _ seg (regex_lang child) true true hs ?_ ?_)
    · intro w
      simp only [regex_lang, true_and, if_true]
      exact (star_lang_iff _ w).symm
    · simp only [nfa_push_length, List.length_append, List.length_cons, List.length_nil]
    · intro p tr
      simp only [mem_trans_push, mem_trans_fresh2, nfa_push_length, List.length_append,
        List.length_cons, List.length_nil, Nat.zero_add, l1, l2, true_and]
      tauto
  | optional =>
    refine segment_sound_congr _ _ _ _ ?_
      (operand_sound h H0 _ seg (regex_lang child) false true hs ?_ ?_)
    · intro w
      simp only [regex_lang, true_and, Bool.false_eq_true, if_false]
      constructor
      · rintro (h1 | ⟨u, v, rfl, hu, rfl⟩)
        · exact Or.inl h1
        · exact Or.inr (by simpa using hu)
      · rintro (h1 | h1)
        · exact Or.inl h1
        · exact Or.inr ⟨w, [], by simp, h1, rfl⟩
    · simp only [nfa_push_length, List.length_append, List.length_cons, List.length_nil]
    · intro p tr
      simp only [mem_trans_push, mem_trans_fresh2, nfa_push_length, List.length_append,
        List.length_cons, List.length_nil, Nat.zero_add, l1, l2, true_and,
        Bool.false_eq_true, false_and, or_false, false_or]
      tauto
/-! ## The loops of the alternative and of the concatenation -/

theorem alt_cons {T : Type} [TokenInfo T] (Hk H0 H2 : List (nfa_node T))
    (cseg result : nfa_segment) (L Lrest : List Int → Prop)
    (hs : segment_sound Hk (cseg, H0) L)
    (hb : result.begin < Hk.length) (he : result.end < Hk.length)
    (hne : result.begin ≠ result.end)
    (hfree : ∀ tr, tr ∉ (nfa_at Hk result.end).transitions)
    (ih : alt_loop_sound
      (nfa_push (nfa_push H0 result.begin (nfa_transition.eps cseg.begin)) cseg.end
        (nfa_transition.eps result.end)) H2 result Lrest)
    (hold : ∀ tr ∈ (nfa_at Hk result.begin).transitions, tr.next < Hk.length) :
    alt_loop_sound Hk H2 result (fun w => L w ∨ Lrest w) := by
  have hg := hs.grow
  have hcb := hs.begin_in
  have hce := hs.end_in
  simp only at hg hcb hce
  have hedge : ∀ p tr, tr ∈ (nfa_at (nfa_push (nfa_push H0 result.begin
        (nfa_transition.eps cseg.begin)) cseg.end (nfa_transition.eps result.end)) p).transitions ↔
      tr ∈ (nfa_at H0 p).transitions ∨
        (p = result.begin ∧ tr = nfa_transition.eps cseg.begin) ∨
        (p = cseg.end ∧ tr = nfa_transition.eps result.end) := by
    intro p tr
    have l1 : result.begin < H0.length := by omega
    simp only [mem_trans_push, nfa_push_length, l1, hce.2, true_and]
    tauto
  have hlen : (nfa_push (nfa_push H0 result.begin (nfa_transition.eps cseg.begin)) cseg.end
      (nfa_transition.eps result.end)).length = H0.length := by
    simp only [nfa_push_length]
  have ihg := ih.grow
  rw [hlen] at ihg
  have hmono0 : ∀ p tr, tr ∈ (nfa_at H0 p).transitions → tr ∈ (nfa_at H2 p).transitions :=
    fun p tr htr => ih.mono p tr ((hedge p tr).2 (Or.inl htr))
  have hsub : ∀ p, Hk.length ≤ p → p < H0.length → p ≠ cseg.end →
      ∀ tr, tr ∈ (nfa_at H2 p).transitions → tr ∈ (nfa_at H0 p).transitions := by
    intro p hp1 hp2 hpe tr htr
    rcases (hedge p tr).1 (ih.frame p (by rw [hlen]; exact hp2) (by omega) tr htr) with
      h1 | ⟨h1, _⟩ | ⟨h1, _⟩
    · exact h1
    · omega
    · exact absurd h1 hpe
  have hre : ∀ tr, tr ∉ (nfa_at H2 result.end).transitions := by
    intro tr htr
    rcases (hedge _ tr).1 (ih.frame _ (by rw [hlen]; omega) (Ne.symm hne) tr htr) with
      h1 | ⟨h1, _⟩ | ⟨h1, _⟩
    · exact hfree tr ((hs.frame _ he tr).1 h1)
    · exact hne h1.symm
    · omega
  have hend : ∀ v, nfa_path H2 cseg.end v result.end ↔ v = [] := by
    intro v
    constructor
    · intro hp
      obtain ⟨n, hn⟩ := path_n_of_path _ _ _ _ hp
      rcases path_n_cases _ _ _ _ _ hn with ⟨_, _, h0⟩ | ⟨m, tr, hm, htr, hcase⟩
      · omega
      · rcases (hedge _ tr).1 (ih.frame _ (by rw [hlen]; omega) (by omega) tr htr) with
          h1 | ⟨h1, _⟩ | ⟨_, rfl⟩
        · exact absurd h1 (hs.end_free tr)
        · omega
        · rcases hcase with ⟨_, hrest⟩ | ⟨hx, _⟩
          · exact (path_n_stuck _ _ _ _ _ hre hrest).2.1
          · simp [nfa_transition.eps] at hx
    · rintro rfl
      exact eps_step H2 _ _ _ [] (ih.mono _ _ ((hedge _ _).2 (Or.inr (Or.inr ⟨rfl, rfl⟩))))
        (nfa_path.nil _)
  have hchild : ∀ w, nfa_path H2 cseg.begin w result.end ↔ L w := by
    intro w
    rw [through_child Hk H0 H2 cseg L hs hsub hmono0 result.end (Or.inr (by omega)) w]
    constructor
    · rintro ⟨u, v, rfl, hu, hv⟩
      rw [(hend v).1 hv, List.append_nil]
      exact hu
    · intro hw
      exact ⟨w, [], by simp, hw, (hend []).2 rfl⟩
  refine ⟨by omega, ?_, ?_, ?_, ?_, ?_⟩
  · intro p tr htr
    by_cases hp : p < Hk.length
    · exact hmono0 p tr ((hs.frame p hp tr).2 htr)
    · exact absurd htr (trans_beyond Hk p (by omega) tr)
  · intro p hp hpb tr htr
    rcases (hedge p tr).1 (ih.frame p (by rw [hlen]; omega) hpb tr htr) with
      h1 | ⟨h1, _⟩ | ⟨h1, _⟩
    · exact (hs.frame p hp tr).1 h1
    · exact absurd h1 hpb
    · omega
  · intro tr htr
    rcases ih.entry tr htr with h1 | ⟨h1, h2, h3⟩
    · rcases (hedge _ tr).1 h1 with h1 | ⟨_, rfl⟩ | ⟨h1, _⟩
      · exact Or.inl ((hs.frame _ hb tr).1 h1)
      · exact Or.inr ⟨rfl, by simp only [nfa_transition.eps]; omega,
          by simp only [nfa_transition.eps]; omega⟩
      · omega
    · rw [hlen] at h2
      exact Or.inr ⟨h1, by omega, h3⟩
  · intro p hp tr htr
    by_cases hp2 : p < H0.length
    · rcases (hedge p tr).1 (ih.frame p (by rw [hlen]; exact hp2) (by omega) tr htr) with
        h1 | ⟨h1, _⟩ | ⟨_, rfl⟩
      · have := hs.closed p hp tr h1
        simp only at this
        exact Or.inl ⟨this.1, by omega⟩
      · omega
      · exact Or.inr rfl
    · rcases ih.closed p (by rw [hlen]; omega) tr htr with ⟨h1, h2⟩ | h1
      · rw [hlen] at h1
        exact Or.inl ⟨by omega, h2⟩
      · exact Or.inr h1
  · intro w
    constructor
    · rintro ⟨tr, htr, hn, hp⟩
      rcases ih.entry tr htr with h1 | ⟨h1, h2, h3⟩
      · rcases (hedge _ tr).1 h1 with h1 | ⟨_, rfl⟩ | ⟨h1, _⟩
        · have := hold tr ((hs.frame _ hb tr).1 h1)
          omega
        · exact Or.inl ((hchild w).1 hp)
        · omega
      · exact Or.inr ((ih.lang w).1 ⟨tr, htr, h2, hp⟩)
    · rintro (hw | hw)
      · exact ⟨nfa_transition.eps cseg.begin,
          ih.mono _ _ ((hedge _ _).2 (Or.inr (Or.inl ⟨rfl, rfl⟩))), hcb.1, (hchild w).2 hw⟩
      · obtain ⟨tr, htr, hn, hp⟩ := (ih.lang w).2 hw
        rw [hlen] at hn
        exact ⟨tr, htr, by omega, hp⟩

theorem alt_nil {T : Type} [TokenInfo T] (Hk : List (nfa_node T)) (result : nfa_segment)
    (hold : ∀ tr ∈ (nfa_at Hk result.begin).transitions, tr.next < Hk.length) :
    alt_loop_sound Hk Hk result (fun _ => False) := by
  refine ⟨le_refl _, fun _ _ h => h, fun _ _ _ _ h => h, fun _ h => Or.inl h, ?_, ?_⟩
  · intro p hp tr htr
    exact absurd htr (trans_beyond Hk p hp tr)
  · intro w
    constructor
    · rintro ⟨tr, htr, hn, _⟩
      have := hold tr htr
      omega
    · exact False.elim

theorem alt_top {T : Type} [TokenInfo T] (h H2 : List (nfa_node T)) (L : List Int → Prop)
    (hl : alt_loop_sound (h ++ [nfa_node.fresh, nfa_node.fresh]) H2
      ⟨h.length, h.length + 1⟩ L) :
    segment_sound h ((⟨h.length, h.length + 1⟩ : nfa_segment), H2) L := by
  have hg := hl.grow
  simp only [List.length_append, List.length_cons, List.length_nil] at hg
  have hnew : ∀ p tr, ¬ tr ∈ (nfa_at (h ++ [nfa_node.fresh, nfa_node.fresh]) p).transitions ∨
      p < h.length := by
    intro p tr
    by_cases hp : p < h.length
    · exact Or.inr hp
    · left
      rw [mem_trans_fresh2]
      exact trans_beyond h p (by omega) tr
  have hre : ∀ tr, tr ∉ (nfa_at H2 (h.length + 1)).transitions := by
    intro tr htr
    have := hl.frame (h.length + 1) (by simp) (by simp) tr htr
    rcases hnew (h.length + 1) tr with h1 | h1
    · exact h1 this
    · omega
  refine ⟨by simp only; omega, ?_, ?_, by simp only; omega, by simp only; omega, hre, ?_⟩
  · intro p hp tr
    simp only
    rw [← mem_trans_fresh2 h p tr]
    constructor
    · exact hl.frame p (by simp; omega) (by simp only; omega) tr
    · exact hl.mono p tr
  · intro p hp tr htr
    simp only at htr ⊢
    by_cases hp0 : p = h.length
    · subst hp0
      rcases hl.entry tr htr with h1 | ⟨_, h2, h3⟩
      · rcases hnew h.length tr with h2 | h2
        · exact absurd h1 h2
        · omega
      · simp only [List.length_append, List.length_cons, List.length_nil] at h2
        omega
    · by_cases hp1 : p = h.length + 1
      · subst hp1
        exact absurd htr (hre tr)
      · rcases hl.closed p (by simp; omega) tr htr with ⟨h2, h3⟩ | h2
        · simp only [List.length_append, List.length_cons, List.length_nil] at h2
          omega
        · simp only at h2
          omega
  · intro w
    simp only
    rw [← hl.lang w]
    constructor
    · intro hp
      obtain ⟨n, hn⟩ := path_n_of_path _ _ _ _ hp
      rcases path_n_cases _ _ _ _ _ hn with ⟨_, _, h0⟩ | ⟨m, tr, hm, htr, hcase⟩
      · omega
      · rcases hl.entry tr htr with h1 | ⟨h1, h2, h3⟩
        · rcases hnew h.length tr with h2 | h2
          · exact absurd h1 h2
          · omega
        · rcases hcase with ⟨_, hrest⟩ | ⟨hx, _⟩
          · exact ⟨tr, htr, h2, path_of_path_n _ _ _ _ _ hrest⟩
          · rw [h1] at hx; cases hx
    · rintro ⟨tr, htr, hn, hp⟩
      rcases hl.entry tr htr with h1 | ⟨h1, h2, h3⟩
      · rcases hnew h.length tr with h2 | h2
        · exact absurd h1 h2
        · omega
      · exact nfa_path.eps _ _ _ w tr htr h1 rfl hp

theorem concat_nil {T : Type} [TokenInfo T] (Hk : List (nfa_node T)) (last : Nat)
    (hl : last < Hk.length) (hfree : ∀ tr, tr ∉ (nfa_at Hk last).transitions) :
    concat_loop_sound Hk last (last, Hk) [] := by
  refine ⟨le_refl _, hl, fun _ => rfl, fun h => absurd rfl h, fun _ _ h => h,
    fun _ _ _ _ h => h, hfree, ?_, ?_⟩
  · intro p hp tr htr
    simp only at htr
    rcases hp with rfl | hp
    · exact absurd htr (hfree tr)
    · exact absurd htr (trans_beyond Hk p hp tr)
  · intro w
    simp only [regex_lang_concat]
    constructor
    · intro hp
      exact (path_stuck _ _ _ _ hfree hp).1
    · rintro rfl
      exact nfa_path.nil _

theorem concat_cons {T : Type} [TokenInfo T] (Hk H0 : List (nfa_node T))
    (cseg : nfa_segment) (last : Nat) (node : regex_node) (rest : List regex_node)
    (r : Nat × List (nfa_node T))
    (hs : segment_sound Hk (cseg, H0) (regex_lang node)) (hne : cseg.begin ≠ cseg.end)
    (hl : last < Hk.length) (hfree : ∀ tr, tr ∉ (nfa_at Hk last).transitions)
    (ih : concat_loop_sound
      ((nfa_at H0 cseg.begin).transitions.foldl
        (fun h transition => nfa_push h last transition) H0) cseg.end r rest) :
    concat_loop_sound Hk last r (node :: rest) := by
  have hg := hs.grow
  have hcb := hs.begin_in
  have hce := hs.end_in
  simp only at hg hcb hce
  have hedge : ∀ p tr, tr ∈ (nfa_at ((nfa_at H0 cseg.begin).transitions.foldl
        (fun h transition => nfa_push h last transition) H0) p).transitions ↔
      tr ∈ (nfa_at H0 p).transitions ∨
        (p = last ∧ tr ∈ (nfa_at H0 cseg.begin).transitions) := by
    intro p tr
    have l1 : last < H0.length := by omega
    simp only [mem_trans_foldl_push, l1, true_and]
  have hlen : ((nfa_at H0 cseg.begin).transitions.foldl
      (fun h transition => nfa_push h last transition) H0).length = H0.length :=
    foldl_push_length _ _ _
  have ihg := ih.grow
  rw [hlen] at ihg
  have ihlt := ih.end_lt
  have hlast0 : ∀ tr, tr ∉ (nfa_at H0 last).transitions :=
    fun tr htr => hfree tr ((hs.frame last hl tr).1 htr)
  have hmono0 : ∀ p tr, tr ∈ (nfa_at H0 p).transitions → tr ∈ (nfa_at r.2 p).transitions :=
    fun p tr htr => ih.mono p tr ((hedge p tr).2 (Or.inl htr))
  have hsub : ∀ p, Hk.length ≤ p → p < H0.length → p ≠ cseg.end →
      ∀ tr, tr ∈ (nfa_at r.2 p).transitions → tr ∈ (nfa_at H0 p).transitions := by
    intro p hp1 hp2 hpe tr htr
    rcases (hedge p tr).1 (ih.frame p (by rw [hlen]; exact hp2) hpe tr htr) with h1 | ⟨h1, _⟩
    · exact h1
    · omega
  have hend : r.1 = cseg.end ∨ H0.length ≤ r.1 := by
    by_cases hr : rest = []
    · exact Or.inl (ih.end_nil hr)
    · have := ih.end_cons hr
      rw [hlen] at this
      exact Or.inr this
  have hlast_edges : ∀ tr, tr ∈ (nfa_at r.2 last).transitions ↔
      tr ∈ (nfa_at H0 cseg.begin).transitions := by
    intro tr
    constructor
    · intro htr
      rcases (hedge last tr).1 (ih.frame last (by rw [hlen]; omega) (by omega) tr htr) with
        h1 | ⟨_, h1⟩
      · exact absurd h1 (hlast0 tr)
      · exact h1
    · intro htr
      exact ih.mono last tr ((hedge last tr).2 (Or.inr ⟨rfl, htr⟩))
  have hbegin_edges : ∀ tr, tr ∈ (nfa_at r.2 cseg.begin).transitions ↔
      tr ∈ (nfa_at H0 cseg.begin).transitions := by
    intro tr
    constructor
    · exact hsub cseg.begin hcb.1 hcb.2 hne tr
    · exact hmono0 cseg.begin tr
  refine ⟨by omega, ihlt, (fun h => List.noConfusion h), (fun _ => by omega), ?_, ?_,
    ih.end_free, ?_, ?_⟩
  · intro p tr htr
    by_cases hp : p < Hk.length
    · exact hmono0 p tr ((hs.frame p hp tr).2 htr)
    · exact absurd htr (trans_beyond Hk p (by omega) tr)
  · intro p hp hpl tr htr
    rcases (hedge p tr).1 (ih.frame p (by rw [hlen]; omega) (by omega) tr htr) with
      h1 | ⟨h1, _⟩
    · exact (hs.frame p hp tr).1 h1
    · exact absurd h1 hpl
  · intro p hp tr htr
    have hchild : ∀ q, Hk.length ≤ q → tr ∈ (nfa_at H0 q).transitions →
        Hk.length ≤ tr.next ∧ tr.next < r.2.length := by
      intro q hq h1
      have := hs.closed q hq tr h1
      simp only at this
      exact ⟨this.1, by omega⟩
    rcases hp with rfl | hp
    · exact hchild cseg.begin hcb.1 ((hlast_edges tr).1 htr)
    · by_cases hp2 : p = cseg.end ∨ H0.length ≤ p
      · have := ih.closed p (by rw [hlen]; exact hp2) tr htr
        rw [hlen] at this
        exact ⟨by omega, this.2⟩
      · exact hchild p hp (hsub p hp (by omega) (by omega) tr htr)
  · intro w
    simp only [regex_lang_concat]
    have hl_ne : last ≠ r.1 := by omega
    have hb_ne : cseg.begin ≠ r.1 := by
      rcases hend with h1 | h1
      · rw [h1]; exact hne
      · omega
    have hthrough := through_child Hk H0 r.2 cseg _ hs hsub hmono0 r.1
      (by rcases hend with h1 | h1
          · exact Or.inl h1
          · exact Or.inr (by omega)) w
    constructor
    · intro hp
      have hp2 := path_mirror r.2 last cseg.begin r.1
        (fun tr htr => (hbegin_edges tr).2 ((hlast_edges tr).1 htr)) hl_ne w hp
      obtain ⟨u, v, hw, hu, hv⟩ := hthrough.1 hp2
      exact ⟨u, v, hw, hu, (ih.lang v).1 hv⟩
    · rintro ⟨u, v, hw, hu, hv⟩
      have hp2 := hthrough.2 ⟨u, v, hw, hu, (ih.lang v).2 hv⟩
      exact path_mirror r.2 cseg.begin last r.1
        (fun tr htr => (hlast_edges tr).2 ((hbegin_edges tr).1 htr)) hb_ne w hp2

theorem concat_top {T : Type} [TokenInfo T] (h : List (nfa_node T)) (ts : List regex_node)
    (r : Nat × List (nfa_node T))
    (hl : concat_loop_sound (h ++ [nfa_node.fresh]) h.length r ts) :
    segment_sound h ((⟨h.length, r.1⟩ : nfa_segment), r.2) (regex_lang_concat ts) := by
  have hg := hl.grow
  simp only [List.length_append, List.length_cons, List.length_nil] at hg
  have hend : h.length ≤ r.1 := by
    by_cases hn : ts = []
    · rw [hl.end_nil hn]
    · have := hl.end_cons hn
      simp only [List.length_append, List.length_cons, List.length_nil] at this
      omega
  refine ⟨by simp only; omega, ?_, ?_, by simp only; omega, ⟨hend, hl.end_lt⟩, hl.end_free,
    hl.lang⟩
  · intro p hp tr
    simp only
    rw [← mem_trans_fresh1 h p tr]
    constructor
    · exact hl.frame p (by simp; omega) (by omega) tr
    · exact hl.mono p tr
  · intro p hp tr htr
    simp only at htr ⊢
    have := hl.closed p (by
      by_cases hp0 : p = h.length
      · exact Or.inl hp0
      · right
        simp only [List.length_append, List.length_cons, List.length_nil]
        omega) tr htr
    simp only [List.length_append, List.length_cons, List.length_nil] at this
    omega
/-! ## The Thompson construction builds the language of the AST -/

theorem thompson_sound {T : Type} [TokenInfo T] (t : regex_node) :
    regex_shape t → ∀ h : List (nfa_node T),
      segment_sound h (regex_node.nfa t h) (regex_lang t) ∧
      (not_concat t → (regex_node.nfa t h).1.begin ≠ (regex_node.nfa t h).1.end) := by
  refine @regex_node.rec
    (fun t => regex_shape t → ∀ h : List (nfa_node T),
      segment_sound h (regex_node.nfa t h) (regex_lang t) ∧
      (not_concat t → (regex_node.nfa t h).1.begin ≠ (regex_node.nfa t h).1.end))
    (fun ts =>
      (regex_shape_terms ts → ∀ (last : Nat) (Hk : List (nfa_node T)), last < Hk.length →
        (∀ tr, tr ∉ (nfa_at Hk last).transitions) →
        concat_loop_sound Hk last (concatenate_loop ts last Hk) ts) ∧
      (regex_shape_list ts → ∀ (result : nfa_segment) (Hk : List (nfa_node T)),
        result.begin < Hk.length → result.end < Hk.length → result.begin ≠ result.end →
        (∀ tr, tr ∉ (nfa_at Hk result.end).transitions) →
        (∀ tr ∈ (nfa_at Hk result.begin).transitions, tr.next < Hk.length) →
        alt_loop_sound Hk (alternative_loop ts result Hk) result (regex_lang_alt ts)))
    ?_ ?_ ?_ ?_ ?_ ?_ t
  · -- character_set
    intro cs _ h
    exact ⟨(character_set_sound cs h).1, fun _ => (character_set_sound cs h).2⟩
  · -- operand
    intro child oper ih hsh h
    simp only [regex_shape] at hsh
    have hc := operand_case child oper h (ih hsh h).1
    exact ⟨hc.1, fun _ => hc.2⟩
  · -- concatenate
    intro terms ih hsh h
    simp only [regex_shape] at hsh
    have hl := ih.1 hsh h.length (h ++ [nfa_node.fresh]) (by simp)
      (fun tr htr => trans_beyond h h.length (le_refl _) tr ((mem_trans_fresh1 h _ tr).1 htr))
    refine ⟨?_, fun hn => by simp [not_concat] at hn⟩
    simp only [regex_node.nfa, regex_lang]
    exact concat_top h terms _ hl
  · -- alternative
    intro alts ih hsh h
    simp only [regex_shape] at hsh
    have hfresh : ∀ p tr, h.length ≤ p →
        tr ∉ (nfa_at (h ++ [nfa_node.fresh, nfa_node.fresh]) p).transitions :=
      fun p tr hp htr => trans_beyond h p hp tr ((mem_trans_fresh2 h _ tr).1 htr)
    have hl := ih.2 hsh ⟨h.length, h.length + 1⟩ (h ++ [nfa_node.fresh, nfa_node.fresh])
      (by simp) (by simp) (by simp) (fun tr => hfresh _ tr (by simp))
      (fun tr htr => absurd htr (hfresh _ tr (le_refl _)))
    simp only [regex_node.nfa, new_segment, regex_lang]
    exact ⟨alt_top h _ _ hl, fun _ => by simp⟩
  · -- nil
    refine ⟨?_, ?_⟩
    · intro _ last Hk hl hfree
      simp only [concatenate_loop]
      exact concat_nil Hk last hl hfree
    · intro _ result Hk _ _ _ _ hold
      simp only [alternative_loop]
      exact alt_nil Hk result hold
  · -- cons
    intro node rest ihn ihr
    refine ⟨?_, ?_⟩
    · intro hsh last Hk hl hfree
      simp only [regex_shape_terms] at hsh
      obtain ⟨hs, hne⟩ := ihn hsh.1 Hk
      have hne := hne hsh.2.1
      simp only [concatenate_loop]
      generalize regex_node.nfa node Hk = r at hs hne
      obtain ⟨cseg, H0⟩ := r
      simp only at hne ⊢
      have hg := hs.grow
      have hce := hs.end_in
      simp only at hg hce
      have hlast0 : ∀ tr, tr ∉ (nfa_at H0 last).transitions :=
        fun tr htr => hfree tr ((hs.frame last hl tr).1 htr)
      have ih := ihr.1 hsh.2.2 cseg.end
        ((nfa_at H0 cseg.begin).transitions.foldl
          (fun h transition => nfa_push h last transition) H0)
        (by rw [foldl_push_length]; exact hce.2)
        (by
          intro tr htr
          rcases (mem_trans_foldl_push last _ H0 cseg.end tr).1 htr with h1 | ⟨h1, _⟩
          · exact hs.end_free tr h1
          · omega)
      exact concat_cons Hk H0 cseg last node rest _ hs hne hl hfree ih
    · intro hsh result Hk hb he hne hfree hold
      simp only [regex_shape_list] at hsh
      obtain ⟨hs, _⟩ := ihn hsh.1 Hk
      simp only [alternative_loop, regex_lang_alt]
      generalize regex_node.nfa node Hk = r at hs
      obtain ⟨cseg, H0⟩ := r
      simp only
      have hg := hs.grow
      have hcb := hs.begin_in
      have hce := hs.end_in
      simp only at hg hcb hce
      have hedge : ∀ p tr, tr ∈ (nfa_at (nfa_push (nfa_push H0 result.begin
            (nfa_transition.eps cseg.begin)) cseg.end
            (nfa_transition.eps result.end)) p).transitions ↔
          tr ∈ (nfa_at H0 p).transitions ∨
            (p = result.begin ∧ tr = nfa_transition.eps cseg.begin) ∨
            (p = cseg.end ∧ tr = nfa_transition.eps result.end) := by
        intro p tr
        have l1 : result.begin < H0.length := by omega
        simp only [mem_trans_push, nfa_push_length, l1, hce.2, true_and]
        tauto
      have ih := ihr.2 hsh.2 result
        (nfa_push (nfa_push H0 result.begin (nfa_transition.eps cseg.begin)) cseg.end
          (nfa_transition.eps result.end))
        (by simp only [nfa_push_length]; omega) (by simp only [nfa_push_length]; omega) hne
        (by
          intro tr htr
          rcases (hedge _ tr).1 htr with h1 | ⟨h1, _⟩ | ⟨h1, _⟩
          · exact hfree tr ((hs.frame _ he tr).1 h1)
          · exact hne h1.symm
          · omega)
        (by
          intro tr htr
          simp only [nfa_push_length]
          rcases (hedge _ tr).1 htr with h1 | ⟨_, rfl⟩ | ⟨h1, _⟩
          · have := hold tr ((hs.frame _ hb tr).1 h1)
            omega
          · simp only [nfa_transition.eps]; omega
          · omega)
      exact alt_cons Hk H0 _ cseg result _ _ hs hb he hne hfree ih hold

/-! ## The shape of the ASTs that the parser returns -/

theorem regex_shape_terms_snoc (ts : List regex_node) (t : regex_node) :
    regex_shape_terms (ts ++ [t]) ↔ regex_shape_terms ts ∧ regex_shape t ∧ not_concat t := by
  induction ts with
  | nil => simp [regex_shape_terms]
  | cons a ts ih => simp only [List.cons_append, regex_shape_terms, ih]; tauto

theorem regex_shape_list_snoc (ts : List regex_node) (t : regex_node) :
    regex_shape_list (ts ++ [t]) ↔ regex_shape_list ts ∧ regex_shape t := by
  induction ts with
  | nil => simp [regex_shape_list]
  | cons a ts ih => simp only [List.cons_append, regex_shape_list, ih]; tauto

theorem parser_shape (lim : char_limits) (regex : List Int) :
    ∀ (fuel : Nat),
      (∀ b t e, parse_atom lim regex fuel b = .ok (some t, e) →
        regex_shape t ∧ not_concat t) ∧
      (∀ b t e, parse_term lim regex fuel b = .ok (some t, e) →
        regex_shape t ∧ not_concat t) ∧
      (∀ terms b r e, regex_shape_terms terms →
        parse_factor_loop lim regex fuel terms b = .ok (r, e) → regex_shape r) ∧
      (∀ alts b r e, regex_shape_list alts →
        parse_regex_loop lim regex fuel alts b = .ok (r, e) →
        regex_shape r ∧ not_concat r) ∧
      (∀ b r e, parse_regex lim regex fuel b = .ok (r, e) → regex_shape r ∧ not_concat r) := by
  intro fuel
  induction fuel with
  | zero =>
    refine ⟨?_, ?_, ?_, ?_, ?_⟩
    · intro b t e h; rw [parse_atom] at h; exact absurd h (throw_ne_ok _ _)
    · intro b t e h; rw [parse_term] at h; exact absurd h (throw_ne_ok _ _)
    · intro ts b r e _ h; rw [parse_factor_loop] at h; exact absurd h (throw_ne_ok _ _)
    · intro ts b r e _ h; rw [parse_regex_loop] at h; exact absurd h (throw_ne_ok _ _)
    · intro b r e h; rw [parse_regex] at h; exact absurd h (throw_ne_ok _ _)
  | succ fuel ih =>
    obtain ⟨ihA, ihT, ihF, ihRL, ihR⟩ := ih
    refine ⟨?_, ?_, ?_, ?_, ?_⟩
    · intro b t e h
      obtain ⟨c, hc, h1, hcase⟩ := (atom_ok_iff lim regex fuel b _ e).1 h
      rcases hcase with ⟨_, hr, _⟩ | ⟨_, node, b1, hp, _, hr, _⟩ |
        ⟨_, c1, node, _, hp, hr⟩ | ⟨_, _, _, c1, _, hr, _⟩
      · cases hr
      · simp only [Option.some.injEq] at hr
        subst hr
        exact ihR _ _ _ hp
      · simp only [Option.some.injEq] at hr
        subst hr
        have hcs : ∃ cs, t = regex_node.character_set cs := by
          rcases hp with ⟨_, hp⟩ | ⟨_, hp⟩
          · unfold parse_char_range at hp
            obtain ⟨_, ops, _, _, _, hr, _⟩ := class_loop_transfer _ _ _ _ _ _ _ _ _ hp
            exact ⟨_, hr⟩
          · unfold parse_char_range at hp
            obtain ⟨_, ops, _, _, _, hr, _⟩ := class_loop_transfer _ _ _ _ _ _ _ _ _ hp
            exact ⟨_, hr⟩
        obtain ⟨cs, rfl⟩ := hcs
        simp [regex_shape, not_concat]
      · simp only [Option.some.injEq] at hr
        subst hr
        simp [regex_shape, not_concat]
    · intro b t e h
      obtain ⟨cr, b1, hp, hcase⟩ := (term_ok_iff lim regex fuel b _ e).1 h
      rcases hcase with ⟨_, hr, _⟩ | ⟨t0, c, oper, hcr, _, _, hr, _⟩
      · subst hr
        exact ihA _ _ _ hp
      · subst hcr
        simp only [Option.some.injEq] at hr
        subst hr
        simp only [regex_shape, not_concat, and_true]
        exact (ihA _ _ _ hp).1
    · intro terms b r e hts h
      rcases (factor_ok_iff lim regex fuel terms b r e).1 h with
        ⟨_, rfl, _⟩ | ⟨_, nt, b1, hp, hcase⟩
      · simpa [regex_shape] using hts
      · rcases hcase with ⟨_, rfl, _⟩ | ⟨t, rfl, h2⟩
        · simpa [regex_shape] using hts
        · exact ihF _ _ _ _ ((regex_shape_terms_snoc terms t).2 ⟨hts, ihT _ _ _ hp⟩) h2
    · intro alts b r e hts h
      rcases (regex_loop_ok_iff lim regex fuel alts b r e).1 h with
        ⟨_, rfl, _⟩ | ⟨c, _, hcase⟩
      · simpa [regex_shape, not_concat] using hts
      · rcases hcase with ⟨_, rfl, _⟩ | ⟨_, factor, b1, hp, h2⟩
        · simpa [regex_shape, not_concat] using hts
        · exact ihRL _ _ _ _ ((regex_shape_list_snoc alts factor).2
            ⟨hts, ihF _ _ _ _ (by simp [regex_shape_terms]) hp⟩) h2
    · intro b r e h
      obtain ⟨factor, b1, hp, h2⟩ := (regex_ok_iff lim regex fuel b r e).1 h
      exact ihRL _ _ _ _ (by
        simp only [regex_shape_list, and_true]
        exact ihF _ _ _ _ (by simp [regex_shape_terms]) hp) h2
/-! ## Chains of segments: the structure that any AST builds -/

theorem segment_sound_self {T : Type} [TokenInfo T] (heap : List (nfa_node T))
    (r : nfa_segment × List (nfa_node T)) (L : List Int → Prop) (hs : segment_sound heap r L) :
    segment_sound heap r (fun w => nfa_path r.2 r.1.begin w r.1.end) :=
  segment_sound_congr heap r L _ (fun w => (hs.lang w).symm) hs

theorem chain_congr {T : Type} [TokenInfo T] (Hk : List (nfa_node T)) (last : Nat)
    (r : Nat × List (nfa_node T)) (n : Nat) (L L2 : List Int → Prop)
    (h : ∀ w, L w ↔ L2 w) (hs : chain_sound Hk last r n L) : chain_sound Hk last r n L2 :=
  ⟨hs.grow, hs.end_lt, hs.end_nil, hs.end_cons, hs.mono, hs.frame, hs.end_free, hs.closed,
    fun w => (hs.lang w).trans (h w)⟩

theorem chain_nil {T : Type} [TokenInfo T] (Hk : List (nfa_node T)) (last : Nat)
    (hl : last < Hk.length) (hfree : ∀ tr, tr ∉ (nfa_at Hk last).transitions) :
    chain_sound Hk last (last, Hk) 0 (fun w => w = []) := by
  refine ⟨le_refl _, hl, fun _ => rfl, fun h => absurd rfl h, fun _ _ h => h,
    fun _ _ _ _ h => h, hfree, ?_, ?_⟩
  · intro p hp tr htr
    simp only at htr
    rcases hp with rfl | hp
    · exact absurd htr (hfree tr)
    · exact absurd htr (trans_beyond Hk p hp tr)
  · intro w
    constructor
    · intro hp
      exact (path_stuck _ _ _ _ hfree hp).1
    · rintro rfl
      exact nfa_path.nil _

/-- One more segment in front of a chain: the node `last` receives the
transitions `E`, which lead into the segment, and the chain goes on from the
end of the segment. -/
theorem chain_link {T : Type} [TokenInfo T] (Hk H0 H1 : List (nfa_node T))
    (cseg : nfa_segment) (last n : Nat) (r : Nat × List (nfa_node T))
    (Lc Lrest : List Int → Prop) (E : nfa_transition → Prop)
    (hs : segment_sound Hk (cseg, H0) Lc)
    (hl : last < Hk.length) (hfree : ∀ tr, tr ∉ (nfa_at Hk last).transitions)
    (hlen : H1.length = H0.length)
    (hedge : ∀ p tr, tr ∈ (nfa_at H1 p).transitions ↔
      tr ∈ (nfa_at H0 p).transitions ∨ (p = last ∧ E tr))
    (hE : ∀ tr, E tr → Hk.length ≤ tr.next ∧ tr.next < H0.length)
    (ih : chain_sound H1 cseg.end r n Lrest) :
    chain_sound Hk last r (n + 1) (fun w => nfa_path r.2 last w r.1) ∧
    (∀ tr, tr ∈ (nfa_at r.2 last).transitions ↔ E tr) ∧
    (∀ tr, tr ∈ (nfa_at r.2 cseg.begin).transitions → cseg.begin ≠ cseg.end →
      tr ∈ (nfa_at H0 cseg.begin).transitions) ∧
    (∀ p tr, tr ∈ (nfa_at H0 p).transitions → tr ∈ (nfa_at r.2 p).transitions) ∧
    last ≠ r.1 ∧ (cseg.begin ≠ cseg.end → cseg.begin ≠ r.1) ∧
    (∀ w, nfa_path r.2 cseg.begin w r.1 ↔ ∃ u v, w = u ++ v ∧ Lc u ∧ Lrest v) := by
  have hg := hs.grow
  have hcb := hs.begin_in
  have hce := hs.end_in
  simp only at hg hcb hce
  have ihg := ih.grow
  rw [hlen] at ihg
  have ihlt := ih.end_lt
  have hlast0 : ∀ tr, tr ∉ (nfa_at H0 last).transitions :=
    fun tr htr => hfree tr ((hs.frame last hl tr).1 htr)
  have hmono0 : ∀ p tr, tr ∈ (nfa_at H0 p).transitions → tr ∈ (nfa_at r.2 p).transitions :=
    fun p tr htr => ih.mono p tr ((hedge p tr).2 (Or.inl htr))
  have hsub : ∀ p, Hk.length ≤ p → p < H0.length → p ≠ cseg.end →
      ∀ tr, tr ∈ (nfa_at r.2 p).transitions → tr ∈ (nfa_at H0 p).transitions := by
    intro p hp1 hp2 hpe tr htr
    rcases (hedge p tr).1 (ih.frame p (by rw [hlen]; exact hp2) hpe tr htr) with h1 | ⟨h1, _⟩
    · exact h1
    · omega
  have hend : r.1 = cseg.end ∨ H0.length ≤ r.1 := by
    by_cases hr : n = 0
    · exact Or.inl (ih.end_nil hr)
    · have := ih.end_cons hr
      rw [hlen] at this
      exact Or.inr this
  have hlast_edges : ∀ tr, tr ∈ (nfa_at r.2 last).transitions ↔ E tr := by
    intro tr
    constructor
    · intro htr
      rcases (hedge last tr).1 (ih.frame last (by rw [hlen]; omega) (by omega) tr htr) with
        h1 | ⟨_, h1⟩
      · exact absurd h1 (hlast0 tr)
      · exact h1
    · intro htr
      exact ih.mono last tr ((hedge last tr).2 (Or.inr ⟨rfl, htr⟩))
  refine ⟨⟨by omega, ihlt, (fun h => by omega), (fun _ => by omega), ?_, ?_,
    ih.end_free, ?_, fun _ => Iff.rfl⟩, hlast_edges, ?_, hmono0, by omega, ?_, ?_⟩
  · intro p tr htr
    by_cases hp : p < Hk.length
    · exact hmono0 p tr ((hs.frame p hp tr).2 htr)
    · exact absurd htr (trans_beyond Hk p (by omega) tr)
  · intro p hp hpl tr htr
    rcases (hedge p tr).1 (ih.frame p (by rw [hlen]; omega) (by omega) tr htr) with
      h1 | ⟨h1, _⟩
    · exact (hs.frame p hp tr).1 h1
    · exact absurd h1 hpl
  · intro p hp tr htr
    have hchild : ∀ q, Hk.length ≤ q → tr ∈ (nfa_at H0 q).transitions →
        Hk.length ≤ tr.next ∧ tr.next < r.2.length := by
      intro q hq h1
      have := hs.closed q hq tr h1
      simp only at this
      exact ⟨this.1, by omega⟩
    rcases hp with rfl | hp
    · have := hE tr ((hlast_edges tr).1 htr)
      exact ⟨this.1, by omega⟩
    · by_cases hp2 : p = cseg.end ∨ H0.length ≤ p
      · have := ih.closed p (by rw [hlen]; exact hp2) tr htr
        rw [hlen] at this
        exact ⟨by omega, this.2⟩
      · exact hchild p hp (hsub p hp (by omega) (by omega) tr htr)
  · intro tr htr hne
    exact hsub cseg.begin hcb.1 hcb.2 hne tr htr
  · intro hne
    rcases hend with h1 | h1
    · rw [h1]; exact hne
    · omega
  · intro w
    have hthrough := through_child Hk H0 r.2 cseg Lc hs hsub hmono0 r.1
      (by rcases hend with h1 | h1
          · exact Or.inl h1
          · exact Or.inr (by omega)) w
    rw [hthrough]
    constructor
    · rintro ⟨u, v, hw, hu, hv⟩
      exact ⟨u, v, hw, hu, (ih.lang v).1 hv⟩
    · rintro ⟨u, v, hw, hu, hv⟩
      exact ⟨u, v, hw, hu, (ih.lang v).2 hv⟩

theorem chain_top {T : Type} [TokenInfo T] (h : List (nfa_node T)) (n : Nat)
    (r : Nat × List (nfa_node T)) (L : List Int → Prop)
    (hl : chain_sound (h ++ [nfa_node.fresh]) h.length r n L) :
    segment_sound h ((⟨h.length, r.1⟩ : nfa_segment), r.2) L := by
  have hg := hl.grow
  simp only [List.length_append, List.length_cons, List.length_nil] at hg
  have hend : h.length ≤ r.1 := by
    by_cases hn : n = 0
    · rw [hl.end_nil hn]
    · have := hl.end_cons hn
      simp only [List.length_append, List.length_cons, List.length_nil] at this
      omega
  refine ⟨by simp only; omega, ?_, ?_, by simp only; omega, ⟨hend, hl.end_lt⟩, hl.end_free,
    hl.lang⟩
  · intro p hp tr
    simp only
    rw [← mem_trans_fresh1 h p tr]
    constructor
    · exact hl.frame p (by simp; omega) (by omega) tr
    · exact hl.mono p tr
  · intro p hp tr htr
    simp only at htr ⊢
    have := hl.closed p (by
      by_cases hp0 : p = h.length
      · exact Or.inl hp0
      · right
        simp only [List.length_append, List.length_cons, List.length_nil]
        omega) tr htr
    simp only [List.length_append, List.length_cons, List.length_nil] at this
    omega
/-! ## Every AST builds a segment -/

theorem operand_frame {T : Type} [TokenInfo T] (child : regex_node) (oper : operator_type)
    (h : List (nfa_node T)) (L : List Int → Prop)
    (hs : segment_sound h (regex_node.nfa child h) L) :
    ∃ L2, segment_sound h (regex_node.nfa (regex_node.operand child oper) h) L2 := by
  simp only [regex_node.nfa, new_segment]
  generalize regex_node.nfa child h = r at hs
  obtain ⟨seg, H0⟩ := r
  have he := hs.end_in
  simp only at he ⊢
  have l1 : H0.length < H0.length + 1 + 1 := by omega
  have l2 : seg.end < H0.length + 1 + 1 := by omega
  cases oper with
  | plus =>
    refine ⟨_, operand_sound h H0 _ seg L true false hs ?_ ?_⟩
    · simp only [nfa_push_length, List.length_append, List.length_cons, List.length_nil]
    · intro p tr
      simp only [mem_trans_push, mem_trans_fresh2, nfa_push_length, List.length_append,
        List.length_cons, List.length_nil, Nat.zero_add, l1, l2, true_and,
        Bool.false_eq_true, false_and, or_false]
      tauto
  | star =>
    refine ⟨_, operand_sound h H0 _ seg L true true hs ?_ ?_⟩
    · simp only [nfa_push_length, List.length_append, List.length_cons, List.length_nil]
    · intro p tr
      simp only [mem_trans_push, mem_trans_fresh2, nfa_push_length, List.length_append,
        List.length_cons, List.length_nil, Nat.zero_add, l1, l2, true_and]
      tauto
  | optional =>
    refine ⟨_, operand_sound h H0 _ seg L false true hs ?_ ?_⟩
    · simp only [nfa_push_length, List.length_append, List.length_cons, List.length_nil]
    · intro p tr
      simp only [mem_trans_push, mem_trans_fresh2, nfa_push_length, List.length_append,
        List.length_cons, List.length_nil, Nat.zero_add, l1, l2, true_and,
        Bool.false_eq_true, false_and, or_false, false_or]
      tauto

/-- Whatever the AST is, `regex_node::nfa()` builds a segment among new nodes:
the old nodes keep their transitions, the new transitions stay among the new
nodes, and the end of the segment has no transition. -/
theorem thompson_frame {T : Type} [TokenInfo T] (t : regex_node) :
    ∀ h : List (nfa_node T), ∃ L, segment_sound h (regex_node.nfa t h) L := by
  refine @regex_node.rec
    (fun t => ∀ h : List (nfa_node T), ∃ L, segment_sound h (regex_node.nfa t h) L)
    (fun ts =>
      (∀ (last : Nat) (Hk : List (nfa_node T)), last < Hk.length →
        (∀ tr, tr ∉ (nfa_at Hk last).transitions) →
        ∃ L, chain_sound Hk last (concatenate_loop ts last Hk) ts.length L) ∧
      (∀ (result : nfa_segment) (Hk : List (nfa_node T)),
        result.begin < Hk.length → result.end < Hk.length → result.begin ≠ result.end →
        (∀ tr, tr ∉ (nfa_at Hk result.end).transitions) →
        (∀ tr ∈ (nfa_at Hk result.begin).transitions, tr.next < Hk.length) →
        ∃ L, alt_loop_sound Hk (alternative_loop ts result Hk) result L))
    ?_ ?_ ?_ ?_ ?_ ?_ t
  · -- character_set
    intro cs h
    exact ⟨_, (character_set_sound cs h).1⟩
  · -- operand
    intro child oper ih h
    obtain ⟨L, hs⟩ := ih h
    exact operand_frame child oper h L hs
  · -- concatenate
    intro terms ih h
    obtain ⟨L, hl⟩ := ih.1 h.length (h ++ [nfa_node.fresh]) (by simp)
      (fun tr htr => trans_beyond h h.length (le_refl _) tr ((mem_trans_fresh1 h _ tr).1 htr))
    refine ⟨L, ?_⟩
    simp only [regex_node.nfa]
    exact chain_top h _ _ L hl
  · -- alternative
    intro alts ih h
    have hfresh : ∀ p tr, h.length ≤ p →
        tr ∉ (nfa_at (h ++ [nfa_node.fresh, nfa_node.fresh]) p).transitions :=
      fun p tr hp htr => trans_beyond h p hp tr ((mem_trans_fresh2 h _ tr).1 htr)
    obtain ⟨L, hl⟩ := ih.2 ⟨h.length, h.length + 1⟩ (h ++ [nfa_node.fresh, nfa_node.fresh])
      (by simp) (by simp) (by simp) (fun tr => hfresh _ tr (by simp))
      (fun tr htr => absurd htr (hfresh _ tr (le_refl _)))
    refine ⟨L, ?_⟩
    simp only [regex_node.nfa, new_segment]
    exact alt_top h _ _ hl
  · -- nil
    refine ⟨?_, ?_⟩
    · intro last Hk hl hfree
      simp only [concatenate_loop]
      exact ⟨_, chain_nil Hk last hl hfree⟩
    · intro result Hk _ _ _ _ hold
      simp only [alternative_loop]
      exact ⟨_, alt_nil Hk result hold⟩
  · -- cons
    intro node rest ihn ihr
    refine ⟨?_, ?_⟩
    · intro last Hk hl hfree
      obtain ⟨Lc, hs⟩ := ihn Hk
      simp only [concatenate_loop]
      generalize regex_node.nfa node Hk = r at hs
      obtain ⟨cseg, H0⟩ := r
      simp only
      have hg := hs.grow
      have hce := hs.end_in
      have hcb := hs.begin_in
      simp only at hg hce hcb
      have hedge : ∀ p tr, tr ∈ (nfa_at ((nfa_at H0 cseg.begin).transitions.foldl
            (fun h transition => nfa_push h last transition) H0) p).transitions ↔
          tr ∈ (nfa_at H0 p).transitions ∨
            (p = last ∧ tr ∈ (nfa_at H0 cseg.begin).transitions) := by
        intro p tr
        have l1 : last < H0.length := by omega
        simp only [mem_trans_foldl_push, l1, true_and]
      obtain ⟨Lrest, ih⟩ := ihr.1 cseg.end
        ((nfa_at H0 cseg.begin).transitions.foldl
          (fun h transition => nfa_push h last transition) H0)
        (by rw [foldl_push_length]; exact hce.2)
        (by
          intro tr htr
          rcases (hedge cseg.end tr).1 htr with h1 | ⟨h1, _⟩
          · exact hs.end_free tr h1
          · omega)
      exact ⟨_, (chain_link Hk H0 _ cseg last rest.length _ Lc Lrest
        (fun tr => tr ∈ (nfa_at H0 cseg.begin).transitions) hs hl hfree
        (foldl_push_length _ _ _) hedge
        (fun tr htr => hs.closed cseg.begin hcb.1 tr htr) ih).1⟩
    · intro result Hk hb he hne hfree hold
      obtain ⟨Lc, hs⟩ := ihn Hk
      simp only [alternative_loop]
      generalize regex_node.nfa node Hk = r at hs
      obtain ⟨cseg, H0⟩ := r
      simp only
      have hg := hs.grow
      have hcb := hs.begin_in
      have hce := hs.end_in
      simp only at hg hcb hce
      have hedge : ∀ p tr, tr ∈ (nfa_at (nfa_push (nfa_push H0 result.begin
            (nfa_transition.eps cseg.begin)) cseg.end
            (nfa_transition.eps result.end)) p).transitions ↔
          tr ∈ (nfa_at H0 p).transitions ∨
            (p = result.begin ∧ tr = nfa_transition.eps cseg.begin) ∨
            (p = cseg.end ∧ tr = nfa_transition.eps result.end) := by
        intro p tr
        have l1 : result.begin < H0.length := by omega
        simp only [mem_trans_push, nfa_push_length, l1, hce.2, true_and]
        tauto
      obtain ⟨Lrest, ih⟩ := ihr.2 result
        (nfa_push (nfa_push H0 result.begin (nfa_transition.eps cseg.begin)) cseg.end
          (nfa_transition.eps result.end))
        (by simp only [nfa_push_length]; omega) (by simp only [nfa_push_length]; omega) hne
        (by
          intro tr htr
          rcases (hedge _ tr).1 htr with h1 | ⟨h1, _⟩ | ⟨h1, _⟩
          · exact hfree tr ((hs.frame _ he tr).1 h1)
          · exact hne h1.symm
          · omega)
        (by
          intro tr htr
          simp only [nfa_push_length]
          rcases (hedge _ tr).1 htr with h1 | ⟨_, rfl⟩ | ⟨h1, _⟩
          · have := hold tr ((hs.frame _ hb tr).1 h1)
            omega
          · simp only [nfa_transition.eps]; omega
          · omega)
      exact ⟨_, alt_cons Hk H0 _ cseg result _ _ hs hb he hne hfree ih hold⟩

/-- A segment that recognises the language of its AST is sound for it. -/
theorem segment_sound_of_lang {T : Type} [TokenInfo T] (t : regex_node)
    (h : List (nfa_node T))
    (hl : ∀ w, nfa_path (regex_node.nfa t h).2 (regex_node.nfa t h).1.begin w
      (regex_node.nfa t h).1.end ↔ regex_lang t w) :
    segment_sound h (regex_node.nfa t h) (regex_lang t) := by
  obtain ⟨L, hs⟩ := thompson_frame t h
  exact segment_sound_congr h _ L _ (fun w => ((hs.lang w).symm).trans (hl w)) hs
/-! ## Splicing is sound when no term is an empty concatenation -/

theorem thompson_spliceable {T : Type} [TokenInfo T] (t : regex_node) :
    regex_spliceable t → ∀ h : List (nfa_node T),
      segment_sound h (regex_node.nfa t h) (regex_lang t) ∧
      (¬ empty_concat t → (regex_node.nfa t h).1.begin ≠ (regex_node.nfa t h).1.end) := by
  refine @regex_node.rec
    (fun t => regex_spliceable t → ∀ h : List (nfa_node T),
      segment_sound h (regex_node.nfa t h) (regex_lang t) ∧
      (¬ empty_concat t → (regex_node.nfa t h).1.begin ≠ (regex_node.nfa t h).1.end))
    (fun ts =>
      (regex_spliceable_terms ts → ∀ (last : Nat) (Hk : List (nfa_node T)), last < Hk.length →
        (∀ tr, tr ∉ (nfa_at Hk last).transitions) →
        concat_loop_sound Hk last (concatenate_loop ts last Hk) ts) ∧
      (regex_spliceable_list ts → ∀ (result : nfa_segment) (Hk : List (nfa_node T)),
        result.begin < Hk.length → result.end < Hk.length → result.begin ≠ result.end →
        (∀ tr, tr ∉ (nfa_at Hk result.end).transitions) →
        (∀ tr ∈ (nfa_at Hk result.begin).transitions, tr.next < Hk.length) →
        alt_loop_sound Hk (alternative_loop ts result Hk) result (regex_lang_alt ts)))
    ?_ ?_ ?_ ?_ ?_ ?_ t
  · -- character_set
    intro cs _ h
    exact ⟨(character_set_sound cs h).1, fun _ => (character_set_sound cs h).2⟩
  · -- operand
    intro child oper ih hsh h
    simp only [regex_spliceable] at hsh
    have hc := operand_case child oper h (ih hsh h).1
    exact ⟨hc.1, fun _ => hc.2⟩
  · -- concatenate
    intro terms ih hsh h
    simp only [regex_spliceable] at hsh
    have hl := ih.1 hsh h.length (h ++ [nfa_node.fresh]) (by simp)
      (fun tr htr => trans_beyond h h.length (le_refl _) tr ((mem_trans_fresh1 h _ tr).1 htr))
    refine ⟨?_, ?_⟩
    · simp only [regex_node.nfa, regex_lang]
      exact concat_top h terms _ hl
    · intro hn
      have hne : terms ≠ [] := by
        intro h0
        apply hn
        rw [h0]
        simp only [empty_concat]
      have := hl.end_cons hne
      simp only [List.length_append, List.length_cons, List.length_nil] at this
      simp only [regex_node.nfa]
      omega
  · -- alternative
    intro alts ih hsh h
    simp only [regex_spliceable] at hsh
    have hfresh : ∀ p tr, h.length ≤ p →
        tr ∉ (nfa_at (h ++ [nfa_node.fresh, nfa_node.fresh]) p).transitions :=
      fun p tr hp htr => trans_beyond h p hp tr ((mem_trans_fresh2 h _ tr).1 htr)
    have hl := ih.2 hsh ⟨h.length, h.length + 1⟩ (h ++ [nfa_node.fresh, nfa_node.fresh])
      (by simp) (by simp) (by simp) (fun tr => hfresh _ tr (by simp))
      (fun tr htr => absurd htr (hfresh _ tr (le_refl _)))
    simp only [regex_node.nfa, new_segment, regex_lang]
    exact ⟨alt_top h _ _ hl, fun _ => by simp⟩
  · -- nil
    refine ⟨?_, ?_⟩
    · intro _ last Hk hl hfree
      simp only [concatenate_loop]
      exact concat_nil Hk last hl hfree
    · intro _ result Hk _ _ _ _ hold
      simp only [alternative_loop]
      exact alt_nil Hk result hold
  · -- cons
    intro node rest ihn ihr
    refine ⟨?_, ?_⟩
    · intro hsh last Hk hl hfree
      simp only [regex_spliceable_terms] at hsh
      obtain ⟨hs, hne⟩ := ihn hsh.1 Hk
      have hne := hne hsh.2.1
      simp only [concatenate_loop]
      generalize regex_node.nfa node Hk = r at hs hne
      obtain ⟨cseg, H0⟩ := r
      simp only at hne ⊢
      have hg := hs.grow
      have hce := hs.end_in
      simp only at hg hce
      have ih := ihr.1 hsh.2.2 cseg.end
        ((nfa_at H0 cseg.begin).transitions.foldl
          (fun h transition => nfa_push h last transition) H0)
        (by rw [foldl_push_length]; exact hce.2)
        (by
          intro tr htr
          rcases (mem_trans_foldl_push last _ H0 cseg.end tr).1 htr with h1 | ⟨h1, _⟩
          · exact hs.end_free tr h1
          · omega)
      exact concat_cons Hk H0 cseg last node rest _ hs hne hl hfree ih
    · intro hsh result Hk hb he hne hfree hold
      simp only [regex_spliceable_list] at hsh
      obtain ⟨hs, _⟩ := ihn hsh.1 Hk
      simp only [alternative_loop, regex_lang_alt]
      generalize regex_node.nfa node Hk = r at hs
      obtain ⟨cseg, H0⟩ := r
      simp only
      have hg := hs.grow
      have hcb := hs.begin_in
      have hce := hs.end_in
      simp only at hg hcb hce
      have hedge : ∀ p tr, tr ∈ (nfa_at (nfa_push (nfa_push H0 result.begin
            (nfa_transition.eps cseg.begin)) cseg.end
            (nfa_transition.eps result.end)) p).transitions ↔
          tr ∈ (nfa_at H0 p).transitions ∨
            (p = result.begin ∧ tr = nfa_transition.eps cseg.begin) ∨
            (p = cseg.end ∧ tr = nfa_transition.eps result.end) := by
        intro p tr
        have l1 : result.begin < H0.length := by omega
        simp only [mem_trans_push, nfa_push_length, l1, hce.2, true_and]
        tauto
      have ih := ihr.2 hsh.2 result
        (nfa_push (nfa_push H0 result.begin (nfa_transition.eps cseg.begin)) cseg.end
          (nfa_transition.eps result.end))
        (by simp only [nfa_push_length]; omega) (by simp only [nfa_push_length]; omega) hne
        (by
          intro tr htr
          rcases (hedge _ tr).1 htr with h1 | ⟨h1, _⟩ | ⟨h1, _⟩
          · exact hfree tr ((hs.frame _ he tr).1 h1)
          · exact hne h1.symm
          · omega)
        (by
          intro tr htr
          simp only [nfa_push_length]
          rcases (hedge _ tr).1 htr with h1 | ⟨_, rfl⟩ | ⟨h1, _⟩
          · have := hold tr ((hs.frame _ hb tr).1 h1)
            omega
          · simp only [nfa_transition.eps]; omega
          · omega)
      exact alt_cons Hk H0 _ cseg result _ _ hs hb he hne hfree ih hold

theorem regex_spliceable_terms_iff (ts : List regex_node) :
    regex_spliceable_terms ts ↔ ∀ t ∈ ts, regex_spliceable t ∧ ¬ empty_concat t := by
  induction ts with
  | nil => simp [regex_spliceable_terms]
  | cons t ts ih =>
    simp only [regex_spliceable_terms, ih, List.mem_cons, forall_eq_or_imp]
    tauto

/-! ## Chaining with epsilon edges -/

/-- The chain with epsilon edges recognises the concatenation of the languages
of the terms whenever the segment of every term recognises the language of the
term. -/
theorem eps_loop_sound {T : Type} [TokenInfo T] (ts : List regex_node) :
    (∀ t ∈ ts, ∀ h : List (nfa_node T), segment_sound h (regex_node.nfa t h) (regex_lang t)) →
    ∀ (last : Nat) (Hk : List (nfa_node T)), last < Hk.length →
      (∀ tr, tr ∉ (nfa_at Hk last).transitions) →
      chain_sound Hk last (concatenate_eps_loop ts last Hk) ts.length (regex_lang_concat ts) := by
  induction ts with
  | nil =>
    intro _ last Hk hl hfree
    simp only [concatenate_eps_loop, List.length_nil]
    refine chain_congr Hk last _ 0 _ _ ?_ (chain_nil Hk last hl hfree)
    intro w
    simp only [regex_lang_concat]
  | cons node rest ihr =>
    intro hall last Hk hl hfree
    have hs := hall node (List.mem_cons_self _ _) Hk
    simp only [concatenate_eps_loop, List.length_cons]
    generalize regex_node.nfa node Hk = r at hs
    obtain ⟨cseg, H0⟩ := r
    simp only
    have hg := hs.grow
    have hce := hs.end_in
    have hcb := hs.begin_in
    simp only at hg hce hcb
    have hedge : ∀ p tr, tr ∈ (nfa_at (nfa_push H0 last
          (nfa_transition.eps cseg.begin)) p).transitions ↔
        tr ∈ (nfa_at H0 p).transitions ∨ (p = last ∧ tr = nfa_transition.eps cseg.begin) := by
      intro p tr
      have l1 : last < H0.length := by omega
      simp only [mem_trans_push, l1, true_and]
    have ih := ihr (fun t ht => hall t (List.mem_cons_of_mem _ ht)) cseg.end
      (nfa_push H0 last (nfa_transition.eps cseg.begin))
      (by rw [nfa_push_length]; exact hce.2)
      (by
        intro tr htr
        rcases (hedge cseg.end tr).1 htr with h1 | ⟨h1, _⟩
        · exact hs.end_free tr h1
        · omega)
    obtain ⟨hch, hlast, _, _, hlne, _, hthrough⟩ :=
      chain_link Hk H0 _ cseg last rest.length _ (regex_lang node) (regex_lang_concat rest)
        (fun tr => tr = nfa_transition.eps cseg.begin) hs hl hfree
        (nfa_push_length _ _ _) hedge
        (by
          intro tr htr
          rw [htr]
          exact hcb) ih
    refine chain_congr Hk last _ _ _ _ ?_ hch
    intro w
    simp only [regex_lang_concat]
    rw [← hthrough]
    constructor
    · intro hp
      obtain ⟨n, hn⟩ := path_n_of_path _ _ _ _ hp
      rcases path_n_cases _ _ _ _ _ hn with ⟨_, _, h0⟩ | ⟨m, tr, _, htr, hcase⟩
      · exact absurd h0.symm hlne
      · have htr1 := (hlast tr).1 htr
        subst htr1
        rcases hcase with ⟨_, hrest⟩ | ⟨he, _⟩
        · exact path_of_path_n _ _ _ _ _ hrest
        · simp [nfa_transition.eps] at he
    · intro hp
      exact nfa_path.eps last cseg.begin _ w (nfa_transition.eps cseg.begin)
        ((hlast _).2 rfl) rfl rfl hp

theorem eps_nfa_sound {T : Type} [TokenInfo T] (ts : List regex_node)
    (hall : ∀ t ∈ ts, ∀ h : List (nfa_node T),
      segment_sound h (regex_node.nfa t h) (regex_lang t))
    (h : List (nfa_node T)) :
    segment_sound h (concatenate_eps_nfa ts h) (regex_lang_concat ts) := by
  have hl := eps_loop_sound ts hall h.length (h ++ [nfa_node.fresh]) (by simp)
    (fun tr htr => trans_beyond h h.length (le_refl _) tr ((mem_trans_fresh1 h _ tr).1 htr))
  simp only [concatenate_eps_nfa]
  exact chain_top h _ _ _ hl
/-! ## The rounds of optimize -/

theorem round_equiv_on {T : Type} [TokenInfo T] [TokenInfoLaws T] (d : dfa T) (hwf : dfa_wf d)
    (initialPartition : Bool) (Gamma : List (List Nat)) (Map : List (Nat × Nat))
    (hperm : Gamma.flatten.Perm d._nodes) (hinv : initialPartition = false → part_ok Gamma Map) :
    equiv_on (round_equiv d initialPartition Map) d._nodes := by
  cases initialPartition with
  | true =>
    simp only [round_equiv, if_true]
    exact terminal_equiv_on d.nfa d.heap d._nodes
  | false =>
    simp only [round_equiv, Bool.false_eq_true, if_false]
    have hpo := hinv rfl
    exact check_equivalence_on d hwf Map
      (fun z hz => (part_ok_mem_flatten Gamma Map hpo z).1 (hperm.mem_iff.2 hz))

/-- One round of `optimize` on a partition of the states returns a partition
of the states with its map. -/
theorem round_step {T : Type} [TokenInfo T] [TokenInfoLaws T] (d : dfa T) (hwf : dfa_wf d)
    (initialPartition : Bool) (Gamma : List (List Nat)) (Map : List (Nat × Nat))
    (hne : ∀ B ∈ Gamma, B ≠ []) (hperm : Gamma.flatten.Perm d._nodes)
    (hinv : initialPartition = false → part_ok Gamma Map) :
    ∃ blocks nm1,
      refine_round (round_equiv d initialPartition Map) Gamma ([], []) = some (blocks, nm1) ∧
      part_ok blocks nm1 ∧ blocks.flatten.Perm d._nodes ∧ Gamma.length ≤ blocks.length ∧
      (∀ x ∈ d._nodes, ∀ y ∈ d._nodes, same_block blocks x y ↔
        same_block Gamma x y ∧ round_equiv d initialPartition Map x y = some true) := by
  have heq := round_equiv_on d hwf initialPartition Gamma Map hperm hinv
  obtain ⟨blocks, nm1, hr, hpo1, hperm1, hlen1, hsb1, _⟩ :=
    refine_round_spec _ d._nodes heq Gamma [] [] hne
      (fun x hx => hperm.mem_iff.1 hx) (hperm.nodup_iff.2 hwf.nodes_nodup) part_ok_nil (by simp)
  simp only [List.nil_append] at hr hpo1
  exact ⟨blocks, nm1, hr, hpo1, hperm1.trans hperm, hlen1,
    fun x hx y hy => hsb1 x (hperm.mem_iff.2 hx) y (hperm.mem_iff.2 hy)⟩

/-- At the start of every round `Gamma` is a partition of the states, and after
the first round `Map` is its map. -/
theorem optimize_round_inv {T : Type} [TokenInfo T] [TokenInfoLaws T] (d : dfa T)
    (hwf : dfa_wf d) (initialPartition : Bool) (Gamma : List (List Nat))
    (Map : List (Nat × Nat)) (h : optimize_round d initialPartition Gamma Map) :
    (∀ B ∈ Gamma, B ≠ []) ∧ Gamma.flatten.Perm d._nodes ∧
      (initialPartition = false → part_ok Gamma Map) := by
  induction h with
  | first =>
    refine ⟨?_, by simp, fun h => Bool.noConfusion h⟩
    intro B hB
    simp only [List.mem_singleton] at hB
    rw [hB]
    intro h0
    have := hwf.initial_mem
    rw [h0] at this
    simp at this
  | next ip G M ng nm _ href _ ih =>
    obtain ⟨hne, hperm, hinv⟩ := ih
    obtain ⟨blocks, nm1, hr, hpo1, hperm1, _, _⟩ := round_step d hwf ip G M hne hperm hinv
    rw [href] at hr
    simp only [Option.some.injEq, Prod.mk.injEq] at hr
    obtain ⟨rfl, rfl⟩ := hr
    exact ⟨hpo1.blocks_ne, hperm1, fun _ => hpo1⟩

/-- The result of the loop of `optimize` is the result of a round that left the
number of blocks unchanged. -/
theorem optimize_loop_round {T : Type} [TokenInfo T] (d : dfa T) :
    ∀ (fuel : Nat) (initialPartition : Bool) (Gamma : List (List Nat)) (Map : List (Nat × Nat))
      (Gf : List (List Nat)) (Mf : List (Nat × Nat)),
      optimize_round d initialPartition Gamma Map →
      optimize_loop d.nfa d.heap fuel initialPartition Gamma Map = some (Gf, Mf) →
      ∃ ip1 G1 M1, optimize_round d ip1 G1 M1 ∧
        refine_round (round_equiv d ip1 M1) G1 ([], []) = some (Gf, Mf) ∧
        Gf.length = G1.length := by
  intro fuel
  induction fuel with
  | zero =>
    intro ip G M Gf Mf _ h
    simp [optimize_loop] at h
  | succ fuel ih =>
    intro ip G M Gf Mf hround h
    have hfold : (if ip = true then fun pivot it => some (terminal_equiv d.nfa d.heap pivot it)
        else fun pivot it => check_equivalence d.heap pivot it M) = round_equiv d ip M := rfl
    rw [optimize_loop] at h
    simp only [hfold] at h
    cases hr : refine_round (round_equiv d ip M) G ([], []) with
    | none => simp [hr] at h
    | some res =>
      obtain ⟨ng, nm⟩ := res
      simp only [hr] at h
      by_cases hlen : ng.length = G.length
      · rw [if_pos hlen] at h
        simp only [Option.some.injEq, Prod.mk.injEq] at h
        obtain ⟨rfl, rfl⟩ := h
        exact ⟨ip, G, M, hround, hr, hlen⟩
      · rw [if_neg hlen] at h
        exact ih false ng nm Gf Mf (optimize_round.next ip G M ng nm hround hr hlen) h

/-- When all states are in one terminal class, the first round returns one
block. -/
theorem first_round_one_block {T : Type} [TokenInfo T] [TokenInfoLaws T] (d : dfa T)
    (hwf : dfa_wf d)
    (hsame : ∀ p ∈ d._nodes, ∀ q ∈ d._nodes, terminal_equiv d.nfa d.heap p q = true) :
    ∃ blocks nm1,
      refine_round (round_equiv d true []) [d._nodes] ([], []) = some (blocks, nm1) ∧
      blocks.length = 1 := by
  have hinv := optimize_round_inv d hwf true [d._nodes] [] optimize_round.first
  obtain ⟨blocks, nm1, hr, hpo1, hperm1, hlen1, hsb1⟩ :=
    round_step d hwf true [d._nodes] [] hinv.1 hinv.2.1 hinv.2.2
  refine ⟨blocks, nm1, hr, ?_⟩
  simp only [List.length_singleton] at hlen1
  by_contra hne
  have h0 : 0 < blocks.length := by omega
  have h1 : 1 < blocks.length := by omega
  have hB0 : blocks[0]? = some blocks[0] := List.getElem?_eq_getElem h0
  have hB1 : blocks[1]? = some blocks[1] := List.getElem?_eq_getElem h1
  have hne0 := hpo1.blocks_ne _ (List.getElem_mem h0)
  have hne1 := hpo1.blocks_ne _ (List.getElem_mem h1)
  obtain ⟨x, hx⟩ := List.exists_mem_of_ne_nil _ hne0
  obtain ⟨y, hy⟩ := List.exists_mem_of_ne_nil _ hne1
  have hxN : x ∈ d._nodes :=
    hperm1.mem_iff.1 (List.mem_flatten.2 ⟨_, List.getElem_mem h0, hx⟩)
  have hyN : y ∈ d._nodes :=
    hperm1.mem_iff.1 (List.mem_flatten.2 ⟨_, List.getElem_mem h1, hy⟩)
  have hsb : same_block blocks x y := by
    rw [hsb1 x hxN y hyN]
    refine ⟨⟨d._nodes, by simp, hxN, hyN⟩, ?_⟩
    simp only [round_equiv, if_true, hsame x hxN y hyN]
  rw [part_ok_same_block blocks nm1 hpo1 x y (hperm1.mem_iff.2 hxN),
    (hpo1.map_iff x 0).2 ⟨_, hB0, hx⟩, (hpo1.map_iff y 1).2 ⟨_, hB1, hy⟩] at hsb
  simp at hsb
/-! ## Epsilon reachability -/

theorem eps_reach_head {T : Type} [TokenInfo T] (nfa : List (nfa_node T)) (p r : Nat)
    (t : nfa_transition) (ht : t ∈ (nfa_at nfa p).transitions) (he : t.epsilon = true)
    (h : eps_reach nfa t.next r) : eps_reach nfa p r := by
  induction h with
  | refl => exact eps_reach.tail p p t (eps_reach.refl p) ht he
  | tail q t1 _ ht1 he1 ih => exact eps_reach.tail p q t1 ih ht1 he1

theorem eps_reach_iff_path {T : Type} [TokenInfo T] (nfa : List (nfa_node T)) (p q : Nat) :
    eps_reach nfa p q ↔ nfa_path nfa p [] q := by
  constructor
  · intro h
    induction h with
    | refl => exact nfa_path.nil p
    | tail q t _ ht he ih =>
      have := nfa_path_trans nfa p q t.next [] [] ih (nfa_path_eps_step nfa q t ht he)
      simpa using this
  · intro h
    generalize hw : ([] : List Int) = w at h
    induction h with
    | nil p => exact eps_reach.refl p
    | eps p q r w t ht he hn _ ih =>
      subst hn
      exact eps_reach_head nfa p r t ht he (ih hw)
    | step p q r s w t ht he hm hn _ ih => cases hw

/-! ## The transitions that the subset construction records -/

theorem eclosure_nonempty {T : Type} [TokenInfo T] (nfa : List (nfa_node T)) (hwf : nfa_wf nfa)
    (nodes : List Nat) (hne : nodes ≠ []) :
    ∃ r, eclosure nfa [] nodes = some r ∧ r ≠ [] := by
  obtain ⟨r, hr, _, hmem⟩ := eclosure_spec nfa hwf nodes
  refine ⟨r, hr, ?_⟩
  obtain ⟨x, hx⟩ := List.exists_mem_of_ne_nil _ hne
  intro h0
  have := (hmem x).2 ⟨x, hx, nfa_path.nil x⟩
  rw [h0] at this
  cases this
/-! ## Claims about make_disjoint -/

/-- C6 (disjoint-cover soundness): for every collection of nodes whose
transition labels are sets of closed intervals, every interval `I` returned by
`make_disjoint` and every label interval `L` of the input satisfy `I ⊆ L` or
`I ∩ L = ∅`. -/
theorem make_disjoint_sound (nodes : List (List interval_set))
    (hclosed : ∀ transitions ∈ nodes, ∀ characters ∈ transitions, ∀ L ∈ characters,
      L.is_closed = true)
    (I : discrete_interval) (hI : I ∈ make_disjoint [] nodes)
    (transitions : List interval_set) (ht : transitions ∈ nodes)
    (characters : interval_set) (hc : characters ∈ transitions)
    (L : discrete_interval) (hL : L ∈ characters) :
    (∀ x, discrete_interval.mem x I → discrete_interval.mem x L) ∨
      (∀ x, ¬ (discrete_interval.mem x I ∧ discrete_interval.mem x L)) := by
  have hLm : L ∈ label_intervals nodes :=
    (mem_label_intervals nodes L).2 ⟨transitions, ht, characters, hc, hL⟩
  have hLc := hclosed transitions ht characters hc L hL
  have hIc := (make_disjoint_closed nodes I hI).1
  obtain ⟨hb1, hb2⟩ := make_disjoint_no_boundary nodes I hI L hLm
  by_cases hex : ∃ x, discrete_interval.mem x I ∧ discrete_interval.mem x L
  · left
    obtain ⟨y, hyI, hyL⟩ := hex
    rw [closed_interval_mem y I hIc] at hyI
    rw [closed_interval_mem y L hLc] at hyL
    intro x hx
    rw [closed_interval_mem x I hIc] at hx
    rw [closed_interval_mem x L hLc]
    constructor
    · by_contra hlt
      exact hb1 ⟨by omega, by omega⟩
    · by_contra hlt
      exact hb2 ⟨by omega, by omega⟩
  · right
    intro x hx
    exact hex ⟨x, hx⟩

/-- C6 at two labels `[1,5]` and `[3,3]` of one node: the emitted interval
`[1,2]` lies inside the label interval `[1,5]`. -/
theorem make_disjoint_sound_witness :
    (∀ x, discrete_interval.mem x (discrete_interval.closed 1 2) →
        discrete_interval.mem x (discrete_interval.closed 1 5)) ∨
      (∀ x, ¬ (discrete_interval.mem x (discrete_interval.closed 1 2) ∧
        discrete_interval.mem x (discrete_interval.closed 1 5))) :=
  make_disjoint_sound
    [[[discrete_interval.closed 1 5], [discrete_interval.closed 3 3]]] (by decide)
    (discrete_interval.closed 1 2) (by decide)
    [[discrete_interval.closed 1 5], [discrete_interval.closed 3 3]] (by decide)
    [discrete_interval.closed 1 5] (by decide)
    (discrete_interval.closed 1 5) (by decide)

/-- C7 (disjoint-cover completeness): for every collection of nodes whose labels
are sets of closed intervals `[lower, upper]` with `lower ≤ upper`, a symbol
belongs to some interval returned by `make_disjoint` iff it belongs to some label
interval of the input, and every input interval is exactly the union of the
output intervals that it encloses. -/
theorem make_disjoint_complete (nodes : List (List interval_set))
    (hclosed : ∀ transitions ∈ nodes, ∀ characters ∈ transitions, ∀ L ∈ characters,
      L.is_closed = true ∧ L.lower ≤ L.upper) :
    (∀ x, (∃ I ∈ make_disjoint [] nodes, discrete_interval.mem x I) ↔
      (∃ transitions ∈ nodes, ∃ characters ∈ transitions, ∃ L ∈ characters,
        discrete_interval.mem x L)) ∧
    (∀ transitions ∈ nodes, ∀ characters ∈ transitions, ∀ L ∈ characters, ∀ x,
      discrete_interval.mem x L ↔
        ∃ I ∈ make_disjoint [] nodes, discrete_interval.mem x I ∧
          ∀ y, discrete_interval.mem y I → discrete_interval.mem y L) := by
  have hn : ∀ L ∈ label_intervals nodes, L.lower ≤ L.upper := by
    intro L hL
    obtain ⟨ts, hts, cs, hcs, hLc⟩ := (mem_label_intervals nodes L).1 hL
    exact (hclosed ts hts cs hcs L hLc).2
  have hunion : ∀ x, (∃ I ∈ make_disjoint [] nodes, discrete_interval.mem x I) ↔
      (∃ transitions ∈ nodes, ∃ characters ∈ transitions, ∃ L ∈ characters,
        discrete_interval.mem x L) := by
    intro x
    constructor
    · rintro ⟨I, hI, hx⟩
      rw [closed_interval_mem x I (make_disjoint_closed nodes I hI).1] at hx
      obtain ⟨L, hL, hxL⟩ := (make_disjoint_union nodes hn x).1 ⟨I, hI, hx⟩
      obtain ⟨ts, hts, cs, hcs, hLc⟩ := (mem_label_intervals nodes L).1 hL
      exact ⟨ts, hts, cs, hcs, L, hLc,
        (closed_interval_mem x L (hclosed ts hts cs hcs L hLc).1).2 hxL⟩
    · rintro ⟨ts, hts, cs, hcs, L, hLc, hx⟩
      rw [closed_interval_mem x L (hclosed ts hts cs hcs L hLc).1] at hx
      obtain ⟨I, hI, hxI⟩ := (make_disjoint_union nodes hn x).2
        ⟨L, (mem_label_intervals nodes L).2 ⟨ts, hts, cs, hcs, hLc⟩, hx⟩
      exact ⟨I, hI, (closed_interval_mem x I (make_disjoint_closed nodes I hI).1).2 hxI⟩
  refine ⟨hunion, ?_⟩
  intro ts hts cs hcs L hLc x
  constructor
  · intro hx
    obtain ⟨I, hI, hxI⟩ := (hunion x).2 ⟨ts, hts, cs, hcs, L, hLc, hx⟩
    refine ⟨I, hI, hxI, ?_⟩
    have hLm : L ∈ label_intervals nodes :=
      (mem_label_intervals nodes L).2 ⟨ts, hts, cs, hcs, hLc⟩
    have hLcl := (hclosed ts hts cs hcs L hLc).1
    have hIc := (make_disjoint_closed nodes I hI).1
    obtain ⟨hb1, hb2⟩ := make_disjoint_no_boundary nodes I hI L hLm
    rw [closed_interval_mem x I hIc] at hxI
    rw [closed_interval_mem x L hLcl] at hx
    intro y hy
    rw [closed_interval_mem y I hIc] at hy
    rw [closed_interval_mem y L hLcl]
    constructor
    · by_contra hlt
      exact hb1 ⟨by omega, by omega⟩
    · by_contra hlt
      exact hb2 ⟨by omega, by omega⟩
  · rintro ⟨I, _, hxI, hsub⟩
    exact hsub x hxI

/-- C7 at two labels `[1,5]` and `[3,3]` of one node: the symbol 4 of the label
`[1,5]` lies in an emitted interval. -/
theorem make_disjoint_complete_witness :
    (∀ transitions ∈ [[[discrete_interval.closed 1 5], [discrete_interval.closed 3 3]]],
      ∀ characters ∈ transitions, ∀ L ∈ characters, L.is_closed = true ∧ L.lower ≤ L.upper) ∧
    (∃ I ∈ make_disjoint [] [[[discrete_interval.closed 1 5], [discrete_interval.closed 3 3]]],
      discrete_interval.mem 4 I) :=
  ⟨by decide,
    ((make_disjoint_complete
      [[[discrete_interval.closed 1 5], [discrete_interval.closed 3 3]]] (by decide)).1 4).2
      ⟨[[discrete_interval.closed 1 5], [discrete_interval.closed 3 3]], by decide,
        [discrete_interval.closed 1 5], by decide, discrete_interval.closed 1 5, by decide,
        by decide⟩⟩

/-! ## Claims about the terminal classes in optimize -/

/-- C10: `optimize()` never merges states of different terminal classes. For
the DFA that the `dfa` constructor builds from a well-formed NFA the refinement
loop of `optimize()` reaches its `break`, and two states in the same block of
the final partition (the `newGamma` at the `break`, whose blocks are each
replaced by one representative) are both non-terminal, or both terminal with
equal `get_terminal()` tokens. -/
theorem optimize_keeps_terminal_classes {T : Type} [TokenInfo T] [TokenInfoLaws T]
    (nfa : List (nfa_node T)) (start : Nat) (hwf : nfa_wf nfa) (hstart : start < nfa.length) :
    ∃ d newGamma newMap, dfa.ctor nfa start = some d ∧
      optimize_loop d.nfa d.heap (d._nodes.length + 2) true [d._nodes] [] =
        some (newGamma, newMap) ∧
      ∀ B ∈ newGamma, ∀ p ∈ B, ∀ q ∈ B,
        ((dfa_at d.heap p).terminal d.nfa = false ∧ (dfa_at d.heap q).terminal d.nfa = false) ∨
        ((dfa_at d.heap p).terminal d.nfa = true ∧ (dfa_at d.heap q).terminal d.nfa = true ∧
          TokenInfo.eq ((dfa_at d.heap p).get_terminal d.nfa)
            ((dfa_at d.heap q).get_terminal d.nfa) = true) := by
  obtain ⟨d, hctor, _, hdwf, _, _, _⟩ := ctor_built nfa hwf start hstart
  obtain ⟨newGamma, newMap, hloop, _, _, hterm, _⟩ := optimize_loop_spec d hdwf
  refine ⟨d, newGamma, newMap, hctor, hloop, ?_⟩
  intro B hB p hp q hq
  have he := hterm p q ⟨B, hB, hp, hq⟩
  simp only [terminal_equiv, Bool.and_eq_true, beq_iff_eq] at he
  obtain ⟨h1, h2⟩ := he
  cases hpt : (dfa_at d.heap p).terminal d.nfa with
  | false => left; exact ⟨rfl, by rw [← h1, hpt]⟩
  | true => right; exact ⟨rfl, by rw [← h1, hpt], h2⟩

set_option maxRecDepth 100000 in
/-- C10 at the productions `WS` and `ID`: the NFA is well formed, the final
partition has three blocks, and the generated table has distinct terminal
states for `WS` and for `ID`. -/
theorem optimize_keeps_terminal_classes_witness :
    ∃ n : nfa (basic_token_info Nat),
      nfa.ctor char8 (lexer_generator.of_productions ws_id_productions).productions = .ok n ∧
      nfa_wf n.heap ∧ n._start < n.heap.length ∧
      (∃ d newGamma newMap, dfa.ctor n.heap n._start = some d ∧
        optimize_loop d.nfa d.heap (d._nodes.length + 2) true [d._nodes] [] =
          some (newGamma, newMap) ∧
        ∀ B ∈ newGamma, ∀ p ∈ B, ∀ q ∈ B,
          ((dfa_at d.heap p).terminal d.nfa = false ∧
            (dfa_at d.heap q).terminal d.nfa = false) ∨
          ((dfa_at d.heap p).terminal d.nfa = true ∧ (dfa_at d.heap q).terminal d.nfa = true ∧
            TokenInfo.eq ((dfa_at d.heap p).get_terminal d.nfa)
              ((dfa_at d.heap q).get_terminal d.nfa) = true)) ∧
      ∃ (d : dfa (basic_token_info Nat)) (newGamma : List (List Nat))
        (newMap : List (Nat × Nat)) (table : lexer Nat),
        dfa.ctor n.heap n._start = some d ∧
        optimize_loop d.nfa d.heap (d._nodes.length + 2) true [d._nodes] [] =
          some (newGamma, newMap) ∧
        newGamma.length = 3 ∧
        (lexer_generator.of_productions ws_id_productions).generate char8 = .ok table ∧
        (table._states.map (fun s => (s.terminal, s.terminal_info))) =
          [(false, 0), (true, 0), (true, 1)] :=
  ⟨_, rfl, by decide, by decide, optimize_keeps_terminal_classes _ _ (by decide) (by decide),
    _, _, _, _, rfl, rfl, by decide, rfl, by decide⟩

/-! ## Claims about the result of optimize -/

/-- C8: the DFA left by `optimize()` is minimal. For the DFA that the `dfa`
constructor builds from a well-formed NFA, `optimize()` returns, and no two
distinct remaining states are equivalent: they differ in terminal status or
token, or some string `w` tells them apart (one run fails and the other does
not, or the runs end in states of different terminal status or token). -/
theorem optimize_minimal {T : Type} [TokenInfo T] [TokenInfoLaws T]
    (nfa : List (nfa_node T)) (start : Nat) (hwf : nfa_wf nfa) (hstart : start < nfa.length) :
    ∃ d d1, dfa.ctor nfa start = some d ∧ d.optimize = some d1 ∧
      ∀ p ∈ d1._nodes, ∀ q ∈ d1._nodes, p ≠ q →
        ¬ (same_token d1.nfa d1.heap p q ∧ ∀ w, runs_agree d1.nfa d1.heap p q w) := by
  obtain ⟨d, hctor, _, hdwf, hcov, _, _⟩ := ctor_built nfa hwf start hstart
  obtain ⟨d1, hopt, _, hdist, _⟩ := optimize_distinct d hdwf hcov
  refine ⟨d, d1, hctor, hopt, ?_⟩
  intro p hp q hq hne h
  exact hdist p hp q hq hne h.2

set_option maxRecDepth 100000 in
/-- C8 at the productions `WS` and `ID`: the NFA is well formed, and the three
states left by `optimize()` are pairwise inequivalent. -/
theorem optimize_minimal_witness :
    ∃ n : nfa (basic_token_info Nat),
      nfa.ctor char8 (lexer_generator.of_productions ws_id_productions).productions = .ok n ∧
      nfa_wf n.heap ∧ n._start < n.heap.length ∧
      ∃ d d1, dfa.ctor n.heap n._start = some d ∧ d.optimize = some d1 ∧
        ∀ p ∈ d1._nodes, ∀ q ∈ d1._nodes, p ≠ q →
          ¬ (same_token d1.nfa d1.heap p q ∧ ∀ w, runs_agree d1.nfa d1.heap p q w) :=
  ⟨_, rfl, by decide, by decide, optimize_minimal _ _ (by decide) (by decide)⟩

/-- C9: for the DFA that the `dfa` constructor builds from a well-formed NFA,
`optimize()` returns both times it is run, and the second run leaves the number
of states equal to the number after the first run. -/
theorem optimize_twice_same_count {T : Type} [TokenInfo T] [TokenInfoLaws T]
    (nfa : List (nfa_node T)) (start : Nat) (hwf : nfa_wf nfa) (hstart : start < nfa.length) :
    ∃ d d1 d2, dfa.ctor nfa start = some d ∧ d.optimize = some d1 ∧ d1.optimize = some d2 ∧
      d2._nodes.length = d1._nodes.length := by
  obtain ⟨d, hctor, _, hdwf, hcov, _, _⟩ := ctor_built nfa hwf start hstart
  obtain ⟨d1, d2, h1, h2, heq⟩ := optimize_twice d hdwf hcov
  exact ⟨d, d1, d2, hctor, h1, h2, by rw [heq]⟩

set_option maxRecDepth 100000 in
/-- C9 at the productions `WS` and `ID`: three states after the first run of
`optimize()` and three after the second. -/
theorem optimize_twice_same_count_witness :
    ∃ n : nfa (basic_token_info Nat),
      nfa.ctor char8 (lexer_generator.of_productions ws_id_productions).productions = .ok n ∧
      nfa_wf n.heap ∧ n._start < n.heap.length ∧
      (∃ d d1 d2, dfa.ctor n.heap n._start = some d ∧ d.optimize = some d1 ∧
        d1.optimize = some d2 ∧ d2._nodes.length = d1._nodes.length) ∧
      ∃ d d1 d2, dfa.ctor n.heap n._start = some d ∧ d.optimize = some d1 ∧
        d1.optimize = some d2 ∧ d1._nodes.length = 3 ∧ d2._nodes.length = 3 :=
  ⟨_, rfl, by decide, by decide, optimize_twice_same_count _ _ (by decide) (by decide),
    _, _, _, rfl, rfl, rfl, by decide, by decide⟩

/-! ## Claims about the subset construction -/

/-- C4: the DFA of the `dfa` constructor is equivalent to the NFA. For a
well-formed NFA the constructor returns, and for every string `w` the DFA has a
run over `w` from its start state iff some NFA node is reachable from the NFA
start by a path spelling `w`; the state reached then has as `nodes` exactly the
set of NFA nodes reachable by such a path (each listed once). -/
theorem dfa_ctor_equivalent {T : Type} [TokenInfo T]
    (nfa : List (nfa_node T)) (start : Nat) (hwf : nfa_wf nfa) (hstart : start < nfa.length) :
    ∃ d, dfa.ctor nfa start = some d ∧
      ∀ w : List Int,
        ((∃ q, dfa_run d.heap d._initial w = some q) ↔ ∃ y, nfa_path nfa start w y) ∧
        ∀ q, dfa_run d.heap d._initial w = some q →
          (dfa_at d.heap q).nodes.Nodup ∧
            ∀ y, y ∈ (dfa_at d.heap q).nodes ↔ nfa_path nfa start w y := by
  obtain ⟨d, hctor, _, _, _, hnodes, hrun⟩ := ctor_built nfa hwf start hstart
  refine ⟨d, hctor, fun w => ⟨⟨?_, ?_⟩, ?_⟩⟩
  · rintro ⟨q, hq⟩
    obtain ⟨hqm, hqn⟩ := (hrun w).1 q hq
    obtain ⟨y, hy⟩ := List.exists_mem_of_ne_nil _ (hnodes q hqm).1
    exact ⟨y, (hqn y).1 hy⟩
  · rintro ⟨y, hy⟩
    cases hr : dfa_run d.heap d._initial w with
    | none => exact absurd hy ((hrun w).2 hr y)
    | some q => exact ⟨q, rfl⟩
  · intro q hq
    obtain ⟨hqm, hqn⟩ := (hrun w).1 q hq
    exact ⟨(hnodes q hqm).2, hqn⟩

set_option maxRecDepth 100000 in
/-- C4 at the NFA of the production `(ab?)?`: the NFA is well formed, and the
DFA built from it has a run over "ab". -/
theorem dfa_ctor_equivalent_witness :
    ∃ n : nfa (basic_token_info Nat),
      nfa.ctor char8 [⟨⟨0, 7⟩, str "(ab?)?"⟩] = .ok n ∧
      nfa_wf n.heap ∧ n._start < n.heap.length ∧
      (∃ d, dfa.ctor n.heap n._start = some d ∧
        ∀ w : List Int,
          ((∃ q, dfa_run d.heap d._initial w = some q) ↔ ∃ y, nfa_path n.heap n._start w y) ∧
          ∀ q, dfa_run d.heap d._initial w = some q →
            (dfa_at d.heap q).nodes.Nodup ∧
              ∀ y, y ∈ (dfa_at d.heap q).nodes ↔ nfa_path n.heap n._start w y) ∧
      ∃ d q, dfa.ctor n.heap n._start = some d ∧
        dfa_run d.heap d._initial (str "ab") = some q ∧ (dfa_at d.heap q).nodes.length = 5 :=
  ⟨_, rfl, by decide, by decide, dfa_ctor_equivalent _ _ (by decide) (by decide),
    _, _, rfl, rfl, by decide⟩

/-- C5: transitions are deterministic. Whenever the regexes of the productions
of a generator parse, the `dfa` constructor, `optimize()` and `generate()`
return, and in the DFA of the constructor, in the DFA after `optimize()` and in
the table of `generate()`, for every state and every symbol `s` at most one
outgoing transition has a label containing `s`. -/
theorem transitions_deterministic {α : Type} [Inhabited α] (lim : char_limits)
    (g : lexer_generator α) (n : nfa (basic_token_info α))
    (hn : nfa.ctor lim g.productions = .ok n) :
    ∃ d d1 table, dfa.ctor n.heap n._start = some d ∧ d.optimize = some d1 ∧
      g.generate lim = .ok table ∧
      (∀ p ∈ d._nodes, ∀ s : Int,
        ((dfa_at d.heap p).transitions.filter
          (fun t => decide (interval_set.mem s t.characters))).length ≤ 1) ∧
      (∀ p ∈ d1._nodes, ∀ s : Int,
        ((dfa_at d1.heap p).transitions.filter
          (fun t => decide (interval_set.mem s t.characters))).length ≤ 1) ∧
      (∀ node ∈ table.states, ∀ s : Int,
        (node.transitions.filter
          (fun t => decide (interval_set.mem s t.characters))).length ≤ 1) := by
  obtain ⟨hwf, hstart⟩ := nfa_ctor_wf lim g.productions n hn
  obtain ⟨d, hctor, _, hdwf, hcov, _, _⟩ := ctor_built n.heap hwf n._start hstart
  obtain ⟨d1, hopt, hwf1, _, _⟩ := optimize_distinct d hdwf hcov
  obtain ⟨index, _, hgi, hgt⟩ := generate_table d1 hwf1.nodes_nodup
  refine ⟨d, d1, ⟨d1._nodes.map (table_node d1.nfa d1.heap index),
    (index_at index d1._initial : Nat)⟩, hctor, hopt, ?_, ?_, ?_, ?_⟩
  · simp only [lexer_generator.generate, hn, hctor, hopt, hgi, hgt]
  · intro p hp s
    exact pairwise_count_le_one (fun t : dfa_transition => t.characters) s _ (hdwf.det p hp)
  · intro p hp s
    exact pairwise_count_le_one (fun t : dfa_transition => t.characters) s _ (hwf1.det p hp)
  · intro node hnode s
    exact pairwise_count_le_one (fun t : lexer_transition => t.characters) s _
      (table_node_deterministic d1 hwf1 index node hnode)

set_option maxRecDepth 100000 in
/-- C5 at the productions `WS` and `ID`, which parse. -/
theorem transitions_deterministic_witness :
    ∃ n : nfa (basic_token_info Nat),
      nfa.ctor char8 (lexer_generator.of_productions ws_id_productions).productions = .ok n ∧
      ∃ d d1 table, dfa.ctor n.heap n._start = some d ∧ d.optimize = some d1 ∧
        (lexer_generator.of_productions ws_id_productions).generate char8 = .ok table ∧
        (∀ p ∈ d._nodes, ∀ s : Int,
          ((dfa_at d.heap p).transitions.filter
            (fun t => decide (interval_set.mem s t.characters))).length ≤ 1) ∧
        (∀ p ∈ d1._nodes, ∀ s : Int,
          ((dfa_at d1.heap p).transitions.filter
            (fun t => decide (interval_set.mem s t.characters))).length ≤ 1) ∧
        (∀ node ∈ table.states, ∀ s : Int,
          (node.transitions.filter
            (fun t => decide (interval_set.mem s t.characters))).length ≤ 1) :=
  ⟨_, rfl,
    transitions_deterministic char8 (lexer_generator.of_productions ws_id_productions) _ rfl⟩

/-! ## The generated table and the language of the NFA -/

set_option maxRecDepth 100000 in
/-- C1, evaluated at the single production `(ab?)?` and the string "ab": the
NFA built from the production has a path spelling "ab" from its start node to a
terminal node, but the table returned by `generate()` has one state, whose only
transition is on `a`, and its run over "ab" fails. -/
theorem generate_rejects_matched_string :
    ∃ (n : nfa (basic_token_info Nat)) (table : lexer Nat),
      nfa.ctor char8 (lexer_generator.of_productions [⟨str "(ab?)?", 7⟩]).productions = .ok n ∧
      (lexer_generator.of_productions [⟨str "(ab?)?", 7⟩]).generate char8 = .ok table ∧
      nfa_accepts n.heap n._start (str "ab") ∧
      table.states.length = 1 ∧
      lexer_run table table.start.toNat (str "ab") = none ∧
      lexer_accepts table (str "ab") = false :=
  ⟨_, _, rfl, rfl,
    ⟨2, nfa_path_of_trace _
      [(none, 1), (none, 3), (none, 4), (none, 6), (some 97, 8), (none, 9), (some 98, 10),
        (none, 12), (none, 5), (none, 14), (none, 2)] 0 (by decide), by decide⟩,
    by decide, by decide, by decide⟩

set_option maxRecDepth 100000 in
/-- C2, evaluated at the productions `(ab?)?` (payload 10) then `ab`
(payload 11) and the string "ab": both productions match "ab" (the NFA has a
path spelling "ab" to the terminal node of each), yet the run of the table over
"ab" fails, so no state carrying the payload 10 is reached. On the productions
`IF` = `if` (payload 100) then `ID` = `[a-z]+` (payload 101) the table does
carry `IF` on "if" and `ID` on "ifx". -/
theorem first_production_token_lost :
    ∃ (n : nfa (basic_token_info Nat)) (table table1 : lexer Nat),
      nfa.ctor char8
        (lexer_generator.of_productions [⟨str "(ab?)?", 10⟩, ⟨str "ab", 11⟩]).productions =
          .ok n ∧
      (lexer_generator.of_productions [⟨str "(ab?)?", 10⟩, ⟨str "ab", 11⟩]).generate char8 =
        .ok table ∧
      (∃ q, nfa_path n.heap n._start (str "ab") q ∧ (nfa_at n.heap q).terminal = true ∧
        (nfa_at n.heap q).token.additional_info = 10) ∧
      (∃ q, nfa_path n.heap n._start (str "ab") q ∧ (nfa_at n.heap q).terminal = true ∧
        (nfa_at n.heap q).token.additional_info = 11) ∧
      lexer_run table table.start.toNat (str "ab") = none ∧
      lexer_token table (str "ab") = none ∧
      (lexer_generator.of_productions [⟨str "if", 100⟩, ⟨str "[a-z]+", 101⟩]).generate char8 =
        .ok table1 ∧
      lexer_token table1 (str "if") = some 100 ∧ lexer_token table1 (str "ifx") = some 101 :=
  ⟨_, _, _, rfl, rfl,
    ⟨2, nfa_path_of_trace _
      [(none, 1), (none, 3), (none, 4), (none, 6), (some 97, 8), (none, 9), (some 98, 10),
        (none, 12), (none, 5), (none, 14), (none, 2)] 0 (by decide), by decide, by decide⟩,
    ⟨16, nfa_path_of_trace _
      [(none, 15), (none, 17), (some 97, 19), (some 98, 21), (none, 16)] 0 (by decide),
      by decide, by decide⟩,
    by decide, by decide, rfl, by decide, by decide⟩

/-! ## Claims about aggregate, terminal and get_terminal -/

/-- C11: after `aggregate()` a state of `_nodes` has at most one outgoing
transition per target; for every target `q` there is a transition to `q`
after `aggregate()` iff there was one before, and the symbols labelling it are
exactly the symbols of the labels of the transitions to `q` before; and the
labels are pairwise disjoint whenever, before `aggregate()`, transitions to
different targets had disjoint labels (which is the case at both calls of
`aggregate()`, in the constructor and in `optimize()`). -/
theorem aggregate_groups_by_target (heap : List dfa_node) (nodes : List Nat)
    (hnd : nodes.Nodup) (p : Nat) (hp : p ∈ nodes) (hlt : p < heap.length) :
    (dfa_at (aggregate heap nodes) p).transitions.Pairwise (fun a b => a.next ≠ b.next) ∧
    (∀ q, (∃ t ∈ (dfa_at (aggregate heap nodes) p).transitions, t.next = q) ↔
      ∃ t ∈ (dfa_at heap p).transitions, t.next = q) ∧
    (∀ q s, (∃ t ∈ (dfa_at (aggregate heap nodes) p).transitions,
        t.next = q ∧ interval_set.mem s t.characters) ↔
      ∃ t ∈ (dfa_at heap p).transitions, t.next = q ∧ interval_set.mem s t.characters) ∧
    ((∀ a ∈ (dfa_at heap p).transitions, ∀ b ∈ (dfa_at heap p).transitions,
        a.next ≠ b.next →
        ∀ s, ¬ (interval_set.mem s a.characters ∧ interval_set.mem s b.characters)) →
      (dfa_at (aggregate heap nodes) p).transitions.Pairwise (fun a b =>
        ∀ s, ¬ (interval_set.mem s a.characters ∧ interval_set.mem s b.characters))) := by
  have hat : (dfa_at (aggregate heap nodes) p).transitions =
      aggregate_node (dfa_at heap p).transitions := by
    rw [aggregate_at nodes heap hnd p, if_pos ⟨hp, hlt⟩]
  rw [hat]
  have hasc := aggregate_node_ascending (dfa_at heap p).transitions
  have hmem : ∀ q s, (∃ t ∈ aggregate_node (dfa_at heap p).transitions,
        t.next = q ∧ interval_set.mem s t.characters) ↔
      ∃ t ∈ (dfa_at heap p).transitions, t.next = q ∧ interval_set.mem s t.characters := by
    intro q s
    have := aggregate_node_mem (dfa_at heap p).transitions s q
    constructor
    · rintro ⟨t, ht, hn, hs⟩
      obtain ⟨t0, ht0, hs0, hn0⟩ := this.1 ⟨t, ht, hs, hn⟩
      exact ⟨t0, ht0, hn0, hs0⟩
    · rintro ⟨t, ht, hn, hs⟩
      obtain ⟨t0, ht0, hs0, hn0⟩ := this.2 ⟨t, ht, hs, hn⟩
      exact ⟨t0, ht0, hn0, hs0⟩
  refine ⟨hasc.imp (fun h => Nat.ne_of_lt h), ?_, hmem, ?_⟩
  · intro q
    exact aggregate_node_next (dfa_at heap p).transitions q
  · intro hdis
    refine hasc.imp_of_mem ?_
    intro a b ha hb hlt s hs
    obtain ⟨ta, hta, hna, hsa⟩ := (hmem a.next s).1 ⟨a, ha, rfl, hs.1⟩
    obtain ⟨tb, htb, hnb, hsb⟩ := (hmem b.next s).1 ⟨b, hb, rfl, hs.2⟩
    exact hdis ta hta tb htb (by omega) s ⟨hsa, hsb⟩

/-- C11 at a state with the transitions `[1,2] → 7`, `[5,5] → 3`, `[3,3] → 7`:
after `aggregate()` the state has the two transitions `[5,5] → 3` and
`[1,3] → 7`. -/
theorem aggregate_groups_by_target_witness :
    (dfa_at (aggregate
        [⟨[], [⟨[discrete_interval.closed 1 2], 7⟩, ⟨[discrete_interval.closed 5 5], 3⟩,
          ⟨[discrete_interval.closed 3 3], 7⟩]⟩] [0]) 0).transitions =
      [⟨[discrete_interval.closed 5 5], 3⟩, ⟨[discrete_interval.closed 1 3], 7⟩] ∧
    (dfa_at (aggregate
        [⟨[], [⟨[discrete_interval.closed 1 2], 7⟩, ⟨[discrete_interval.closed 5 5], 3⟩,
          ⟨[discrete_interval.closed 3 3], 7⟩]⟩] [0]) 0).transitions.Pairwise
      (fun a b => a.next ≠ b.next) :=
  ⟨rfl,
    (aggregate_groups_by_target
      [⟨[], [⟨[discrete_interval.closed 1 2], 7⟩, ⟨[discrete_interval.closed 5 5], 3⟩,
        ⟨[discrete_interval.closed 3 3], 7⟩]⟩] [0] (by decide) 0 (by decide) (by decide)).1⟩

/-- C12: for every DFA node, `terminal()` is true iff some NFA node of its
`nodes` set is terminal; and when it is true, `get_terminal()` is the token of
a terminal NFA node of the set, and no terminal NFA node of the set has a token
smaller under `operator<` (a strict order, as `std::min_element` requires). -/
theorem terminal_and_get_terminal {T : Type} [TokenInfo T] [TokenInfoOrder T]
    (nfa : List (nfa_node T)) (n : dfa_node) :
    (n.terminal nfa = true ↔ ∃ x ∈ n.nodes, (nfa_at nfa x).terminal = true) ∧
    (n.terminal nfa = true →
      (∃ x ∈ n.nodes, (nfa_at nfa x).terminal = true ∧
        n.get_terminal nfa = (nfa_at nfa x).token) ∧
      ∀ y ∈ n.nodes, (nfa_at nfa y).terminal = true →
        TokenInfo.lt (nfa_at nfa y).token (n.get_terminal nfa) = false) :=
  ⟨terminal_iff nfa n, get_terminal_spec nfa n⟩

/-- C12 for `basic_token_info`, at a DFA node over three NFA nodes of which two
are terminal with precedences 4 and 2: `get_terminal()` has precedence 2, and
in general the precedence of `get_terminal()` is the smallest one. -/
theorem terminal_and_get_terminal_witness :
    (dfa_node.terminal
        ([⟨true, ⟨4, 40⟩, []⟩, ⟨false, ⟨0, 0⟩, []⟩, ⟨true, ⟨2, 20⟩, []⟩] :
          List (nfa_node (basic_token_info Nat))) ⟨[0, 1, 2], []⟩ = true) ∧
    (dfa_node.get_terminal
        ([⟨true, ⟨4, 40⟩, []⟩, ⟨false, ⟨0, 0⟩, []⟩, ⟨true, ⟨2, 20⟩, []⟩] :
          List (nfa_node (basic_token_info Nat))) ⟨[0, 1, 2], []⟩).additional_info = 20 ∧
    ∀ y ∈ [0, 1, 2],
      (nfa_at ([⟨true, ⟨4, 40⟩, []⟩, ⟨false, ⟨0, 0⟩, []⟩, ⟨true, ⟨2, 20⟩, []⟩] :
          List (nfa_node (basic_token_info Nat))) y).terminal = true →
      TokenInfo.lt
        (nfa_at ([⟨true, ⟨4, 40⟩, []⟩, ⟨false, ⟨0, 0⟩, []⟩, ⟨true, ⟨2, 20⟩, []⟩] :
          List (nfa_node (basic_token_info Nat))) y).token
        (dfa_node.get_terminal
          ([⟨true, ⟨4, 40⟩, []⟩, ⟨false, ⟨0, 0⟩, []⟩, ⟨true, ⟨2, 20⟩, []⟩] :
            List (nfa_node (basic_token_info Nat))) ⟨[0, 1, 2], []⟩) = false :=
  ⟨by decide, by decide,
    ((terminal_and_get_terminal
      ([⟨true, ⟨4, 40⟩, []⟩, ⟨false, ⟨0, 0⟩, []⟩, ⟨true, ⟨2, 20⟩, []⟩] :
        List (nfa_node (basic_token_info Nat))) ⟨[0, 1, 2], []⟩).2 (by decide)).2⟩

/-! ## Claims about the generator and its table -/

/-- C14: adding productions with `operator<<` keeps them in insertion order and
gives the `k`-th added production (counting from 0) precedence exactly `k`, so
two productions at different positions have different precedences. With fewer
than `2^31` productions every precedence, and `seq_number` at the end, fit the
`int` that holds them. -/
theorem shl_assigns_insertion_index {α : Type} (ps : List (lexer_production α))
    (h : ps.length < 2 ^ 31) :
    (lexer_generator.of_productions ps).productions.length = ps.length ∧
    (∀ (k : Nat) (p : lexer_production α), ps[k]? = some p →
      ∃ t, (lexer_generator.of_productions ps).productions[k]? = some t ∧
        t.regex = p.regex ∧ t.token.additional_info = p.node ∧
        t.token.precedence = (k : Int) ∧ t.token.precedence < 2 ^ 31) ∧
    (∀ (i j : Nat) (s t : terminal_node (basic_token_info α)),
      (lexer_generator.of_productions ps).productions[i]? = some s →
      (lexer_generator.of_productions ps).productions[j]? = some t → i ≠ j →
      s.token.precedence ≠ t.token.precedence) ∧
    (lexer_generator.of_productions ps).seq_number = (ps.length : Int) ∧
    (lexer_generator.of_productions ps).seq_number < 2 ^ 31 := by
  obtain ⟨h1, h2, h3⟩ := of_productions_spec ps
  have hprec : ∀ (i : Nat) (s : terminal_node (basic_token_info α)),
      (lexer_generator.of_productions ps).productions[i]? = some s →
      s.token.precedence = (i : Int) := by
    intro i s hs
    have hi : i < ps.length := by
      rw [← h1]
      exact (List.getElem?_eq_some_iff.1 hs).1
    have := h3 i ps[i] (List.getElem?_eq_getElem hi)
    rw [hs] at this
    simp only [Option.some.injEq] at this
    rw [this]
  refine ⟨h1, ?_, ?_, h2, ?_⟩
  · intro k p hk
    have hlt : k < ps.length := (List.getElem?_eq_some_iff.1 hk).1
    refine ⟨_, h3 k p hk, rfl, rfl, rfl, ?_⟩
    show (k : Int) < 2 ^ 31
    have : (k : Int) < (ps.length : Int) := by exact_mod_cast hlt
    have : (ps.length : Int) < 2 ^ 31 := by exact_mod_cast h
    omega
  · intro i j s t hs ht hij
    rw [hprec i s hs, hprec j t ht]
    intro he
    exact hij (by exact_mod_cast he)
  · rw [h2]
    exact_mod_cast h

/-- C14 at `lexer_generator() << IF << ID`: `IF` has precedence 0 and `ID` has
precedence 1. -/
theorem shl_assigns_insertion_index_witness :
    ((lexer_generator.of_productions
        [(⟨str "if", 100⟩ : lexer_production Nat), ⟨str "[a-z]+", 101⟩]).productions.map
      (fun t => (t.token.precedence, t.token.additional_info))) = [(0, 100), (1, 101)] ∧
    (lexer_generator.of_productions
        [(⟨str "if", 100⟩ : lexer_production Nat), ⟨str "[a-z]+", 101⟩]).seq_number = 2 :=
  ⟨by decide,
    (shl_assigns_insertion_index
      [(⟨str "if", 100⟩ : lexer_production Nat), ⟨str "[a-z]+", 101⟩] (by decide)).2.2.2.1⟩

/-- C13: the table of `generate()` is a re-indexing of the minimised DFA.
Whenever the regexes of the productions parse, `generate()` returns a table
with one state per node of the DFA after `optimize()` (the `j`-th state for the
`j`-th node that `states()` lists, each node listed once); `start()` is the
index of the DFA start node; the state at the index of a node `p` has the
terminal flag of `p`, the payload of `p.get_terminal()` and, in order, one
transition per transition of `p`, with the same label and with `next` the index
of the target; `start()` and every `next` are below `states().size()`. -/
theorem generate_reindexes {α : Type} [Inhabited α] (lim : char_limits)
    (g : lexer_generator α) (n : nfa (basic_token_info α))
    (hn : nfa.ctor lim g.productions = .ok n) :
    ∃ d d1 table, dfa.ctor n.heap n._start = some d ∧ d.optimize = some d1 ∧
      g.generate lim = .ok table ∧
      d1._nodes.Nodup ∧
      table.states.length = d1._nodes.length ∧
      (0 ≤ table.start ∧ table.start.toNat < table.states.length ∧
        d1._nodes[table.start.toNat]? = some d1._initial) ∧
      ∀ (j p : Nat), d1._nodes[j]? = some p →
        ∃ node, table.states[j]? = some node ∧
          node.terminal = (dfa_at d1.heap p).terminal d1.nfa ∧
          node.terminal_info = ((dfa_at d1.heap p).get_terminal d1.nfa).additional_info ∧
          node.transitions.length = (dfa_at d1.heap p).transitions.length ∧
          ∀ (k : Nat) (t : dfa_transition), (dfa_at d1.heap p).transitions[k]? = some t →
            ∃ t1, node.transitions[k]? = some t1 ∧ t1.characters = t.characters ∧
              t1.next < table.states.length ∧ d1._nodes[t1.next]? = some t.next := by
  obtain ⟨hwf, hstart⟩ := nfa_ctor_wf lim g.productions n hn
  obtain ⟨d, hctor, _, hdwf, hcov, _, _⟩ := ctor_built n.heap hwf n._start hstart
  obtain ⟨d1, hopt, hwf1, _, _⟩ := optimize_distinct d hdwf hcov
  obtain ⟨index, hidx, hgi, hgt⟩ := generate_table d1 hwf1.nodes_nodup
  have hpos : ∀ q ∈ d1._nodes, index_at index q < d1._nodes.length ∧
      d1._nodes[index_at index q]? = some q := by
    intro q hq
    obtain ⟨j, hj⟩ := List.mem_iff_getElem?.1 hq
    rw [hidx j q hj]
    exact ⟨(List.getElem?_eq_some_iff.1 hj).1, hj⟩
  have hlen : (d1._nodes.map (table_node d1.nfa d1.heap index)).length = d1._nodes.length :=
    List.length_map _ _
  refine ⟨d, d1, ⟨d1._nodes.map (table_node d1.nfa d1.heap index),
    (index_at index d1._initial : Nat)⟩, hctor, hopt, ?_, hwf1.nodes_nodup, hlen, ?_, ?_⟩
  · simp only [lexer_generator.generate, hn, hctor, hopt, hgi, hgt]
  · obtain ⟨h1, h2⟩ := hpos d1._initial hwf1.initial_mem
    refine ⟨Int.ofNat_nonneg _, ?_, ?_⟩
    · show (Int.toNat (index_at index d1._initial : Nat)) <
        (d1._nodes.map (table_node d1.nfa d1.heap index)).length
      rw [Int.toNat_ofNat, hlen]
      exact h1
    · show d1._nodes[Int.toNat (index_at index d1._initial : Nat)]? = _
      rw [Int.toNat_ofNat]
      exact h2
  · intro j p hj
    have hp : p ∈ d1._nodes := List.mem_iff_getElem?.2 ⟨j, hj⟩
    refine ⟨table_node d1.nfa d1.heap index p, ?_, rfl, rfl, ?_, ?_⟩
    · show (d1._nodes.map (table_node d1.nfa d1.heap index))[j]? = _
      rw [List.getElem?_map, hj]
      rfl
    · show ((dfa_at d1.heap p).transitions.map (table_transition index)).length = _
      rw [List.length_map]
    · intro k t hk
      have ht : t ∈ (dfa_at d1.heap p).transitions := List.mem_iff_getElem?.2 ⟨k, hk⟩
      obtain ⟨h1, h2⟩ := hpos t.next (hwf1.targets p hp t ht)
      refine ⟨table_transition index t, ?_, rfl, ?_, h2⟩
      · show ((dfa_at d1.heap p).transitions.map (table_transition index))[k]? = _
        rw [List.getElem?_map, hk]
        rfl
      · show index_at index t.next < (d1._nodes.map (table_node d1.nfa d1.heap index)).length
        rw [hlen]
        exact h1

set_option maxRecDepth 100000 in
/-- C13 at the productions `WS` and `ID`, which parse: the table has three
states and starts at state 0. -/
theorem generate_reindexes_witness :
    ∃ n : nfa (basic_token_info Nat),
      nfa.ctor char8 (lexer_generator.of_productions ws_id_productions).productions = .ok n ∧
      (∃ d d1 table, dfa.ctor n.heap n._start = some d ∧ d.optimize = some d1 ∧
        (lexer_generator.of_productions ws_id_productions).generate char8 = .ok table ∧
        d1._nodes.Nodup ∧
        table.states.length = d1._nodes.length ∧
        (0 ≤ table.start ∧ table.start.toNat < table.states.length ∧
          d1._nodes[table.start.toNat]? = some d1._initial) ∧
        ∀ (j p : Nat), d1._nodes[j]? = some p →
          ∃ node, table.states[j]? = some node ∧
            node.terminal = (dfa_at d1.heap p).terminal d1.nfa ∧
            node.terminal_info =
              ((dfa_at d1.heap p).get_terminal d1.nfa).additional_info ∧
            node.transitions.length = (dfa_at d1.heap p).transitions.length ∧
            ∀ (k : Nat) (t : dfa_transition), (dfa_at d1.heap p).transitions[k]? = some t →
              ∃ t1, node.transitions[k]? = some t1 ∧ t1.characters = t.characters ∧
                t1.next < table.states.length ∧ d1._nodes[t1.next]? = some t.next) ∧
      ∃ table, (lexer_generator.of_productions ws_id_productions).generate char8 = .ok table ∧
        table.states.length = 3 ∧ table.start = 0 :=
  ⟨_, rfl,
    generate_reindexes char8 (lexer_generator.of_productions ws_id_productions) _ rfl,
    _, rfl, by decide, by decide⟩

/-- C15: whenever the regexes of the productions parse, `generate()` returns a
table, and the state at `start()` is terminal iff some production matches the
empty string, that is, iff the NFA built from the productions has a path of
epsilon transitions from its start node to the terminal node of a production. -/
theorem start_terminal_iff_empty_matched {α : Type} [Inhabited α] (lim : char_limits)
    (g : lexer_generator α) (n : nfa (basic_token_info α))
    (hn : nfa.ctor lim g.productions = .ok n) :
    ∃ table node, g.generate lim = .ok table ∧
      table.states[table.start.toNat]? = some node ∧
      (node.terminal = true ↔ nfa_accepts n.heap n._start []) := by
  obtain ⟨hwf, hstart⟩ := nfa_ctor_wf lim g.productions n hn
  obtain ⟨d, hctor, _, hdwf, _, _, _⟩ := ctor_built n.heap hwf n._start hstart
  obtain ⟨d1, hopt, hwf1, hterm⟩ := optimize_initial_terminal d hdwf
  obtain ⟨index, hidx, hgi, hgt⟩ := generate_table d1 hwf1.nodes_nodup
  obtain ⟨j, hj⟩ := List.mem_iff_getElem?.1 hwf1.initial_mem
  refine ⟨⟨d1._nodes.map (table_node d1.nfa d1.heap index),
    (index_at index d1._initial : Nat)⟩, table_node d1.nfa d1.heap index d1._initial,
    ?_, ?_, ?_⟩
  · simp only [lexer_generator.generate, hn, hctor, hopt, hgi, hgt]
  · show (d1._nodes.map (table_node d1.nfa d1.heap index))[
      Int.toNat (index_at index d1._initial : Nat)]? = _
    rw [Int.toNat_ofNat, hidx j _ hj, List.getElem?_map, hj]
    rfl
  · show (dfa_at d1.heap d1._initial).terminal d1.nfa = true ↔ _
    rw [hterm]
    exact ctor_initial_terminal n.heap hwf n._start hstart d hctor

set_option maxRecDepth 100000 in
/-- C15 at the single production `g*`: it parses, the NFA has an epsilon path
from its start node to the terminal node, and the start state of the table is
terminal. -/
theorem start_terminal_iff_empty_matched_witness :
    ∃ n : nfa (basic_token_info Nat),
      nfa.ctor char8 (lexer_generator.of_productions [⟨str "g*", 1⟩]).productions = .ok n ∧
      (∃ table node,
        (lexer_generator.of_productions [⟨str "g*", 1⟩]).generate char8 = .ok table ∧
        table.states[table.start.toNat]? = some node ∧
        (node.terminal = true ↔ nfa_accepts n.heap n._start [])) ∧
      ∃ table node,
        (lexer_generator.of_productions [⟨str "g*", 1⟩]).generate char8 = .ok table ∧
        table.states[table.start.toNat]? = some node ∧ node.terminal = true :=
  ⟨_, rfl,
    start_terminal_iff_empty_matched char8
      (lexer_generator.of_productions [⟨str "g*", 1⟩]) _ rfl,
    _, _, rfl, rfl, by decide⟩

/-! ## Claims about the errors of the regex parser -/

set_option maxRecDepth 100000 in
/-- C16, evaluated at the regexes `a)b` and `)`: `parse_regex` returns at the
unmatched `)` without raising (for `a)b` with the AST of `a` and the position 1,
for `)` with an empty concatenation and the position 0), the constructor of
`nfa` does not look at the position and succeeds, and the table generated from
the production `a)b` is the table of `a`: it accepts "a". -/
theorem unmatched_close_paren_accepted :
    parse_regex char8 (str "a)b") (parse_fuel (str "a)b")) 0 =
      .ok (regex_node.alternative [regex_node.concatenate
        [regex_node.character_set [discrete_interval.closed 97 97]]], 1) ∧
    parse_regex char8 (str ")") (parse_fuel (str ")")) 0 =
      .ok (regex_node.alternative [regex_node.concatenate []], 0) ∧
    (∃ n : nfa (basic_token_info Nat), nfa.ctor char8 [⟨⟨0, 7⟩, str "a)b"⟩] = .ok n) ∧
    (∃ n : nfa (basic_token_info Nat), nfa.ctor char8 [⟨⟨0, 7⟩, str ")"⟩] = .ok n) ∧
    ∃ table : lexer Nat,
      (lexer_generator.of_productions [⟨str "a)b", 7⟩]).generate char8 = .ok table ∧
      lexer_accepts table (str "a") = true :=
  ⟨rfl, rfl, ⟨_, rfl⟩, ⟨_, rfl⟩, _, rfl, by decide⟩

set_option maxRecDepth 100000 in
/-- C17, evaluated at the regex `(a\` (the input ends inside the open group,
after a backslash): `parse_atom` takes the terminating zero of the string as
the escaped character and leaves the position one past the end, and the next
read is outside the string, so no regex-syntax error is raised by the parser.
On `(a`, `[abc`, `[a-` and `[` the parser does raise. -/
theorem unterminated_group_backslash_unchecked :
    parse_atom char8 (str "(a\\") (parse_fuel (str "(a\\")) 2 =
      .ok (some (regex_node.character_set [discrete_interval.closed 0 0]), 4) ∧
    (str "(a\\").length = 3 ∧
    parse_regex char8 (str "(a\\") (parse_fuel (str "(a\\")) 0 = .error .out_of_range ∧
    parse_regex char8 (str "(a") (parse_fuel (str "(a")) 0 =
      .error (.runtime_error "Invalid regular expression - unterminated subexpression.") ∧
    parse_regex char8 (str "[abc") (parse_fuel (str "[abc")) 0 =
      .error (.runtime_error "Invalid regular expression - unterminated char range.") ∧
    parse_regex char8 (str "[a-") (parse_fuel (str "[a-")) 0 =
      .error (.runtime_error "Invalid regular expression - unterminated char range.") ∧
    parse_regex char8 (str "[") (parse_fuel (str "[")) 0 =
      .error (.runtime_error "Invalid regular expression - unterminated char range.") :=
  ⟨rfl, rfl, rfl, rfl, rfl, rfl, rfl⟩

set_option maxRecDepth 100000 in
/-- C18, evaluated at the regex `a)]`: the parser returns at the unmatched `)`
with the AST of `a`, never reaches the `]` and raises nothing; the constructor
of `nfa` succeeds. On `a]` the parser does raise. -/
theorem unmatched_bracket_after_paren_accepted :
    parse_regex char8 (str "a)]") (parse_fuel (str "a)]")) 0 =
      .ok (regex_node.alternative [regex_node.concatenate
        [regex_node.character_set [discrete_interval.closed 97 97]]], 1) ∧
    (∃ n : nfa (basic_token_info Nat), nfa.ctor char8 [⟨⟨0, 7⟩, str "a)]"⟩] = .ok n) ∧
    parse_regex char8 (str "a]") (parse_fuel (str "a]")) 0 =
      .error (.runtime_error "Invalid regular expression - unmatched ]") :=
  ⟨rfl, ⟨_, rfl⟩, rfl⟩

set_option maxRecDepth 100000 in
/-- C19, evaluated at the regexes `)|*` (a `*` directly after `|`) and `a)**`
(a `*` directly after another quantifier): the parser returns at the unmatched
`)`, never reaches the quantifier and raises nothing; the constructor of `nfa`
succeeds. On `*a`, `(+a)`, `a|?` and `a**` the parser does raise, and
`operand` is never built without a child. -/
theorem quantifier_after_paren_accepted :
    parse_regex char8 (str ")|*") (parse_fuel (str ")|*")) 0 =
      .ok (regex_node.alternative [regex_node.concatenate []], 0) ∧
    parse_regex char8 (str "a)**") (parse_fuel (str "a)**")) 0 =
      .ok (regex_node.alternative [regex_node.concatenate
        [regex_node.character_set [discrete_interval.closed 97 97]]], 1) ∧
    (∃ n : nfa (basic_token_info Nat), nfa.ctor char8 [⟨⟨0, 7⟩, str ")|*"⟩] = .ok n) ∧
    (∃ n : nfa (basic_token_info Nat), nfa.ctor char8 [⟨⟨0, 7⟩, str "a)**"⟩] = .ok n) ∧
    parse_regex char8 (str "*a") (parse_fuel (str "*a")) 0 =
      .error (.runtime_error "Cannot quantify an empty string.") ∧
    parse_regex char8 (str "(+a)") (parse_fuel (str "(+a)")) 0 =
      .error (.runtime_error "Cannot quantify an empty string.") ∧
    parse_regex char8 (str "a|?") (parse_fuel (str "a|?")) 0 =
      .error (.runtime_error "Cannot quantify an empty string.") ∧
    parse_regex char8 (str "a**") (parse_fuel (str "a**")) 0 =
      .error (.runtime_error "Cannot quantify an empty string.") ∧
    ∀ oper, make_operand none oper =
      .error (.runtime_error "Cannot quantify an empty string.") :=
  ⟨rfl, rfl, ⟨_, rfl⟩, ⟨_, rfl⟩, rfl, rfl, rfl, rfl, fun _ => rfl⟩

set_option maxRecDepth 100000 in
/-- C20, evaluated at the regexes `a\` and `\`: after the backslash
`parse_atom` takes the terminating zero of the string as the escaped character
and leaves the position one past the end; `parse_term` finds `begin != end` and
reads outside the string. No check raises a regex-syntax error. -/
theorem lone_backslash_reads_past_end :
    parse_atom char8 (str "a\\") (parse_fuel (str "a\\")) 1 =
      .ok (some (regex_node.character_set [discrete_interval.closed 0 0]), 3) ∧
    (str "a\\").length = 2 ∧
    parse_term char8 (str "a\\") (parse_fuel (str "a\\")) 1 = .error .out_of_range ∧
    parse_regex char8 (str "a\\") (parse_fuel (str "a\\")) 0 = .error .out_of_range ∧
    parse_regex char8 (str "\\") (parse_fuel (str "\\")) 0 = .error .out_of_range :=
  ⟨rfl, rfl, rfl, rfl, rfl⟩

/-! ## Claims about scenarios of the specification -/

set_option maxRecDepth 100000 in
/-- C25: the regex `.` parses to a character set that is exactly `{'.'}`, and
the table generated from the production `.` accepts a one-character string iff
the character is `.`. -/
theorem dot_is_literal :
    parse_regex char8 (str ".") (parse_fuel (str ".")) 0 =
      .ok (regex_node.alternative [regex_node.concatenate
        [regex_node.character_set [discrete_interval.closed (ch '.') (ch '.')]]], 1) ∧
    (∀ s : Int, interval_set.mem s [discrete_interval.closed (ch '.') (ch '.')] ↔
      s = ch '.') ∧
    ∃ table : lexer Nat,
      (lexer_generator.of_productions [⟨str ".", 7⟩]).generate char8 = .ok table ∧
      lexer_accepts table (str ".") = true ∧
      ∀ s : Int, lexer_accepts table [s] = true ↔ s = ch '.' := by
  refine ⟨rfl, ?_, ⟨⟨[⟨[⟨[discrete_interval.closed 46 46], 1⟩], false, 0⟩, ⟨[], true, 7⟩], 0⟩,
    rfl, by decide, ?_⟩⟩
  · intro s
    simp only [interval_set.mem, discrete_interval.mem, discrete_interval.first,
      discrete_interval.last, discrete_interval.closed, List.mem_singleton, exists_eq_left]
    have : ch '.' = 46 := by decide
    simp only [this]
    constructor
    · intro h; simp at h; omega
    · intro h; subst h; simp
  · intro s
    have h46 : ch '.' = 46 := by decide
    rw [h46]
    by_cases hs : s = 46
    · subst hs
      simp only [iff_true]
      decide
    · simp only [hs, iff_false, Bool.not_eq_true]
      have hm : ¬ interval_set.mem s [discrete_interval.closed 46 46] := by
        simp only [interval_set.mem, discrete_interval.mem, discrete_interval.first,
          discrete_interval.last, discrete_interval.closed, List.mem_singleton,
          exists_eq_left]
        simp
        omega
      simp [lexer_accepts, lexer_run, lexer_step, lexer.start, hm]

set_option maxRecDepth 100000 in
/-- C29 (scenario S1): for the single production `if` with payload `KW`
(here 7), `generate()` returns a table with exactly 3 states; the start state is
non-terminal with exactly one transition, labelled `{'i'}`, to a non-terminal
state whose only transition is labelled `{'f'}` and leads to a terminal state
carrying `KW`. -/
theorem scenario_keyword_if :
    ∃ (table : lexer Nat) (n0 n1 n2 : lexer_node Nat) (i1 i2 : Nat),
      (lexer_generator.of_productions [⟨str "if", 7⟩]).generate char8 = .ok table ∧
      table.states.length = 3 ∧
      table.states[table.start.toNat]? = some n0 ∧ n0.terminal = false ∧
      n0.transitions = [⟨[discrete_interval.closed (ch 'i') (ch 'i')], i1⟩] ∧
      table.states[i1]? = some n1 ∧ n1.terminal = false ∧
      n1.transitions = [⟨[discrete_interval.closed (ch 'f') (ch 'f')], i2⟩] ∧
      table.states[i2]? = some n2 ∧ n2.terminal = true ∧ n2.terminal_info = 7 ∧
      (∀ s : Int, interval_set.mem s [discrete_interval.closed (ch 'i') (ch 'i')] ↔
        s = ch 'i') ∧
      (∀ s : Int, interval_set.mem s [discrete_interval.closed (ch 'f') (ch 'f')] ↔
        s = ch 'f') := by
  refine ⟨_, ⟨[⟨[discrete_interval.closed 105 105], 1⟩], false, 0⟩,
    ⟨[⟨[discrete_interval.closed 102 102], 2⟩], false, 0⟩, ⟨[], true, 7⟩, 1, 2,
    rfl, rfl, rfl, rfl, rfl, rfl, rfl, rfl, rfl, rfl, rfl, ?_, ?_⟩
  · intro s
    have : ch 'i' = 105 := by decide
    simp only [this, interval_set.mem, discrete_interval.mem, discrete_interval.first,
      discrete_interval.last, discrete_interval.closed, List.mem_singleton, exists_eq_left]
    simp
    omega
  · intro s
    have : ch 'f' = 102 := by decide
    simp only [this, interval_set.mem, discrete_interval.mem, discrete_interval.first,
      discrete_interval.last, discrete_interval.closed, List.mem_singleton, exists_eq_left]
    simp
    omega

set_option maxRecDepth 100000 in
/-- C30 (scenario S3): for the single production `[^abc]+`, over the alphabet
of a signed 8-bit `char` and over the alphabet `0..255`, the start state of the
generated table has exactly one outgoing transition, and a symbol of the
alphabet belongs to its label iff it is none of `a`, `b`, `c`. -/
theorem scenario_complement_class :
    (∃ (table : lexer Nat) (n0 : lexer_node Nat) (t : lexer_transition),
      (lexer_generator.of_productions [⟨str "[^abc]+", 7⟩]).generate char8 = .ok table ∧
      table.states[table.start.toNat]? = some n0 ∧ n0.transitions = [t] ∧
      ∀ s : Int, -128 ≤ s → s ≤ 127 →
        (interval_set.mem s t.characters ↔ s ≠ ch 'a' ∧ s ≠ ch 'b' ∧ s ≠ ch 'c')) ∧
    (∃ (table : lexer Nat) (n0 : lexer_node Nat) (t : lexer_transition),
      (lexer_generator.of_productions [⟨str "[^abc]+", 7⟩]).generate ⟨0, 255⟩ = .ok table ∧
      table.states[table.start.toNat]? = some n0 ∧ n0.transitions = [t] ∧
      ∀ s : Int, 0 ≤ s → s ≤ 255 →
        (interval_set.mem s t.characters ↔ s ≠ ch 'a' ∧ s ≠ ch 'b' ∧ s ≠ ch 'c')) := by
  have ha : ch 'a' = 97 := by decide
  have hb : ch 'b' = 98 := by decide
  have hc : ch 'c' = 99 := by decide
  refine ⟨⟨_, ⟨[⟨[discrete_interval.closed (-128) 96, discrete_interval.closed 100 127], 1⟩],
      false, 0⟩, ⟨[discrete_interval.closed (-128) 96, discrete_interval.closed 100 127], 1⟩,
      rfl, rfl, rfl, ?_⟩,
    ⟨_, ⟨[⟨[discrete_interval.closed 0 96, discrete_interval.closed 100 255], 1⟩],
      false, 0⟩, ⟨[discrete_interval.closed 0 96, discrete_interval.closed 100 255], 1⟩,
      rfl, rfl, rfl, ?_⟩⟩
  · intro s h1 h2
    simp only [ha, hb, hc, interval_set.mem, discrete_interval.mem, discrete_interval.first,
      discrete_interval.last, discrete_interval.closed, List.mem_cons, List.mem_singleton,
      List.not_mem_nil, or_false, exists_eq_or_imp, exists_eq_left]
    simp
    omega
  · intro s h1 h2
    simp only [ha, hb, hc, interval_set.mem, discrete_interval.mem, discrete_interval.first,
      discrete_interval.last, discrete_interval.closed, List.mem_cons, List.mem_singleton,
      List.not_mem_nil, or_false, exists_eq_or_imp, exists_eq_left]
    simp
    omega

/-! ## Claims about atoms, classes and the shape of the AST -/

/-- C24: escapes produce literals. For every character `c`, a backslash followed
by `c` is read by `parse_atom` as the character set `{c}`, wherever it stands
in a regex, and inside a class the two characters add (in a complement class:
remove) exactly `c`; in particular the regex `\c` and the regex `[\c]` both
parse to the character set `{c}`. -/
theorem escape_is_literal (lim : char_limits) (c : Int) :
    (∀ (regex : List Int) (b fuel : Nat), regex[b]? = some (ch '\\') →
      regex[b + 1]? = some c →
      parse_atom lim regex (fuel + 1) b =
        .ok (some (regex_node.character_set [discrete_interval.closed c c]), b + 2)) ∧
    (∀ (regex : List Int) (complement : Bool) (fuel : Nat) (last : Option Int)
      (char_set : interval_set) (b : Nat), regex[b]? = some (ch '\\') →
      regex[b + 1]? = some c →
      parse_char_range_loop regex complement (fuel + 2) states.normal last char_set b =
        parse_char_range_loop regex complement fuel states.normal (some c)
          (if complement then char_set.subtract_element c else char_set.add_element c)
          (b + 2)) ∧
    parse_regex lim [ch '\\', c] (parse_fuel [ch '\\', c]) 0 =
      .ok (regex_node.alternative [regex_node.concatenate
        [regex_node.character_set [discrete_interval.closed c c]]], 2) ∧
    parse_regex lim [ch '[', ch '\\', c, ch ']'] (parse_fuel [ch '[', ch '\\', c, ch ']']) 0 =
      .ok (regex_node.alternative [regex_node.concatenate
        [regex_node.character_set [discrete_interval.closed c c]]], 4) ∧
    ∀ s : Int, interval_set.mem s [discrete_interval.closed c c] ↔ s = c := by
  refine ⟨fun regex b fuel h0 h1 => parse_atom_escape lim regex b fuel c h0 h1,
    fun regex complement fuel last cs b h0 h1 =>
      char_range_escape regex complement fuel last cs b c h0 h1, ?_, ?_, ?_⟩
  · have hatom := parse_atom_escape lim [ch '\\', c] 0 12 c rfl rfl
    have hterm := parse_term_end lim [ch '\\', c] 13 0 _ hatom
    have hfac : parse_factor_loop lim [ch '\\', c] 15 [] 0 =
        .ok (regex_node.concatenate
          [regex_node.character_set [discrete_interval.closed c c]], 2) := by
      rw [parse_factor_more lim [ch '\\', c] 14 0 2 [] _ (by simp) hterm]
      exact parse_factor_end lim [ch '\\', c] 13 _
    show parse_regex lim [ch '\\', c] (15 + 1) 0 = _
    rw [parse_regex_step lim _ 15 0 2 _ hfac]
    exact parse_regex_loop_end lim [ch '\\', c] 14 _
  · have hloop : parse_char_range lim [ch '[', ch '\\', c, ch ']'] 1 false =
        .ok (regex_node.character_set [discrete_interval.closed c c], 4) := by
      show parse_char_range_loop [ch '[', ch '\\', c, ch ']'] false (3 + 2) states.normal none
        [] 1 = _
      rw [char_range_escape _ false 3 none [] 1 c rfl rfl]
      show parse_char_range_loop [ch '[', ch '\\', c, ch ']'] false (2 + 1) states.normal
        (some c) (interval_set.add_element [] c) 3 = _
      rw [char_range_close _ false 2 (some c) _ 3 rfl, add_element_nil, make_closed_singleton]
    have hatom := parse_atom_class lim [ch '[', ch '\\', c, ch ']'] 20 0 (ch '\\') _ rfl rfl
      (by decide) hloop
    have hterm := parse_term_end lim [ch '[', ch '\\', c, ch ']'] 21 0 _ hatom
    have hfac : parse_factor_loop lim [ch '[', ch '\\', c, ch ']'] 23 [] 0 =
        .ok (regex_node.concatenate
          [regex_node.character_set [discrete_interval.closed c c]], 4) := by
      rw [parse_factor_more lim _ 22 0 4 [] _ (by simp) hterm]
      exact parse_factor_end lim [ch '[', ch '\\', c, ch ']'] 21 _
    show parse_regex lim [ch '[', ch '\\', c, ch ']'] (23 + 1) 0 = _
    rw [parse_regex_step lim _ 23 0 4 _ hfac]
    exact parse_regex_loop_end lim [ch '[', ch '\\', c, ch ']'] 22 _
  · intro s
    simp only [interval_set.mem, discrete_interval.mem, discrete_interval.first,
      discrete_interval.last, discrete_interval.closed, List.mem_singleton, exists_eq_left]
    simp
    omega

/-- C24 at the character `(`: the regex `\(` parses to the character set `{(}`. -/
theorem escape_is_literal_witness :
    parse_regex char8 [ch '\\', ch '('] (parse_fuel [ch '\\', ch '(']) 0 =
      .ok (regex_node.alternative [regex_node.concatenate
        [regex_node.character_set [discrete_interval.closed (ch '(') (ch '(')]]], 2) :=
  (escape_is_literal char8 (ch '(')).2.2.1

set_option maxRecDepth 100000 in
/-- C21 fails at the class `[z-a]`: parsing raises no error and returns the
character set `{z}`. -/
theorem inverted_range_accepted :
    parse_regex char8 (str "[z-a]") (parse_fuel (str "[z-a]")) 0 =
      .ok (regex_node.alternative [regex_node.concatenate
        [regex_node.character_set [discrete_interval.closed (ch 'z') (ch 'z')]]], 5) ∧
    ∀ e, parse_regex char8 (str "[z-a]") (parse_fuel (str "[z-a]")) 0 ≠ .error e := by
  have h : parse_regex char8 (str "[z-a]") (parse_fuel (str "[z-a]")) 0 =
      .ok (regex_node.alternative [regex_node.concatenate
        [regex_node.character_set [discrete_interval.closed (ch 'z') (ch 'z')]]], 5) := rfl
  refine ⟨h, ?_⟩
  intro e he
  rw [h] at he
  cases he

/-- C21 as amended: an inverted range `a-b` with `a > b` raises no error and
contributes no symbol. The interval built for it is empty, so adding it to the
class (or subtracting it from a complement class) changes nothing; the class
loop, reading `a-b`, ends in the state it reaches by reading the single
character `a`; and the class `[a-b]` parses to the character set `{a}`. -/
theorem inverted_range_ignored (lim : char_limits) (a b : Int) (hab : b < a)
    (h1 : a ≠ ch ']') (h2 : a ≠ ch '\\') (h3 : a ≠ ch '-') (h4 : a ≠ ch '^')
    (h5 : b ≠ ch '\\') :
    (∀ (complement : Bool) (char_set : interval_set),
      char_range_interval complement char_set a b = char_set) ∧
    (∀ (regex : List Int) (complement : Bool) (fuel : Nat) (last : Option Int)
      (char_set : interval_set) (p : Nat), regex[p]? = some a →
      regex[p + 1]? = some (ch '-') → regex[p + 2]? = some b →
      parse_char_range_loop regex complement (fuel + 3) states.normal last char_set p =
        parse_char_range_loop regex complement fuel states.normal (some a)
          (char_range_single complement char_set a) (p + 3)) ∧
    parse_regex lim [ch '[', a, ch '-', b, ch ']']
        (parse_fuel [ch '[', a, ch '-', b, ch ']']) 0 =
      .ok (regex_node.alternative [regex_node.concatenate
        [regex_node.character_set [discrete_interval.closed a a]]], 5) := by
  have hstep : ∀ (regex : List Int) (complement : Bool) (fuel : Nat) (last : Option Int)
      (char_set : interval_set) (p : Nat), regex[p]? = some a →
      regex[p + 1]? = some (ch '-') → regex[p + 2]? = some b →
      parse_char_range_loop regex complement (fuel + 3) states.normal last char_set p =
        parse_char_range_loop regex complement fuel states.normal (some a)
          (char_range_single complement char_set a) (p + 3) := by
    intro regex complement fuel last cs p ha hd hb
    rw [char_range_literal regex complement (fuel + 2) last cs p a ha h1 h2 h3,
      char_range_dash regex complement (fuel + 1) (some a) _ (p + 1) hd,
      char_range_upper regex complement fuel a _ (p + 2) b hb h5,
      char_range_interval_inverted complement _ a b hab]
  refine ⟨fun complement cs => char_range_interval_inverted complement cs a b hab, hstep, ?_⟩
  have hloop : parse_char_range lim [ch '[', a, ch '-', b, ch ']'] 1 false =
      .ok (regex_node.character_set [discrete_interval.closed a a], 5) := by
    show parse_char_range_loop [ch '[', a, ch '-', b, ch ']'] false (3 + 3) states.normal none
      [] 1 = _
    rw [hstep _ false 3 none [] 1 rfl rfl rfl]
    show parse_char_range_loop [ch '[', a, ch '-', b, ch ']'] false (2 + 1) states.normal
      (some a) (interval_set.add_element [] a) 4 = _
    rw [char_range_close _ false 2 (some a) _ 4 rfl, add_element_nil, make_closed_singleton]
  have hatom := parse_atom_class lim [ch '[', a, ch '-', b, ch ']'] 24 0 a _ rfl rfl h4 hloop
  have hterm := parse_term_end lim [ch '[', a, ch '-', b, ch ']'] 25 0 _ hatom
  have hfac : parse_factor_loop lim [ch '[', a, ch '-', b, ch ']'] 27 [] 0 =
      .ok (regex_node.concatenate
        [regex_node.character_set [discrete_interval.closed a a]], 5) := by
    rw [parse_factor_more lim _ 26 0 5 [] _ (by simp) hterm]
    exact parse_factor_end lim [ch '[', a, ch '-', b, ch ']'] 25 _
  show parse_regex lim [ch '[', a, ch '-', b, ch ']'] (27 + 1) 0 = _
  rw [parse_regex_step lim _ 27 0 5 _ hfac]
  exact parse_regex_loop_end lim [ch '[', a, ch '-', b, ch ']'] 26 _

/-- The amended C21 at `a = 'z'`, `b = 'a'`. -/
theorem inverted_range_ignored_witness :
    parse_regex char8 [ch '[', ch 'z', ch '-', ch 'a', ch ']']
        (parse_fuel [ch '[', ch 'z', ch '-', ch 'a', ch ']']) 0 =
      .ok (regex_node.alternative [regex_node.concatenate
        [regex_node.character_set [discrete_interval.closed (ch 'z') (ch 'z')]]], 5) :=
  (inverted_range_ignored char8 (ch 'z') (ch 'a') (by decide) (by decide) (by decide)
    (by decide) (by decide) (by decide)).2.2

/-! ## Claims about character classes -/

set_option maxRecDepth 100000 in
/-- C23 fails for the atoms `^` and `a`: the class `[^a]` lists them in one
order and parses to every symbol except `a`, the class `[a^]` lists them in the
other order and parses to the two symbols `^` and `a`; the symbol `b` is a
member of the first set and not of the second. -/
theorem class_order_matters :
    (∀ a ∈ [class_atom.single (.plain (ch '^')), class_atom.single (.plain (ch 'a'))],
      a.valid) ∧
    (∀ a, a ∈ [class_atom.single (.plain (ch '^')), class_atom.single (.plain (ch 'a'))] ↔
      a ∈ [class_atom.single (.plain (ch 'a')), class_atom.single (.plain (ch '^'))]) ∧
    parse_regex char8
        (ch '[' :: (class_body [class_atom.single (.plain (ch '^')),
          class_atom.single (.plain (ch 'a'))] ++ [ch ']']))
        (parse_fuel (ch '[' :: (class_body [class_atom.single (.plain (ch '^')),
          class_atom.single (.plain (ch 'a'))] ++ [ch ']']))) 0 =
      .ok (regex_node.alternative [regex_node.concatenate [regex_node.character_set
        [discrete_interval.closed (-128) 96, discrete_interval.closed 98 127]]], 4) ∧
    parse_regex char8
        (ch '[' :: (class_body [class_atom.single (.plain (ch 'a')),
          class_atom.single (.plain (ch '^'))] ++ [ch ']']))
        (parse_fuel (ch '[' :: (class_body [class_atom.single (.plain (ch 'a')),
          class_atom.single (.plain (ch '^'))] ++ [ch ']']))) 0 =
      .ok (regex_node.alternative [regex_node.concatenate [regex_node.character_set
        [discrete_interval.closed 94 94, discrete_interval.closed 97 97]]], 4) ∧
    interval_set.mem (ch 'b')
      [discrete_interval.closed (-128) 96, discrete_interval.closed 98 127] ∧
    ¬ interval_set.mem (ch 'b')
      [discrete_interval.closed 94 94, discrete_interval.closed 97 97] := by
  refine ⟨by decide, ?_, rfl, rfl, by decide, by decide⟩
  intro a
  simp only [List.mem_cons, List.mem_singleton, List.not_mem_nil, or_false]
  exact or_comm

/-- C23 as amended: for two sequences of valid class atoms (single literal or
escaped characters, and ranges `lo-hi` with `lo ≤ hi`) that contain the same
atoms, possibly reordered and repeated, and of which neither is written with
`^` as its first character, both classes parse to character sets, these have
the same members, and the members are the symbols of the atoms. -/
theorem class_members_are_union (lim : char_limits) (as1 as2 : List class_atom)
    (hv1 : ∀ a ∈ as1, a.valid) (hv2 : ∀ a ∈ as2, a.valid)
    (hs1 : (class_body as1).head? ≠ some (ch '^'))
    (hs2 : (class_body as2).head? ≠ some (ch '^'))
    (hsame : ∀ a, a ∈ as1 ↔ a ∈ as2) :
    ∃ X1 X2 : interval_set,
      parse_regex lim (ch '[' :: (class_body as1 ++ [ch ']']))
          (parse_fuel (ch '[' :: (class_body as1 ++ [ch ']']))) 0 =
        .ok (regex_node.alternative [regex_node.concatenate [regex_node.character_set X1]],
          (ch '[' :: (class_body as1 ++ [ch ']'])).length) ∧
      parse_regex lim (ch '[' :: (class_body as2 ++ [ch ']']))
          (parse_fuel (ch '[' :: (class_body as2 ++ [ch ']']))) 0 =
        .ok (regex_node.alternative [regex_node.concatenate [regex_node.character_set X2]],
          (ch '[' :: (class_body as2 ++ [ch ']'])).length) ∧
      (∀ s, interval_set.mem s X1 ↔ interval_set.mem s X2) ∧
      (∀ s, interval_set.mem s X1 ↔ ∃ a ∈ as1, a.mem s) := by
  have m1 : ∀ s, interval_set.mem s (make_closed (as1.foldl (class_atom.apply false) [])) ↔
      ∃ a ∈ as1, a.mem s := by
    intro s
    rw [mem_make_closed, mem_class_atoms_fold as1 [] hv1]
    simp [interval_set_mem_nil]
  have m2 : ∀ s, interval_set.mem s (make_closed (as2.foldl (class_atom.apply false) [])) ↔
      ∃ a ∈ as2, a.mem s := by
    intro s
    rw [mem_make_closed, mem_class_atoms_fold as2 [] hv2]
    simp [interval_set_mem_nil]
  refine ⟨_, _, parse_class_of_atoms lim as1 hv1 hs1, parse_class_of_atoms lim as2 hv2 hs2,
    ?_, m1⟩
  intro s
  rw [m1, m2]
  constructor
  · rintro ⟨a, ha, hm⟩
    exact ⟨a, (hsame a).1 ha, hm⟩
  · rintro ⟨a, ha, hm⟩
    exact ⟨a, (hsame a).2 ha, hm⟩

/-- The amended C23 at the classes `[a-cx]` and `[xa-cx\x]`. -/
theorem class_members_are_union_witness :
    ∃ X1 X2 : interval_set,
      parse_regex char8 (ch '[' :: (class_body [class_atom.range (.plain (ch 'a'))
          (.plain (ch 'c')), class_atom.single (.plain (ch 'x'))] ++ [ch ']']))
          (parse_fuel (ch '[' :: (class_body [class_atom.range (.plain (ch 'a'))
            (.plain (ch 'c')), class_atom.single (.plain (ch 'x'))] ++ [ch ']']))) 0 =
        .ok (regex_node.alternative [regex_node.concatenate [regex_node.character_set X1]],
          (ch '[' :: (class_body [class_atom.range (.plain (ch 'a'))
            (.plain (ch 'c')), class_atom.single (.plain (ch 'x'))] ++ [ch ']'])).length) ∧
      parse_regex char8 (ch '[' :: (class_body [class_atom.single (.plain (ch 'x')),
          class_atom.range (.plain (ch 'a')) (.plain (ch 'c')),
          class_atom.single (.plain (ch 'x'))] ++ [ch ']']))
          (parse_fuel (ch '[' :: (class_body [class_atom.single (.plain (ch 'x')),
            class_atom.range (.plain (ch 'a')) (.plain (ch 'c')),
            class_atom.single (.plain (ch 'x'))] ++ [ch ']']))) 0 =
        .ok (regex_node.alternative [regex_node.concatenate [regex_node.character_set X2]],
          (ch '[' :: (class_body [class_atom.single (.plain (ch 'x')),
            class_atom.range (.plain (ch 'a')) (.plain (ch 'c')),
            class_atom.single (.plain (ch 'x'))] ++ [ch ']'])).length) ∧
      (∀ s, interval_set.mem s X1 ↔ interval_set.mem s X2) ∧
      (∀ s, interval_set.mem s X1 ↔
        ∃ a ∈ [class_atom.range (.plain (ch 'a')) (.plain (ch 'c')),
          class_atom.single (.plain (ch 'x'))], a.mem s) :=
  class_members_are_union char8
    [class_atom.range (.plain (ch 'a')) (.plain (ch 'c')), class_atom.single (.plain (ch 'x'))]
    [class_atom.single (.plain (ch 'x')), class_atom.range (.plain (ch 'a')) (.plain (ch 'c')),
      class_atom.single (.plain (ch 'x'))]
    (by decide) (by decide) (by decide) (by decide)
    (by
      intro a
      simp only [List.mem_cons, List.mem_singleton, List.not_mem_nil, or_false]
      tauto)

set_option maxRecDepth 100000 in
/-- C22 fails for the class body `^a`: the class `[^a]` parses to the set `X`
of every symbol except `a`, and `[^^a]` parses to the set of every symbol
except `^` and `a`; the symbol `a` lies in the universe and not in `X`, and it
is not in the second set either. -/
theorem complement_of_caret_body :
    parse_regex char8 (ch '[' :: (str "^a" ++ [ch ']']))
        (parse_fuel (ch '[' :: (str "^a" ++ [ch ']']))) 0 =
      .ok (regex_node.alternative [regex_node.concatenate [regex_node.character_set
        [discrete_interval.closed (-128) 96, discrete_interval.closed 98 127]]], 4) ∧
    parse_regex char8 (ch '[' :: ch '^' :: (str "^a" ++ [ch ']']))
        (parse_fuel (ch '[' :: ch '^' :: (str "^a" ++ [ch ']']))) 0 =
      .ok (regex_node.alternative [regex_node.concatenate [regex_node.character_set
        [discrete_interval.closed (-128) 93, discrete_interval.closed 95 96,
          discrete_interval.closed 98 127]]], 5) ∧
    (char8.min ≤ ch 'a' ∧ ch 'a' ≤ char8.max ∧
      ¬ interval_set.mem (ch 'a')
        [discrete_interval.closed (-128) 96, discrete_interval.closed 98 127]) ∧
    ¬ interval_set.mem (ch 'a')
      [discrete_interval.closed (-128) 93, discrete_interval.closed 95 96,
        discrete_interval.closed 98 127] :=
  ⟨rfl, rfl, by decide, by decide⟩

/-- C22 as amended: for every class body `B` that does not begin with `^` and
for which `[B]` parses to a character set `X`, the class `[^B]` parses to a
character set whose members are exactly the symbols of
`[min(CharType), max(CharType)]` that are not in `X`. -/
theorem complement_class_is_universe_minus_class (lim : char_limits) (B : List Int)
    (X : interval_set) (fuel e : Nat) (hB : B.head? ≠ some (ch '^'))
    (h : parse_regex lim (ch '[' :: (B ++ [ch ']'])) fuel 0 =
      .ok (regex_node.alternative [regex_node.concatenate [regex_node.character_set X]], e)) :
    ∃ Y : interval_set,
      parse_regex lim (ch '[' :: ch '^' :: (B ++ [ch ']']))
          (parse_fuel (ch '[' :: ch '^' :: (B ++ [ch ']']))) 0 =
        .ok (regex_node.alternative [regex_node.concatenate [regex_node.character_set Y]],
          e + 1) ∧
      ∀ s, interval_set.mem s Y ↔ lim.min ≤ s ∧ s ≤ lim.max ∧ ¬ interval_set.mem s X := by
  obtain ⟨ops, hX, hY⟩ := complement_class_parse lim B X fuel e hB h
  refine ⟨_, hY, ?_⟩
  intro s
  rw [mem_make_closed, mem_fold_subtract ops _ (universe_ordered lim), mem_universe, hX,
    mem_make_closed, mem_fold_add]
  simp only [interval_set_mem_nil, false_or, and_assoc]

set_option maxRecDepth 100000 in
/-- The amended C22 at the class body `a-c`. -/
theorem complement_class_is_universe_minus_class_witness :
    ∃ Y : interval_set,
      parse_regex char8 (ch '[' :: ch '^' :: (str "a-c" ++ [ch ']']))
          (parse_fuel (ch '[' :: ch '^' :: (str "a-c" ++ [ch ']']))) 0 =
        .ok (regex_node.alternative [regex_node.concatenate [regex_node.character_set Y]],
          5 + 1) ∧
      ∀ s, interval_set.mem s Y ↔ char8.min ≤ s ∧ s ≤ char8.max ∧
        ¬ interval_set.mem s [discrete_interval.closed (ch 'a') (ch 'c')] :=
  complement_class_is_universe_minus_class char8 (str "a-c")
    [discrete_interval.closed (ch 'a') (ch 'c')]
    (parse_fuel (ch '[' :: (str "a-c" ++ [ch ']']))) 5 (by decide) rfl
/-! ## Claims about the shape of the AST -/

/-- C26: a quantifier binds only to the atom before it. For two inputs `A` and
`B` that `parse_atom` parses completely to the nodes `tA` and `tB`, and a
quantifier character `q` of kind `oper`, the function `parse_factor` parses
`ABq` to the concatenation of the two terms `tA` and `operand tB oper`, and
`parse_regex` returns the alternative with this concatenation as its only
child. -/
theorem quantifier_binds_preceding_atom (lim : char_limits) (A B : List Int)
    (tA tB : regex_node) (fuelA fuelB : Nat) (q : Int) (oper : operator_type)
    (hA : parse_atom lim A fuelA 0 = .ok (some tA, A.length))
    (hB : parse_atom lim B fuelB 0 = .ok (some tB, B.length))
    (hq : is_quantifier q oper) :
    parse_factor_loop lim (A ++ B ++ [q]) (parse_fuel (A ++ B ++ [q]) - 1) [] 0 =
      .ok (regex_node.concatenate [tA, regex_node.operand tB oper],
        (A ++ B ++ [q]).length) ∧
    parse_regex lim (A ++ B ++ [q]) (parse_fuel (A ++ B ++ [q])) 0 =
      .ok (regex_node.alternative
        [regex_node.concatenate [tA, regex_node.operand tB oper]],
        (A ++ B ++ [q]).length) := by
  obtain ⟨hA1, _⟩ := atom_some_first lim A fuelA tA hA
  obtain ⟨hB1, c, hc, hc1, hc2, hc3⟩ := atom_some_first lim B fuelB tB hB
  have hlen : (A ++ B ++ [q]).length = A.length + B.length + 1 := by
    simp only [List.length_append, List.length_singleton]
  have hR1 : A ++ B ++ [q] = [] ++ (A ++ (B ++ [q])) := by simp
  have hR2 : A ++ B ++ [q] = A ++ (B ++ [q]) := by simp
  -- the atom `A`
  have a1 := atom_inside lim [] A (B ++ [q]) fuelA (4 * (A ++ B ++ [q]).length + 5) tA hA
    (by rw [← hR1]; simp only [List.length_nil]; omega)
  rw [← hR1] at a1
  simp only [List.length_nil, Nat.zero_add] at a1
  have hpeek : (A ++ B ++ [q])[A.length]? = some c := by
    rw [hR2]
    have := getElem?_append_add A (B ++ [q]) 0
    rw [Nat.add_zero] at this
    rw [this, List.getElem?_append_left (by omega), hc]
  have t1 : parse_term lim (A ++ B ++ [q]) (4 * (A ++ B ++ [q]).length + 5 + 1) 0 =
      .ok (some tA, A.length) :=
    parse_term_plain lim _ _ 0 A.length _ c a1 hpeek hc1 hc2 hc3
  -- the atom `B` and the quantifier
  have a2 := atom_inside lim A B [q] fuelB (4 * (A ++ B ++ [q]).length + 4) tB hB
    (by rw [← hR2, hlen]; omega)
  rw [← hR2] at a2
  have hquant : (A ++ B ++ [q])[A.length + B.length]? = some q := by
    have := getElem?_append_zero (A ++ B) [] q
    simpa using this
  have t2 : parse_term lim (A ++ B ++ [q]) (4 * (A ++ B ++ [q]).length + 4 + 1)
      A.length = .ok (some (regex_node.operand tB oper), A.length + B.length + 1) :=
    parse_term_quantified lim _ _ A.length _ tB q oper a2 hquant hq
  -- the loops
  have f1 : parse_factor_loop lim (A ++ B ++ [q]) (4 * (A ++ B ++ [q]).length + 7) [] 0 =
      .ok (regex_node.concatenate [tA, regex_node.operand tB oper],
        (A ++ B ++ [q]).length) := by
    rw [parse_factor_more lim _ (4 * (A ++ B ++ [q]).length + 6) 0 A.length [] tA
      (by rw [hlen]; omega) t1]
    rw [parse_factor_more lim _ (4 * (A ++ B ++ [q]).length + 5) A.length
      (A.length + B.length + 1) _ (regex_node.operand tB oper) (by rw [hlen]; omega) t2]
    rw [← hlen]
    exact parse_factor_end lim _ (4 * (A ++ B ++ [q]).length + 4) _
  refine ⟨f1, ?_⟩
  show parse_regex lim (A ++ B ++ [q]) (4 * (A ++ B ++ [q]).length + 7 + 1) 0 = _
  rw [parse_regex_step lim _ _ 0 _ _ f1]
  exact parse_regex_loop_end lim _ (4 * (A ++ B ++ [q]).length + 6) _

/-- C26 at `ab*`: the result is `Alt[Concat[Chars{a}, Quant(Chars{b}, Star)]]`. -/
theorem quantifier_binds_preceding_atom_witness :
    parse_regex char8 (str "ab*") (parse_fuel (str "ab*")) 0 =
      .ok (regex_node.alternative [regex_node.concatenate
        [regex_node.character_set [discrete_interval.closed (ch 'a') (ch 'a')],
         regex_node.operand
           (regex_node.character_set [discrete_interval.closed (ch 'b') (ch 'b')])
           operator_type.star]], 3) :=
  (quantifier_binds_preceding_atom char8 [ch 'a'] [ch 'b']
    (regex_node.character_set [discrete_interval.closed (ch 'a') (ch 'a')])
    (regex_node.character_set [discrete_interval.closed (ch 'b') (ch 'b')])
    1 1 (ch '*') operator_type.star rfl rfl (Or.inr (Or.inl ⟨rfl, rfl⟩))).2

/-- C27: alternation is flat. For regexes `f1`, ..., `fn` (`n ≥ 1`) that
`parse_factor` parses completely, each to its concatenation `ci`, the regex
`f1|...|fn` parses to one alternative node whose children are `c1`, ..., `cn`
in this order; there are as many children as regexes, and every child is a
concatenation, not an alternative. -/
theorem alternation_is_flat (lim : char_limits) (fs : List (List Int)) (cs : List regex_node)
    (hne : fs ≠ [])
    (h : List.Forall₂
      (fun f c => ∃ fuel, parse_factor_loop lim f fuel [] 0 = .ok (c, f.length)) fs cs) :
    parse_regex lim (bar_join fs) (parse_fuel (bar_join fs)) 0 =
      .ok (regex_node.alternative cs, (bar_join fs).length) ∧
    cs.length = fs.length ∧
    ∀ c ∈ cs, ∃ terms, c = regex_node.concatenate terms := by
  have hcat : ∀ c ∈ cs, ∃ terms, c = regex_node.concatenate terms := by
    intro c hc
    obtain ⟨i, hi, rfl⟩ := List.getElem_of_mem hc
    have hlen := h.length_eq
    obtain ⟨fuel, hf⟩ := List.forall₂_iff_get.1 h |>.2 i (by omega) hi
    obtain ⟨n, more, _, hr, _⟩ := (parser_transfer lim _ fuel).2.2.1 [] 0 _ _ hf
    exact ⟨_, hr⟩
  refine ⟨?_, h.length_eq.symm, hcat⟩
  cases h with
  | nil => exact absurd rfl hne
  | @cons f c fs cs hfc hrest =>
    obtain ⟨fuel1, hfc⟩ := hfc
    have hR : bar_join (f :: fs) = [] ++ (f ++ bar_tail fs) := by simp [bar_join]
    have h1 := (factor_inside lim [] f fs fuel1 (4 * (bar_join (f :: fs)).length + 7) c hfc
      (by rw [← hR]; simp only [List.length_nil]; omega)).1
    rw [← hR] at h1
    simp only [List.length_nil, Nat.zero_add] at h1
    have h2 := regex_loop_bar_tail lim fs cs hrest f [c]
      (4 * (bar_join (f :: fs)).length + 7)
      (by show 4 * ((bar_join (f :: fs)).length + 1 - f.length) + 3 ≤ _; omega)
    show parse_regex lim (bar_join (f :: fs)) (4 * (bar_join (f :: fs)).length + 7 + 1) 0 = _
    rw [parse_regex_step lim _ _ 0 _ _ h1]
    exact h2

/-- C27 at `ab|c|d*`: three alternatives, in order. -/
theorem alternation_is_flat_witness :
    parse_regex char8 (str "ab|c|d*") (parse_fuel (str "ab|c|d*")) 0 =
      .ok (regex_node.alternative
        [regex_node.concatenate
          [regex_node.character_set [discrete_interval.closed (ch 'a') (ch 'a')],
           regex_node.character_set [discrete_interval.closed (ch 'b') (ch 'b')]],
         regex_node.concatenate
          [regex_node.character_set [discrete_interval.closed (ch 'c') (ch 'c')]],
         regex_node.concatenate
          [regex_node.operand
            (regex_node.character_set [discrete_interval.closed (ch 'd') (ch 'd')])
            operator_type.star]], 7) :=
  (alternation_is_flat char8 [str "ab", str "c", str "d*"]
    [regex_node.concatenate
      [regex_node.character_set [discrete_interval.closed (ch 'a') (ch 'a')],
       regex_node.character_set [discrete_interval.closed (ch 'b') (ch 'b')]],
     regex_node.concatenate
      [regex_node.character_set [discrete_interval.closed (ch 'c') (ch 'c')]],
     regex_node.concatenate
      [regex_node.operand
        (regex_node.character_set [discrete_interval.closed (ch 'd') (ch 'd')])
        operator_type.star]]
    (by simp)
    (List.Forall₂.cons ⟨8, rfl⟩ (List.Forall₂.cons ⟨8, rfl⟩
      (List.Forall₂.cons ⟨8, rfl⟩ List.Forall₂.nil)))).1
/-! ## Claim about the Thompson construction -/

/-- C28: the Thompson construction is correct on parsed regexes. For every
regex string that parses to an AST `t`, and every arena on which `t->nfa()` is
called, the words spelled by the paths (with epsilon moves) from the begin to
the end of the segment that is returned are exactly the words of the language
that `t` denotes. -/
theorem thompson_language {T : Type} [TokenInfo T] (lim : char_limits) (regex : List Int)
    (fuel : Nat) (t : regex_node) (e : Nat) (heap : List (nfa_node T))
    (h : parse_regex lim regex fuel 0 = .ok (t, e)) :
    ∀ w, nfa_path (regex_node.nfa t heap).2 (regex_node.nfa t heap).1.begin w
      (regex_node.nfa t heap).1.end ↔ regex_lang t w :=
  (thompson_sound t ((parser_shape lim regex fuel).2.2.2.2 0 t e h).1 heap).1.lang

/-- C28 at the regex `(a|b)*c`, built on an arena that holds one node, and the
word `abc`. -/
theorem thompson_language_witness :
    nfa_path
      (regex_node.nfa ab_star_c ([nfa_node.fresh] : List (nfa_node (basic_token_info Nat)))).2
      (regex_node.nfa ab_star_c
        ([nfa_node.fresh] : List (nfa_node (basic_token_info Nat)))).1.begin
      (str "abc")
      (regex_node.nfa ab_star_c
        ([nfa_node.fresh] : List (nfa_node (basic_token_info Nat)))).1.end ↔
    regex_lang ab_star_c (str "abc") :=
  thompson_language char8 (str "(a|b)*c") (parse_fuel (str "(a|b)*c")) ab_star_c 7
    ([nfa_node.fresh] : List (nfa_node (basic_token_info Nat))) rfl (str "abc")
/-! ## Claims about the shape of the output of make_disjoint -/

/-- C33 (make_disjoint outputs well-formed, pairwise-disjoint intervals): for
every collection of nodes, whatever their labels are, every interval that
`make_disjoint` puts into an empty `dest` is closed with `lower ≤ upper`, and two
distinct intervals of the output have no symbol in common. -/
theorem make_disjoint_output_disjoint (nodes : List (List interval_set)) :
    (∀ I ∈ make_disjoint [] nodes, I.is_closed = true ∧ I.lower ≤ I.upper) ∧
    (∀ I ∈ make_disjoint [] nodes, ∀ J ∈ make_disjoint [] nodes, I ≠ J →
      ∀ x, ¬ (discrete_interval.mem x I ∧ discrete_interval.mem x J)) := by
  refine ⟨fun I hI => make_disjoint_closed nodes I hI, ?_⟩
  have hsym : (make_disjoint [] nodes).Pairwise
      (fun I J => I.upper < J.lower ∨ J.upper < I.lower) :=
    (make_disjoint_ascending nodes).imp (fun h => Or.inl h)
  intro I hI J hJ hne x hx
  have hIc := make_disjoint_closed nodes I hI
  have hJc := make_disjoint_closed nodes J hJ
  have h1 := (closed_interval_mem x I hIc.1).1 hx.1
  have h2 := (closed_interval_mem x J hJc.1).1 hx.2
  have hs : Symmetric (fun I J : discrete_interval => I.upper < J.lower ∨ J.upper < I.lower) :=
    fun a b h => h.symm
  rcases hsym.forall hs hI hJ hne with h | h <;> omega

/-- C33 on a concrete input: two overlapping labels `[1,5]` and `[3,8]` are cut
into `[1,2]`, `[3,5]`, `[6,8]`. -/
theorem make_disjoint_output_disjoint_witness :
    make_disjoint [] [[[discrete_interval.closed 1 5], [discrete_interval.closed 3 8]]] =
        [discrete_interval.closed 1 2, discrete_interval.closed 3 5,
          discrete_interval.closed 6 8] ∧
      ((∀ I ∈ make_disjoint [] [[[discrete_interval.closed 1 5], [discrete_interval.closed 3 8]]],
          I.is_closed = true ∧ I.lower ≤ I.upper) ∧
        (∀ I ∈ make_disjoint [] [[[discrete_interval.closed 1 5], [discrete_interval.closed 3 8]]],
          ∀ J ∈ make_disjoint [] [[[discrete_interval.closed 1 5], [discrete_interval.closed 3 8]]],
          I ≠ J → ∀ x, ¬ (discrete_interval.mem x I ∧ discrete_interval.mem x J))) :=
  ⟨by decide, make_disjoint_output_disjoint _⟩
/-! ## Claims about check_equivalence -/

/-- C36 (the two-state interval check equals the symbol-wise check): for two
deterministic DFA states `p` and `q` whose labels are sets of closed intervals,
and a partition map that has an entry for every target of `p` and of `q`,
`check_equivalence(p, q, Map)` returns without a failed lookup, and it returns
`true` exactly when for every symbol `s` either no transition of `p` and no
transition of `q` has a label containing `s`, or both states have such a
transition and the map sends the two targets to the same block. -/
theorem check_equivalence_symbolwise (heap : List dfa_node) (Map : List (Nat × Nat)) (p q : Nat)
    (hdp : dfa_deterministic_at heap p) (hdq : dfa_deterministic_at heap q)
    (hcp : ∀ t ∈ (dfa_at heap p).transitions, ∀ i ∈ t.characters, closed_interval i)
    (hcq : ∀ t ∈ (dfa_at heap q).transitions, ∀ i ∈ t.characters, closed_interval i)
    (hmp : ∀ t ∈ (dfa_at heap p).transitions, ∃ i, map_at Map t.next = some i)
    (hmq : ∀ t ∈ (dfa_at heap q).transitions, ∃ i, map_at Map t.next = some i) :
    ∃ b, check_equivalence heap p q Map = some b ∧
      (b = true ↔
        ∀ s : Int,
          ((∀ t ∈ (dfa_at heap p).transitions, ¬ interval_set.mem s t.characters) ∧
            (∀ t ∈ (dfa_at heap q).transitions, ¬ interval_set.mem s t.characters)) ∨
          (∃ tp ∈ (dfa_at heap p).transitions, ∃ tq ∈ (dfa_at heap q).transitions,
            interval_set.mem s tp.characters ∧ interval_set.mem s tq.characters ∧
              map_at Map tp.next = map_at Map tq.next)) := by
  obtain ⟨b, hb, hbi⟩ := check_equivalence_spec heap Map p q hdp hdq hcp hcq hmp hmq
  refine ⟨b, hb, hbi.trans ?_⟩
  have key : ∀ s : Int, step_block heap Map p s = step_block heap Map q s ↔
      (((∀ t ∈ (dfa_at heap p).transitions, ¬ interval_set.mem s t.characters) ∧
          (∀ t ∈ (dfa_at heap q).transitions, ¬ interval_set.mem s t.characters)) ∨
        (∃ tp ∈ (dfa_at heap p).transitions, ∃ tq ∈ (dfa_at heap q).transitions,
          interval_set.mem s tp.characters ∧ interval_set.mem s tq.characters ∧
            map_at Map tp.next = map_at Map tq.next)) := by
    intro s
    unfold step_block
    cases hsp : dfa_step heap p s with
    | none =>
      have hnp := dfa_step_none heap p s hsp
      cases hsq : dfa_step heap q s with
      | none =>
        have hnq := dfa_step_none heap q s hsq
        simp only [Option.none_bind, true_iff]
        exact Or.inl ⟨hnp, hnq⟩
      | some q1 =>
        obtain ⟨tq, htq, hsq1, hnq⟩ := dfa_step_some heap q s q1 hsq
        obtain ⟨i, hi⟩ := hmq tq htq
        simp only [Option.none_bind, Option.some_bind]
        rw [← hnq, hi]
        constructor
        · intro h; cases h
        · rintro (⟨_, h2⟩ | ⟨tp, htp, _, _, h3, _⟩)
          · exact absurd hsq1 (h2 tq htq)
          · exact absurd h3 (hnp tp htp)
    | some p1 =>
      obtain ⟨tp, htp, hsp1, hnp⟩ := dfa_step_some heap p s p1 hsp
      obtain ⟨i, hi⟩ := hmp tp htp
      cases hsq : dfa_step heap q s with
      | none =>
        have hnq := dfa_step_none heap q s hsq
        simp only [Option.none_bind, Option.some_bind]
        rw [← hnp, hi]
        constructor
        · intro h; cases h
        · rintro (⟨h1, _⟩ | ⟨_, _, tq, htq, _, h4, _⟩)
          · exact absurd hsp1 (h1 tp htp)
          · exact absurd h4 (hnq tq htq)
      | some q1 =>
        obtain ⟨tq, htq, hsq1, hnq⟩ := dfa_step_some heap q s q1 hsq
        simp only [Option.some_bind]
        rw [← hnp, ← hnq]
        constructor
        · intro h
          exact Or.inr ⟨tp, htp, tq, htq, hsp1, hsq1, h⟩
        · rintro (⟨h1, _⟩ | ⟨tp1, htp1, tq1, htq1, h3, h4, h5⟩)
          · exact absurd hsp1 (h1 tp htp)
          · have e1 := dfa_step_of_mem heap p s hdp tp1 htp1 h3
            have e2 := dfa_step_of_mem heap q s hdq tq1 htq1 h4
            rw [hsp] at e1
            rw [hsq] at e2
            simp only [Option.some.injEq] at e1 e2
            rw [hnp, hnq, e1, e2]
            exact h5
  constructor
  · intro h s; exact (key s).1 (h s)
  · intro h s; exact (key s).2 (h s)

/-- C36 at two states that step to each other on `a`, with a map that puts
both into block 0: the check answers `true`. -/
theorem check_equivalence_symbolwise_witness :
    check_equivalence mirror_states 0 1 [(0, 0), (1, 0)] = some true ∧
    ∃ b, check_equivalence mirror_states 0 1 [(0, 0), (1, 0)] = some b ∧
      (b = true ↔
        ∀ s : Int,
          ((∀ t ∈ (dfa_at mirror_states 0).transitions, ¬ interval_set.mem s t.characters) ∧
            (∀ t ∈ (dfa_at mirror_states 1).transitions, ¬ interval_set.mem s t.characters)) ∨
          (∃ tp ∈ (dfa_at mirror_states 0).transitions,
            ∃ tq ∈ (dfa_at mirror_states 1).transitions,
            interval_set.mem s tp.characters ∧ interval_set.mem s tq.characters ∧
              map_at [(0, 0), (1, 0)] tp.next = map_at [(0, 0), (1, 0)] tq.next)) :=
  ⟨by decide,
    check_equivalence_symbolwise mirror_states [(0, 0), (1, 0)] 0 1
      (by simp [dfa_deterministic_at, dfa_at, mirror_states])
      (by simp [dfa_deterministic_at, dfa_at, mirror_states])
      (by simp [dfa_at, mirror_states, closed_interval, discrete_interval.closed,
        discrete_interval.is_closed])
      (by simp [dfa_at, mirror_states, closed_interval, discrete_interval.closed,
        discrete_interval.is_closed])
      (by intro t ht
          simp only [dfa_at, mirror_states, List.getElem?_cons_zero, Option.getD_some,
            List.mem_singleton] at ht
          subst ht
          exact ⟨0, rfl⟩)
      (by intro t ht
          simp only [dfa_at, mirror_states, List.getElem?_cons_succ, List.getElem?_cons_zero,
            Option.getD_some, List.mem_singleton] at ht
          subst ht
          exact ⟨0, rfl⟩)⟩
/-! ## Claims about scenarios S4 and S5 -/

set_option maxRecDepth 100000 in
/-- C31, as the program behaves (scenario S4): for the single production
`(ab|ac)*` the DFA left by `optimize()` and the generated table have exactly 2
states.  The start state is terminal and its only transition, labelled
`{'a'}`, leads to a second, non-terminal state; the only transition of that
state is labelled `{'b','c'}` and leads back to the start state, so the table
steps from it to the start state both on `b` and on `c`. -/
theorem scenario_ab_ac_star :
    (∃ (n : nfa (basic_token_info Nat)) (d d1 : dfa (basic_token_info Nat)),
      nfa.ctor char8 (lexer_generator.of_productions [⟨str "(ab|ac)*", 7⟩]).productions = .ok n ∧
      dfa.ctor n.heap n._start = some d ∧ d._nodes.length = 4 ∧
      d.optimize = some d1 ∧ d1._nodes.length = 2) ∧
    ∃ (table : lexer Nat) (n0 n1 : lexer_node Nat) (i1 : Nat),
      (lexer_generator.of_productions [⟨str "(ab|ac)*", 7⟩]).generate char8 = .ok table ∧
      table.states.length = 2 ∧
      table.states[table.start.toNat]? = some n0 ∧ n0.terminal = true ∧
      n0.transitions = [⟨[discrete_interval.closed (ch 'a') (ch 'a')], i1⟩] ∧
      i1 ≠ table.start.toNat ∧
      table.states[i1]? = some n1 ∧ n1.terminal = false ∧
      n1.transitions =
        [⟨[discrete_interval.closed (ch 'b') (ch 'c')], table.start.toNat⟩] ∧
      lexer_step table table.start.toNat (ch 'a') = some i1 ∧
      lexer_step table i1 (ch 'b') = some table.start.toNat ∧
      lexer_step table i1 (ch 'c') = some table.start.toNat ∧
      (∀ s : Int, interval_set.mem s [discrete_interval.closed (ch 'b') (ch 'c')] ↔
        s = ch 'b' ∨ s = ch 'c') := by
  refine ⟨⟨_, _, _, rfl, rfl, rfl, rfl, rfl⟩,
    _, ⟨[⟨[discrete_interval.closed 97 97], 1⟩], true, 7⟩,
    ⟨[⟨[discrete_interval.closed 98 99], 0⟩], false, 0⟩, 1,
    rfl, rfl, rfl, rfl, rfl, by decide, rfl, rfl, rfl, by decide, by decide, by decide, ?_⟩
  intro s
  have hb : ch 'b' = 98 := by decide
  have hc : ch 'c' = 99 := by decide
  simp only [hb, hc, interval_set.mem, discrete_interval.mem, discrete_interval.first,
    discrete_interval.last, discrete_interval.closed, List.mem_singleton, exists_eq_left]
  simp
  omega

set_option maxRecDepth 100000 in
/-- C31, the count of the specification refuted: for the single production
`(ab|ac)*` neither the DFA left by `optimize()` nor the generated table has 3
states. -/
theorem scenario_ab_ac_star_not_three :
    ∃ (n : nfa (basic_token_info Nat)) (d d1 : dfa (basic_token_info Nat)) (table : lexer Nat),
      nfa.ctor char8 (lexer_generator.of_productions [⟨str "(ab|ac)*", 7⟩]).productions = .ok n ∧
      dfa.ctor n.heap n._start = some d ∧ d.optimize = some d1 ∧
      (lexer_generator.of_productions [⟨str "(ab|ac)*", 7⟩]).generate char8 = .ok table ∧
      d1._nodes.length ≠ 3 ∧ table.states.length ≠ 3 :=
  ⟨_, _, _, _, rfl, rfl, rfl, rfl, by decide, by decide⟩

set_option maxRecDepth 100000 in
/-- C32 (scenario S5): for the single JSON-number production `generate()`
returns a table; run from `start()`, it ends in a terminal state on each of
`0`, `-0`, `123`, `1.5`, `1e10`, `-1.5e-3`, and it does not end in a terminal
state on any of `01`, `1.`, `.`, `1e`.  The production as the example program
writes it, with the dot not escaped, gives the same table. -/
theorem scenario_json_number :
    ∃ table : lexer Nat,
      (lexer_generator.of_productions [⟨json_number, 7⟩]).generate char8 = .ok table ∧
      (lexer_generator.of_productions [⟨json_number_example, 7⟩]).generate char8 = .ok table ∧
      lexer_accepts table (str "0") = true ∧
      lexer_accepts table (str "-0") = true ∧
      lexer_accepts table (str "123") = true ∧
      lexer_accepts table (str "1.5") = true ∧
      lexer_accepts table (str "1e10") = true ∧
      lexer_accepts table (str "-1.5e-3") = true ∧
      lexer_accepts table (str "01") = false ∧
      lexer_accepts table (str "1.") = false ∧
      lexer_accepts table (str ".") = false ∧
      lexer_accepts table (str "1e") = false :=
  ⟨json_number_table, rfl, rfl, by decide, by decide, by decide, by decide, by decide, by decide,
    by decide, by decide, by decide, by decide⟩
/-! ## Claims about the segments of quantifiers and concatenations -/

/-- C34 (quantifier segments have the right language): for every child AST
`c` and every arena, if the segment that `c->nfa()` builds recognises `L(c)`
between its begin and its end, then the segment that `operand::nfa()` builds
recognises exactly the words `u ++ v` with `u ∈ L(c)` and `v ∈ L(c)*` for
`plus`, exactly `L(c)*` for `star`, and exactly `L(c) ∪ {ε}` for `optional`. -/
theorem quantifier_segment_language {T : Type} [TokenInfo T] (child : regex_node)
    (h : List (nfa_node T))
    (hchild : ∀ w, nfa_path (regex_node.nfa child h).2 (regex_node.nfa child h).1.begin w
      (regex_node.nfa child h).1.end ↔ regex_lang child w) :
    (∀ w, nfa_path (regex_node.nfa (regex_node.operand child operator_type.plus) h).2
        (regex_node.nfa (regex_node.operand child operator_type.plus) h).1.begin w
        (regex_node.nfa (regex_node.operand child operator_type.plus) h).1.end ↔
      ∃ u v, w = u ++ v ∧ regex_lang child u ∧ star_lang (regex_lang child) v) ∧
    (∀ w, nfa_path (regex_node.nfa (regex_node.operand child operator_type.star) h).2
        (regex_node.nfa (regex_node.operand child operator_type.star) h).1.begin w
        (regex_node.nfa (regex_node.operand child operator_type.star) h).1.end ↔
      star_lang (regex_lang child) w) ∧
    (∀ w, nfa_path (regex_node.nfa (regex_node.operand child operator_type.optional) h).2
        (regex_node.nfa (regex_node.operand child operator_type.optional) h).1.begin w
        (regex_node.nfa (regex_node.operand child operator_type.optional) h).1.end ↔
      (w = [] ∨ regex_lang child w)) := by
  have hs := segment_sound_of_lang child h hchild
  refine ⟨?_, ?_, ?_⟩
  · intro w
    have := (operand_case child operator_type.plus h hs).1.lang w
    simpa only [regex_lang] using this
  · intro w
    have := (operand_case child operator_type.star h hs).1.lang w
    simpa only [regex_lang] using this
  · intro w
    have := (operand_case child operator_type.optional h hs).1.lang w
    simpa only [regex_lang] using this

/-- C34 at the child `{a}` on an empty arena: the segment of `a+` recognises
`aa`, the segment of `a*` recognises the empty word, and the segment of `a?`
recognises `a`. -/
theorem quantifier_segment_language_witness :
    nfa_path
      (regex_node.nfa (regex_node.operand letter_a operator_type.plus)
        ([] : List (nfa_node (basic_token_info Nat)))).2
      (regex_node.nfa (regex_node.operand letter_a operator_type.plus)
        ([] : List (nfa_node (basic_token_info Nat)))).1.begin [ch 'a', ch 'a']
      (regex_node.nfa (regex_node.operand letter_a operator_type.plus)
        ([] : List (nfa_node (basic_token_info Nat)))).1.end ∧
    nfa_path
      (regex_node.nfa (regex_node.operand letter_a operator_type.star)
        ([] : List (nfa_node (basic_token_info Nat)))).2
      (regex_node.nfa (regex_node.operand letter_a operator_type.star)
        ([] : List (nfa_node (basic_token_info Nat)))).1.begin []
      (regex_node.nfa (regex_node.operand letter_a operator_type.star)
        ([] : List (nfa_node (basic_token_info Nat)))).1.end ∧
    nfa_path
      (regex_node.nfa (regex_node.operand letter_a operator_type.optional)
        ([] : List (nfa_node (basic_token_info Nat)))).2
      (regex_node.nfa (regex_node.operand letter_a operator_type.optional)
        ([] : List (nfa_node (basic_token_info Nat)))).1.begin [ch 'a']
      (regex_node.nfa (regex_node.operand letter_a operator_type.optional)
        ([] : List (nfa_node (basic_token_info Nat)))).1.end :=
  have ha : regex_lang letter_a [ch 'a'] := by
    simp only [letter_a, regex_lang]
    exact ⟨ch 'a', rfl, by decide⟩
  have hth := quantifier_segment_language letter_a
    ([] : List (nfa_node (basic_token_info Nat)))
    (character_set_sound [discrete_interval.closed (ch 'a') (ch 'a')] []).1.lang
  ⟨(hth.1 _).2 ⟨[ch 'a'], [ch 'a'], rfl, ha,
      star_lang.app [ch 'a'] [] ha star_lang.nil⟩,
    (hth.2.1 _).2 star_lang.nil,
    (hth.2.2 _).2 (Or.inr ha)⟩

/-- C35, as the program behaves (concatenation by splicing): for every
`Concat(t1..tn)` of ASTs of any variants in which no concatenation, at any
depth, has a concatenation without terms as a term, the segment that
`concatenate::nfa()` builds on any arena recognises exactly the concatenation
`L(t1)·...·L(tn)`, and so does the segment that chains the segments of the
terms with epsilon edges. -/
theorem splice_is_concatenation {T : Type} [TokenInfo T] (ts : List regex_node)
    (hsp : regex_spliceable (regex_node.concatenate ts)) (h : List (nfa_node T))
    (w : List Int) :
    (nfa_path (regex_node.nfa (regex_node.concatenate ts) h).2
        (regex_node.nfa (regex_node.concatenate ts) h).1.begin w
        (regex_node.nfa (regex_node.concatenate ts) h).1.end ↔ regex_lang_concat ts w) ∧
    (nfa_path (concatenate_eps_nfa ts h).2 (concatenate_eps_nfa ts h).1.begin w
        (concatenate_eps_nfa ts h).1.end ↔ regex_lang_concat ts w) := by
  constructor
  · have := (thompson_spliceable (regex_node.concatenate ts) hsp h).1.lang w
    simpa only [regex_lang] using this
  · simp only [regex_spliceable] at hsp
    have hall : ∀ t ∈ ts, ∀ h : List (nfa_node T),
        segment_sound h (regex_node.nfa t h) (regex_lang t) :=
      fun t ht h => (thompson_spliceable t (((regex_spliceable_terms_iff ts).1 hsp) t ht).1 h).1
    exact (eps_nfa_sound ts hall h).lang w

/-- C35 at `Concat[a, Concat[b]]` on an empty arena: the spliced segment and the
segment chained with epsilon edges both recognise `ab`. -/
theorem splice_is_concatenation_witness :
    regex_spliceable (regex_node.concatenate a_then_b) ∧
    nfa_path
      (regex_node.nfa (regex_node.concatenate a_then_b)
        ([] : List (nfa_node (basic_token_info Nat)))).2
      (regex_node.nfa (regex_node.concatenate a_then_b)
        ([] : List (nfa_node (basic_token_info Nat)))).1.begin [ch 'a', ch 'b']
      (regex_node.nfa (regex_node.concatenate a_then_b)
        ([] : List (nfa_node (basic_token_info Nat)))).1.end ∧
    nfa_path
      (concatenate_eps_nfa a_then_b ([] : List (nfa_node (basic_token_info Nat)))).2
      (concatenate_eps_nfa a_then_b ([] : List (nfa_node (basic_token_info Nat)))).1.begin
      [ch 'a', ch 'b']
      (concatenate_eps_nfa a_then_b ([] : List (nfa_node (basic_token_info Nat)))).1.end :=
  have hsp : regex_spliceable (regex_node.concatenate a_then_b) := by
    simp [a_then_b, letter_a, letter_b, regex_spliceable, regex_spliceable_terms, empty_concat]
  have hl : regex_lang_concat a_then_b [ch 'a', ch 'b'] := by
    simp only [a_then_b, letter_a, letter_b, regex_lang_concat, regex_lang]
    exact ⟨[ch 'a'], [ch 'b'], rfl, ⟨ch 'a', rfl, by decide⟩,
      [ch 'b'], [], rfl, ⟨[ch 'b'], [], rfl, ⟨ch 'b', rfl, by decide⟩, rfl⟩, rfl⟩
  have hth := splice_is_concatenation a_then_b hsp
    ([] : List (nfa_node (basic_token_info Nat))) [ch 'a', ch 'b']
  ⟨hsp, hth.1.2 hl, hth.2.2 hl⟩

/-- C35 refuted for a concatenation without terms as a term: `a` belongs to
`L(Concat[]) · L(a)`, but the segment that `concatenate::nfa()` builds for
`Concat[Concat[], a]` does not recognise it, because the begin of the first
term has no transition to copy, while the segment chained with epsilon edges
does recognise it. -/
theorem splice_loses_empty_concat_term :
    regex_lang_concat empty_then_a [ch 'a'] ∧
    ¬ nfa_path
      (regex_node.nfa (regex_node.concatenate empty_then_a)
        ([] : List (nfa_node (basic_token_info Nat)))).2
      (regex_node.nfa (regex_node.concatenate empty_then_a)
        ([] : List (nfa_node (basic_token_info Nat)))).1.begin [ch 'a']
      (regex_node.nfa (regex_node.concatenate empty_then_a)
        ([] : List (nfa_node (basic_token_info Nat)))).1.end ∧
    nfa_path
      (concatenate_eps_nfa empty_then_a ([] : List (nfa_node (basic_token_info Nat)))).2
      (concatenate_eps_nfa empty_then_a ([] : List (nfa_node (basic_token_info Nat)))).1.begin
      [ch 'a']
      (concatenate_eps_nfa empty_then_a ([] : List (nfa_node (basic_token_info Nat)))).1.end := by
  have hl : regex_lang_concat empty_then_a [ch 'a'] := by
    simp only [empty_then_a, letter_a, regex_lang_concat, regex_lang]
    exact ⟨[], [ch 'a'], rfl, rfl, [ch 'a'], [], rfl, ⟨ch 'a', rfl, by decide⟩, rfl⟩
  refine ⟨hl, ?_, ?_⟩
  · intro hp
    have hfree : ∀ tr, tr ∉ (nfa_at
        (regex_node.nfa (regex_node.concatenate empty_then_a)
          ([] : List (nfa_node (basic_token_info Nat)))).2
        (regex_node.nfa (regex_node.concatenate empty_then_a)
          ([] : List (nfa_node (basic_token_info Nat)))).1.begin).transitions := by
      intro tr htr
      have h0 : (nfa_at
          (regex_node.nfa (regex_node.concatenate empty_then_a)
            ([] : List (nfa_node (basic_token_info Nat)))).2
          (regex_node.nfa (regex_node.concatenate empty_then_a)
            ([] : List (nfa_node (basic_token_info Nat)))).1.begin).transitions = [] := rfl
      rw [h0] at htr
      cases htr
    have := (path_stuck _ _ _ _ hfree hp).1
    cases this
  · have hall : ∀ t ∈ empty_then_a, ∀ h : List (nfa_node (basic_token_info Nat)),
        segment_sound h (regex_node.nfa t h) (regex_lang t) := by
      intro t ht h
      simp only [empty_then_a, List.mem_cons, List.mem_singleton, List.not_mem_nil,
        or_false] at ht
      rcases ht with rfl | rfl
      · exact (thompson_spliceable _ (by simp [regex_spliceable, regex_spliceable_terms]) h).1
      · exact (character_set_sound _ h).1
    exact ((eps_nfa_sound empty_then_a hall []).lang _).2 hl
/-! ## Claims about eclosure, the subset construction and the rounds of optimize -/

/-- C37 (eclosure computes the epsilon closure): on an arena whose transitions
lead to allocated nodes, `eclosure` called with an empty `dest` and any
collection `X` of nodes returns, also when epsilon transitions form a cycle;
`dest` then holds exactly the nodes reached from a node of `X` by zero or more
epsilon transitions; it includes `X`; every node of it outside `X` is the
target of an epsilon transition of a node of it, so no labelled transition is
followed; and `eclosure` of the result returns the same set. -/
theorem eclosure_is_epsilon_closure {T : Type} [TokenInfo T] (nfa : List (nfa_node T))
    (hwf : nfa_wf nfa) (X : List Nat) :
    ∃ dest, eclosure nfa [] X = some dest ∧
      (∀ y, y ∈ dest ↔ ∃ x ∈ X, eps_reach nfa x y) ∧
      (∀ x ∈ X, x ∈ dest) ∧
      (∀ y ∈ dest, y ∈ X ∨
        ∃ p ∈ dest, ∃ t ∈ (nfa_at nfa p).transitions, t.epsilon = true ∧ t.next = y) ∧
      ∃ again, eclosure nfa [] dest = some again ∧ ∀ y, y ∈ again ↔ y ∈ dest := by
  obtain ⟨dest, hd, _, hmem⟩ := eclosure_spec nfa hwf X
  obtain ⟨again, ha, _, hmem2⟩ := eclosure_spec nfa hwf dest
  have hreach : ∀ y, y ∈ dest ↔ ∃ x ∈ X, eps_reach nfa x y := by
    intro y
    rw [hmem]
    constructor
    · rintro ⟨x, hx, hp⟩
      exact ⟨x, hx, (eps_reach_iff_path nfa x y).2 hp⟩
    · rintro ⟨x, hx, hp⟩
      exact ⟨x, hx, (eps_reach_iff_path nfa x y).1 hp⟩
  refine ⟨dest, hd, hreach, ?_, ?_, again, ha, ?_⟩
  · intro x hx
    exact (hreach x).2 ⟨x, hx, eps_reach.refl x⟩
  · intro y hy
    obtain ⟨x, hx, hr⟩ := (hreach y).1 hy
    cases hr with
    | refl => exact Or.inl hx
    | tail q t hq ht he =>
      exact Or.inr ⟨q, (hreach q).2 ⟨x, hx, hq⟩, t, ht, he, rfl⟩
  · intro y
    rw [hmem2]
    constructor
    · rintro ⟨x, hx, hp⟩
      obtain ⟨x0, hx0, hp0⟩ := (hmem x).1 hx
      have := nfa_path_trans nfa x0 x y [] [] hp0 hp
      exact (hmem y).2 ⟨x0, hx0, by simpa using this⟩
    · intro hy
      exact ⟨y, hy, nfa_path.nil y⟩

/-- C37 on an arena with an epsilon cycle between the nodes 0 and 1 and a
labelled transition from 1 to 2: the closure of `{0}` is `{0, 1}`. -/
theorem eclosure_is_epsilon_closure_witness :
    eclosure eps_cycle [] [0] = some [0, 1] ∧
    ∃ dest, eclosure eps_cycle [] [0] = some dest ∧
      (∀ y, y ∈ dest ↔ ∃ x ∈ [0], eps_reach eps_cycle x y) ∧
      (∀ x ∈ [0], x ∈ dest) ∧
      (∀ y ∈ dest, y ∈ [0] ∨
        ∃ p ∈ dest, ∃ t ∈ (nfa_at eps_cycle p).transitions, t.epsilon = true ∧ t.next = y) ∧
      ∃ again, eclosure eps_cycle [] dest = some again ∧ ∀ y, y ∈ again ↔ y ∈ dest :=
  ⟨by decide, eclosure_is_epsilon_closure eps_cycle (by decide) [0]⟩

/-- C40 (the empty-move branch is never taken): in the subset construction from
a well-formed NFA, for every DFA state `D` that the constructor reaches and
every interval `I` that `make_disjoint` returns for the NFA nodes of `D`,
`move_s(D.nodes, I)` and its epsilon closure are not empty; and when the loop
of the constructor ends, the transitions recorded for `D` are one per interval
of the cover, in the order of the cover, each labelled with its interval. -/
theorem subset_construction_move_nonempty {T : Type} [TokenInfo T] (nfa : List (nfa_node T))
    (start : Nat) (hwf : nfa_wf nfa) (hstart : start < nfa.length) :
    ∃ initial_nodes st,
      eclosure nfa [] [start] = some initial_nodes ∧
      dfa_build_loop nfa (2 ^ nfa.length + 1) ⟨[⟨initial_nodes, []⟩], [0], [0]⟩ = some st ∧
      dfa.ctor nfa start =
        some { nfa := nfa, heap := aggregate st.heap st.result, _nodes := st.result,
               _initial := 0 } ∧
      ∀ D ∈ st.result,
        (∀ I ∈ make_disjoint [] ((dfa_at st.heap D).nodes.map (nfa_labels nfa)),
          move_s nfa [] (dfa_at st.heap D).nodes I ≠ [] ∧
          ∃ new_nodes,
            eclosure nfa [] (move_s nfa [] (dfa_at st.heap D).nodes I) = some new_nodes ∧
            new_nodes ≠ []) ∧
        (dfa_at st.heap D).transitions.map (fun t => t.characters) =
          (make_disjoint [] ((dfa_at st.heap D).nodes.map (nfa_labels nfa))).map
            (fun I => [I]) := by
  obtain ⟨init, hinit, _, _⟩ := eclosure_spec nfa hwf [start]
  have hinv0 := build_inv_initial nfa hwf start hstart init hinit
  have hfuel : (2 ^ nfa.length - (⟨[⟨init, []⟩], [0], [0]⟩ : build_state).heap.length) +
      (⟨[⟨init, []⟩], [0], [0]⟩ : build_state).unmarked.length < 2 ^ nfa.length + 1 := by
    have : 1 ≤ 2 ^ nfa.length := Nat.one_le_two_pow
    simp only [List.length_singleton]
    omega
  obtain ⟨st, hs, hinv, hu, _⟩ := build_loop_spec nfa hwf _ _ hinv0 hfuel
  refine ⟨init, st, hinit, hs, ?_, ?_⟩
  · unfold dfa.ctor
    simp only [hinit, hs]
  · intro D hD
    have hlt : D < st.heap.length := by
      rw [hinv.result_eq] at hD
      simpa using hD
    have hprog := hinv.done D hlt (by rw [hu]; simp) (by simp)
    refine ⟨?_, hprog.1⟩
    intro I hI
    obtain ⟨y, hy⟩ := letter_move_nonempty nfa hwf (dfa_at st.heap D).nodes I hI
    have hne : move_s nfa [] (dfa_at st.heap D).nodes I ≠ [] := by
      intro h0
      rw [h0] at hy
      cases hy
    exact ⟨hne, eclosure_nonempty nfa hwf _ hne⟩

set_option maxRecDepth 100000 in
/-- C40 at the NFA of the production `(ab?)?`: the NFA is well formed, and every
interval of the cover of every state has a non-empty move. -/
theorem subset_construction_move_nonempty_witness :
    ∃ n : nfa (basic_token_info Nat),
      nfa.ctor char8 [⟨⟨0, 7⟩, str "(ab?)?"⟩] = .ok n ∧
      nfa_wf n.heap ∧ n._start < n.heap.length ∧
      ∃ initial_nodes st,
        eclosure n.heap [] [n._start] = some initial_nodes ∧
        dfa_build_loop n.heap (2 ^ n.heap.length + 1) ⟨[⟨initial_nodes, []⟩], [0], [0]⟩ =
          some st ∧
        dfa.ctor n.heap n._start =
          some { nfa := n.heap, heap := aggregate st.heap st.result, _nodes := st.result,
                 _initial := 0 } ∧
        ∀ D ∈ st.result,
          (∀ I ∈ make_disjoint [] ((dfa_at st.heap D).nodes.map (nfa_labels n.heap)),
            move_s n.heap [] (dfa_at st.heap D).nodes I ≠ [] ∧
            ∃ new_nodes,
              eclosure n.heap [] (move_s n.heap [] (dfa_at st.heap D).nodes I) =
                some new_nodes ∧
              new_nodes ≠ []) ∧
          (dfa_at st.heap D).transitions.map (fun t => t.characters) =
            (make_disjoint [] ((dfa_at st.heap D).nodes.map (nfa_labels n.heap))).map
              (fun I => [I]) :=
  ⟨_, rfl, by decide, by decide, subset_construction_move_nonempty _ _ (by decide) (by decide)⟩
/-! ## Claims about the partition map and the first pass of optimize -/

/-- C38 (the partition map is total in `optimize()`): for the DFA that the
constructor builds from a well-formed NFA, every transition target is a state
of the DFA; at the start of every round after the first, every state is a key
of `Map`, the map built in the previous round; in every round the test of two
states answers, so no `Map.at` fails in `check_equivalence`, and the round
returns a `newMap` in which every state is a key; the loop returns the result
of such a round, every state has a non-empty block under the returned map, and
`optimize()` returns. -/
theorem optimize_map_total {T : Type} [TokenInfo T] [TokenInfoLaws T]
    (nfa : List (nfa_node T)) (start : Nat) (hwf : nfa_wf nfa) (hstart : start < nfa.length) :
    ∃ d, dfa.ctor nfa start = some d ∧
      (∀ p ∈ d._nodes, ∀ t ∈ (dfa_at d.heap p).transitions, t.next ∈ d._nodes) ∧
      (∀ initialPartition Gamma Map, optimize_round d initialPartition Gamma Map →
        (initialPartition = false → ∀ x ∈ d._nodes, ∃ i, map_at Map x = some i) ∧
        (∀ x ∈ d._nodes, ∀ y ∈ d._nodes,
          ∃ b, round_equiv d initialPartition Map x y = some b) ∧
        ∃ newGamma newMap,
          refine_round (round_equiv d initialPartition Map) Gamma ([], []) =
            some (newGamma, newMap) ∧
          ∀ x ∈ d._nodes, ∃ i, map_at newMap x = some i) ∧
      ∃ newGamma newMap d1,
        optimize_loop d.nfa d.heap (d._nodes.length + 2) true [d._nodes] [] =
          some (newGamma, newMap) ∧
        (∃ initialPartition Gamma Map, optimize_round d initialPartition Gamma Map ∧
          refine_round (round_equiv d initialPartition Map) Gamma ([], []) =
            some (newGamma, newMap) ∧
          newGamma.length = Gamma.length) ∧
        (∀ x ∈ d._nodes, ∃ B, class_of newGamma newMap x = some B ∧ B ≠ []) ∧
        d.optimize = some d1 := by
  obtain ⟨d, hctor, _, hdwf, _, _, _⟩ := ctor_built nfa hwf start hstart
  refine ⟨d, hctor, hdwf.targets, ?_, ?_⟩
  · intro ip Gamma Map hround
    obtain ⟨hne, hperm, hinv⟩ := optimize_round_inv d hdwf ip Gamma Map hround
    refine ⟨?_, ?_, ?_⟩
    · intro hip x hx
      exact (part_ok_mem_flatten Gamma Map (hinv hip) x).1 (hperm.mem_iff.2 hx)
    · exact (round_equiv_on d hdwf ip Gamma Map hperm hinv).total
    · obtain ⟨blocks, nm1, hr, hpo1, hperm1, _, _⟩ := round_step d hdwf ip Gamma Map hne hperm hinv
      exact ⟨blocks, nm1, hr,
        fun x hx => (part_ok_mem_flatten blocks nm1 hpo1 x).1 (hperm1.mem_iff.2 hx)⟩
  · obtain ⟨Gamma, Map, d1, hloop, hopt, _, hok, hperm, _, _⟩ := optimize_spec d hdwf
    refine ⟨Gamma, Map, d1, hloop,
      optimize_loop_round d _ true [d._nodes] [] Gamma Map optimize_round.first hloop, ?_, hopt⟩
    intro x hx
    obtain ⟨others, _, _, _, hc⟩ := rep_of_spec Gamma Map hok x (hperm.mem_iff.2 hx)
    exact ⟨_, hc, List.cons_ne_nil _ _⟩

set_option maxRecDepth 100000 in
/-- C38 at the productions `WS` and `ID`: the NFA is well formed, and no lookup
fails in any round of `optimize()`. -/
theorem optimize_map_total_witness :
    ∃ n : nfa (basic_token_info Nat),
      nfa.ctor char8 (lexer_generator.of_productions ws_id_productions).productions = .ok n ∧
      nfa_wf n.heap ∧ n._start < n.heap.length ∧
      ∃ d, dfa.ctor n.heap n._start = some d ∧
        (∀ p ∈ d._nodes, ∀ t ∈ (dfa_at d.heap p).transitions, t.next ∈ d._nodes) ∧
        (∀ initialPartition Gamma Map, optimize_round d initialPartition Gamma Map →
          (initialPartition = false → ∀ x ∈ d._nodes, ∃ i, map_at Map x = some i) ∧
          (∀ x ∈ d._nodes, ∀ y ∈ d._nodes,
            ∃ b, round_equiv d initialPartition Map x y = some b) ∧
          ∃ newGamma newMap,
            refine_round (round_equiv d initialPartition Map) Gamma ([], []) =
              some (newGamma, newMap) ∧
            ∀ x ∈ d._nodes, ∃ i, map_at newMap x = some i) ∧
        ∃ newGamma newMap d1,
          optimize_loop d.nfa d.heap (d._nodes.length + 2) true [d._nodes] [] =
            some (newGamma, newMap) ∧
          (∃ initialPartition Gamma Map, optimize_round d initialPartition Gamma Map ∧
            refine_round (round_equiv d initialPartition Map) Gamma ([], []) =
              some (newGamma, newMap) ∧
            newGamma.length = Gamma.length) ∧
          (∀ x ∈ d._nodes, ∃ B, class_of newGamma newMap x = some B ∧ B ≠ []) ∧
          d.optimize = some d1 :=
  ⟨_, rfl, by decide, by decide, optimize_map_total _ _ (by decide) (by decide)⟩

/-- C39 (one terminal class is merged in the first pass): if all states of the
DFA that the constructor builds have the same `terminal()` and equal
`get_terminal()` tokens, the first pass of `optimize()` returns one block, as
many as the initial `Gamma`, the loop stops with the result of this pass without
a call of `check_equivalence`, and `optimize()` leaves exactly one state, the
initial one, whatever the transitions of the DFA are. -/
theorem optimize_one_terminal_class {T : Type} [TokenInfo T] [TokenInfoLaws T]
    (nfa : List (nfa_node T)) (start : Nat) (d : dfa T) (hwf : nfa_wf nfa)
    (hstart : start < nfa.length) (hctor : dfa.ctor nfa start = some d)
    (hsame : ∀ p ∈ d._nodes, ∀ q ∈ d._nodes,
      (dfa_at d.heap p).terminal d.nfa = (dfa_at d.heap q).terminal d.nfa ∧
      TokenInfo.eq ((dfa_at d.heap p).get_terminal d.nfa)
        ((dfa_at d.heap q).get_terminal d.nfa) = true) :
    ∃ newGamma newMap d1,
      refine_round (fun pivot it => some (terminal_equiv d.nfa d.heap pivot it)) [d._nodes]
        ([], []) = some (newGamma, newMap) ∧
      newGamma.length = [d._nodes].length ∧
      optimize_loop d.nfa d.heap (d._nodes.length + 2) true [d._nodes] [] =
        some (newGamma, newMap) ∧
      d.optimize = some d1 ∧ d1._nodes = [d1._initial] := by
  obtain ⟨d0, hctor0, _, hdwf, hcov, _, _⟩ := ctor_built nfa hwf start hstart
  rw [hctor] at hctor0
  simp only [Option.some.injEq] at hctor0
  subst hctor0
  have hte : ∀ p ∈ d._nodes, ∀ q ∈ d._nodes, terminal_equiv d.nfa d.heap p q = true := by
    intro p hp q hq
    obtain ⟨h1, h2⟩ := hsame p hp q hq
    simp only [terminal_equiv, h1, h2, beq_self_eq_true, Bool.and_self]
  obtain ⟨blocks, nm1, hr, hlen⟩ := first_round_one_block d hdwf hte
  have hr1 : refine_round (fun pivot it => some (terminal_equiv d.nfa d.heap pivot it))
      [d._nodes] ([], []) = some (blocks, nm1) := hr
  have hloop : optimize_loop d.nfa d.heap (d._nodes.length + 2) true [d._nodes] [] =
      some (blocks, nm1) := by
    simp only [optimize_loop, if_true, hr1, List.length_singleton, hlen]
  obtain ⟨d1, hopt, hwf1, _, hsingle⟩ := optimize_distinct d hdwf hcov
  obtain ⟨_, _, d2, _, hopt2, hres, _, _, _, _⟩ := optimize_spec d hdwf
  rw [hopt] at hopt2
  simp only [Option.some.injEq] at hopt2
  subst hopt2
  refine ⟨blocks, nm1, d1, hr1, by simpa using hlen, hloop, hopt, ?_⟩
  have hsub : ∀ p ∈ d1._nodes, p ∈ d._nodes :=
    fun p hp => ((optimize_result_mem d d1 _ _ hres p).1 hp).1
  have hall := hsingle (by
    intro p hp q hq
    rw [hres.nfa_eq, terminal_equiv_congr d.nfa d.heap d1.heap hres.nodes_field]
    exact hte p (hsub p hp) q (hsub q hq))
  have hnd := hwf1.nodes_nodup
  have hinit := hwf1.initial_mem
  cases hn : d1._nodes with
  | nil => rw [hn] at hinit; cases hinit
  | cons a rest =>
    rw [hn] at hall hnd hinit
    have ha : a = d1._initial := hall a (List.mem_cons_self _ _) _ hinit
    cases rest with
    | nil => rw [ha]
    | cons b rest2 =>
      exfalso
      have hb : b = a := hall b (by simp) a (by simp)
      rw [hb] at hnd
      simp at hnd

set_option maxRecDepth 100000 in
/-- C39 at the DFA of the production `(ab?)?`, whose three states are all
terminal for the production: one state is left. -/
theorem optimize_one_terminal_class_witness :
    nfa.ctor char8 [⟨⟨0, 7⟩, str "(ab?)?"⟩] = .ok optional_ab_nfa ∧
    dfa.ctor optional_ab_nfa.heap optional_ab_nfa._start = some optional_ab_dfa ∧
    optional_ab_dfa._nodes.length = 3 ∧
    ∃ newGamma newMap d1,
      refine_round
        (fun pivot it => some (terminal_equiv optional_ab_dfa.nfa optional_ab_dfa.heap pivot it))
        [optional_ab_dfa._nodes] ([], []) = some (newGamma, newMap) ∧
      newGamma.length = [optional_ab_dfa._nodes].length ∧
      optimize_loop optional_ab_dfa.nfa optional_ab_dfa.heap (optional_ab_dfa._nodes.length + 2)
        true [optional_ab_dfa._nodes] [] = some (newGamma, newMap) ∧
      optional_ab_dfa.optimize = some d1 ∧ d1._nodes = [d1._initial] :=
  ⟨rfl, rfl, by decide,
    optimize_one_terminal_class optional_ab_nfa.heap optional_ab_nfa._start optional_ab_dfa
      (by decide) (by decide) rfl (by decide)⟩

end supercomplex
